import Mathlib

/-!
# The promise-chaining engine of `q`

A shallow embedding of `libs/q/include/q/promise/defer.hpp`,
`libs/q/include/q/promise/promise_impl.hpp` and `libs/q/src/queue.cpp`.

* A tuple `std::tuple< T... >` is a list of values of one universal element
  type `α`; `std::tuple< >` is `[]`.
* A `std::exception_ptr` is a value of `Exn U`, `U` being the type of the
  exceptions thrown by user code.
* Every promise state lives in a store indexed by natural numbers; a
  `defer`, the `promise` it hands out and the `state` captured by a closure
  are all the index of that state.
* The closures the library pushes onto a queue are data (`task`), and so are
  the callables they capture: a user callable carries a label and a pure
  function, and every invocation of it is appended to `World.calls`.
* A member function that returns `void` and may throw returns the new world
  together with `none` (normal return) or `some e` (threw `e`); the effects
  performed before a throw stay in the world.
-/

namespace q

/-- Exception handles. `user u` is an exception thrown by user code,
`promise_already_resolved` is the error of a second write to a
`std::promise`, `broken_promise cause` is `broken_promise_exception( cause )`,
`queue_exception` is thrown by `queue::pop` on an empty queue,
`combined_promise_exception c` is the exception of `all( list )`, whose
`expects` are the `expect_returns` of the shared variables `c`, and
`out_of_range` is thrown by `std::vector::at`. -/
inductive Exn (U : Type) where
  | user (u : U)
  | promise_already_resolved
  | broken_promise (cause : Exn U)
  | queue_exception
  | combined_promise_exception (c : Nat)
  | out_of_range
  deriving DecidableEq

/-- Modelled from the spec: the value cell `expect< T >` (its header is not
part of the sources), the sum of `Value(T)` and `Exception(E)`. The accessors
`has_exception`, `exception` and `consume` of the source are the pattern
match on the two constructors. -/
inductive expect (α U : Type) where
  | value (t : List α)
  | exception (e : Exn U)
  deriving DecidableEq

/-- Modelled from the spec: `expect::has_exception`. -/
def expect.has_exception {α U : Type} : expect α U → Bool
  | .value _ => false
  | .exception _ => true

/-- Modelled from the spec: `fulfill< T >( value )` builds the value side. -/
def fulfill {α U : Type} (t : List α) : expect α U := .value t

/-- Modelled from the spec: `refuse< T >( e )` builds the exception side. -/
def refuse {α U : Type} (e : Exn U) : expect α U := .exception e

/-- How a callable binds the upstream tuple: `fn( args... )` or
`fn( std::tuple< args... > )`. -/
inductive Binding where
  | positional
  | aggregate
  deriving DecidableEq

/-- What a promise-returning user function returns: the promise of a state
that exists already, or a promise made on the spot in the given state
(`some x` for an immediately resolved one such as `with( ... )`, `none` for
the promise of a new unresolved `defer`). -/
inductive promise_src (α U : Type) where
  | existing (state : Nat)
  | fresh (x : Option (expect α U))

/-- A recorded invocation of a user callable: its label and its argument
(the tuple for a `then` function, the exception for a `fail` function). -/
structure Call (α U : Type) where
  label : Nat
  arg : expect α U
  deriving DecidableEq

/-- Callables with a non-promise result given to `then`: a user function
returning `void`, a user function returning a plain value, the closure
`[ _this ]( tuple_type&& tuple ) { _this->set_value( std::move( tuple ) ); }`
of `defer::satisfy`, the `completer` of the variadic `all` of `all.hpp`,
`[ data_tmp ]( rest_tuple_type&& rest_data ) { return std::tuple_cat( ... ); }`,
and the closure `[ i, part_completion ]( element_type&& data )` of
`all( list )`, `c` being its shared variables. -/
inductive value_fn (α U : Type) where
  | user_void (label : Nat) (b : Binding) (f : List α → Except (Exn U) Unit)
  | user_value (label : Nat) (b : Binding) (f : List α → Except (Exn U) α)
  | satisfy_then (this : Nat)
  | all_completer (data : List α)
  | all_then (i : Nat) (c : Nat)

/-- Callables returning a promise given to `then`: a user function, and the
continuation `[ when_rest_tmp ]( first_tuple_type&& data )` of the variadic
`all` of `all.hpp`. -/
inductive promise_fn (α U : Type) where
  | user (label : Nat) (b : Binding)
      (f : List α → Except (Exn U) (promise_src α U))
  | all_cont (when_rest : Nat)

/-- Callables `void( std::exception_ptr )` given to `fail`: a user handler,
the closure
`[ _this ]( std::exception_ptr&& e ) { _this->set_exception( std::move( e ) ); }`
of `defer::satisfy`, the `failer` of the variadic `all`,
`[ ]( std::exception_ptr&& e ) { std::rethrow_exception( e ); }`, and the
closure `[ i, part_completion, any_failure ]( std::exception_ptr&& e )` of
`all( list )`. -/
inductive fail_void_fn (U : Type) where
  | user (label : Nat) (f : Exn U → Except (Exn U) Unit)
  | satisfy_fail (this : Nat)
  | all_failer
  | all_fail (i : Nat) (c : Nat)

/-- Callables `void( const X& )` given to the `fail` that matches a typed
exception: `catches e` says whether `catch ( const X& )` catches `e`, that
is whether the type of `e` is `X` or derived from `X`. -/
inductive fail_typed_fn (U : Type) where
  | user (label : Nat) (catches : Exn U → Bool) (f : Exn U → Except (Exn U) Unit)

/-- Callables `void( )` given to `finally`. -/
inductive finally_fn (U : Type) where
  | user (label : Nat) (f : Unit → Except (Exn U) Unit)

/-- What a call of a `value_fn` returns: nothing, a plain value, or a
`std::tuple`. -/
inductive fn_result (α : Type) where
  | void
  | value (r : α)
  | tuple (t : List α)

/-- Callables `promise( std::exception_ptr )` given to `fail`. -/
inductive fail_promise_fn (α U : Type) where
  | user (label : Nat) (f : Exn U → Except (Exn U) (promise_src α U))

/-- The `perform` closures of `promise_impl.hpp`, with their captures
`[ deferred, tmp_fn, state ]`, and the `runner` closure of the typed `fail`
of `promise.hpp`, with its captures `[ tmp_fn, eptr ]`. -/
inductive task (α U : Type) where
  | then_value (deferred : Nat) (fn : value_fn α U) (state : Nat)
  | then_promise (deferred : Nat) (fn : promise_fn α U) (state : Nat)
  | fail_void (deferred : Nat) (fn : fail_void_fn U) (state : Nat)
  | fail_promise (deferred : Nat) (fn : fail_promise_fn α U) (state : Nat)
  | finally_ (deferred : Nat) (fn : finally_fn U) (state : Nat)
  | fail_typed (fn : fail_typed_fn U) (eptr : Option (Exn U))

/-- The `queue::pimpl` of `queue.cpp`: the priority, the consumer callback
(`none` for an empty `std::function`, otherwise the number that identifies
the callback) and the FIFO of tasks. -/
structure queue (T : Type) where
  priority_ : Nat
  notify_ : Option Nat
  queue_ : List T

/-- The `queue::push` of `queue.cpp`: appends the task, and returns with the
new queue the call of the consumer, `( callback, size after the push )`,
when a consumer is set. -/
def queue.push {T : Type} (self : queue T) (t : T) : queue T × Option (Nat × Nat) :=
  let self1 := { self with queue_ := self.queue_ ++ [t] }
  (self1, self.notify_.map (fun notifyer => (notifyer, self1.queue_.length)))

/-- The `queue::pop` of `queue.cpp`: throws `queue_exception` on an empty
queue, otherwise removes and returns the front task. -/
def queue.pop {T U : Type} (self : queue T) : Except (Exn U) (T × queue T) :=
  match self.queue_ with
  | [] => .error .queue_exception
  | t :: rest => .ok (t, { self with queue_ := rest })

/-- Modelled from the spec: the promise state shared by a `defer` and its
`promise` (`promise_state`, `promise_signal` and the `std::promise` of the
`defer` are not part of the sources). `slot` is `none` while pending and
`some x` once ready; `waiters` are the continuations attached while pending,
each with its target queue. The flags of the unique and shared flavours are
left out: every state here is read by the continuations attached to it. -/
structure promise_state (α U : Type) where
  slot : Option (expect α U)
  waiters : List (task α U × Nat)

/-- The variables shared, through `std::shared_ptr`, by the closures of one
call of `all( list )` in `all.hpp`: the vector `expect_returns` (a slot is
`none` until `part_completion` writes it), the atomic `counter` (a
`std::size_t`), the atomic flag `any_failure` and the `deferred` of the
result. `make_vector` says how a `std::vector` of elements is represented as
a value of `α`. -/
structure combine (α U : Type) where
  expect_returns : List (Option (expect α U))
  counter : Nat
  any_failure : Bool
  deferred : Nat
  make_vector : List α → α

/-- The whole program state: the store of promise states and the next free
index, the queues, the globals `main_queue_`, `background_queue_` and
`default_queue_` of `queue.cpp`, the invocations of user callables, the calls of queue consumers, the
exceptions that left a task run by a worker, and the store of the shared
variables of `all( list )` with its next free index. -/
structure World (α U : Type) where
  states : Nat → promise_state α U
  next : Nat
  queues : Nat → queue (task α U)
  main_queue_ : Nat
  background_queue_ : Nat
  default_queue_ : Nat
  calls : List (Call α U)
  notified : List (Nat × Nat)
  escaped : List (Exn U)
  combines : Nat → Option (combine α U)
  next_combine : Nat

variable {α U : Type}

/-- A state as `defer::construct` makes it: pending, nothing attached. -/
def promise_state.init : promise_state α U := { slot := none, waiters := [] }

/-- The world at program start: no promise, empty queues without consumer,
queue `0` in the three global queue slots. -/
def World.init : World α U :=
  { states := fun _ => promise_state.init
    next := 0
    queues := fun _ => { priority_ := 0, notify_ := none, queue_ := [] }
    main_queue_ := 0
    background_queue_ := 0
    default_queue_ := 0
    calls := []
    notified := []
    escaped := []
    combines := fun _ => none
    next_combine := 0 }

/-- The `main_queue( )` of `queue.cpp`. -/
def main_queue (w : World α U) : Nat := w.main_queue_

/-- The `background_queue( )` of `queue.cpp`. -/
def background_queue (w : World α U) : Nat := w.background_queue_

/-- The `default_queue( )` of `queue.cpp`. -/
def default_queue (w : World α U) : Nat := w.default_queue_

/-- The `set_main_queue( queue )` of `queue.cpp`:
`old = main_queue_; main_queue_ = queue; return old;`. -/
def set_main_queue (w : World α U) (queue : Nat) : Nat × World α U :=
  (w.main_queue_, { w with main_queue_ := queue })

/-- The `set_background_queue( queue )` of `queue.cpp`. -/
def set_background_queue (w : World α U) (queue : Nat) : Nat × World α U :=
  (w.background_queue_, { w with background_queue_ := queue })

/-- The `set_default_queue( queue )` of `queue.cpp`. -/
def set_default_queue (w : World α U) (queue : Nat) : Nat × World α U :=
  (w.default_queue_, { w with default_queue_ := queue })

/-- Replaces one promise state of the store. -/
def World.set_state (w : World α U) (state : Nat) (s : promise_state α U) : World α U :=
  { w with states := Function.update w.states state s }

/-- Pushes a task onto the queue `qu` with `queue::push`; a consumer call is
recorded in `notified`. -/
def World.push_task (w : World α U) (qu : Nat) (t : task α U) : World α U :=
  let r := (w.queues qu).push t
  { w with
    queues := Function.update w.queues qu r.1
    notified := w.notified ++ r.2.toList }

/-- Modelled from the spec: scheduling the waiters that were moved out of a
state, each onto its target queue, in the order they were attached. -/
def World.schedule (w : World α U) : List (task α U × Nat) → World α U
  | [] => w
  | (t, qu) :: rest => World.schedule (w.push_task qu t) rest

/-- Modelled from the spec: `signal( )->push( task, queue )`, attach a
waiter. While the slot is ready the waiter is scheduled at once onto its
queue, while it is pending the waiter is appended to `waiters`. -/
def promise_signal.push (w : World α U) (state : Nat) (t : task α U) (qu : Nat) :
    World α U :=
  match (w.states state).slot with
  | some _ => w.push_task qu t
  | none =>
    w.set_state state
      { w.states state with waiters := (w.states state).waiters ++ [(t, qu)] }

/-- Modelled from the spec: `signal_->done( )`, the second half of a
resolution: the waiters are moved out of the state and scheduled. -/
def promise_signal.done (w : World α U) (state : Nat) : World α U :=
  World.schedule
    (w.set_state state { w.states state with waiters := [] })
    (w.states state).waiters

/-- Modelled from the spec: `promise_.set_value( expect )` on the
`std::promise` of a `defer`, the first half of a resolution. The slot goes
from pending to ready once; a second write throws. -/
def std_promise.set_value (w : World α U) (state : Nat) (x : expect α U) :
    Except (Exn U) (World α U) :=
  match (w.states state).slot with
  | some _ => .error .promise_already_resolved
  | none => .ok (w.set_state state { w.states state with slot := some x })

/-- Modelled from the spec: `state->consume( )`, the snapshot of the value
cell read by a scheduled continuation (`none` if the state is pending). -/
def promise_state.consume (w : World α U) (state : Nat) : Option (expect α U) :=
  (w.states state).slot

namespace defer

/-- The `defer::construct` of `defer.hpp`: a new pending state; the `defer`
and its promise are the index of that state. -/
def construct (w : World α U) : Nat × World α U :=
  (w.next, { w.set_state w.next promise_state.init with next := w.next + 1 })

/-- The `defer::get_promise` of `defer.hpp`: the promise of the `defer`. -/
def get_promise (deferred : Nat) : Nat := deferred

/-- The `defer::set_value( tuple )` of `defer.hpp`:
`promise_.set_value( fulfill( tuple ) ); signal_->done( );`. -/
def set_value (w : World α U) (d : Nat) (tuple : List α) : World α U × Option (Exn U) :=
  match std_promise.set_value w d (fulfill tuple) with
  | .error e => (w, some e)
  | .ok w1 => (promise_signal.done w1 d, none)

/-- The `defer::set_exception` of `defer.hpp`:
`promise_.set_value( refuse( e ) ); signal_->done( );`. -/
def set_exception (w : World α U) (d : Nat) (e : Exn U) : World α U × Option (Exn U) :=
  match std_promise.set_value w d (refuse e) with
  | .error e1 => (w, some e1)
  | .ok w1 => (promise_signal.done w1 d, none)

/-- The `defer::set_expect` of `defer.hpp`. -/
def set_expect (w : World α U) (d : Nat) (exp : expect α U) : World α U × Option (Exn U) :=
  match exp with
  | .exception e => set_exception w d e
  | .value t => set_value w d t

end defer

/-- The `call_with_args` of `functional.hpp`: `fn( args... )`. -/
def call_with_args {A R : Type} (fn : A → R) (args : A) : R := fn args

/-- The `call_with_args_by_tuple` of `functional.hpp`: unpacks the tuple
into the arguments of `call_with_args`. -/
def call_with_args_by_tuple {A R : Type} (fn : A → R) (tuple : A) : R :=
  call_with_args fn tuple

/-- Applies a user function to the upstream tuple the way its binding asks:
a positional function through `call_with_args_by_tuple`, an aggregate one
through `call_with_args`. -/
def Binding.call {A R : Type} (b : Binding) (fn : A → R) (tuple : A) : R :=
  match b with
  | .positional => call_with_args_by_tuple fn tuple
  | .aggregate => call_with_args fn tuple

/-- Records the invocation of a user callable. -/
def World.record (w : World α U) (label : Nat) (arg : expect α U) : World α U :=
  { w with calls := w.calls ++ [{ label := label, arg := arg }] }

/-- The element a slot of `expect_returns` gives to the result vector: a
slot holds the expect of the one-element tuple of its input, and
`data.consume( )` is that element; a slot without a value gives none. -/
def slot_consume : Option (expect α U) → List α
  | some (.value t) => t
  | _ => []

/-- The elements of all the slots, in order. -/
def consume_all : List (Option (expect α U)) → List α
  | [] => []
  | o :: rest => slot_consume o ++ consume_all rest

/-- The `resolver` closure of `all( list )` in `all.hpp`: with a failure the
result is refused with `combined_promise_exception`, otherwise it is set to
the vector of the consumed slots. -/
def resolver (w : World α U) (c : Nat) : World α U × Option (Exn U) :=
  match w.combines c with
  | none => (w, none)
  | some r =>
    if r.any_failure then
      defer.set_exception w r.deferred (.combined_promise_exception c)
    else
      defer.set_value w r.deferred [r.make_vector (consume_all r.expect_returns)]

/-- The `part_completion` closure of `all( list )` in `all.hpp`:
`expect_returns->at( index ) = data`, then `counter->fetch_sub( 1 )` on the
`std::size_t` counter, and the `resolver` when the previous count was `1`. -/
def part_completion (w : World α U) (c : Nat) (index : Nat) (data : expect α U) :
    World α U × Option (Exn U) :=
  match w.combines c with
  | none => (w, none)
  | some r =>
    if index < r.expect_returns.length then
      let r1 : combine α U :=
        { r with
          expect_returns := r.expect_returns.set index (some data)
          counter := (r.counter + (2 ^ 64 - 1)) % 2 ^ 64 }
      let w1 := { w with combines := Function.update w.combines c (some r1) }
      if r.counter = 1 then resolver w1 c else (w1, none)
    else (w, some .out_of_range)

/-- Invokes a `value_fn` on a tuple. The result is `.error e` if it threw,
otherwise what it returned. -/
def value_fn.invoke (w : World α U) (fn : value_fn α U) (tuple : List α) :
    World α U × Except (Exn U) (fn_result α) :=
  match fn with
  | .user_void label b f =>
    (w.record label (.value tuple), (b.call f tuple).map (fun _ => .void))
  | .user_value label b f =>
    (w.record label (.value tuple), (b.call f tuple).map .value)
  | .satisfy_then this =>
    match defer.set_value w this tuple with
    | (w1, some e) => (w1, .error e)
    | (w1, none) => (w1, .ok .void)
  | .all_completer data => (w, .ok (.tuple (data ++ tuple)))
  | .all_then i c =>
    match part_completion w c i (fulfill tuple) with
    | (w1, some e) => (w1, .error e)
    | (w1, none) => (w1, .ok .void)

/-- Invokes a `fail_void_fn` on an exception: `none` if it returned,
`some e2` if it threw `e2`. -/
def fail_void_fn.invoke (w : World α U) (fn : fail_void_fn U) (e : Exn U) :
    World α U × Option (Exn U) :=
  match fn with
  | .user label f =>
    (w.record label (.exception e),
      match call_with_args f e with
      | .ok _ => none
      | .error e2 => some e2)
  | .satisfy_fail this => defer.set_exception w this e
  | .all_failer => (w, some e)
  | .all_fail i c =>
    match w.combines c with
    | none => (w, none)
    | some r =>
      part_completion
        { w with combines := Function.update w.combines c (some { r with any_failure := true }) }
        c i (refuse e)

/-- Invokes a `finally_fn`: `none` if it returned, `some e2` if it threw
`e2`. -/
def finally_fn.invoke (w : World α U) (fn : finally_fn U) : World α U × Option (Exn U) :=
  match fn with
  | .user label f =>
    (w.record label (.value []),
      match f () with
      | .ok _ => none
      | .error e2 => some e2)

/-- Makes the promise a user function returned: the index of the existing
state, or a new state in the state asked for. -/
def promise_src.get (w : World α U) : promise_src α U → Nat × World α U
  | .existing state => (state, w)
  | .fresh x =>
    (w.next,
      { w.set_state w.next { slot := x, waiters := [] } with next := w.next + 1 })

/-- Invokes a `fail_promise_fn` on an exception. -/
def fail_promise_fn.invoke (w : World α U) (fn : fail_promise_fn α U) (e : Exn U) :
    World α U × Except (Exn U) Nat :=
  match fn with
  | .user label f =>
    match call_with_args f e with
    | .error e2 => (w.record label (.exception e), .error e2)
    | .ok src =>
      let r := src.get (w.record label (.exception e))
      (r.2, .ok r.1)

namespace generic_promise

/-- The `then` of `promise_impl.hpp` for a function with a non-promise
result (both the `( ... ) -> value` and the `( std::tuple< ... > ) -> value`
overload; the binding is carried by `fn`): makes the successor `defer`,
attaches the `perform` closure to the state and returns the successor
promise. -/
def then_value (w : World α U) (state_ : Nat) (fn : value_fn α U) (qu : Nat) :
    Nat × World α U :=
  let c := defer.construct w
  let perform := task.then_value c.1 fn state_
  (defer.get_promise c.1, promise_signal.push c.2 state_ perform qu)

/-- The `then` of `promise_impl.hpp` for a function returning a promise
(both the `( ... ) -> promise< value >` and the
`( std::tuple< ... > ) -> promise< value >` overload). -/
def then_promise (w : World α U) (state_ : Nat) (fn : promise_fn α U) (qu : Nat) :
    Nat × World α U :=
  let c := defer.construct w
  let perform := task.then_promise c.1 fn state_
  (defer.get_promise c.1, promise_signal.push c.2 state_ perform qu)

/-- The `fail` of `promise_impl.hpp` for a `void( std::exception_ptr )`
function. -/
def fail_void (w : World α U) (state_ : Nat) (fn : fail_void_fn U) (qu : Nat) :
    Nat × World α U :=
  let c := defer.construct w
  let perform := task.fail_void c.1 fn state_
  (defer.get_promise c.1, promise_signal.push c.2 state_ perform qu)

/-- The `fail` of `promise_impl.hpp` for a `promise( std::exception_ptr )`
function. -/
def fail_promise (w : World α U) (state_ : Nat) (fn : fail_promise_fn α U) (qu : Nat) :
    Nat × World α U :=
  let c := defer.construct w
  let perform := task.fail_promise c.1 fn state_
  (defer.get_promise c.1, promise_signal.push c.2 state_ perform qu)

/-- The `finally` of `promise_impl.hpp`: makes the successor `defer`,
attaches the `perform` closure and returns the successor promise. -/
def finally_ (w : World α U) (state_ : Nat) (fn : finally_fn U) (qu : Nat) :
    Nat × World α U :=
  let c := defer.construct w
  let perform := task.finally_ c.1 fn state_
  (defer.get_promise c.1, promise_signal.push c.2 state_ perform qu)

/-- The `fail` of `promise.hpp` that matches a typed exception. The `runner`
closure captures `fn` and the local `eptr`, which is default-constructed
(`std::exception_ptr eptr; // = get from somewhere`) and so holds no
exception; no successor `defer` is made and nothing is returned. -/
def fail_typed (w : World α U) (state_ : Nat) (fn : fail_typed_fn U) (qu : Nat) :
    World α U :=
  let eptr : Option (Exn U) := none
  let runner := task.fail_typed fn eptr
  promise_signal.push w state_ runner qu

end generic_promise

/-- Invokes a `promise_fn` on a tuple. The continuation of the variadic `all`
returns `rest_promise.fail( failer ).then( completer )`, both attached on the
default queue. -/
def promise_fn.invoke (w : World α U) (fn : promise_fn α U) (tuple : List α) :
    World α U × Except (Exn U) Nat :=
  match fn with
  | .user label b f =>
    match b.call f tuple with
    | .error e => (w.record label (.value tuple), .error e)
    | .ok src =>
      let r := src.get (w.record label (.value tuple))
      (r.2, .ok r.1)
  | .all_cont when_rest =>
    let r1 := generic_promise.fail_void w when_rest .all_failer (default_queue w)
    let r2 := generic_promise.then_value r1.2 r1.1 (.all_completer tuple) (default_queue r1.2)
    (r2.2, .ok r2.1)

namespace defer

/-- The `defer::satisfy( promise )` of `defer.hpp`:
`promise.fail( [ _this ]( e ) { _this->set_exception( e ); } )
.then( [ _this ]( tuple ) { _this->set_value( tuple ); } );`, both on the
default queue. -/
def satisfy (w : World α U) (this : Nat) (promise : Nat) : World α U :=
  let r1 := generic_promise.fail_void w promise (.satisfy_fail this) (default_queue w)
  let r2 := generic_promise.then_value r1.2 r1.1 (.satisfy_then this) (default_queue r1.2)
  r2.2

/-- The `defer::set_by_fun` of `defer.hpp` (its four overloads): calls `fn`
inside `try`; a `void` result sets the empty tuple, a result `r` sets the
tuple of `r`; whatever is thrown inside the `try`, by `fn` or by
`set_value`, goes to `set_exception` in the `catch ( ... )`. -/
def set_by_fun (w : World α U) (d : Nat) (fn : value_fn α U) (args : List α) :
    World α U × Option (Exn U) :=
  match fn.invoke w args with
  | (w1, .error e) => set_exception w1 d e
  | (w1, .ok .void) =>
    match set_value w1 d [] with
    | (w2, some e) => set_exception w2 d e
    | (w2, none) => (w2, none)
  | (w1, .ok (.value r)) =>
    match set_value w1 d [r] with
    | (w2, some e) => set_exception w2 d e
    | (w2, none) => (w2, none)
  | (w1, .ok (.tuple t)) =>
    match set_value w1 d t with
    | (w2, some e) => set_exception w2 d e
    | (w2, none) => (w2, none)

/-- The `defer::satisfy_by_fun` of `defer.hpp` for a function of the
upstream tuple: `satisfy( fn( args ) )` inside `try`; what is thrown is
wrapped in `broken_promise_exception` and set as the exception. -/
def satisfy_by_fun (w : World α U) (d : Nat) (fn : promise_fn α U) (args : List α) :
    World α U × Option (Exn U) :=
  match fn.invoke w args with
  | (w1, .error e) => set_exception w1 d (.broken_promise e)
  | (w1, .ok promise) => (satisfy w1 d promise, none)

/-- The `defer::satisfy_by_fun` of `defer.hpp` as `fail` calls it, with the
exception as the one argument. -/
def satisfy_by_fun_exception (w : World α U) (d : Nat) (fn : fail_promise_fn α U)
    (e : Exn U) : World α U × Option (Exn U) :=
  match fn.invoke w e with
  | (w1, .error e2) => set_exception w1 d (.broken_promise e2)
  | (w1, .ok promise) => (satisfy w1 d promise, none)

end defer

/-- Runs a `perform` closure of `promise_impl.hpp`, or the `runner` closure
of the typed `fail` of `promise.hpp`. `none` is returned when the closure ran
to its end, `some e` when `e` left it. A closure whose state is still pending
has nothing to consume, and does nothing. When the `void` handler of a
`fail` returns normally the closure ends without `set_value` or
`set_exception` on the successor (the `TODO` of the source); the `defer` it
held is destroyed unset then, which calls no `signal_->done( )`, and the
model leaves the state as it is. The `runner` rethrows `eptr`: if the
handler catches it the handler is called, otherwise it leaves the closure;
rethrowing an `eptr` that holds no exception has no defined behaviour, and
the model does nothing then. -/
def task.perform (w : World α U) : task α U → World α U × Option (Exn U)
  | .then_value deferred fn state =>
    match promise_state.consume w state with
    | none => (w, none)
    | some (.exception e) => defer.set_exception w deferred e
    | some (.value t) => defer.set_by_fun w deferred fn t
  | .then_promise deferred fn state =>
    match promise_state.consume w state with
    | none => (w, none)
    | some (.exception e) => defer.set_exception w deferred e
    | some (.value t) => defer.satisfy_by_fun w deferred fn t
  | .fail_void deferred fn state =>
    match promise_state.consume w state with
    | none => (w, none)
    | some (.exception e) =>
      match fn.invoke w e with
      | (w1, some e2) => defer.set_exception w1 deferred e2
      | (w1, none) => (w1, none)
    | some (.value t) => defer.set_value w deferred t
  | .fail_promise deferred fn state =>
    match promise_state.consume w state with
    | none => (w, none)
    | some (.exception e) => defer.satisfy_by_fun_exception w deferred fn e
    | some (.value t) => defer.set_value w deferred t
  | .finally_ deferred fn state =>
    match fn.invoke w with
    | (w1, some e2) => (w1, some e2)
    | (w1, none) =>
      match promise_state.consume w1 state with
      | none => (w1, none)
      | some value => defer.set_expect w1 deferred value
  | .fail_typed fn eptr =>
    match eptr with
    | none => (w, none)
    | some e =>
      match fn with
      | .user label catches f =>
        if catches e then
          (w.record label (.exception e),
            match f e with
            | .ok _ => none
            | .error e2 => some e2)
        else (w, some e)

/-- Modelled from the spec: the factory `with( values... )`, an immediately
resolved promise: a new `defer`, `set_value`, `get_promise`. -/
def with_ (w : World α U) (values : List α) : Nat × World α U :=
  let c := defer.construct w
  (defer.get_promise c.1, (defer.set_value c.2 c.1 values).1)

/-- Modelled from the spec: an immediately failed promise: a new `defer`,
`set_exception`, `get_promise`. -/
def failed (w : World α U) (e : Exn U) : Nat × World α U :=
  let c := defer.construct w
  (defer.get_promise c.1, (defer.set_exception c.2 c.1 e).1)

/-- Modelled from the spec: one turn of a worker on the queue `qu`: pop one
task and run it. On an empty queue `pop` throws and nothing is run; an
exception that leaves the task is recorded in `escaped`. -/
def run_one (qu : Nat) (w : World α U) : World α U :=
  match ((w.queues qu).pop : Except (Exn U) (task α U × queue (task α U))) with
  | .error _ => w
  | .ok (t, rest) =>
    let r := task.perform { w with queues := Function.update w.queues qu rest } t
    { r.1 with escaped := r.1.escaped ++ r.2.toList }

/-- Modelled from the spec: `n` turns of a worker on the queue `qu`. -/
def drain (qu : Nat) : Nat → World α U → World α U
  | 0, w => w
  | n + 1, w => drain qu n (run_one qu w)

/-- A call of `set_value` or `set_exception` on a `defer`. -/
inductive set_call (α U : Type) where
  | set_value (tuple : List α)
  | set_exception (e : Exn U)

/-- The outcome a call asks for. -/
def set_call.outcome : set_call α U → expect α U
  | .set_value tuple => fulfill tuple
  | .set_exception e => refuse e

/-- Makes one call on the `defer` `d`. -/
def set_call.apply (w : World α U) (d : Nat) : set_call α U → World α U × Option (Exn U)
  | .set_value tuple => defer.set_value w d tuple
  | .set_exception e => defer.set_exception w d e

/-- Makes a sequence of calls on the `defer` `d`, one after the other;
returns the last world and what each call threw (`none`: it succeeded). -/
def set_calls (w : World α U) (d : Nat) : List (set_call α U) → World α U × List (Option (Exn U))
  | [] => (w, [])
  | c :: rest =>
    let r := c.apply w d
    let rs := set_calls r.1 d rest
    (rs.1, r.2 :: rs.2)

/-- A link of a chain: a `then` with a plain function, a `then` with a
promise-returning function, a catch-all `fail` with a `void` function or a
catch-all `fail` with a promise-returning function. -/
inductive link (α U : Type) where
  | then_value (fn : value_fn α U)
  | then_promise (fn : promise_fn α U)
  | fail_void (fn : fail_void_fn U)
  | fail_promise (fn : fail_promise_fn α U)

/-- The `perform` closure a link attaches. -/
def link.task (l : link α U) (deferred state : Nat) : task α U :=
  match l with
  | .then_value fn => .then_value deferred fn state
  | .then_promise fn => .then_promise deferred fn state
  | .fail_void fn => .fail_void deferred fn state
  | .fail_promise fn => .fail_promise deferred fn state

/-- Attaches a link to a promise: `promise.then( fn, queue )` or
`promise.fail( fn, queue )`. -/
def link.attach (w : World α U) (state_ : Nat) (l : link α U) (qu : Nat) : Nat × World α U :=
  match l with
  | .then_value fn => generic_promise.then_value w state_ fn qu
  | .then_promise fn => generic_promise.then_promise w state_ fn qu
  | .fail_void fn => generic_promise.fail_void w state_ fn qu
  | .fail_promise fn => generic_promise.fail_promise w state_ fn qu

/-- Whether the link is a `then`. -/
def link.is_then : link α U → Bool
  | .then_value _ => true
  | .then_promise _ => true
  | .fail_void _ => false
  | .fail_promise _ => false

/-- The chain `promise.l1( ... ).l2( ... ) ...`, every link on the queue
`qu`; returns the last promise. -/
def chain (w : World α U) (state_ : Nat) (qu : Nat) : List (link α U) → Nat × World α U
  | [] => (state_, w)
  | l :: ls => chain (l.attach w state_ qu).2 (l.attach w state_ qu).1 qu ls

/-- The links `ls` hang off the pending state `p` and end in the state
`last`: each state of the chain is pending and holds the closure of the next
link as its one waiter; the last one has no waiter. -/
def pending_chain (w : World α U) (qu last : Nat) : Nat → List (link α U) → Prop
  | p, [] => p = last ∧ (w.states p).slot = none ∧ (w.states p).waiters = []
  | p, l :: ls =>
    (w.states p).slot = none ∧
      ∃ p1, p < p1 ∧ (w.states p).waiters = [(l.task p1 p, qu)] ∧
        pending_chain w qu last p1 ls

/-- The state `p` is ready with `x`, the closure of the first link of `ls`
is the one task of the queue `qu`, and the other links hang off its
successor; with no link left `p` is `last` and the queue is empty. -/
def ready_chain (w : World α U) (qu last : Nat) (x : expect α U) :
    Nat → List (link α U) → Prop
  | p, [] => p = last ∧ (w.states p).slot = some x ∧ (w.queues qu).queue_ = []
  | p, l :: ls =>
    (w.states p).slot = some x ∧
      ∃ p1, p < p1 ∧ (w.queues qu).queue_ = [l.task p1 p] ∧ pending_chain w qu last p1 ls

/-- The variadic `all( first, rest... )` of `all.hpp`, on the list of its
arguments: `all( )` is `with( )`; otherwise `all( rest... )` is made first
and the continuation that joins the two is attached to `first` with `then`
on the default queue. -/
def all (w : World α U) : List Nat → Nat × World α U
  | [] => with_ w []
  | first :: rest =>
    generic_promise.then_promise (all w rest).2 first (.all_cont (all w rest).1)
      (default_queue (all w rest).2)

/-- The loop of `all( list )` in `all.hpp`:
`list[ i ].fail( ... ).then( ... )` for every index `i`, from `i` on, both
closures on the default queue. -/
def all_list_loop (w : World α U) (c : Nat) : Nat → List Nat → World α U
  | _, [] => w
  | i, p :: rest =>
    all_list_loop
      (generic_promise.then_value
        (generic_promise.fail_void w p (.all_fail i c) (default_queue w)).2
        (generic_promise.fail_void w p (.all_fail i c) (default_queue w)).1
        (.all_then i c)
        (default_queue (generic_promise.fail_void w p (.all_fail i c) (default_queue w)).2)).2
      c (i + 1) rest

/-- The `all( list )` of `all.hpp` for a vector of promises of one-element
tuples: makes the result `defer` and the shared variables (`num` unset
slots, the counter at `num`, no failure), attaches the two closures to every
promise of the list and returns the promise of the result. -/
def all_list (w : World α U) (make_vector : List α → α) (list : List Nat) :
    Nat × World α U :=
  let d := defer.construct w
  let num := list.length
  let c := d.2.next_combine
  let shared : combine α U :=
    { expect_returns := List.replicate num none
      counter := num
      any_failure := false
      deferred := d.1
      make_vector := make_vector }
  let w1 : World α U :=
    { d.2 with
      combines := Function.update d.2.combines c (some shared)
      next_combine := c + 1 }
  (defer.get_promise d.1, all_list_loop w1 c 0 list)

/-- The member `deferred_` of a `defer` object: the promise that was not
handed out yet, as the index of its state; `none` once it was moved out. -/
structure defer_object where
  state : Nat
  deferred_ : Option Nat

/-- The object `defer::construct` returns: it holds its promise. -/
def defer_object.construct (w : World α U) : defer_object × World α U :=
  ({ state := (defer.construct w).1, deferred_ := some (defer.construct w).1 },
    (defer.construct w).2)

/-- The `defer::get_promise` of `defer.hpp`, `return std::move( deferred_ );`,
on the object: returns what `deferred_` holds and leaves it moved-from. It has
no check and throws nothing. -/
def defer_object.get_promise (U : Type) (self : defer_object) :
    Except (Exn U) (Option Nat) × defer_object :=
  (.ok self.deferred_, { self with deferred_ := none })

/-- Makes `n` calls of `get_promise` on the object, one after the other, and
returns what each call gave. -/
def defer_object.get_promises (U : Type) (self : defer_object) :
    Nat → List (Except (Exn U) (Option Nat))
  | 0 => []
  | n + 1 =>
    (defer_object.get_promise U self).1 ::
      defer_object.get_promises U (defer_object.get_promise U self).2 n

/-- The `perform` closure the loop of `all( list )` attaches to the input `p`
of index `i` with `fail`, when the next free state is `nx`. -/
def all_list_fail_task (c i p nx : Nat) : task α U := .fail_void nx (.all_fail i c) p
/-- The `perform` closure the loop of `all( list )` attaches with `then` to
the successor `nx` of that `fail`. -/
def all_list_then_task (c i nx : Nat) : task α U := .then_value (nx + 1) (.all_then i c) nx

/-- The tuple of a value outcome. -/
def expect.tuple : expect α U → List α
  | .value t => t
  | .exception _ => []

/-- Where one recursion level of the variadic `all` stands: its input is still
pending (`unsettled`); the continuation attached to the input is on the queue
(`start`); the continuation ran on a value, made the four states `nx`, ...,
`nx + 3` of `rest.fail( failer ).then( completer )` and of `satisfy`, and the
closure of the `failer` waits on the pending rest promise (`waiting`) or is on
the queue (`failer`); the closure of the `completer`, of the `fail` of
`satisfy` or of the `then` of `satisfy` is on the queue; the promise of the
level is resolved (`done`). -/
inductive all_stage where
  | unsettled
  | start
  | waiting (nx : Nat)
  | failer (nx : Nat)
  | completer (nx : Nat)
  | satisfy_fail (nx : Nat)
  | satisfy_then (nx : Nat)
  | done
  deriving DecidableEq

/-- The first of the four states a level made, if it made them and is not
done with them. -/
def all_stage.block : all_stage → Option Nat
  | .waiting nx => some nx
  | .failer nx => some nx
  | .completer nx => some nx
  | .satisfy_fail nx => some nx
  | .satisfy_then nx => some nx
  | _ => none

/-- The number of closures a level has still to run, at most. -/
def all_stage.rank : all_stage → Nat
  | .unsettled => 5
  | .start => 5
  | .waiting _ => 4
  | .failer _ => 4
  | .completer _ => 3
  | .satisfy_fail _ => 2
  | .satisfy_then _ => 1
  | .done => 0

/-- The stage of a level once its rest promise is resolved: a waiting
`failer` closure is scheduled. -/
def all_stage.promote : all_stage → all_stage
  | .waiting nx => .failer nx
  | s => s

/-- The outcome of the promise `all( p_k, ..., p_1 )`, by the outcomes `x` of
the inputs, numbered from the last argument (`1`) to the first: the exception
of the input if it failed, else the exception of the rest, else the tuple of
the input followed by the tuple of the rest. -/
def all_out (x : Nat → expect α U) : Nat → expect α U
  | 0 => .value []
  | k + 1 =>
    match x (k + 1) with
    | .exception e => .exception e
    | .value t =>
      match all_out x k with
      | .value u => .value (t ++ u)
      | .exception e => .exception e

/-- The `perform` closure of `first.then( ... )` of the level `j + 1` of
`all`: its promise is the state `B + j + 1`, its rest promise `B + j`. -/
def all_cont_task (B : Nat) (inp : Nat → Nat) (j : Nat) : task α U :=
  .then_promise (B + (j + 1)) (.all_cont (B + j)) (inp (j + 1))

/-- The `perform` closure of `rest_promise.fail( failer )`. -/
def all_failer_task (B j nx : Nat) : task α U := .fail_void nx .all_failer (B + j)

/-- The `perform` closure of `.then( completer )`. -/
def all_completer_task (x : Nat → expect α U) (j nx : Nat) : task α U :=
  .then_value (nx + 1) (.all_completer (x (j + 1)).tuple) nx

/-- The `perform` closure of the `fail` of `satisfy`. -/
def all_satisfy_fail_task (B j nx : Nat) : task α U :=
  .fail_void (nx + 2) (.satisfy_fail (B + (j + 1))) (nx + 1)

/-- The `perform` closure of the `then` of `satisfy`. -/
def all_satisfy_then_task (B j nx : Nat) : task α U :=
  .then_value (nx + 3) (.satisfy_then (B + (j + 1))) (nx + 2)

/-- The closure of the level `j + 1` that is on the queue, by its stage. -/
def all_current (B : Nat) (inp : Nat → Nat) (x : Nat → expect α U) (j : Nat) :
    all_stage → Option (task α U)
  | .start => some (all_cont_task B inp j)
  | .failer nx => some (all_failer_task B j nx)
  | .completer nx => some (all_completer_task x j nx)
  | .satisfy_fail nx => some (all_satisfy_fail_task B j nx)
  | .satisfy_then nx => some (all_satisfy_then_task B j nx)
  | _ => none

/-- The waiters of the pending promise `B + k`, by the stage of the level
above it. -/
def all_waiters (B dq k : Nat) : all_stage → List (task α U × Nat)
  | .waiting nx => [(all_failer_task B k nx, dq)]
  | _ => []

/-- The three pending states `nx + 1`, `nx + 2`, `nx + 3` of a level. -/
def all_tail (states : Nat → promise_state α U) (B dq j nx : Nat) : Prop :=
  states (nx + 1) = { slot := none, waiters := [(all_satisfy_fail_task B j nx, dq)] } ∧
  states (nx + 2) = { slot := none, waiters := [(all_satisfy_then_task B j nx, dq)] } ∧
  states (nx + 3) = promise_state.init

/-- The four states of the level `j + 1`, by its stage. -/
def all_block (states : Nat → promise_state α U) (B dq : Nat) (x : Nat → expect α U) (j : Nat) :
    all_stage → Prop
  | .waiting nx =>
    states nx = { slot := none, waiters := [(all_completer_task x j nx, dq)] } ∧
      all_tail states B dq j nx
  | .failer nx =>
    states nx = { slot := none, waiters := [(all_completer_task x j nx, dq)] } ∧
      all_tail states B dq j nx
  | .completer nx =>
    (states nx).slot = some (all_out x j) ∧ all_tail states B dq j nx
  | .satisfy_fail nx =>
    (states (nx + 1)).slot = some (all_out x (j + 1)) ∧
      states (nx + 2) = { slot := none, waiters := [(all_satisfy_then_task B j nx, dq)] } ∧
      states (nx + 3) = promise_state.init
  | .satisfy_then nx =>
    (states (nx + 2)).slot = some (all_out x (j + 1)) ∧
      (∃ v, all_out x (j + 1) = .value v) ∧
      states (nx + 3) = promise_state.init
  | _ => True

/-- The invariant of a run of `all( p_N, ..., p_1 )` whose promises are the
states `B`, ..., `B + N`: the promise `B + k` is resolved, with its outcome,
exactly when the level `k` is done, and otherwise holds the waiting `failer`
closure of the level above; the states of every level are as its stage says;
the queue holds, once each, the closures of the levels that are at a stage
with a closure on the queue, and nothing else. -/
structure all_inv (B N dq : Nat) (inp : Nat → Nat) (x : Nat → expect α U)
    (st : Nat → all_stage) (states : Nat → promise_state α U) (next : Nat)
    (qu : List (task α U)) : Prop where
  next_gt : B + N < next
  base : st 0 = .done
  above : ∀ k, N < k → st k = .done
  resolved : ∀ k, k ≤ N → st k = .done → (states (B + k)).slot = some (all_out x k)
  pending : ∀ k, k ≤ N → st k ≠ .done →
    (states (B + k)).slot = none ∧ (states (B + k)).waiters = all_waiters B dq k (st (k + 1))
  waits : ∀ k nx, st (k + 1) = .waiting nx → st k ≠ .done
  ready : ∀ k nx, st (k + 1) = .failer nx → st k = .done
  input_pending : ∀ j, j < N → st (j + 1) = .unsettled →
    states (inp (j + 1)) = { slot := none, waiters := [(all_cont_task B inp j, dq)] }
  input_settled : ∀ j, j < N → st (j + 1) ≠ .unsettled →
    (states (inp (j + 1))).slot = some (x (j + 1))
  block : ∀ j, j < N → all_block states B dq x j (st (j + 1))
  alloc : ∀ j nx, (st (j + 1)).block = some nx →
    B + N < nx ∧ nx + 4 ≤ next ∧ ∃ t, x (j + 1) = .value t
  disjoint : ∀ i j nx1 nx2, i ≠ j → (st i).block = some nx1 → (st j).block = some nx2 →
    nx1 + 4 ≤ nx2 ∨ nx2 + 4 ≤ nx1
  queue_sound : ∀ t ∈ qu, ∃ j, j < N ∧ all_current B inp x j (st (j + 1)) = some t
  queue_complete : ∀ j t, j < N → all_current B inp x j (st (j + 1)) = some t → t ∈ qu
  queue_nodup : qu.Nodup

/-- The inputs of `all` are states made before the call, and distinct. -/
structure all_inputs (B N : Nat) (inp : Nat → Nat) : Prop where
  lt : ∀ j, j < N → inp (j + 1) < B
  inj : ∀ i j, i < N → j < N → inp (i + 1) = inp (j + 1) → i = j

/-- The tuple the `completer` makes of the tuple of its level and the outcome
of the rest. -/
def all_join (t : List α) : expect α U → expect α U
  | .value u => .value (t ++ u)
  | .exception e => .exception e

/-- The invariant of a run of `all` on a world. -/
def all_world_inv (B N dq : Nat) (inp : Nat → Nat) (x : Nat → expect α U)
    (st : Nat → all_stage) (w : World α U) : Prop :=
  all_inv B N dq inp x st w.states w.next (w.queues dq).queue_ ∧ w.default_queue_ = dq

/-- The stages `st2` come after the stages `st` by the run of one closure:
no input was settled, no level went back, and the level `k` went on. -/
def all_progress (N : Nat) (st st2 : Nat → all_stage) : Prop :=
  (∀ k, st2 k = .unsettled ↔ st k = .unsettled) ∧
  (∀ k, (st2 k).rank ≤ (st k).rank) ∧
  ∃ k, k ≤ N ∧ (st2 k).rank < (st k).rank

/-- The sum of the ranks of the levels `0`, ..., `N`. -/
def all_measure (N : Nat) (st : Nat → all_stage) : Nat :=
  ∑ k in Finset.range (N + 1), (st k).rank

/-- The input of the level `k` of `all`, for the list of the arguments with
their outcomes: the levels are numbered from the last argument. -/
def all_input (pxs : List (Nat × expect α U)) (k : Nat) : Nat :=
  match pxs[pxs.length - k]? with
  | some px => px.1
  | none => 0

/-- The outcome of the input of the level `k`. -/
def all_outcome (pxs : List (Nat × expect α U)) (k : Nat) : expect α U :=
  match pxs[pxs.length - k]? with
  | some px => px.2
  | none => .value []

/-- An event of a run: a turn of the worker, or the input at the position
`i` of the argument list is settled. -/
inductive all_event where
  | turn
  | settle (i : Nat)

/-- The position an event settles. -/
def all_event.settled : all_event → Option Nat
  | .turn => none
  | .settle i => some i

/-- Runs a list of events on the queue `qu`: a turn of the worker is
`run_one`; settling the input at the position `i` of `pxs` sets the outcome
of that input on its `defer`. -/
def run_events (qu : Nat) (pxs : List (Nat × expect α U)) :
    List all_event → World α U → World α U
  | [], w => w
  | .turn :: rest, w => run_events qu pxs rest (run_one qu w)
  | .settle i :: rest, w =>
    match pxs[i]? with
    | some px => run_events qu pxs rest (defer.set_expect w px.1 px.2).1
    | none => run_events qu pxs rest w

/-- The stages right after the call of `all` on the last `n` arguments: the
continuation of a level is on the queue if its input was resolved, and waits
on the input otherwise. -/
def all_initial (w : World α U) (pxs : List (Nat × expect α U)) (n k : Nat) : all_stage :=
  if 1 ≤ k ∧ k ≤ n then
    match (w.states (all_input pxs k)).slot with
    | some _ => .start
    | none => .unsettled
  else .done

/-- Whether the argument at the position `i` of `ps` is pending in `w`. -/
def all_pending (w : World α U) (ps : List Nat) (i : Nat) : Bool :=
  match ps[i]? with
  | some p => (w.states p).slot.isNone
  | none => false

/-- The outcome of `all` by the outcomes of its arguments, in argument
order: the exception of the first argument that failed, and with no failure
the tuples of the arguments one after the other. -/
def all_result : List (expect α U) → expect α U
  | [] => .value []
  | .exception e :: _ => .exception e
  | .value t :: rest => all_join t (all_result rest)

/-- The `queue::set_consumer` of `queue.cpp`:
`backlog = queue_.size( ); notify_ = fn; return backlog;`. No callback is
called. -/
def queue.set_consumer {T : Type} (self : queue T) (fn : Option Nat) : queue T × Nat :=
  ({ self with notify_ := fn }, self.queue_.length)

/-- The `queue::pop` of `queue.cpp` as a call on the object: what the call
gives, and the object after it. The exception is thrown before the queue is
touched, so a failed call leaves the object as it was. -/
def queue.pop_call {T : Type} (U : Type) (self : queue T) : Except (Exn U) T × queue T :=
  match (self.pop : Except (Exn U) (T × queue T)) with
  | .ok (t, self1) => (.ok t, self1)
  | .error e => (.error e, self)

/-- A call on a queue: `push( task )` or `pop( )`. -/
inductive queue_call (T : Type) where
  | push (t : T)
  | pop

/-- What a sequence of calls on a queue gave: the queue after them, the
tasks the successful `pop`s returned, and the calls of the consumer, each
`( callback, size )`, both in order. -/
structure queue_trace (T : Type) where
  self : queue T
  popped : List T
  notified : List (Nat × Nat)

/-- Makes the calls on the queue, one after the other. A `pop` that throws
returns no task. -/
def queue.run {T : Type} (U : Type) (self : queue T) : List (queue_call T) → queue_trace T
  | [] => { self := self, popped := [], notified := [] }
  | .push t :: rest =>
    let r := queue.run U (self.push t).1 rest
    { r with notified := (self.push t).2.toList ++ r.notified }
  | .pop :: rest =>
    let r := queue.run U (queue.pop_call U self).2 rest
    match (queue.pop_call U self).1 with
    | .ok t => { r with popped := t :: r.popped }
    | .error _ => r

/-- The tasks a sequence of calls pushes, in order. -/
def queue_call.pushed {T : Type} : List (queue_call T) → List T
  | [] => []
  | .push t :: rest => t :: queue_call.pushed rest
  | .pop :: rest => queue_call.pushed rest

/-- A function given to `run( name, fn, args... )` of `thread.hpp`: it returns
nothing or a value, or throws. -/
inductive thread_function (α U : Type) where
  | returns_void (f : List α → Except (Exn U) Unit)
  | returns_value (f : List α → Except (Exn U) α)

/-- What the thread function of `thread::run` does, in order: the call of
`set_thread_name`, the call of the function given to `run` (with its
arguments), the report of `LIBQ_UNCAUGHT_EXCEPTION`, the call of
`termination_done` with its tuple. -/
inductive thread_event (α U : Type) where
  | set_thread_name (name : String)
  | invoke (params : List α)
  | uncaught_exception (e : Exn U)
  | termination_done (result : List (expect α U))

/-- The two overloads of `call_with_args_by_fun` of `functional.hpp`:
`inner_fn( args... ); return fn( );` for an inner function that returns
nothing (`A` is `Unit`), and `return fn( inner_fn( args... ) );` otherwise.
The inner function is called once; it gets the state and returns it with its
result, or with what it threw, which is then thrown on. -/
def call_with_args_by_fun {S A R E : Type} (fn : A → R) (inner_fn : S → S × Except E A)
    (s : S) : S × Except E R :=
  match inner_fn s with
  | (s1, .ok a) => (s1, .ok (fn a))
  | (s1, .error e) => (s1, .error e)

/-- The closure `thread_fn` of `thread::run` in `thread.hpp`, for the thread
name, the function and its arguments: `set_thread_name`, then
`call_with_args_by_fun( fulfill< Ret >, fn )` in a `try` whose `catch ( ... )`
makes `refuse< Ret >( current_exception )`, then
`termination_done( make_tuple( expect ) )`. The inner `fn` is
`call_with_args_by_tuple( tmp_fn, tmp_params )`. Returns what was done, in
order. -/
def thread.thread_fn (name : String) (fn : thread_function α U) (params : List α) :
    List (thread_event α U) :=
  let log0 : List (thread_event α U) := [.set_thread_name name]
  let r : List (thread_event α U) × Except (Exn U) (expect α U) :=
    match fn with
    | .returns_void f =>
      call_with_args_by_fun (fun (_ : Unit) => (fulfill [] : expect α U))
        (fun log => (log ++ [.invoke params], call_with_args_by_tuple f params)) log0
    | .returns_value f =>
      call_with_args_by_fun (fun (ret : α) => (fulfill [ret] : expect α U))
        (fun log => (log ++ [.invoke params], call_with_args_by_tuple f params)) log0
  match r with
  | (log, .ok expect_) => log ++ [.termination_done [expect_]]
  | (log, .error e) => log ++ [.uncaught_exception e, .termination_done [refuse e]]

/-- The space character. -/
def space : Char := Char.ofNat 32

/-- The `std::strchr( s, c )` of the C library on the characters of a C
string: the rest of the string from the first `c` on, `none` (the null
pointer) if there is no `c`. -/
def strchr (s : List Char) (c : Char) : Option (List Char) :=
  match s with
  | [] => none
  | x :: xs => if x = c then some (x :: xs) else strchr xs c

/-- The `std::strspn( s, accept )` of the C library: the length of the
longest prefix of `s` made of characters of `accept`. -/
def strspn (s : List Char) (accept : List Char) : Nat :=
  match s with
  | [] => 0
  | x :: xs => if x ∈ accept then strspn xs accept + 1 else 0

/-- The `isspace` of the C library in the C locale. -/
def isspace (c : Char) : Bool :=
  c.toNat = 32 || (9 ≤ c.toNat && c.toNat ≤ 13)

/-- The value of a string of decimal digits. -/
def digits_value (ds : List Char) : Nat :=
  ds.foldl (fun a c => 10 * a + (c.toNat - 48)) 0

/-- The `std::strtoul( s, nullptr, 10 )` of the C library with a 64-bit
`unsigned long`: white space is skipped, then an optional sign, then the
longest run of decimal digits is converted; no digit gives `0`, a value that
does not fit gives `ULONG_MAX`, a minus sign negates in the unsigned type. -/
def strtoul (s : List Char) : Nat :=
  let s1 := s.dropWhile isspace
  let neg := s1.head? = some (Char.ofNat 45)
  let s2 := if s1.head? = some (Char.ofNat 45) ∨ s1.head? = some (Char.ofNat 43) then s1.tail else s1
  let ds := s2.takeWhile Char.isDigit
  if ds = [] then 0
  else if 2 ^ 64 ≤ digits_value ds then 2 ^ 64 - 1
  else if neg then (2 ^ 64 - digits_value ds) % 2 ^ 64
  else digits_value ds

/-- The `stacktrace::frame` that `parse_stack_frame` fills; the strings are
lists of characters. -/
structure stacktrace_frame where
  frame : Nat
  lib : List Char
  addr : List Char
  symbol : List Char
  extra : List Char

/-- One of the three blocks of `parse_stack_frame` that read a token:
`if ( pos ) { pos += strspn( pos, " " ); pos2 = strchr( pos, ' ' );
if ( pos2 ) s.append( pos, pos2 - pos ); else s.append( pos ); pos = pos2; }`.
Returns the characters appended and the new `pos`. -/
def parse_stack_frame_token (pos : Option (List Char)) : List Char × Option (List Char) :=
  match pos with
  | none => ([], none)
  | some p =>
    let p1 := p.drop (strspn p [space])
    match strchr p1 space with
    | some pos2 => (p1.take (p1.length - pos2.length), some pos2)
    | none => (p1, none)

/-- The `parse_stack_frame` of `stacktrace_osx.cpp`, on the characters of
the C string `data`. -/
def parse_stack_frame (data : List Char) : stacktrace_frame :=
  let pos := strchr data space
  let lib := parse_stack_frame_token pos
  let addr := parse_stack_frame_token lib.2
  let symbol := parse_stack_frame_token addr.2
  { frame := strtoul data
    lib := lib.1
    addr := addr.1
    symbol := symbol.1
    extra :=
      match symbol.2 with
      | some p => p.drop (strspn p [space])
      | none => [] }

/-- Where one input of `all( list )` stands: it is still pending and the
closure of its `fail` waits on it (`unsettled`); the closure of its `fail`
is on the queue (`fail_queued`); the closure of the `then` that follows is
on the queue (`then_queued`); `part_completion` was called for it
(`done`). -/
inductive list_stage where
  | unsettled
  | fail_queued
  | then_queued
  | done
  deriving DecidableEq

/-- Whether `part_completion` is still to be called for the input. -/
def list_stage.pending : list_stage → Bool
  | .done => false
  | _ => true

/-- The number of closures an input has still to run, at most. -/
def list_stage.rank : list_stage → Nat
  | .unsettled => 2
  | .fail_queued => 2
  | .then_queued => 1
  | .done => 0

/-- The closure of the input `px` of index `i` that is on the queue, by its
stage; the states the loop made for the input are `B + 1 + 2 * i` and the
next one. -/
def list_current (B c : Nat) (i : Nat) (px : Nat × expect α U) : list_stage → Option (task α U)
  | .fail_queued => some (all_list_fail_task c i px.1 (B + 1 + 2 * i))
  | .then_queued => some (all_list_then_task c i (B + 1 + 2 * i))
  | _ => none

/-- The closure on the queue for the index `i` of the list `pxs`. -/
def list_current_at (B c : Nat) (pxs : List (Nat × expect α U)) (st : Nat → list_stage)
    (i : Nat) : Option (task α U) :=
  match pxs[i]? with
  | some px => list_current B c i px (st i)
  | none => none

/-- The states of the input `px` of index `i`, by its stage. After a failed
input is done, the closure of its `then` still waits: it is never
scheduled. -/
def list_block (states : Nat → promise_state α U) (B c dq : Nat) (i : Nat)
    (px : Nat × expect α U) : list_stage → Prop
  | .unsettled =>
    states px.1 = { slot := none,
                    waiters := [(all_list_fail_task c i px.1 (B + 1 + 2 * i), dq)] } ∧
    states (B + 1 + 2 * i)
      = { slot := none, waiters := [(all_list_then_task c i (B + 1 + 2 * i), dq)] } ∧
    states (B + 1 + 2 * i + 1) = promise_state.init
  | .fail_queued =>
    (states px.1).slot = some px.2 ∧
    states (B + 1 + 2 * i)
      = { slot := none, waiters := [(all_list_then_task c i (B + 1 + 2 * i), dq)] } ∧
    states (B + 1 + 2 * i + 1) = promise_state.init
  | .then_queued =>
    px.2.has_exception = false ∧
    (states (B + 1 + 2 * i)).slot = some px.2 ∧
    states (B + 1 + 2 * i + 1) = promise_state.init
  | .done =>
    px.2.has_exception = true →
      states (B + 1 + 2 * i)
        = { slot := none, waiters := [(all_list_then_task c i (B + 1 + 2 * i), dq)] }

/-- What the `resolver` of `all( list )` sets on the result, by the shared
variables `r` of the call `c`. -/
def list_result (c : Nat) (r : combine α U) : expect α U :=
  if r.any_failure then .exception (.combined_promise_exception c)
  else .value [r.make_vector (consume_all r.expect_returns)]

/-- The invariant of a run of `all( list )` on the inputs `pxs` (each with
the outcome it has or will get), whose result is the state `B` and whose
shared variables are `r`: the counter is the number of inputs that
`part_completion` was not yet called for, the slot of every other input
holds its outcome, the flag says whether one of those failed, the states of
every input are as its stage says, the queue holds, once each, the closures
of the inputs that have one on the queue, and the result is pending until
the counter reaches zero. -/
structure list_inv (B c dq : Nat) (mv : List α → α) (pxs : List (Nat × expect α U))
    (st : Nat → list_stage) (states : Nat → promise_state α U) (qu : List (task α U))
    (r : combine α U) : Prop where
  above : ∀ i, pxs.length ≤ i → st i = .done
  deferred : r.deferred = B
  make_vector : r.make_vector = mv
  length : r.expect_returns.length = pxs.length
  counter : r.counter = (List.range pxs.length).countP (fun i => (st i).pending)
  slots : ∀ (i : Nat) (px : Nat × expect α U), pxs[i]? = some px →
    r.expect_returns[i]? = some (if st i = .done then some px.2 else none)
  failure : r.any_failure = true ↔
    ∃ (i : Nat) (px : Nat × expect α U), pxs[i]? = some px ∧ st i = .done ∧
      px.2.has_exception = true
  block : ∀ (i : Nat) (px : Nat × expect α U), pxs[i]? = some px →
    list_block states B c dq i px (st i)
  queue_sound : ∀ t ∈ qu, ∃ i, i < pxs.length ∧ list_current_at B c pxs st i = some t
  queue_complete : ∀ i t, i < pxs.length → list_current_at B c pxs st i = some t → t ∈ qu
  queue_nodup : qu.Nodup
  result_pending : (0 < r.counter ∨ pxs = []) → states B = promise_state.init
  result_resolved : r.counter = 0 → pxs ≠ [] → (states B).slot = some (list_result c r)

/-- The inputs of `all( list )` are distinct states made before the call,
and their number fits the counter, a `std::size_t`. -/
structure list_inputs (B : Nat) (pxs : List (Nat × expect α U)) : Prop where
  lt : ∀ px ∈ pxs, px.1 < B
  nodup : (pxs.map Prod.fst).Nodup
  size : pxs.length < 2 ^ 64

/-- The invariant of a run of `all( list )` on a world. -/
def list_world_inv (B c dq : Nat) (mv : List α → α) (pxs : List (Nat × expect α U))
    (st : Nat → list_stage) (w : World α U) : Prop :=
  ∃ r, w.combines c = some r ∧ list_inv B c dq mv pxs st w.states (w.queues dq).queue_ r

/-- The stages `st2` come after the stages `st` by the run of one closure. -/
def list_progress (n : Nat) (st st2 : Nat → list_stage) : Prop :=
  (∀ k, st2 k = .unsettled ↔ st k = .unsettled) ∧
  (∀ k, (st2 k).rank ≤ (st k).rank) ∧
  ∃ k, k < n ∧ (st2 k).rank < (st k).rank

/-- The sum of the ranks of the inputs. -/
def list_measure (n : Nat) (st : Nat → list_stage) : Nat :=
  ∑ k in Finset.range n, (st k).rank

/-- The stages right after the call of `all( list )`: the closure of the
`fail` of an input is on the queue if the input was resolved, and waits on
the input otherwise. -/
def list_initial (w : World α U) (pxs : List (Nat × expect α U)) (i : Nat) : list_stage :=
  match pxs[i]? with
  | some px =>
    match (w.states px.1).slot with
    | some _ => .fail_queued
    | none => .unsettled
  | none => .done

/-- The index that the closure `t` calls `part_completion` for when it runs
in `w`: the closure of the `fail` of an input of `all( list )` calls it on
an exception, the closure of the `then` that follows calls it on a value,
and no other closure calls it. -/
def task.completion (w : World α U) : task α U → Option Nat
  | .fail_void _ (.all_fail index _) state =>
    match promise_state.consume w state with
    | some (.exception _) => some index
    | _ => none
  | .then_value _ (.all_then index _) state =>
    match promise_state.consume w state with
    | some (.value _) => some index
    | _ => none
  | _ => none

/-- The call of `part_completion` in one turn of the worker on the queue
`qu`, as the list of its index: that of the closure at the head of the
queue. -/
def turn_completion (qu : Nat) (w : World α U) : List Nat :=
  match (w.queues qu).queue_ with
  | t :: _ => (task.completion w t).toList
  | [] => []

/-- The calls of `part_completion` in a run of events, in order, each as the
index it was called for. -/
def run_completions (qu : Nat) (pxs : List (Nat × expect α U)) :
    List all_event → World α U → List Nat
  | [], _ => []
  | .turn :: rest, w => turn_completion qu w ++ run_completions qu pxs rest (run_one qu w)
  | .settle i :: rest, w =>
    match pxs[i]? with
    | some px => run_completions qu pxs rest (defer.set_expect w px.1 px.2).1
    | none => run_completions qu pxs rest w

/-- Whether the input at the position `i` of `ps` is settled after the
events `evs` of a run that began in `w`: it was resolved in `w`, or one of
the events settled it. -/
def list_settled (w : World α U) (ps : List Nat) (evs : List all_event) (i : Nat) : Bool :=
  decide (i < ps.length) &&
    (!all_pending w ps i || decide (i ∈ evs.filterMap all_event.settled))

/-! ## Lemmas on the operations -/

@[simp] theorem schedule_states (w : World α U) (l : List (task α U × Nat)) :
    (World.schedule w l).states = w.states := by
  induction l generalizing w with
  | nil => rfl
  | cons a l ih => obtain ⟨t, qu⟩ := a; simp [World.schedule, ih, World.push_task]

@[simp] theorem schedule_calls (w : World α U) (l : List (task α U × Nat)) :
    (World.schedule w l).calls = w.calls := by
  induction l generalizing w with
  | nil => rfl
  | cons a l ih => obtain ⟨t, qu⟩ := a; simp [World.schedule, ih, World.push_task]

@[simp] theorem push_calls (w : World α U) (state : Nat) (t : task α U) (qu : Nat) :
    (promise_signal.push w state t qu).calls = w.calls := by
  unfold promise_signal.push
  split <;> rfl

@[simp] theorem set_exception_calls (w : World α U) (d : Nat) (e : Exn U) :
    (defer.set_exception w d e).1.calls = w.calls := by
  cases h : (w.states d).slot <;>
    simp [defer.set_exception, std_promise.set_value, h, promise_signal.done, World.set_state]

@[simp] theorem set_value_calls (w : World α U) (d : Nat) (t : List α) :
    (defer.set_value w d t).1.calls = w.calls := by
  cases h : (w.states d).slot <;>
    simp [defer.set_value, std_promise.set_value, h, promise_signal.done, World.set_state]

@[simp] theorem satisfy_calls (w : World α U) (d promise : Nat) :
    (defer.satisfy w d promise).calls = w.calls := by
  simp [defer.satisfy, generic_promise.then_value, generic_promise.fail_void, defer.construct,
    World.set_state]

@[simp] theorem src_get_calls (w : World α U) (src : promise_src α U) :
    (src.get w).2.calls = w.calls := by
  cases src <;> simp [promise_src.get, World.set_state]

theorem Binding.call_eq {A R : Type} (b : Binding) (f : A → R) (t : A) : b.call f t = f t := by
  cases b <;> rfl

theorem drain_empty (qu : Nat) (n : Nat) (w : World α U) (h : (w.queues qu).queue_ = []) :
    drain qu n w = w := by
  induction n with
  | zero => rfl
  | succ n ih => simp [drain, run_one, queue.pop, h, ih]

theorem drain_succ_last (qu n : Nat) (w : World α U) :
    drain qu (n + 1) w = run_one qu (drain qu n w) := by
  induction n generalizing w with
  | zero => rfl
  | succ n ih => rw [drain, ih, drain]

theorem set_call_apply_resolved (w : World α U) (d : Nat) (c : set_call α U) (x : expect α U)
    (h : (w.states d).slot = some x) :
    c.apply w d = (w, some .promise_already_resolved) := by
  cases c <;>
    simp [set_call.apply, defer.set_value, defer.set_exception, std_promise.set_value, h]

theorem set_calls_resolved (w : World α U) (d : Nat) (x : expect α U)
    (h : (w.states d).slot = some x) (cs : List (set_call α U)) :
    set_calls w d cs = (w, List.replicate cs.length (some .promise_already_resolved)) := by
  induction cs with
  | nil => rfl
  | cons c cs ih =>
    simp [set_calls, set_call_apply_resolved w d c x h, ih, List.replicate_succ]

theorem set_call_apply_pending (w : World α U) (d : Nat) (c : set_call α U)
    (h : (w.states d).slot = none) :
    (c.apply w d).2 = none ∧ ((c.apply w d).1.states d).slot = some c.outcome := by
  cases c <;>
    simp [set_call.apply, defer.set_value, defer.set_exception, std_promise.set_value, h,
      promise_signal.done, World.set_state, set_call.outcome]

theorem with_spec (w : World α U) (v : List α) :
    (with_ w v).1 = w.next ∧ ((with_ w v).2.states w.next).slot = some (.value v)
      ∧ (with_ w v).2.next = w.next + 1 ∧ (with_ w v).2.queues = w.queues
      ∧ (with_ w v).2.calls = w.calls := by
  simp [with_, defer.construct, defer.get_promise, defer.set_value, std_promise.set_value,
    World.set_state, promise_signal.done, promise_state.init, World.schedule, fulfill]

/-! ## Lemmas on chains -/

theorem pending_chain_congr (qu last : Nat) (ls : List (link α U)) :
    ∀ (w w2 : World α U) (p : Nat), (∀ i, p ≤ i → w2.states i = w.states i) →
      pending_chain w qu last p ls → pending_chain w2 qu last p ls := by
  induction ls with
  | nil =>
    intro w w2 p hfr h
    simpa [pending_chain, hfr p (le_refl p)] using h
  | cons l ls ih =>
    intro w w2 p hfr h
    obtain ⟨h0, p1, hlt, hw, hrest⟩ := h
    refine ⟨by simpa [hfr p (le_refl p)] using h0, p1, hlt, by simpa [hfr p (le_refl p)] using hw, ?_⟩
    exact ih w w2 p1 (fun i hi => hfr i (by omega)) hrest

theorem pending_chain_slot (w : World α U) (qu last p : Nat) (ls : List (link α U))
    (h : pending_chain w qu last p ls) : (w.states p).slot = none := by
  cases ls with
  | nil => exact h.2.1
  | cons l ls => exact h.1

theorem ready_chain_skip (w : World α U) (qu last : Nat) (e : Exn U) (p : Nat) (l : link α U)
    (ls : List (link α U)) (hl : l.is_then = true)
    (h : ready_chain w qu last (.exception e) p (l :: ls)) :
    ∃ p1, ready_chain (run_one qu w) qu last (.exception e) p1 ls
      ∧ (run_one qu w).calls = w.calls := by
  obtain ⟨hx, p1, hlt, hqueue, hpend⟩ := h
  have hp1 := pending_chain_slot w qu last p1 ls hpend
  refine ⟨p1, ?_⟩
  cases ls with
  | nil =>
    obtain ⟨hlast, _, hw⟩ := hpend
    subst hlast
    cases l <;> simp [link.is_then] at hl <;> simp only [link.task] at hqueue <;>
    simp [ready_chain, run_one, queue.pop, hqueue, task.perform, promise_state.consume,
      hx, defer.set_exception, std_promise.set_value, hp1, promise_signal.done, World.set_state,
      hw, World.schedule, refuse]
  | cons l2 ls2 =>
    obtain ⟨_, p2, hlt2, hw, hrest⟩ := hpend
    have hfr : ∀ (st : promise_state α U) (w2 : World α U),
        w2.states = Function.update w.states p1 st → pending_chain w2 qu last p2 ls2 := by
      intro st w2 hst
      refine pending_chain_congr qu last ls2 w w2 p2 (fun i hi => ?_) hrest
      have : i ≠ p1 := by omega
      simp [hst, Function.update_noteq this]
    cases l <;> simp [link.is_then] at hl <;> simp only [link.task] at hqueue <;>
    simp [ready_chain, run_one, queue.pop, hqueue, task.perform, promise_state.consume,
      hx, defer.set_exception, std_promise.set_value, hp1, promise_signal.done, World.set_state,
      hw, World.schedule, World.push_task, queue.push, refuse] <;>
    exact ⟨p2, hlt2, rfl, hfr _ _ rfl⟩

theorem attach_fst (w : World α U) (p qu : Nat) (l : link α U) :
    (l.attach w p qu).1 = w.next := by
  cases l <;> rfl

theorem attach_pending (w : World α U) (p qu : Nat) (l : link α U)
    (hslot : (w.states p).slot = none) (hlt : p < w.next) :
    (l.attach w p qu).2 =
      { w with
        states := Function.update (Function.update w.states w.next promise_state.init) p
          { slot := none, waiters := (w.states p).waiters ++ [(l.task w.next p, qu)] }
        next := w.next + 1 } := by
  have hne : p ≠ w.next := by omega
  cases l <;>
  simp [link.attach, generic_promise.then_value, generic_promise.then_promise,
    generic_promise.fail_void, generic_promise.fail_promise, defer.construct, defer.get_promise,
    promise_signal.push, World.set_state, Function.update_noteq hne, hslot, link.task]

theorem attach_ready (w : World α U) (p qu : Nat) (l : link α U) (x : expect α U)
    (hslot : (w.states p).slot = some x) (hlt : p < w.next) :
    (l.attach w p qu).2 =
      World.push_task
        { w with
          states := Function.update w.states w.next promise_state.init
          next := w.next + 1 } qu (l.task w.next p) := by
  have hne : p ≠ w.next := by omega
  cases l <;>
  simp [link.attach, generic_promise.then_value, generic_promise.then_promise,
    generic_promise.fail_void, generic_promise.fail_promise, defer.construct, defer.get_promise,
    promise_signal.push, World.set_state, Function.update_noteq hne, hslot, link.task]

theorem chain_pending (qu : Nat) (ls : List (link α U)) :
    ∀ (w : World α U) (p : Nat), (w.states p).slot = none → (w.states p).waiters = [] →
      p < w.next →
      pending_chain (chain w p qu ls).2 qu (chain w p qu ls).1 p ls
        ∧ (∀ i, i < p → (chain w p qu ls).2.states i = w.states i)
        ∧ (chain w p qu ls).2.queues = w.queues
        ∧ (chain w p qu ls).2.calls = w.calls := by
  induction ls with
  | nil =>
    intro w p h1 h2 _
    exact ⟨⟨rfl, h1, h2⟩, fun _ _ => rfl, rfl, rfl⟩
  | cons l ls ih =>
    intro w p h1 h2 hlt
    have hne : p ≠ w.next := by omega
    have hw1 := attach_pending w p qu l h1 hlt
    have hd := attach_fst w p qu l
    obtain ⟨ih1, ih2, ih3, ih4⟩ := ih (l.attach w p qu).2 (l.attach w p qu).1
      (by rw [hw1, hd]; simp [Function.update_noteq hne.symm, promise_state.init])
      (by rw [hw1, hd]; simp [Function.update_noteq hne.symm, promise_state.init])
      (by rw [hw1, hd]; simp)
    have hp : (chain w p qu (l :: ls)).2.states p
        = { slot := none, waiters := [(l.task w.next p, qu)] } := by
      show (chain (l.attach w p qu).2 (l.attach w p qu).1 qu ls).2.states p = _
      rw [ih2 p (by rw [hd]; exact hlt), hw1]
      simp [h2]
    refine ⟨⟨by rw [hp], w.next, hlt, by rw [hp], ?_⟩, ?_, ?_, ?_⟩
    · show pending_chain (chain (l.attach w p qu).2 (l.attach w p qu).1 qu ls).2 qu
        (chain (l.attach w p qu).2 (l.attach w p qu).1 qu ls).1 w.next ls
      rw [hd] at ih1 ⊢
      exact ih1
    · intro i hi
      show (chain (l.attach w p qu).2 (l.attach w p qu).1 qu ls).2.states i = _
      have hi1 : i ≠ p := by omega
      have hi2 : i ≠ w.next := by omega
      rw [ih2 i (by rw [hd]; omega), hw1]
      simp [Function.update_noteq hi1, Function.update_noteq hi2]
    · show (chain (l.attach w p qu).2 (l.attach w p qu).1 qu ls).2.queues = _
      rw [ih3, hw1]
    · show (chain (l.attach w p qu).2 (l.attach w p qu).1 qu ls).2.calls = _
      rw [ih4, hw1]

theorem chain_ready (qu : Nat) (ls : List (link α U)) (w : World α U) (p : Nat)
    (x : expect α U) (hslot : (w.states p).slot = some x) (hlt : p < w.next)
    (hq : (w.queues qu).queue_ = []) :
    ready_chain (chain w p qu ls).2 qu (chain w p qu ls).1 x p ls
      ∧ (chain w p qu ls).2.calls = w.calls := by
  cases ls with
  | nil => exact ⟨⟨rfl, hslot, hq⟩, rfl⟩
  | cons l ls =>
    have hne : p ≠ w.next := by omega
    have hw1 := attach_ready w p qu l x hslot hlt
    have hd := attach_fst w p qu l
    obtain ⟨ih1, ih2, ih3, ih4⟩ := chain_pending qu ls (l.attach w p qu).2 (l.attach w p qu).1
      (by rw [hw1, hd]; simp [World.push_task, promise_state.init])
      (by rw [hw1, hd]; simp [World.push_task, promise_state.init])
      (by rw [hw1, hd]; simp [World.push_task])
    refine ⟨⟨?_, w.next, hlt, ?_, ?_⟩, ?_⟩
    · show ((chain (l.attach w p qu).2 (l.attach w p qu).1 qu ls).2.states p).slot = _
      rw [ih2 p (by rw [hd]; exact hlt), hw1]
      simp [World.push_task, Function.update_noteq hne, hslot]
    · show ((chain (l.attach w p qu).2 (l.attach w p qu).1 qu ls).2.queues qu).queue_ = _
      rw [ih3, hw1]
      simp [World.push_task, queue.push, hq]
    · show pending_chain (chain (l.attach w p qu).2 (l.attach w p qu).1 qu ls).2 qu
        (chain (l.attach w p qu).2 (l.attach w p qu).1 qu ls).1 w.next ls
      rw [hd] at ih1 ⊢
      exact ih1
    · show (chain (l.attach w p qu).2 (l.attach w p qu).1 qu ls).2.calls = _
      rw [ih4, hw1]
      simp [World.push_task]

theorem drain_skip (qu last : Nat) (e : Exn U) (ls : List (link α U)) (thens : List (link α U)) :
    ∀ (w : World α U) (p : Nat), (∀ l ∈ thens, l.is_then = true) →
      ready_chain w qu last (.exception e) p (thens ++ ls) →
      ∃ p1, ready_chain (drain qu thens.length w) qu last (.exception e) p1 ls
        ∧ (drain qu thens.length w).calls = w.calls := by
  induction thens with
  | nil =>
    intro w p _ h
    exact ⟨p, h, rfl⟩
  | cons l thens ih =>
    intro w p hthen h
    obtain ⟨p1, h1, hc1⟩ := ready_chain_skip w qu last e p l (thens ++ ls)
      (hthen l (List.mem_cons_self l thens)) h
    obtain ⟨p2, h2, hc2⟩ := ih (run_one qu w) p1
      (fun l2 hl2 => hthen l2 (List.mem_cons_of_mem l hl2)) h1
    exact ⟨p2, h2, by rw [List.length_cons, drain, hc2, hc1]⟩

theorem ready_chain_value (w : World α U) (qu last : Nat) (v : List α) (p label : Nat)
    (b : Binding) (f : List α → Except (Exn U) α) (r : α) (ls : List (link α U))
    (hf : f v = .ok r)
    (h : ready_chain w qu last (.value v) p (.then_value (.user_value label b f) :: ls)) :
    ∃ p1, ready_chain (run_one qu w) qu last (.value [r]) p1 ls
      ∧ (run_one qu w).calls = w.calls ++ [{ label := label, arg := .value v }] := by
  obtain ⟨hx, p1, hlt, hqueue, hpend⟩ := h
  have hp1 := pending_chain_slot w qu last p1 ls hpend
  simp only [link.task] at hqueue
  refine ⟨p1, ?_⟩
  cases ls with
  | nil =>
    obtain ⟨hlast, _, hw⟩ := hpend
    subst hlast
    simp [ready_chain, run_one, queue.pop, hqueue, task.perform, promise_state.consume,
      hx, defer.set_by_fun, value_fn.invoke, Binding.call_eq, hf, Except.map, World.record,
      defer.set_value, std_promise.set_value, hp1, promise_signal.done, World.set_state,
      hw, World.schedule, fulfill]
  | cons l2 ls2 =>
    obtain ⟨_, p2, hlt2, hw, hrest⟩ := hpend
    have hfr : ∀ (st : promise_state α U) (w2 : World α U),
        w2.states = Function.update w.states p1 st → pending_chain w2 qu last p2 ls2 := by
      intro st w2 hst
      refine pending_chain_congr qu last ls2 w w2 p2 (fun i hi => ?_) hrest
      have : i ≠ p1 := by omega
      simp [hst, Function.update_noteq this]
    simp [ready_chain, run_one, queue.pop, hqueue, task.perform, promise_state.consume,
      hx, defer.set_by_fun, value_fn.invoke, Binding.call_eq, hf, Except.map, World.record,
      defer.set_value, std_promise.set_value, hp1, promise_signal.done, World.set_state,
      hw, World.schedule, World.push_task, queue.push, fulfill]
    exact ⟨p2, hlt2, rfl, hfr _ _ rfl⟩

/-! ## Lemmas on `all( list )` -/

theorem nodup_fst_index (pv : List (Nat × α)) (hnd : (pv.map Prod.fst).Nodup) (i j : Nat)
    (x y : Nat × α) (hi : pv[i]? = some x) (hj : pv[j]? = some y) (h : x.1 = y.1) : i = j := by
  have hi1 : (pv.map Prod.fst)[i]? = some x.1 := by simp [hi]
  have hj1 : (pv.map Prod.fst)[j]? = some y.1 := by simp [hj]
  obtain ⟨hil, hie⟩ := List.getElem?_eq_some.mp hi1
  obtain ⟨hjl, hje⟩ := List.getElem?_eq_some.mp hj1
  exact (List.Nodup.getElem_inj_iff hnd).mp (by rw [hie, hje, h])

theorem mem_of_index {β : Type} (l : List β) (i : Nat) (x : β) (h : l[i]? = some x) : x ∈ l := by
  obtain ⟨hl, e⟩ := List.getElem?_eq_some.mp h
  rw [← e]
  exact List.getElem_mem hl

/-! ## Lemmas on the variadic `all` -/

theorem all_stage.promote_block (s : all_stage) : s.promote.block = s.block := by
  cases s <;> rfl

theorem all_stage.promote_rank (s : all_stage) : s.promote.rank = s.rank := by
  cases s <;> rfl

theorem all_stage.promote_done (s : all_stage) : s.promote = .done ↔ s = .done := by
  cases s <;> simp [all_stage.promote]

theorem all_stage.promote_unsettled (s : all_stage) : s.promote = .unsettled ↔ s = .unsettled := by
  cases s <;> simp [all_stage.promote]

theorem all_block_congr (states states2 : Nat → promise_state α U) (B dq : Nat)
    (x : Nat → expect α U) (j : Nat) (s : all_stage)
    (h : ∀ nx, s.block = some nx → ∀ m, m < 4 → states2 (nx + m) = states (nx + m))
    (hb : all_block states B dq x j s) : all_block states2 B dq x j s := by
  cases s with
  | unsettled => trivial
  | start => trivial
  | done => trivial
  | waiting nx =>
    have h0 := h nx rfl 0 (by omega)
    have h1 := h nx rfl 1 (by omega)
    have h2 := h nx rfl 2 (by omega)
    have h3 := h nx rfl 3 (by omega)
    simp only [all_block, all_tail, Nat.add_zero] at hb h0 ⊢
    rw [h0, h1, h2, h3]
    exact hb
  | failer nx =>
    have h0 := h nx rfl 0 (by omega)
    have h1 := h nx rfl 1 (by omega)
    have h2 := h nx rfl 2 (by omega)
    have h3 := h nx rfl 3 (by omega)
    simp only [all_block, all_tail, Nat.add_zero] at hb h0 ⊢
    rw [h0, h1, h2, h3]
    exact hb
  | completer nx =>
    have h0 := h nx rfl 0 (by omega)
    have h1 := h nx rfl 1 (by omega)
    have h2 := h nx rfl 2 (by omega)
    have h3 := h nx rfl 3 (by omega)
    simp only [all_block, all_tail, Nat.add_zero] at hb h0 ⊢
    rw [h0, h1, h2, h3]
    exact hb
  | satisfy_fail nx =>
    have h1 := h nx rfl 1 (by omega)
    have h2 := h nx rfl 2 (by omega)
    have h3 := h nx rfl 3 (by omega)
    simp only [all_block] at hb ⊢
    rw [h1, h2, h3]
    exact hb
  | satisfy_then nx =>
    have h2 := h nx rfl 2 (by omega)
    have h3 := h nx rfl 3 (by omega)
    simp only [all_block] at hb ⊢
    rw [h2, h3]
    exact hb

theorem all_block_promote (states : Nat → promise_state α U) (B dq : Nat)
    (x : Nat → expect α U) (j : Nat) (s : all_stage)
    (hb : all_block states B dq x j s) : all_block states B dq x j s.promote := by
  cases s <;> exact hb

theorem all_waiters_promote (B dq k : Nat) (s : all_stage) :
    (all_waiters B dq k s.promote : List (task α U × Nat)) = [] := by
  cases s <;> rfl

theorem all_waiters_current (B dq k : Nat) (inp : Nat → Nat) (x : Nat → expect α U) (j : Nat)
    (s : all_stage) (t : task α U) (h : all_current B inp x j s = some t) :
    (all_waiters B dq k s : List (task α U × Nat)) = [] := by
  cases s <;> first | rfl | simp [all_current] at h

theorem all_current_block (B : Nat) (inp : Nat → Nat) (x : Nat → expect α U) (j : Nat)
    (s : all_stage) (t : task α U) (h : all_current B inp x j s = some t) :
    s = .start ∨ ∃ nx, s.block = some nx := by
  cases s <;> simp [all_current, all_stage.block] at h ⊢

/-- A closure on the queue belongs to one level only. -/
theorem all_current_inj (B : Nat) (inp : Nat → Nat) (x : Nat → expect α U)
    (st : Nat → all_stage)
    (hd : ∀ i j nx1 nx2, i ≠ j → (st i).block = some nx1 → (st j).block = some nx2 →
      nx1 + 4 ≤ nx2 ∨ nx2 + 4 ≤ nx1)
    (i j : Nat) (t : task α U)
    (hi : all_current B inp x i (st (i + 1)) = some t)
    (hj : all_current B inp x j (st (j + 1)) = some t) : i = j := by
  by_contra hne
  have hne1 : i + 1 ≠ j + 1 := by omega
  have hdis := hd (i + 1) (j + 1)
  cases hsi : st (i + 1) <;> cases hsj : st (j + 1) <;>
    simp [hsi, hsj, all_current, all_cont_task, all_failer_task, all_completer_task,
      all_satisfy_fail_task, all_satisfy_then_task] at hi hj <;>
    subst hi <;>
    simp at hj <;>
    first
    | omega
    | (cases hdis _ _ hne1 (by rw [hsi]; rfl) (by rw [hsj]; rfl) <;> omega)

/-- The queue after one level `j + 1` moved on: its closure left the queue
`q_old`, and the closures `pushes` of the levels that are newly on the queue
were appended. -/
theorem all_queue_step (B N N2 : Nat) (inp : Nat → Nat) (x : Nat → expect α U)
    (st st2 : Nat → all_stage) (j : Nat) (q_old q0 pushes : List (task α U))
    (hN : N ≤ N2)
    (hsound : ∀ t ∈ q_old, ∃ i, i < N ∧ all_current B inp x i (st (i + 1)) = some t)
    (hcomplete : ∀ i t, i < N → all_current B inp x i (st (i + 1)) = some t → t ∈ q_old)
    (habove : ∀ i, N ≤ i → all_current B inp x i (st (i + 1)) = none)
    (hq0 : ∀ t, t ∈ q0 ↔ t ∈ q_old ∧ all_current B inp x j (st (j + 1)) ≠ some t)
    (hq0n : q0.Nodup)
    (hinj : ∀ i i2 t, all_current B inp x i (st (i + 1)) = some t →
      all_current B inp x i2 (st (i2 + 1)) = some t → i = i2)
    (hinj2 : ∀ i i2 t, all_current B inp x i (st2 (i + 1)) = some t →
      all_current B inp x i2 (st2 (i2 + 1)) = some t → i = i2)
    (hother : ∀ i, i < N2 → i ≠ j →
      all_current B inp x i (st2 (i + 1)) = all_current B inp x i (st (i + 1)) ∨
      (all_current B inp x i (st (i + 1)) = none ∧
        ∃ t, all_current B inp x i (st2 (i + 1)) = some t ∧ t ∈ pushes))
    (hself : ∀ t, all_current B inp x j (st2 (j + 1)) = some t → t ∈ pushes)
    (hpush : ∀ t ∈ pushes, ∃ i, i < N2 ∧ all_current B inp x i (st2 (i + 1)) = some t ∧
      (i = j ∨ all_current B inp x i (st (i + 1)) = none))
    (hpn : pushes.Nodup) :
    (∀ t ∈ q0 ++ pushes, ∃ i, i < N2 ∧ all_current B inp x i (st2 (i + 1)) = some t) ∧
    (∀ i t, i < N2 → all_current B inp x i (st2 (i + 1)) = some t → t ∈ q0 ++ pushes) ∧
    (q0 ++ pushes).Nodup := by
  have hs0 : ∀ t ∈ q0, ∃ i, i < N ∧ i ≠ j ∧ all_current B inp x i (st (i + 1)) = some t ∧
      all_current B inp x i (st2 (i + 1)) = some t := by
    intro t ht
    obtain ⟨h1, h2⟩ := (hq0 t).mp ht
    obtain ⟨i, hi, hc⟩ := hsound t h1
    have hij : i ≠ j := fun e => h2 (e ▸ hc)
    refine ⟨i, hi, hij, hc, ?_⟩
    rcases hother i (by omega) hij with h | ⟨h, _⟩
    · rw [h]; exact hc
    · rw [hc] at h; cases h
  refine ⟨?_, ?_, ?_⟩
  · intro t ht
    rcases List.mem_append.mp ht with h | h
    · obtain ⟨i, hi, _, _, hc⟩ := hs0 t h
      exact ⟨i, by omega, hc⟩
    · obtain ⟨i, hi, hc, _⟩ := hpush t h
      exact ⟨i, hi, hc⟩
  · intro i t hi hc
    by_cases hij : i = j
    · subst hij
      exact List.mem_append_right _ (hself t hc)
    · rcases hother i hi hij with h | ⟨_, t2, h2, h3⟩
      · rw [h] at hc
        have hiN : i < N := by
          by_contra hge
          rw [habove i (by omega)] at hc
          cases hc
        refine List.mem_append_left _ ((hq0 t).mpr ⟨hcomplete i t hiN hc, fun hjt => ?_⟩)
        exact hij (hinj i j t hc hjt)
      · rw [h2] at hc
        cases hc
        exact List.mem_append_right _ h3
  · refine List.nodup_append.mpr ⟨hq0n, hpn, ?_⟩
    intro t h1 h2
    obtain ⟨i0, _, hi0j, hc0, hc02⟩ := hs0 t h1
    obtain ⟨i, _, hc, hor⟩ := hpush t h2
    have := hinj2 i0 i t hc02 hc
    subst this
    rcases hor with h | h
    · exact hi0j h
    · rw [hc0] at h; cases h

theorem all_current_above (B N dq : Nat) (inp : Nat → Nat) (x : Nat → expect α U)
    (st : Nat → all_stage) (states : Nat → promise_state α U) (next : Nat)
    (qu : List (task α U)) (hI : all_inv B N dq inp x st states next qu) (i : Nat)
    (hi : N ≤ i) : all_current B inp x i (st (i + 1)) = none := by
  rw [hI.above (i + 1) (by omega)]
  rfl

/-- The invariant is kept when the level `j + 1`, whose promise is pending,
moves to a stage `s1` in which its promise is still pending. -/
theorem all_inv_move (B N dq : Nat) (inp : Nat → Nat) (x : Nat → expect α U)
    (st : Nat → all_stage) (states states2 : Nat → promise_state α U) (next next2 : Nat)
    (q_old q0 : List (task α U)) (j : Nat) (s1 : all_stage)
    (hI : all_inv B N dq inp x st states next q_old)
    (hj : j < N)
    (hs : st (j + 1) ≠ .done) (hs1 : s1 ≠ .done)
    (hnext : next ≤ next2)
    (hprom : ∀ k, k ≤ N → k ≠ j → states2 (B + k) = states (B + k))
    (hrest : st j = .done → states2 (B + j) = states (B + j))
    (hrestp : st j ≠ .done →
      (states2 (B + j)).slot = none ∧ (states2 (B + j)).waiters = all_waiters B dq j s1)
    (hinp : ∀ i, i < N → i ≠ j → states2 (inp (i + 1)) = states (inp (i + 1)))
    (hinp1 : s1 = .unsettled →
      states2 (inp (j + 1)) = { slot := none, waiters := [(all_cont_task B inp j, dq)] })
    (hinp2 : s1 ≠ .unsettled → (states2 (inp (j + 1))).slot = some (x (j + 1)))
    (hblk : ∀ i, i ≠ j + 1 → ∀ nx0, (st i).block = some nx0 → ∀ m, m < 4 →
      states2 (nx0 + m) = states (nx0 + m))
    (hblk1 : all_block states2 B dq x j s1)
    (halloc : ∀ nx, s1.block = some nx → B + N < nx ∧ nx + 4 ≤ next2 ∧
      (∃ t, x (j + 1) = .value t) ∧
      ∀ i, i ≠ j + 1 → ∀ nx0, (st i).block = some nx0 → nx0 + 4 ≤ nx ∨ nx + 4 ≤ nx0)
    (hwaits : ∀ nx, s1 = .waiting nx → st j ≠ .done)
    (hready : ∀ nx, s1 = .failer nx → st j = .done)
    (hq : q_old = (all_current B inp x j (st (j + 1))).toList ++ q0) :
    all_inv B N dq inp x (Function.update st (j + 1) s1) states2 next2
      (q0 ++ (all_current B inp x j s1).toList) := by
  have hdis : ∀ i k nx1 nx2, i ≠ k → (Function.update st (j + 1) s1 i).block = some nx1 →
      (Function.update st (j + 1) s1 k).block = some nx2 → nx1 + 4 ≤ nx2 ∨ nx2 + 4 ≤ nx1 := by
    intro i k nx1 nx2 hik h1 h2
    by_cases hi : i = j + 1
    · subst hi
      rw [Function.update_same] at h1
      rw [Function.update_noteq (Ne.symm hik)] at h2
      have := (halloc nx1 h1).2.2.2 k (Ne.symm hik) nx2 h2
      omega
    · rw [Function.update_noteq hi] at h1
      by_cases hk : k = j + 1
      · subst hk
        rw [Function.update_same] at h2
        exact (halloc nx2 h2).2.2.2 i hi nx1 h1
      · rw [Function.update_noteq hk] at h2
        exact hI.disjoint i k nx1 nx2 hik h1 h2
  have hqn := hI.queue_nodup
  rw [hq] at hqn
  have hq0n : q0.Nodup := (List.nodup_append.mp hqn).2.1
  have hqstep := all_queue_step B N N inp x st (Function.update st (j + 1) s1) j q_old q0
    (all_current B inp x j s1).toList (Nat.le_refl N) hI.queue_sound
    (fun i t hi hc => hI.queue_complete i t hi hc)
    (fun i hi => all_current_above B N dq inp x st states next q_old hI i hi)
    (by
      intro t
      rw [hq]
      constructor
      · intro ht
        refine ⟨List.mem_append_right _ ht, fun hc => ?_⟩
        rw [hc] at hqn
        exact (List.nodup_append.mp hqn).2.2 (by simp) ht
      · rintro ⟨h1, h2⟩
        rcases List.mem_append.mp h1 with h | h
        · simp at h
          exact absurd h h2
        · exact h)
    hq0n
    (fun i i2 t => all_current_inj B inp x st hI.disjoint i i2 t)
    (fun i i2 t => all_current_inj B inp x _ hdis i i2 t)
    (by
      intro i _ hij
      left
      rw [Function.update_noteq (by omega)])
    (by
      intro t ht
      rw [Function.update_same] at ht
      simp [ht])
    (by
      intro t ht
      refine ⟨j, hj, ?_, Or.inl rfl⟩
      rw [Function.update_same]
      simpa using ht)
    (by cases all_current B inp x j s1 <;> simp)
  have hwj : (all_waiters B dq j (st (j + 1)) : List (task α U × Nat)) = [] ∨
      st j ≠ .done := by
    by_cases h : st j = .done
    · left
      cases hsj : st (j + 1) <;> first | rfl | exact absurd h (hI.waits j _ hsj)
    · exact Or.inr h
  refine
    { next_gt := Nat.lt_of_lt_of_le hI.next_gt hnext
      base := by rw [Function.update_noteq (by omega)]; exact hI.base
      above := fun k hk => by rw [Function.update_noteq (by omega)]; exact hI.above k hk
      resolved := ?_
      pending := ?_
      waits := ?_
      ready := ?_
      input_pending := ?_
      input_settled := ?_
      block := ?_
      alloc := ?_
      disjoint := hdis
      queue_sound := hqstep.1
      queue_complete := hqstep.2.1
      queue_nodup := hqstep.2.2 }
  · intro k hk hd
    by_cases hkj : k = j + 1
    · subst hkj
      rw [Function.update_same] at hd
      exact absurd hd hs1
    · rw [Function.update_noteq hkj] at hd
      by_cases hkj2 : k = j
      · subst hkj2
        rw [hrest hd]
        exact hI.resolved k hk hd
      · rw [hprom k hk hkj2]
        exact hI.resolved k hk hd
  · intro k hk hd
    by_cases hkj2 : k = j
    · subst hkj2
      rw [Function.update_noteq (by omega)] at hd
      rw [Function.update_same]
      exact hrestp hd
    · rw [hprom k hk hkj2, Function.update_noteq (by omega)]
      by_cases hkj : k = j + 1
      · subst hkj
        exact hI.pending (j + 1) hk hs
      · rw [Function.update_noteq hkj] at hd
        exact hI.pending k hk hd
  · intro k nx hw
    by_cases hkj : k = j
    · subst hkj
      rw [Function.update_same] at hw
      rw [Function.update_noteq (by omega)]
      exact hwaits nx hw
    · rw [Function.update_noteq (by omega)] at hw
      by_cases hkj1 : k = j + 1
      · subst hkj1
        rw [Function.update_same]
        exact hs1
      · rw [Function.update_noteq hkj1]
        exact hI.waits k nx hw
  · intro k nx hw
    by_cases hkj : k = j
    · subst hkj
      rw [Function.update_same] at hw
      rw [Function.update_noteq (by omega)]
      exact hready nx hw
    · rw [Function.update_noteq (by omega)] at hw
      by_cases hkj1 : k = j + 1
      · subst hkj1
        exact absurd (hI.ready (j + 1) nx hw) hs
      · rw [Function.update_noteq hkj1]
        exact hI.ready k nx hw
  · intro i hi hu
    by_cases hij : i = j
    · subst hij
      rw [Function.update_same] at hu
      exact hinp1 hu
    · rw [Function.update_noteq (by omega)] at hu
      rw [hinp i hi hij]
      exact hI.input_pending i hi hu
  · intro i hi hu
    by_cases hij : i = j
    · subst hij
      rw [Function.update_same] at hu
      exact hinp2 hu
    · rw [Function.update_noteq (by omega)] at hu
      rw [hinp i hi hij]
      exact hI.input_settled i hi hu
  · intro i hi
    by_cases hij : i = j
    · subst hij
      rw [Function.update_same]
      exact hblk1
    · rw [Function.update_noteq (by omega)]
      exact all_block_congr states states2 B dq x i _ (hblk (i + 1) (by omega)) (hI.block i hi)
  · intro i nx hb
    by_cases hij : i = j
    · subst hij
      rw [Function.update_same] at hb
      obtain ⟨h1, h2, h3, _⟩ := halloc nx hb
      exact ⟨h1, h2, h3⟩
    · rw [Function.update_noteq (by omega)] at hb
      obtain ⟨h1, h2, h3⟩ := hI.alloc i nx hb
      exact ⟨h1, by omega, h3⟩

/-- The invariant is kept when the promise of the level `j + 1` is resolved:
the level is done, and the waiting `failer` closure of the level above is
scheduled. -/
theorem all_inv_resolve (B N dq : Nat) (inp : Nat → Nat) (x : Nat → expect α U)
    (st : Nat → all_stage) (states states2 : Nat → promise_state α U) (next next2 : Nat)
    (t : task α U) (q0 : List (task α U)) (j : Nat)
    (hI : all_inv B N dq inp x st states next (t :: q0))
    (hj : j < N)
    (hcur : all_current B inp x j (st (j + 1)) = some t)
    (hnext : next ≤ next2)
    (hd : (states2 (B + (j + 1))).slot = some (all_out x (j + 1)))
    (hprom : ∀ k, k ≤ N → k ≠ j + 1 → states2 (B + k) = states (B + k))
    (hinp : ∀ i, i < N → states2 (inp (i + 1)) = states (inp (i + 1)))
    (hblk : ∀ i, i ≠ j + 1 → ∀ nx0, (st i).block = some nx0 → ∀ m, m < 4 →
      states2 (nx0 + m) = states (nx0 + m)) :
    all_inv B N dq inp x
      (Function.update (Function.update st (j + 1) .done) (j + 2) (st (j + 2)).promote)
      states2 next2 (q0 ++ (all_waiters B dq (j + 1) (st (j + 2))).map Prod.fst) := by
  have e2 : Function.update (Function.update st (j + 1) .done) (j + 2) (st (j + 2)).promote
      (j + 2) = (st (j + 2)).promote := Function.update_same _ _ _
  have e1 : Function.update (Function.update st (j + 1) .done) (j + 2) (st (j + 2)).promote
      (j + 1) = .done := by
    rw [Function.update_noteq (by omega), Function.update_same]
  have e0 : ∀ k, k ≠ j + 1 → k ≠ j + 2 →
      Function.update (Function.update st (j + 1) .done) (j + 2) (st (j + 2)).promote k
        = st k := by
    intro k h1 h2
    rw [Function.update_noteq h2, Function.update_noteq h1]
  have hsj : st (j + 1) ≠ .done := fun h => by rw [h] at hcur; cases hcur
  have hsju : st (j + 1) ≠ .unsettled := fun h => by rw [h] at hcur; cases hcur
  have hb2 : ∀ k nx, (Function.update (Function.update st (j + 1) .done) (j + 2)
      (st (j + 2)).promote k).block = some nx → (st k).block = some nx ∧ k ≠ j + 1 := by
    intro k nx h
    by_cases h2 : k = j + 2
    · subst h2
      rw [e2, all_stage.promote_block] at h
      exact ⟨h, by omega⟩
    · by_cases h1 : k = j + 1
      · subst h1
        rw [e1] at h
        cases h
      · rw [e0 k h1 h2] at h
        exact ⟨h, h1⟩
  have hdis : ∀ i k nx1 nx2, i ≠ k →
      (Function.update (Function.update st (j + 1) .done) (j + 2) (st (j + 2)).promote i).block
        = some nx1 →
      (Function.update (Function.update st (j + 1) .done) (j + 2) (st (j + 2)).promote k).block
        = some nx2 → nx1 + 4 ≤ nx2 ∨ nx2 + 4 ≤ nx1 :=
    fun i k nx1 nx2 hik h1 h2 => hI.disjoint i k nx1 nx2 hik (hb2 i nx1 h1).1 (hb2 k nx2 h2).1
  have hqn := hI.queue_nodup
  have hq0n : q0.Nodup := (List.nodup_cons.mp hqn).2
  have htq0 : t ∉ q0 := (List.nodup_cons.mp hqn).1
  have hqstep := all_queue_step B N N inp x st
    (Function.update (Function.update st (j + 1) .done) (j + 2) (st (j + 2)).promote) j
    (t :: q0) q0 ((all_waiters B dq (j + 1) (st (j + 2))).map Prod.fst) (Nat.le_refl N)
    hI.queue_sound (fun i t hi hc => hI.queue_complete i t hi hc)
    (fun i hi => all_current_above B N dq inp x st states next _ hI i hi)
    (by
      intro t2
      rw [hcur]
      constructor
      · intro ht
        exact ⟨List.mem_cons_of_mem _ ht, fun hc => htq0 (by cases hc; exact ht)⟩
      · rintro ⟨h1, h2⟩
        rcases List.mem_cons.mp h1 with h | h
        · exact absurd (by rw [h]) h2
        · exact h)
    hq0n
    (fun i i2 t => all_current_inj B inp x st hI.disjoint i i2 t)
    (fun i i2 t => all_current_inj B inp x _ hdis i i2 t)
    (by
      intro i _ hij
      by_cases hi1 : i = j + 1
      · subst hi1
        rw [e2]
        cases hs2 : st (j + 1 + 1) <;>
          simp [all_stage.promote, all_current, all_waiters]
      · left
        rw [e0 (i + 1) (by omega) (by omega)])
    (by
      intro t2 ht2
      rw [e1] at ht2
      cases ht2)
    (by
      intro t2 ht2
      cases hs2 : st (j + 2) <;> rw [hs2] at ht2 <;> simp [all_waiters] at ht2
      rename_i nx
      have hjN : j + 1 < N := by
        by_contra hge
        have := hI.above (j + 2) (by omega)
        rw [hs2] at this
        cases this
      refine ⟨j + 1, hjN, ?_, Or.inr ?_⟩
      · simp [all_stage.promote, all_current, ht2]
      · show all_current B inp x (j + 1) (st (j + 2)) = none
        rw [hs2]
        rfl)
    (by cases st (j + 2) <;> simp [all_waiters])
  refine
    { next_gt := Nat.lt_of_lt_of_le hI.next_gt hnext
      base := by rw [e0 0 (by omega) (by omega)]; exact hI.base
      above := ?_
      resolved := ?_
      pending := ?_
      waits := ?_
      ready := ?_
      input_pending := ?_
      input_settled := ?_
      block := ?_
      alloc := ?_
      disjoint := hdis
      queue_sound := hqstep.1
      queue_complete := hqstep.2.1
      queue_nodup := hqstep.2.2 }
  · intro k hk
    by_cases h2 : k = j + 2
    · subst h2
      rw [e2, hI.above (j + 2) hk]
      rfl
    · rw [e0 k (by omega) h2]
      exact hI.above k hk
  · intro k hk hdone
    by_cases h1 : k = j + 1
    · subst h1
      exact hd
    · rw [hprom k hk h1]
      by_cases h2 : k = j + 2
      · subst h2
        rw [e2, all_stage.promote_done] at hdone
        exact hI.resolved _ hk hdone
      · rw [e0 k h1 h2] at hdone
        exact hI.resolved k hk hdone
  · intro k hk hnd
    by_cases h1 : k = j + 1
    · subst h1
      exact absurd e1 hnd
    · rw [hprom k hk h1]
      by_cases h2 : k = j + 2
      · subst h2
        rw [e2] at hnd
        rw [e0 (j + 2 + 1) (by omega) (by omega)]
        exact hI.pending _ hk (fun h => hnd ((all_stage.promote_done _).mpr h))
      · rw [e0 k h1 h2] at hnd
        by_cases h3 : k = j
        · subst h3
          rw [e1]
          have := hI.pending k hk hnd
          rw [all_waiters_current B dq k inp x k (st (k + 1)) t hcur] at this
          exact this
        · rw [e0 (k + 1) (by omega) (by omega)]
          exact hI.pending k hk hnd
  · intro k nx hw
    by_cases h1 : k = j + 1
    · subst h1
      rw [e2] at hw
      cases hs2 : st (j + 1 + 1) <;> rw [hs2] at hw <;> simp [all_stage.promote] at hw
    · by_cases h0 : k = j
      · subst h0
        rw [e1] at hw
        cases hw
      · rw [e0 (k + 1) (by omega) (by omega)] at hw
        have := hI.waits k nx hw
        by_cases h2 : k = j + 2
        · subst h2
          rw [e2]
          exact fun h => this ((all_stage.promote_done _).mp h)
        · rw [e0 k h1 h2]
          exact this
  · intro k nx hf
    by_cases h1 : k = j + 1
    · subst h1
      exact e1
    · by_cases h0 : k = j
      · subst h0
        rw [e1] at hf
        cases hf
      · rw [e0 (k + 1) (by omega) (by omega)] at hf
        have := hI.ready k nx hf
        by_cases h2 : k = j + 2
        · subst h2
          rw [e2]
          exact (all_stage.promote_done _).mpr this
        · rw [e0 k h1 h2]
          exact this
  · intro i hi hu
    rw [hinp i hi]
    by_cases h1 : i = j + 1
    · subst h1
      rw [e2, all_stage.promote_unsettled] at hu
      exact hI.input_pending _ hi hu
    · by_cases h0 : i = j
      · subst h0
        rw [e1] at hu
        cases hu
      · rw [e0 (i + 1) (by omega) (by omega)] at hu
        exact hI.input_pending i hi hu
  · intro i hi hu
    rw [hinp i hi]
    by_cases h1 : i = j + 1
    · subst h1
      rw [e2] at hu
      exact hI.input_settled _ hi (fun h => hu ((all_stage.promote_unsettled _).mpr h))
    · by_cases h0 : i = j
      · subst h0
        exact hI.input_settled i hi hsju
      · rw [e0 (i + 1) (by omega) (by omega)] at hu
        exact hI.input_settled i hi hu
  · intro i hi
    by_cases h0 : i = j
    · subst h0
      rw [e1]
      trivial
    · by_cases h1 : i = j + 1
      · subst h1
        rw [e2]
        exact all_block_promote _ _ _ _ _ _
          (all_block_congr states states2 B dq x (j + 1) _ (hblk (j + 1 + 1) (by omega))
            (hI.block (j + 1) hi))
      · rw [e0 (i + 1) (by omega) (by omega)]
        exact all_block_congr states states2 B dq x i _ (hblk (i + 1) (by omega)) (hI.block i hi)
  · intro i nx hb
    obtain ⟨h1, h2, h3⟩ := hI.alloc i nx (hb2 (i + 1) nx hb).1
    exact ⟨h1, by omega, h3⟩

theorem schedule_next (w : World α U) (l : List (task α U × Nat)) :
    (World.schedule w l).next = w.next := by
  induction l generalizing w with
  | nil => rfl
  | cons a l ih => obtain ⟨t, qu⟩ := a; simp [World.schedule, ih, World.push_task]

theorem schedule_default_queue (w : World α U) (l : List (task α U × Nat)) :
    (World.schedule w l).default_queue_ = w.default_queue_ := by
  induction l generalizing w with
  | nil => rfl
  | cons a l ih => obtain ⟨t, qu⟩ := a; simp [World.schedule, ih, World.push_task]

theorem schedule_queue (dq : Nat) (l : List (task α U × Nat)) :
    ∀ (w : World α U), (∀ p ∈ l, p.2 = dq) →
      ((World.schedule w l).queues dq).queue_ = (w.queues dq).queue_ ++ l.map Prod.fst := by
  induction l with
  | nil => intro w _; simp [World.schedule]
  | cons a l ih =>
    intro w h
    obtain ⟨t, qu⟩ := a
    have hqu : qu = dq := h (t, qu) (List.mem_cons_self _ _)
    subst hqu
    rw [World.schedule, ih _ (fun p hp => h p (List.mem_cons_of_mem _ hp))]
    simp [World.push_task, queue.push]

/-- Resolving a pending promise whose waiters all go to the queue `dq`. -/
theorem set_expect_pending (w : World α U) (d dq : Nat) (y : expect α U)
    (hs : (w.states d).slot = none) (hw : ∀ p ∈ (w.states d).waiters, p.2 = dq) :
    (defer.set_expect w d y).1.states = Function.update w.states d { slot := some y, waiters := [] }
    ∧ (defer.set_expect w d y).1.next = w.next
    ∧ ((defer.set_expect w d y).1.queues dq).queue_
        = (w.queues dq).queue_ ++ (w.states d).waiters.map Prod.fst
    ∧ (defer.set_expect w d y).1.default_queue_ = w.default_queue_
    ∧ (defer.set_expect w d y).2 = none := by
  cases y <;>
  simp [defer.set_expect, defer.set_value, defer.set_exception, std_promise.set_value, hs,
    promise_signal.done, schedule_next, schedule_default_queue, World.set_state, fulfill, refuse,
    schedule_queue dq _ _ hw]

theorem all_out_succ (x : Nat → expect α U) (k : Nat) (t : List α) (h : x (k + 1) = .value t) :
    all_out x (k + 1) = all_join t (all_out x k) := by
  simp only [all_out, h]
  cases all_out x k <;> rfl

theorem all_out_fail (x : Nat → expect α U) (k : Nat) (e : Exn U)
    (h : x (k + 1) = .exception e) : all_out x (k + 1) = .exception e := by
  simp only [all_out, h]

theorem perform_failer (w : World α U) (nx a : Nat) (y : expect α U)
    (h : (w.states a).slot = some y) :
    task.perform w (.fail_void nx .all_failer a) = defer.set_expect w nx y := by
  cases y <;>
  simp [task.perform, promise_state.consume, h, fail_void_fn.invoke, defer.set_expect]

theorem perform_completer (w : World α U) (nx : Nat) (t : List α) (y : expect α U)
    (h : (w.states nx).slot = some y) (h1 : (w.states (nx + 1)).slot = none) :
    (task.perform w (.then_value (nx + 1) (.all_completer t) nx)).1
      = (defer.set_expect w (nx + 1) (all_join t y)).1 := by
  cases y <;>
  simp [task.perform, promise_state.consume, h, h1, value_fn.invoke, defer.set_by_fun,
    defer.set_expect, all_join, defer.set_value, std_promise.set_value]

theorem perform_satisfy_fail_value (w : World α U) (nx d : Nat) (v : List α)
    (h : (w.states (nx + 1)).slot = some (.value v)) :
    (task.perform w (.fail_void (nx + 2) (.satisfy_fail d) (nx + 1))).1
      = (defer.set_expect w (nx + 2) (.value v)).1 := by
  simp [task.perform, promise_state.consume, h, defer.set_expect]

theorem perform_satisfy_fail_exception (w : World α U) (nx d : Nat) (e : Exn U)
    (h : (w.states (nx + 1)).slot = some (.exception e)) (h1 : (w.states d).slot = none) :
    (task.perform w (.fail_void (nx + 2) (.satisfy_fail d) (nx + 1))).1
      = (defer.set_expect w d (.exception e)).1 := by
  simp [task.perform, promise_state.consume, h, h1, fail_void_fn.invoke,
    defer.set_expect, defer.set_exception, std_promise.set_value]

theorem perform_satisfy_then (w : World α U) (nx d : Nat) (v : List α)
    (h : (w.states (nx + 2)).slot = some (.value v)) (h1 : (w.states d).slot = none)
    (h2 : (w.states (nx + 3)).slot = none) (hne : d ≠ nx + 3) :
    (task.perform w (.then_value (nx + 3) (.satisfy_then d) (nx + 2))).1
      = (defer.set_expect (defer.set_expect w d (.value v)).1 (nx + 3) (.value [])).1 := by
  simp [task.perform, promise_state.consume, h, h1, h2, value_fn.invoke, defer.set_by_fun,
    defer.set_expect, defer.set_value, std_promise.set_value, promise_signal.done,
    World.set_state, Function.update_apply, hne, Ne.symm hne]

theorem perform_cont_fail (w : World α U) (d a p : Nat) (e : Exn U)
    (h : (w.states p).slot = some (.exception e)) :
    task.perform w (.then_promise d (.all_cont a) p) = defer.set_expect w d (.exception e) := by
  simp [task.perform, promise_state.consume, h, defer.set_expect]

/-- The continuation of a level runs on the tuple of its input while the rest
promise is resolved: the four states are made and the closure of the `failer`
is scheduled. -/
theorem perform_cont_ready (w : World α U) (d a p dq : Nat) (t : List α) (y : expect α U)
    (h : (w.states p).slot = some (.value t)) (ha : (w.states a).slot = some y)
    (hlt : a < w.next) (hdq : w.default_queue_ = dq) :
    (task.perform w (.then_promise d (.all_cont a) p)).1.next = w.next + 4
    ∧ (task.perform w (.then_promise d (.all_cont a) p)).1.default_queue_ = dq
    ∧ ((task.perform w (.then_promise d (.all_cont a) p)).1.queues dq).queue_
        = (w.queues dq).queue_ ++ [.fail_void w.next .all_failer a]
    ∧ (task.perform w (.then_promise d (.all_cont a) p)).1.states w.next
        = { slot := none, waiters := [(.then_value (w.next + 1) (.all_completer t) w.next, dq)] }
    ∧ (task.perform w (.then_promise d (.all_cont a) p)).1.states (w.next + 1)
        = { slot := none,
            waiters := [(.fail_void (w.next + 2) (.satisfy_fail d) (w.next + 1), dq)] }
    ∧ (task.perform w (.then_promise d (.all_cont a) p)).1.states (w.next + 2)
        = { slot := none,
            waiters := [(.then_value (w.next + 3) (.satisfy_then d) (w.next + 2), dq)] }
    ∧ (task.perform w (.then_promise d (.all_cont a) p)).1.states (w.next + 3)
        = promise_state.init
    ∧ (∀ i, i < w.next →
        (task.perform w (.then_promise d (.all_cont a) p)).1.states i = w.states i) := by
  have hne : a ≠ w.next := by omega
  have hne1 : w.next ≠ a := by omega
  refine ⟨?_, ?_, ?_, ?_, ?_, ?_, ?_, ?_⟩ <;>
  simp [task.perform, promise_state.consume, h, ha, defer.satisfy_by_fun, promise_fn.invoke,
    defer.satisfy, generic_promise.fail_void, generic_promise.then_value, defer.construct,
    defer.get_promise, promise_signal.push, World.set_state, World.push_task, queue.push,
    default_queue, hdq, Function.update_apply, hne, hne1, promise_state.init, Nat.add_assoc]
  intro i hi
  have a0 : i ≠ w.next := by omega
  have a1 : i ≠ w.next + 1 := by omega
  have a2 : i ≠ w.next + 2 := by omega
  have a3 : i ≠ w.next + 3 := by omega
  simp [a0, a1, a2, a3]

/-- The continuation of a level runs on the tuple of its input while the rest
promise is pending: the four states are made and the closure of the `failer`
waits on the rest promise. -/
theorem perform_cont_pending (w : World α U) (d a p dq : Nat) (t : List α)
    (h : (w.states p).slot = some (.value t)) (ha : (w.states a).slot = none)
    (hlt : a < w.next) (hdq : w.default_queue_ = dq) :
    (task.perform w (.then_promise d (.all_cont a) p)).1.next = w.next + 4
    ∧ (task.perform w (.then_promise d (.all_cont a) p)).1.default_queue_ = dq
    ∧ ((task.perform w (.then_promise d (.all_cont a) p)).1.queues dq).queue_
        = (w.queues dq).queue_
    ∧ (task.perform w (.then_promise d (.all_cont a) p)).1.states w.next
        = { slot := none, waiters := [(.then_value (w.next + 1) (.all_completer t) w.next, dq)] }
    ∧ (task.perform w (.then_promise d (.all_cont a) p)).1.states (w.next + 1)
        = { slot := none,
            waiters := [(.fail_void (w.next + 2) (.satisfy_fail d) (w.next + 1), dq)] }
    ∧ (task.perform w (.then_promise d (.all_cont a) p)).1.states (w.next + 2)
        = { slot := none,
            waiters := [(.then_value (w.next + 3) (.satisfy_then d) (w.next + 2), dq)] }
    ∧ (task.perform w (.then_promise d (.all_cont a) p)).1.states (w.next + 3)
        = promise_state.init
    ∧ (task.perform w (.then_promise d (.all_cont a) p)).1.states a
        = { slot := none,
            waiters := (w.states a).waiters ++ [(.fail_void w.next .all_failer a, dq)] }
    ∧ (∀ i, i < w.next → i ≠ a →
        (task.perform w (.then_promise d (.all_cont a) p)).1.states i = w.states i) := by
  have hne : a ≠ w.next := by omega
  have hne1 : w.next ≠ a := by omega
  have b1 : a ≠ w.next + 1 := by omega
  have b2 : a ≠ w.next + 2 := by omega
  have b3 : a ≠ w.next + 3 := by omega
  have c1 : w.next + 1 ≠ a := by omega
  have c2 : w.next + 2 ≠ a := by omega
  have c3 : w.next + 3 ≠ a := by omega
  refine ⟨?_, ?_, ?_, ?_, ?_, ?_, ?_, ?_, ?_⟩ <;>
  simp [task.perform, promise_state.consume, h, ha, defer.satisfy_by_fun, promise_fn.invoke,
    defer.satisfy, generic_promise.fail_void, generic_promise.then_value, defer.construct,
    defer.get_promise, promise_signal.push, World.set_state, World.push_task, queue.push,
    default_queue, hdq, Function.update_apply, hne, hne1, b1, b2, b3, c1, c2, c3,
    promise_state.init, Nat.add_assoc]
  intro i hi hia
  have a0 : i ≠ w.next := by omega
  have a1 : i ≠ w.next + 1 := by omega
  have a2 : i ≠ w.next + 2 := by omega
  have a3 : i ≠ w.next + 3 := by omega
  simp [a0, a1, a2, a3, hia]

theorem all_inv_block_any (B N dq : Nat) (inp : Nat → Nat) (x : Nat → expect α U)
    (st : Nat → all_stage) (states : Nat → promise_state α U) (next : Nat)
    (qu : List (task α U)) (hI : all_inv B N dq inp x st states next qu) (i nx : Nat)
    (h : (st i).block = some nx) : B + N < nx ∧ nx + 4 ≤ next := by
  cases i with
  | zero => rw [hI.base] at h; cases h
  | succ i => exact ⟨(hI.alloc i nx h).1, (hI.alloc i nx h).2.1⟩

theorem all_progress_move (N : Nat) (st : Nat → all_stage) (j : Nat) (s1 : all_stage)
    (hj : j < N) (h1 : s1 ≠ .unsettled) (h2 : st (j + 1) ≠ .unsettled)
    (hr : s1.rank < (st (j + 1)).rank) : all_progress N st (Function.update st (j + 1) s1) := by
  refine ⟨?_, ?_, j + 1, by omega, by rw [Function.update_same]; exact hr⟩
  · intro k
    by_cases hk : k = j + 1
    · subst hk
      rw [Function.update_same]
      exact ⟨fun h => absurd h h1, fun h => absurd h h2⟩
    · rw [Function.update_noteq hk]
  · intro k
    by_cases hk : k = j + 1
    · subst hk
      rw [Function.update_same]
      omega
    · rw [Function.update_noteq hk]

theorem all_progress_resolve (N : Nat) (st : Nat → all_stage) (j : Nat)
    (hj : j < N) (h2 : st (j + 1) ≠ .unsettled) (hr : 0 < (st (j + 1)).rank) :
    all_progress N st
      (Function.update (Function.update st (j + 1) .done) (j + 2) (st (j + 2)).promote) := by
  have e2 : Function.update (Function.update st (j + 1) .done) (j + 2) (st (j + 2)).promote
      (j + 2) = (st (j + 2)).promote := Function.update_same _ _ _
  have e1 : Function.update (Function.update st (j + 1) .done) (j + 2) (st (j + 2)).promote
      (j + 1) = .done := by
    rw [Function.update_noteq (by omega), Function.update_same]
  have e0 : ∀ k, k ≠ j + 1 → k ≠ j + 2 →
      Function.update (Function.update st (j + 1) .done) (j + 2) (st (j + 2)).promote k
        = st k := by
    intro k h1 h2
    rw [Function.update_noteq h2, Function.update_noteq h1]
  refine ⟨?_, ?_, j + 1, by omega, by rw [e1]; exact hr⟩
  · intro k
    by_cases hk2 : k = j + 2
    · subst hk2
      rw [e2, all_stage.promote_unsettled]
    · by_cases hk : k = j + 1
      · subst hk
        rw [e1]
        exact ⟨fun h => (by cases h), fun h => absurd h h2⟩
      · rw [e0 k hk hk2]
  · intro k
    by_cases hk2 : k = j + 2
    · subst hk2
      rw [e2, all_stage.promote_rank]
    · by_cases hk : k = j + 1
      · subst hk
        rw [e1]
        exact Nat.zero_le _
      · rw [e0 k hk hk2]

/-- The invariant is kept when the closure of the level `j + 1` that is on
the queue writes one of the four states of the level and the next closure of
the level is scheduled. -/
theorem all_inv_advance (B N dq : Nat) (inp : Nat → Nat) (x : Nat → expect α U)
    (st : Nat → all_stage) (states : Nat → promise_state α U) (next : Nat)
    (t : task α U) (q0 : List (task α U)) (j nx : Nat) (s1 : all_stage) (m : Nat)
    (v : promise_state α U)
    (hin : all_inputs B N inp)
    (hI : all_inv B N dq inp x st states next (t :: q0))
    (hj : j < N)
    (hcur : all_current B inp x j (st (j + 1)) = some t)
    (hb : (st (j + 1)).block = some nx) (hb1 : s1.block = some nx)
    (hw : ∀ n, s1 ≠ .waiting n) (hf : ∀ n, s1 ≠ .failer n)
    (hm : m < 4)
    (hblk1 : all_block (Function.update states (nx + m) v) B dq x j s1) :
    all_inv B N dq inp x (Function.update st (j + 1) s1) (Function.update states (nx + m) v) next
      (q0 ++ (all_current B inp x j s1).toList) := by
  obtain ⟨a1, a2, a3⟩ := hI.alloc j nx hb
  have hs : st (j + 1) ≠ .done := fun h => by rw [h] at hb; cases hb
  have hsu : st (j + 1) ≠ .unsettled := fun h => by rw [h] at hb; cases hb
  have hs1 : s1 ≠ .done := fun h => by rw [h] at hb1; cases hb1
  have hs1u : s1 ≠ .unsettled := fun h => by rw [h] at hb1; cases hb1
  have hws1 : ∀ k, (all_waiters B dq k s1 : List (task α U × Nat)) = [] := by
    intro k
    cases s1 <;> first | rfl | exact absurd rfl (hw _)
  refine all_inv_move B N dq inp x st states _ next next (t :: q0) q0 j s1 hI hj hs hs1
    (Nat.le_refl _) ?_ ?_ ?_ ?_ (fun h => absurd h hs1u) ?_ ?_ hblk1 ?_
    (fun n h => absurd h (hw n)) (fun n h => absurd h (hf n)) (by rw [hcur]; rfl)
  · intro k hk _
    rw [Function.update_noteq (by omega)]
  · intro _
    rw [Function.update_noteq (by omega)]
  · intro hd
    rw [Function.update_noteq (by omega), hws1]
    have := hI.pending j (by omega) hd
    rw [all_waiters_current B dq j inp x j _ t hcur] at this
    exact this
  · intro i hi _
    have := hin.lt i hi
    rw [Function.update_noteq (by omega)]
  · intro _
    have := hin.lt j hj
    rw [Function.update_noteq (by omega)]
    exact hI.input_settled j hj hsu
  · intro i hi nx0 hb0 m0 hm0
    have := hI.disjoint i (j + 1) nx0 nx hi hb0 hb
    rw [Function.update_noteq (by omega)]
  · intro nx2 hb2
    rw [hb1] at hb2
    cases hb2
    refine ⟨a1, a2, a3, ?_⟩
    intro i hi nx0 hb0
    exact hI.disjoint i (j + 1) nx0 nx hi hb0 hb

theorem all_waiters_queue (B dq k : Nat) (s : all_stage) :
    ∀ p ∈ (all_waiters B dq k s : List (task α U × Nat)), p.2 = dq := by
  intro p hp
  cases s <;> simp [all_waiters] at hp
  rw [hp]

/-- The closure of the `failer` of the level `j + 1` runs. -/
theorem all_perform_failer (B N dq : Nat) (inp : Nat → Nat) (x : Nat → expect α U)
    (st : Nat → all_stage) (w : World α U) (t : task α U) (j nx : Nat)
    (hin : all_inputs B N inp)
    (hI : all_inv B N dq inp x st w.states w.next (t :: (w.queues dq).queue_))
    (hdq : w.default_queue_ = dq) (hj : j < N)
    (hcur : all_current B inp x j (st (j + 1)) = some t)
    (hs : st (j + 1) = .failer nx) :
    ∃ st2, all_world_inv B N dq inp x st2 (task.perform w t).1 ∧ all_progress N st st2 := by
  have hb : (st (j + 1)).block = some nx := by rw [hs]; rfl
  have ht : t = all_failer_task B j nx := by
    rw [hs] at hcur
    simpa [all_current] using hcur.symm
  have hblk := hI.block j hj
  rw [hs] at hblk
  obtain ⟨k0, k1, k2, k3⟩ := hblk
  have hrest := hI.resolved j (by omega) (hI.ready j nx hs)
  obtain ⟨r1, r2, r3, r4, _⟩ := set_expect_pending w nx dq (all_out x j)
    (by rw [k0]) (by rw [k0]; simp)
  refine ⟨Function.update st (j + 1) (.completer nx), ⟨?_, ?_⟩,
    all_progress_move N st j _ hj (by simp) (by rw [hs]; simp)
      (by rw [hs]; simp [all_stage.rank])⟩
  · rw [ht, all_failer_task, perform_failer w nx (B + j) _ hrest, r1, r2, r3, k0]
    have := all_inv_advance B N dq inp x st w.states w.next t (w.queues dq).queue_ j nx
      (.completer nx) 0 { slot := some (all_out x j), waiters := [] } hin hI hj hcur hb rfl
      (by simp) (by simp) (by omega)
      (by
        have := (all_inv_block_any B N dq inp x st _ _ _ hI (j + 1) nx hb)
        refine ⟨by simp, ?_, ?_, ?_⟩ <;>
        rw [Nat.add_zero, Function.update_noteq (by omega)] <;> assumption)
    simpa [all_current] using this
  · rw [ht, all_failer_task, perform_failer w nx (B + j) _ hrest, r4, hdq]

/-- The closure of the `completer` of the level `j + 1` runs. -/
theorem all_perform_completer (B N dq : Nat) (inp : Nat → Nat) (x : Nat → expect α U)
    (st : Nat → all_stage) (w : World α U) (t : task α U) (j nx : Nat)
    (hin : all_inputs B N inp)
    (hI : all_inv B N dq inp x st w.states w.next (t :: (w.queues dq).queue_))
    (hdq : w.default_queue_ = dq) (hj : j < N)
    (hcur : all_current B inp x j (st (j + 1)) = some t)
    (hs : st (j + 1) = .completer nx) :
    ∃ st2, all_world_inv B N dq inp x st2 (task.perform w t).1 ∧ all_progress N st st2 := by
  have hb : (st (j + 1)).block = some nx := by rw [hs]; rfl
  have ht : t = all_completer_task x j nx := by
    rw [hs] at hcur
    simpa [all_current] using hcur.symm
  have hblk := hI.block j hj
  rw [hs] at hblk
  obtain ⟨k0, k1, k2, k3⟩ := hblk
  obtain ⟨tv, hx⟩ := (hI.alloc j nx hb).2.2
  obtain ⟨r1, r2, r3, r4, _⟩ := set_expect_pending w (nx + 1) dq (all_out x (j + 1))
    (by rw [k1]) (by rw [k1]; simp)
  have hp : (task.perform w t).1 = (defer.set_expect w (nx + 1) (all_out x (j + 1))).1 := by
    rw [ht, all_completer_task, perform_completer w nx _ _ k0 (by rw [k1]), hx,
      all_out_succ x j tv hx]
    rfl
  refine ⟨Function.update st (j + 1) (.satisfy_fail nx), ⟨?_, ?_⟩,
    all_progress_move N st j _ hj (by simp) (by rw [hs]; simp)
      (by rw [hs]; simp [all_stage.rank])⟩
  · rw [hp, r1, r2, r3, k1]
    have := all_inv_advance B N dq inp x st w.states w.next t (w.queues dq).queue_ j nx
      (.satisfy_fail nx) 1 { slot := some (all_out x (j + 1)), waiters := [] } hin hI hj hcur
      hb rfl (by simp) (by simp) (by omega)
      (by
        refine ⟨by simp, ?_, ?_⟩ <;>
        rw [Function.update_noteq (by omega)] <;> assumption)
    simpa [all_current] using this
  · rw [hp, r4, hdq]

/-- The closure of the `fail` of `satisfy` of the level `j + 1` runs. -/
theorem all_perform_satisfy_fail (B N dq : Nat) (inp : Nat → Nat) (x : Nat → expect α U)
    (st : Nat → all_stage) (w : World α U) (t : task α U) (j nx : Nat)
    (hin : all_inputs B N inp)
    (hI : all_inv B N dq inp x st w.states w.next (t :: (w.queues dq).queue_))
    (hdq : w.default_queue_ = dq) (hj : j < N)
    (hcur : all_current B inp x j (st (j + 1)) = some t)
    (hs : st (j + 1) = .satisfy_fail nx) :
    ∃ st2, all_world_inv B N dq inp x st2 (task.perform w t).1 ∧ all_progress N st st2 := by
  have hb : (st (j + 1)).block = some nx := by rw [hs]; rfl
  have ht : t = all_satisfy_fail_task B j nx := by
    rw [hs] at hcur
    simpa [all_current] using hcur.symm
  have hblk := hI.block j hj
  rw [hs] at hblk
  obtain ⟨k1, k2, k3⟩ := hblk
  have hnd : st (j + 1) ≠ .done := by rw [hs]; simp
  obtain ⟨p1, p2⟩ := hI.pending (j + 1) (by omega) hnd
  have hbl := all_inv_block_any B N dq inp x st _ _ _ hI (j + 1) nx hb
  cases hy : all_out x (j + 1) with
  | value v =>
    rw [hy] at k1
    have hp := perform_satisfy_fail_value w nx (B + (j + 1)) v k1
    obtain ⟨r1, r2, r3, r4, _⟩ := set_expect_pending w (nx + 2) dq (.value v)
      (by rw [k2]) (by rw [k2]; simp)
    refine ⟨Function.update st (j + 1) (.satisfy_then nx), ⟨?_, ?_⟩,
      all_progress_move N st j _ hj (by simp) (by rw [hs]; simp)
        (by rw [hs]; simp [all_stage.rank])⟩
    · rw [ht, all_satisfy_fail_task, hp, r1, r2, r3, k2]
      have := all_inv_advance B N dq inp x st w.states w.next t (w.queues dq).queue_ j nx
        (.satisfy_then nx) 2 { slot := some (.value v), waiters := [] } hin hI hj hcur
        hb rfl (by simp) (by simp) (by omega)
        (by
          refine ⟨by simp [hy], ⟨v, hy⟩, ?_⟩
          rw [Function.update_noteq (by omega)]
          exact k3)
      simpa [all_current] using this
    · rw [ht, all_satisfy_fail_task, hp, r4, hdq]
  | exception e =>
    rw [hy] at k1
    have hp := perform_satisfy_fail_exception w nx (B + (j + 1)) e k1 p1
    obtain ⟨r1, r2, r3, r4, _⟩ := set_expect_pending w (B + (j + 1)) dq (.exception e)
      p1 (by rw [p2]; exact all_waiters_queue B dq _ _)
    refine ⟨_, ⟨?_, ?_⟩, all_progress_resolve N st j hj (by rw [hs]; simp)
      (by rw [hs]; simp [all_stage.rank])⟩
    · rw [ht, all_satisfy_fail_task, hp, r1, r2, r3, p2]
      refine all_inv_resolve B N dq inp x st w.states _ w.next w.next t _ j hI hj hcur
        (Nat.le_refl _) (by rw [hy]; simp) ?_ ?_ ?_
      · intro k hk hkj
        rw [Function.update_noteq (by omega)]
      · intro i hi
        have := hin.lt i hi
        rw [Function.update_noteq (by omega)]
      · intro i _ nx0 hb0 m hm
        have := all_inv_block_any B N dq inp x st _ _ _ hI i nx0 hb0
        rw [Function.update_noteq (by omega)]
    · rw [ht, all_satisfy_fail_task, hp, r4, hdq]

/-- The closure of the `then` of `satisfy` of the level `j + 1` runs. -/
theorem all_perform_satisfy_then (B N dq : Nat) (inp : Nat → Nat) (x : Nat → expect α U)
    (st : Nat → all_stage) (w : World α U) (t : task α U) (j nx : Nat)
    (hin : all_inputs B N inp)
    (hI : all_inv B N dq inp x st w.states w.next (t :: (w.queues dq).queue_))
    (hdq : w.default_queue_ = dq) (hj : j < N)
    (hcur : all_current B inp x j (st (j + 1)) = some t)
    (hs : st (j + 1) = .satisfy_then nx) :
    ∃ st2, all_world_inv B N dq inp x st2 (task.perform w t).1 ∧ all_progress N st st2 := by
  have hb : (st (j + 1)).block = some nx := by rw [hs]; rfl
  have ht : t = all_satisfy_then_task B j nx := by
    rw [hs] at hcur
    simpa [all_current] using hcur.symm
  have hblk := hI.block j hj
  rw [hs] at hblk
  obtain ⟨k2, ⟨v, hv⟩, k3⟩ := hblk
  rw [hv] at k2
  have hnd : st (j + 1) ≠ .done := by rw [hs]; simp
  obtain ⟨p1, p2⟩ := hI.pending (j + 1) (by omega) hnd
  have hbl := all_inv_block_any B N dq inp x st _ _ _ hI (j + 1) nx hb
  have hne : B + (j + 1) ≠ nx + 3 := by omega
  have hp := perform_satisfy_then w nx (B + (j + 1)) v k2 p1 (by rw [k3]; rfl) hne
  obtain ⟨r1, r2, r3, r4, _⟩ := set_expect_pending w (B + (j + 1)) dq (.value v)
    p1 (by rw [p2]; exact all_waiters_queue B dq _ _)
  obtain ⟨u1, u2, u3, u4, _⟩ := set_expect_pending
    (defer.set_expect w (B + (j + 1)) (.value v)).1 (nx + 3) dq (.value [])
    (by rw [r1, Function.update_noteq (Ne.symm hne), k3]; rfl)
    (by rw [r1, Function.update_noteq (Ne.symm hne), k3]; simp [promise_state.init])
  refine ⟨_, ⟨?_, ?_⟩, all_progress_resolve N st j hj (by rw [hs]; simp)
    (by rw [hs]; simp [all_stage.rank])⟩
  · rw [ht, all_satisfy_then_task, hp, u1, u2, u3, r1, r2, r3, p2,
      Function.update_noteq (Ne.symm hne), k3]
    simp only [promise_state.init, List.map_nil, List.append_nil]
    refine all_inv_resolve B N dq inp x st w.states _ w.next w.next t _ j hI hj hcur
      (Nat.le_refl _) (by rw [Function.update_noteq hne, hv]; simp) ?_ ?_ ?_
    · intro k hk hkj
      rw [Function.update_noteq (by omega), Function.update_noteq (by omega)]
    · intro i hi
      have := hin.lt i hi
      rw [Function.update_noteq (by omega), Function.update_noteq (by omega)]
    · intro i hi nx0 hb0 m hm
      have := all_inv_block_any B N dq inp x st _ _ _ hI i nx0 hb0
      have := hI.disjoint i (j + 1) nx0 nx hi hb0 hb
      rw [Function.update_noteq (by omega), Function.update_noteq (by omega)]
  · rw [ht, all_satisfy_then_task, hp, u4, r4, hdq]

/-- The continuation of the level `j + 1` runs on a failed input. -/
theorem all_perform_cont_fail (B N dq : Nat) (inp : Nat → Nat) (x : Nat → expect α U)
    (st : Nat → all_stage) (w : World α U) (t : task α U) (j : Nat) (e : Exn U)
    (hin : all_inputs B N inp)
    (hI : all_inv B N dq inp x st w.states w.next (t :: (w.queues dq).queue_))
    (hdq : w.default_queue_ = dq) (hj : j < N)
    (hcur : all_current B inp x j (st (j + 1)) = some t)
    (hs : st (j + 1) = .start) (hx : x (j + 1) = .exception e) :
    ∃ st2, all_world_inv B N dq inp x st2 (task.perform w t).1 ∧ all_progress N st st2 := by
  have ht : t = all_cont_task B inp j := by
    rw [hs] at hcur
    simpa [all_current] using hcur.symm
  have hnd : st (j + 1) ≠ .done := by rw [hs]; simp
  obtain ⟨p1, p2⟩ := hI.pending (j + 1) (by omega) hnd
  have hi := hI.input_settled j hj (by rw [hs]; simp)
  rw [hx] at hi
  have hp := perform_cont_fail w (B + (j + 1)) (B + j) (inp (j + 1)) e hi
  obtain ⟨r1, r2, r3, r4, _⟩ := set_expect_pending w (B + (j + 1)) dq (.exception e)
    p1 (by rw [p2]; exact all_waiters_queue B dq _ _)
  refine ⟨_, ⟨?_, ?_⟩, all_progress_resolve N st j hj (by rw [hs]; simp)
    (by rw [hs]; simp [all_stage.rank])⟩
  · rw [ht, all_cont_task, hp, r1, r2, r3, p2]
    refine all_inv_resolve B N dq inp x st w.states _ w.next w.next t _ j hI hj hcur
      (Nat.le_refl _) (by rw [all_out_fail x j e hx]; simp) ?_ ?_ ?_
    · intro k hk hkj
      rw [Function.update_noteq (by omega)]
    · intro i hi
      have := hin.lt i hi
      rw [Function.update_noteq (by omega)]
    · intro i _ nx0 hb0 m hm
      have := all_inv_block_any B N dq inp x st _ _ _ hI i nx0 hb0
      rw [Function.update_noteq (by omega)]
  · rw [ht, all_cont_task, hp, r4, hdq]

/-- The continuation of the level `j + 1` runs on the tuple of its input. -/
theorem all_perform_cont_value (B N dq : Nat) (inp : Nat → Nat) (x : Nat → expect α U)
    (st : Nat → all_stage) (w : World α U) (t : task α U) (j : Nat) (tv : List α)
    (hin : all_inputs B N inp)
    (hI : all_inv B N dq inp x st w.states w.next (t :: (w.queues dq).queue_))
    (hdq : w.default_queue_ = dq) (hj : j < N)
    (hcur : all_current B inp x j (st (j + 1)) = some t)
    (hs : st (j + 1) = .start) (hx : x (j + 1) = .value tv) :
    ∃ st2, all_world_inv B N dq inp x st2 (task.perform w t).1 ∧ all_progress N st st2 := by
  have ht : t = all_cont_task B inp j := by
    rw [hs] at hcur
    simpa [all_current] using hcur.symm
  have hnd : st (j + 1) ≠ .done := by rw [hs]; simp
  have hi := hI.input_settled j hj (by rw [hs]; simp)
  rw [hx] at hi
  have hng := hI.next_gt
  have hil := hin.lt
  have hfr : ∀ (states2 : Nat → promise_state α U),
      (∀ i, i < w.next → i ≠ B + j → states2 i = w.states i) →
      (∀ k, k ≤ N → k ≠ j → states2 (B + k) = w.states (B + k)) ∧
      (∀ i, i < N → i ≠ j → states2 (inp (i + 1)) = w.states (inp (i + 1))) ∧
      (states2 (inp (j + 1))).slot = some (x (j + 1)) ∧
      (∀ i, i ≠ j + 1 → ∀ nx0, (st i).block = some nx0 → ∀ m, m < 4 →
        states2 (nx0 + m) = w.states (nx0 + m)) := by
    intro states2 h
    refine ⟨?_, ?_, ?_, ?_⟩
    · intro k hk hkj
      exact h _ (by omega) (by omega)
    · intro i hi _
      have := hil i hi
      exact h _ (by omega) (by omega)
    · have := hil j hj
      rw [h _ (by omega) (by omega), hx]
      exact hi
    · intro i _ nx0 hb0 m hm
      have := all_inv_block_any B N dq inp x st _ _ _ hI i nx0 hb0
      exact h _ (by omega) (by omega)
  have halloc : ∀ s1 : all_stage, s1.block = some w.next → ∀ nx, s1.block = some nx →
      B + N < nx ∧ nx + 4 ≤ w.next + 4 ∧ (∃ t, x (j + 1) = .value t) ∧
      ∀ i, i ≠ j + 1 → ∀ nx0, (st i).block = some nx0 → nx0 + 4 ≤ nx ∨ nx + 4 ≤ nx0 := by
    intro s1 h1 nx h2
    rw [h1] at h2
    cases h2
    refine ⟨hng, Nat.le_refl _, ⟨tv, hx⟩, ?_⟩
    intro i _ nx0 hb0
    have := all_inv_block_any B N dq inp x st _ _ _ hI i nx0 hb0
    omega
  by_cases hdone : st j = .done
  · have hrest := hI.resolved j (by omega) hdone
    obtain ⟨r1, r2, r3, r4, r5, r6, r7, r8⟩ := perform_cont_ready w (B + (j + 1)) (B + j)
      (inp (j + 1)) dq tv _ hi hrest (by omega) hdq
    obtain ⟨f1, f2, f3, f4⟩ := hfr _ (fun i h1 _ => r8 i h1)
    refine ⟨Function.update st (j + 1) (.failer w.next), ⟨?_, ?_⟩,
      all_progress_move N st j _ hj (by simp) (by rw [hs]; simp)
        (by rw [hs]; simp [all_stage.rank])⟩
    · rw [ht, all_cont_task, r1, r3]
      exact all_inv_move B N dq inp x st w.states _ w.next (w.next + 4) (t :: _) _ j
        (.failer w.next) hI hj hnd (by simp) (by omega) f1
        (fun _ => r8 _ (by omega))
        (fun h => absurd hdone h) f2 (fun h => by cases h) (fun _ => f3) f4
        (by
          refine ⟨?_, ?_, ?_, ?_⟩
          · rw [r4, all_completer_task, hx]; rfl
          · rw [r5]; rfl
          · rw [r6]; rfl
          · rw [r7])
        (halloc _ rfl) (fun n h => by cases h) (fun _ _ => hdone) (by rw [hcur]; rfl)
    · rw [ht, all_cont_task, r2]
  · obtain ⟨p1, p2⟩ := hI.pending j (by omega) hdone
    rw [hs] at p2
    obtain ⟨r1, r2, r3, r4, r5, r6, r7, r9, r8⟩ := perform_cont_pending w (B + (j + 1)) (B + j)
      (inp (j + 1)) dq tv hi p1 (by omega) hdq
    obtain ⟨f1, f2, f3, f4⟩ := hfr _ r8
    refine ⟨Function.update st (j + 1) (.waiting w.next), ⟨?_, ?_⟩,
      all_progress_move N st j _ hj (by simp) (by rw [hs]; simp)
        (by rw [hs]; simp [all_stage.rank])⟩
    · rw [ht, all_cont_task, r1, r3]
      have := all_inv_move B N dq inp x st w.states _ w.next (w.next + 4) (t :: _) _ j
        (.waiting w.next) hI hj hnd (by simp) (by omega) f1
        (fun h => absurd h hdone)
        (fun _ => by
          rw [r9, p2]
          exact ⟨rfl, rfl⟩) f2 (fun h => by cases h) (fun _ => f3) f4
        (by
          refine ⟨?_, ?_, ?_, ?_⟩
          · rw [r4, all_completer_task, hx]; rfl
          · rw [r5]; rfl
          · rw [r6]; rfl
          · rw [r7])
        (halloc _ rfl) (fun _ _ => hdone) (fun n h => by cases h) (by rw [hcur]; rfl)
      simpa [all_current] using this
    · rw [ht, all_cont_task, r2]

/-- Whatever closure of `all` is at the head of the queue, running it keeps
the invariant and moves its level on. -/
theorem all_perform (B N dq : Nat) (inp : Nat → Nat) (x : Nat → expect α U)
    (st : Nat → all_stage) (w : World α U) (t : task α U)
    (hin : all_inputs B N inp)
    (hI : all_inv B N dq inp x st w.states w.next (t :: (w.queues dq).queue_))
    (hdq : w.default_queue_ = dq) :
    ∃ st2, all_world_inv B N dq inp x st2 (task.perform w t).1 ∧ all_progress N st st2 := by
  obtain ⟨j, hj, hcur⟩ := hI.queue_sound t (List.mem_cons_self _ _)
  cases hs : st (j + 1) with
  | unsettled => rw [hs] at hcur; cases hcur
  | waiting nx => rw [hs] at hcur; cases hcur
  | done => rw [hs] at hcur; cases hcur
  | start =>
    cases hx : x (j + 1) with
    | value tv => exact all_perform_cont_value B N dq inp x st w t j tv hin hI hdq hj hcur hs hx
    | exception e => exact all_perform_cont_fail B N dq inp x st w t j e hin hI hdq hj hcur hs hx
  | failer nx => exact all_perform_failer B N dq inp x st w t j nx hin hI hdq hj hcur hs
  | completer nx => exact all_perform_completer B N dq inp x st w t j nx hin hI hdq hj hcur hs
  | satisfy_fail nx =>
    exact all_perform_satisfy_fail B N dq inp x st w t j nx hin hI hdq hj hcur hs
  | satisfy_then nx =>
    exact all_perform_satisfy_then B N dq inp x st w t j nx hin hI hdq hj hcur hs

theorem all_measure_lt (N : Nat) (st st2 : Nat → all_stage) (h : all_progress N st st2) :
    all_measure N st2 < all_measure N st := by
  obtain ⟨_, h2, k, hk, h3⟩ := h
  exact Finset.sum_lt_sum (fun i _ => h2 i) ⟨k, Finset.mem_range.mpr (by omega), h3⟩

/-- One turn of the worker keeps the invariant; on a queue that is not empty
it moves one level on. -/
theorem all_turn (B N dq : Nat) (inp : Nat → Nat) (x : Nat → expect α U)
    (st : Nat → all_stage) (w : World α U)
    (hin : all_inputs B N inp) (hI : all_world_inv B N dq inp x st w) :
    ((w.queues dq).queue_ = [] ∧ run_one dq w = w) ∨
    ∃ st2, all_world_inv B N dq inp x st2 (run_one dq w) ∧ all_progress N st st2 := by
  cases hq : (w.queues dq).queue_ with
  | nil =>
    left
    refine ⟨rfl, ?_⟩
    simp [run_one, queue.pop, hq]
  | cons t q0 =>
    right
    obtain ⟨h1, h2⟩ := hI
    rw [hq] at h1
    obtain ⟨st2, ⟨h3, h4⟩, h5⟩ := all_perform B N dq inp x st
      { w with queues := Function.update w.queues dq { w.queues dq with queue_ := q0 } } t hin
      (by simpa using h1) h2
    refine ⟨st2, ⟨?_, ?_⟩, h5⟩
    · simpa [run_one, queue.pop, hq] using h3
    · simpa [run_one, queue.pop, hq] using h4

/-- Settling a pending input schedules the continuation of its level. -/
theorem all_settle (B N dq : Nat) (inp : Nat → Nat) (x : Nat → expect α U)
    (st : Nat → all_stage) (w : World α U) (j : Nat)
    (hin : all_inputs B N inp) (hI : all_world_inv B N dq inp x st w) (hj : j < N)
    (hs : st (j + 1) = .unsettled) :
    all_world_inv B N dq inp x (Function.update st (j + 1) .start)
      (defer.set_expect w (inp (j + 1)) (x (j + 1))).1 := by
  obtain ⟨hI, hdq⟩ := hI
  have hp := hI.input_pending j hj hs
  obtain ⟨r1, r2, r3, r4, _⟩ := set_expect_pending w (inp (j + 1)) dq (x (j + 1))
    (by rw [hp]) (by rw [hp]; simp)
  have hlt := hin.lt j hj
  have hng := hI.next_gt
  refine ⟨?_, by rw [r4, hdq]⟩
  rw [r1, r2, r3, hp]
  have := all_inv_move B N dq inp x st w.states
    (Function.update w.states (inp (j + 1)) { slot := some (x (j + 1)), waiters := [] })
    w.next w.next (w.queues dq).queue_ (w.queues dq).queue_ j .start hI hj
    (by rw [hs]; simp) (by simp) (Nat.le_refl _)
    (fun k _ _ => by rw [Function.update_noteq (by omega)])
    (fun _ => by rw [Function.update_noteq (by omega)])
    (fun hd => by
      rw [Function.update_noteq (by omega)]
      have := hI.pending j (by omega) hd
      rw [hs] at this
      exact this)
    (fun i hi hij => by
      rw [Function.update_noteq (fun h => hij (hin.inj i j hi hj h))])
    (fun h => by cases h)
    (fun _ => by rw [Function.update_same])
    (fun i _ nx0 hb0 m _ => by
      have := all_inv_block_any B N dq inp x st _ _ _ hI i nx0 hb0
      rw [Function.update_noteq (by omega)])
    trivial
    (fun nx h => by cases h)
    (fun n h => by cases h) (fun n h => by cases h)
    (by rw [hs]; rfl)
  simpa [all_current] using this

/-- With an empty queue and every input settled, every level is done. -/
theorem all_terminal (B N dq : Nat) (inp : Nat → Nat) (x : Nat → expect α U)
    (st : Nat → all_stage) (w : World α U)
    (hI : all_world_inv B N dq inp x st w) (hq : (w.queues dq).queue_ = [])
    (hu : ∀ k, st k ≠ .unsettled) : ∀ k, st k = .done := by
  obtain ⟨hI, _⟩ := hI
  intro k
  induction k with
  | zero => exact hI.base
  | succ k ih =>
    by_cases hk : k < N
    · cases hs : st (k + 1) with
      | unsettled => exact absurd hs (hu _)
      | waiting nx => exact absurd ih (hI.waits k nx hs)
      | done => rfl
      | start =>
        have := hI.queue_complete k _ hk (by rw [hs]; rfl)
        rw [hq] at this
        cases this
      | failer nx =>
        have := hI.queue_complete k _ hk (by rw [hs]; rfl)
        rw [hq] at this
        cases this
      | completer nx =>
        have := hI.queue_complete k _ hk (by rw [hs]; rfl)
        rw [hq] at this
        cases this
      | satisfy_fail nx =>
        have := hI.queue_complete k _ hk (by rw [hs]; rfl)
        rw [hq] at this
        cases this
      | satisfy_then nx =>
        have := hI.queue_complete k _ hk (by rw [hs]; rfl)
        rw [hq] at this
        cases this
    · exact hI.above (k + 1) (by omega)

theorem all_stage.rank_zero (s : all_stage) (h : s.rank = 0) : s = .done := by
  cases s <;> simp [all_stage.rank] at h ⊢

theorem all_stage.rank_le (s : all_stage) : s.rank ≤ 5 := by
  cases s <;> simp [all_stage.rank]

theorem all_measure_le (B N dq : Nat) (inp : Nat → Nat) (x : Nat → expect α U)
    (st : Nat → all_stage) (w : World α U) (hI : all_world_inv B N dq inp x st w) :
    all_measure N st ≤ 5 * N := by
  unfold all_measure
  rw [Finset.sum_range_succ', hI.1.base]
  have : ∑ k in Finset.range N, (st (k + 1)).rank ≤ ∑ _k in Finset.range N, 5 :=
    Finset.sum_le_sum (fun i _ => all_stage.rank_le _)
  simp only [Finset.sum_const, Finset.card_range, smul_eq_mul] at this
  have h0 : all_stage.done.rank = 0 := rfl
  rw [h0]
  omega

/-- The worker keeps the invariant; each turn on a queue that is not empty
takes one off the measure. -/
theorem all_drain (B N dq : Nat) (inp : Nat → Nat) (x : Nat → expect α U)
    (hin : all_inputs B N inp) (n : Nat) :
    ∀ (st : Nat → all_stage) (w : World α U), all_world_inv B N dq inp x st w →
      ∃ st2, all_world_inv B N dq inp x st2 (drain dq n w) ∧
        (∀ k, st2 k = .unsettled ↔ st k = .unsettled) ∧
        (((drain dq n w).queues dq).queue_ = [] ∨ all_measure N st2 + n ≤ all_measure N st) := by
  induction n with
  | zero =>
    intro st w hI
    exact ⟨st, hI, fun _ => Iff.rfl, Or.inr (Nat.le_refl _)⟩
  | succ n ih =>
    intro st w hI
    rcases all_turn B N dq inp x st w hin hI with ⟨h1, h2⟩ | ⟨st1, h1, h2⟩
    · refine ⟨st, ?_, fun _ => Iff.rfl, Or.inl ?_⟩
      · rw [drain_empty dq (n + 1) w h1]; exact hI
      · rw [drain_empty dq (n + 1) w h1]; exact h1
    · obtain ⟨st2, h3, h4, h5⟩ := ih st1 (run_one dq w) h1
      refine ⟨st2, h3, fun k => (h4 k).trans (h2.1 k), ?_⟩
      rcases h5 with h5 | h5
      · exact Or.inl h5
      · right
        have := all_measure_lt N st st1 h2
        omega

/-- Once every input is settled, `5 N` turns of the worker resolve the
promise of `all` with its outcome. -/
theorem all_finish (B N dq : Nat) (inp : Nat → Nat) (x : Nat → expect α U)
    (hin : all_inputs B N inp) (st : Nat → all_stage) (w : World α U)
    (hI : all_world_inv B N dq inp x st w) (hu : ∀ k, st k ≠ .unsettled) (n : Nat)
    (hn : 5 * N ≤ n) : ((drain dq n w).states (B + N)).slot = some (all_out x N) := by
  obtain ⟨st2, h1, h2, h3⟩ := all_drain B N dq inp x hin n st w hI
  have hu2 : ∀ k, st2 k ≠ .unsettled := fun k h => hu k ((h2 k).mp h)
  have hdone : st2 N = .done := by
    rcases h3 with h3 | h3
    · exact all_terminal B N dq inp x st2 _ h1 h3 hu2 N
    · have := all_measure_le B N dq inp x st w hI
      have h0 : all_measure N st2 = 0 := by omega
      unfold all_measure at h0
      exact all_stage.rank_zero _ (Finset.sum_eq_zero_iff.mp h0 N (Finset.mem_range.mpr (by omega)))
  exact h1.1.resolved N (Nat.le_refl _) hdone

/-- The promise of `all` is pending or resolved with its outcome. -/
theorem all_result_slot (B N dq : Nat) (inp : Nat → Nat) (x : Nat → expect α U)
    (st : Nat → all_stage) (w : World α U) (hI : all_world_inv B N dq inp x st w) :
    (w.states (B + N)).slot = none ∨ (w.states (B + N)).slot = some (all_out x N) := by
  by_cases h : st N = .done
  · exact Or.inr (hI.1.resolved N (Nat.le_refl _) h)
  · exact Or.inl (hI.1.pending N (Nat.le_refl _) h).1

theorem all_stage_unsettled_range (B N dq : Nat) (inp : Nat → Nat) (x : Nat → expect α U)
    (st : Nat → all_stage) (w : World α U) (hI : all_world_inv B N dq inp x st w) (k : Nat)
    (h : st k = .unsettled) : 1 ≤ k ∧ k ≤ N := by
  constructor
  · cases k with
    | zero => rw [hI.1.base] at h; cases h
    | succ k => omega
  · by_contra hk
    rw [hI.1.above k (by omega)] at h
    cases h

/-- A run of events keeps the invariant; the inputs it settles are no longer
unsettled. -/
theorem all_run_events (B N dq : Nat) (pxs : List (Nat × expect α U)) (hN : pxs.length = N)
    (hin : all_inputs B N (all_input pxs)) (evs : List all_event) :
    ∀ (st : Nat → all_stage) (w : World α U),
      all_world_inv B N dq (all_input pxs) (all_outcome pxs) st w →
      (evs.filterMap all_event.settled).Nodup →
      (∀ i ∈ evs.filterMap all_event.settled, i < N ∧ st (N - i) = .unsettled) →
      ∃ st2, all_world_inv B N dq (all_input pxs) (all_outcome pxs) st2
          (run_events dq pxs evs w) ∧
        ∀ k, st2 k = .unsettled ↔
          (st k = .unsettled ∧ N - k ∉ evs.filterMap all_event.settled) := by
  induction evs with
  | nil =>
    intro st w hI _ _
    exact ⟨st, hI, fun k => by simp⟩
  | cons ev evs ih =>
    intro st w hI hnd hL
    cases ev with
    | turn =>
      simp only [List.filterMap_cons, all_event.settled] at hnd hL ⊢
      simp only [run_events]
      rcases all_turn B N dq _ _ st w hin hI with ⟨_, h2⟩ | ⟨st1, h1, h2⟩
      · rw [h2]
        exact ih st w hI hnd hL
      · obtain ⟨st2, h3, h4⟩ := ih st1 (run_one dq w) h1 hnd
          (fun i hi => ⟨(hL i hi).1, (h2.1 _).mpr (hL i hi).2⟩)
        exact ⟨st2, h3, fun k => by rw [h4 k, h2.1 k]⟩
    | settle i =>
      simp only [List.filterMap_cons, all_event.settled] at hnd hL ⊢
      obtain ⟨hil, hiu⟩ := hL i (List.mem_cons_self _ _)
      have hget : pxs[i]? = some pxs[i] := List.getElem?_eq_getElem (by omega)
      have hj : N - i = (N - i - 1) + 1 := by omega
      have e1 : all_input pxs (N - i - 1 + 1) = pxs[i].1 := by
        have : pxs.length - (N - i - 1 + 1) = i := by omega
        simp only [all_input, this, hget]
      have e2 : all_outcome pxs (N - i - 1 + 1) = pxs[i].2 := by
        have : pxs.length - (N - i - 1 + 1) = i := by omega
        simp only [all_outcome, this, hget]
      rw [hj] at hiu
      have hs := all_settle B N dq _ _ st w (N - i - 1) hin hI (by omega) hiu
      rw [e1, e2] at hs
      simp only [run_events, hget]
      obtain ⟨st2, h3, h4⟩ := ih _ _ hs (List.nodup_cons.mp hnd).2
        (by
          intro i2 hi2
          obtain ⟨a1, a2⟩ := hL i2 (List.mem_cons_of_mem _ hi2)
          have hne : i2 ≠ i := fun h => (List.nodup_cons.mp hnd).1 (h ▸ hi2)
          refine ⟨a1, ?_⟩
          rw [Function.update_noteq (by omega)]
          exact a2)
      refine ⟨st2, h3, fun k => ?_⟩
      rw [h4 k]
      by_cases hk : k = N - i - 1 + 1
      · subst hk
        rw [Function.update_same]
        constructor
        · rintro ⟨h, _⟩; cases h
        · rintro ⟨_, h⟩
          exact absurd (List.mem_cons.mpr (Or.inl (by omega))) h
      · rw [Function.update_noteq hk]
        constructor
        · rintro ⟨h5, h6⟩
          refine ⟨h5, fun h => ?_⟩
          have := all_stage_unsettled_range B N dq _ _ st w hI k h5
          rcases List.mem_cons.mp h with h | h
          · omega
          · exact h6 h
        · rintro ⟨h5, h6⟩
          exact ⟨h5, fun h => h6 (List.mem_cons_of_mem _ h)⟩

/-- The invariant after `all` attached the continuation of one more level,
the level `n + 1`, whose promise is the new pending state `B + (n + 1)`. -/
theorem all_inv_extend (B n dq : Nat) (inp : Nat → Nat) (x : Nat → expect α U)
    (st : Nat → all_stage) (states states2 : Nat → promise_state α U) (next : Nat)
    (qu : List (task α U)) (s1 : all_stage)
    (hI : all_inv B n dq inp x st states next qu)
    (hnb : ∀ k, (st k).block = none)
    (hnext : next = B + n + 1)
    (hs1 : s1 = .start ∨ s1 = .unsettled)
    (hnew : states2 (B + (n + 1)) = promise_state.init)
    (hprom : ∀ k, k ≤ n → states2 (B + k) = states (B + k))
    (hinp : ∀ i, i < n → states2 (inp (i + 1)) = states (inp (i + 1)))
    (hinp1 : s1 = .unsettled →
      states2 (inp (n + 1)) = { slot := none, waiters := [(all_cont_task B inp n, dq)] })
    (hinp2 : s1 = .start → (states2 (inp (n + 1))).slot = some (x (n + 1))) :
    all_inv B (n + 1) dq inp x (Function.update st (n + 1) s1) states2 (next + 1)
      (qu ++ (all_current B inp x n s1).toList) := by
  have hold : st (n + 1) = .done := hI.above (n + 1) (by omega)
  have hb1 : s1.block = none := by rcases hs1 with h | h <;> rw [h] <;> rfl
  have hnd1 : s1 ≠ .done := by rcases hs1 with h | h <;> rw [h] <;> simp
  have hw1 : ∀ k, (all_waiters B dq k s1 : List (task α U × Nat)) = [] := by
    intro k
    rcases hs1 with h | h <;> rw [h] <;> rfl
  have hnb2 : ∀ k, (Function.update st (n + 1) s1 k).block = none := by
    intro k
    by_cases hk : k = n + 1
    · subst hk
      rw [Function.update_same]
      exact hb1
    · rw [Function.update_noteq hk]
      exact hnb k
  have hdis : ∀ i k nx1 nx2, i ≠ k → (Function.update st (n + 1) s1 i).block = some nx1 →
      (Function.update st (n + 1) s1 k).block = some nx2 → nx1 + 4 ≤ nx2 ∨ nx2 + 4 ≤ nx1 := by
    intro i k nx1 nx2 _ h1 _
    rw [hnb2 i] at h1
    cases h1
  have hqstep := all_queue_step B n (n + 1) inp x st (Function.update st (n + 1) s1) n qu qu
    (all_current B inp x n s1).toList (by omega) hI.queue_sound
    (fun i t hi hc => hI.queue_complete i t hi hc)
    (fun i hi => all_current_above B n dq inp x st states next qu hI i hi)
    (by
      intro t
      rw [hold]
      simp [all_current])
    hI.queue_nodup
    (fun i i2 t => all_current_inj B inp x st hI.disjoint i i2 t)
    (fun i i2 t => all_current_inj B inp x _ hdis i i2 t)
    (by
      intro i _ hij
      left
      rw [Function.update_noteq (by omega)])
    (by
      intro t ht
      rw [Function.update_same] at ht
      simp [ht])
    (by
      intro t ht
      refine ⟨n, by omega, ?_, Or.inl rfl⟩
      rw [Function.update_same]
      simpa using ht)
    (by cases all_current B inp x n s1 <;> simp)
  refine
    { next_gt := by have := hI.next_gt; omega
      base := by rw [Function.update_noteq (by omega)]; exact hI.base
      above := fun k hk => by
        rw [Function.update_noteq (by omega)]; exact hI.above k (by omega)
      resolved := ?_
      pending := ?_
      waits := ?_
      ready := ?_
      input_pending := ?_
      input_settled := ?_
      block := ?_
      alloc := ?_
      disjoint := hdis
      queue_sound := hqstep.1
      queue_complete := hqstep.2.1
      queue_nodup := hqstep.2.2 }
  · intro k hk hd
    by_cases hkn : k = n + 1
    · subst hkn
      rw [Function.update_same] at hd
      exact absurd hd hnd1
    · rw [Function.update_noteq hkn] at hd
      rw [hprom k (by omega)]
      exact hI.resolved k (by omega) hd
  · intro k hk hd
    by_cases hkn : k = n + 1
    · subst hkn
      rw [hnew, Function.update_noteq (by omega), hI.above (n + 1 + 1) (by omega)]
      exact ⟨rfl, rfl⟩
    · rw [Function.update_noteq hkn] at hd
      rw [hprom k (by omega)]
      have := hI.pending k (by omega) hd
      by_cases hkn2 : k = n
      · subst hkn2
        rw [Function.update_same, hw1]
        rw [hold] at this
        exact this
      · rw [Function.update_noteq (by omega)]
        exact this
  · intro k nx hw
    have := hnb2 (k + 1)
    rw [hw] at this
    cases this
  · intro k nx hw
    have := hnb2 (k + 1)
    rw [hw] at this
    cases this
  · intro i hi hu
    by_cases hin : i = n
    · subst hin
      rw [Function.update_same] at hu
      exact hinp1 hu
    · rw [Function.update_noteq (by omega)] at hu
      rw [hinp i (by omega)]
      exact hI.input_pending i (by omega) hu
  · intro i hi hu
    by_cases hin : i = n
    · subst hin
      rw [Function.update_same] at hu
      rcases hs1 with h | h
      · exact hinp2 h
      · exact absurd h hu
    · rw [Function.update_noteq (by omega)] at hu
      rw [hinp i (by omega)]
      exact hI.input_settled i (by omega) hu
  · intro i _
    have := hnb2 (i + 1)
    cases hs : Function.update st (n + 1) s1 (i + 1) <;> first | trivial | (rw [hs] at this; cases this)
  · intro i nx hb
    rw [hnb2 (i + 1)] at hb
    cases hb

theorem all_initial_block (w : World α U) (pxs : List (Nat × expect α U)) (n k : Nat) :
    (all_initial w pxs n k).block = none := by
  unfold all_initial
  split
  · split <;> rfl
  · rfl

theorem all_initial_succ (w : World α U) (pxs : List (Nat × expect α U)) (n : Nat) :
    all_initial w pxs (n + 1)
      = Function.update (all_initial w pxs n) (n + 1)
          (match (w.states (all_input pxs (n + 1))).slot with
            | some _ => .start
            | none => .unsettled) := by
  funext k
  by_cases hk : k = n + 1
  · subst hk
    rw [Function.update_same]
    simp [all_initial]
  · rw [Function.update_noteq hk]
    have : (1 ≤ k ∧ k ≤ n + 1) ↔ (1 ≤ k ∧ k ≤ n) := by omega
    simp only [all_initial, this]

theorem all_input_mem (pxs : List (Nat × expect α U)) (j : Nat) (hj : j < pxs.length) :
    ∃ px ∈ pxs, pxs[pxs.length - (j + 1)]? = some px ∧ all_input pxs (j + 1) = px.1 ∧
      all_outcome pxs (j + 1) = px.2 := by
  have h : pxs.length - (j + 1) < pxs.length := by omega
  refine ⟨pxs[pxs.length - (j + 1)], List.getElem_mem h, List.getElem?_eq_getElem h, ?_, ?_⟩
  · simp only [all_input, List.getElem?_eq_getElem h]
  · simp only [all_outcome, List.getElem?_eq_getElem h]

/-- The inputs of `all` are distinct states made before the call. -/
theorem all_inputs_of_list (B : Nat) (pxs : List (Nat × expect α U))
    (hlt : ∀ px ∈ pxs, px.1 < B) (hnd : (pxs.map Prod.fst).Nodup) :
    all_inputs B pxs.length (all_input pxs) := by
  constructor
  · intro j hj
    obtain ⟨px, hm, _, h2, _⟩ := all_input_mem pxs j hj
    rw [h2]
    exact hlt px hm
  · intro i j hi hj h
    obtain ⟨px, _, h1, h2, _⟩ := all_input_mem pxs i hi
    obtain ⟨py, _, h3, h4, _⟩ := all_input_mem pxs j hj
    rw [h2, h4] at h
    have := nodup_fst_index pxs hnd _ _ px py h1 h3 h
    omega

theorem then_promise_ready (w : World α U) (p dq : Nat) (fn : promise_fn α U) (y : expect α U)
    (h : (w.states p).slot = some y) (hlt : p < w.next) :
    (generic_promise.then_promise w p fn dq).1 = w.next
    ∧ (generic_promise.then_promise w p fn dq).2.next = w.next + 1
    ∧ (generic_promise.then_promise w p fn dq).2.default_queue_ = w.default_queue_
    ∧ ((generic_promise.then_promise w p fn dq).2.queues dq).queue_
        = (w.queues dq).queue_ ++ [.then_promise w.next fn p]
    ∧ (generic_promise.then_promise w p fn dq).2.states w.next = promise_state.init
    ∧ (∀ i, i ≠ w.next → (generic_promise.then_promise w p fn dq).2.states i = w.states i) := by
  have hne : p ≠ w.next := by omega
  refine ⟨?_, ?_, ?_, ?_, ?_, ?_⟩ <;>
  simp [generic_promise.then_promise, defer.construct, defer.get_promise, promise_signal.push,
    World.set_state, World.push_task, queue.push, Function.update_apply, hne, h,
    promise_state.init]
  intro i hi
  simp [hi]

theorem then_promise_pending (w : World α U) (p dq : Nat) (fn : promise_fn α U)
    (h : w.states p = promise_state.init) (hlt : p < w.next) :
    (generic_promise.then_promise w p fn dq).1 = w.next
    ∧ (generic_promise.then_promise w p fn dq).2.next = w.next + 1
    ∧ (generic_promise.then_promise w p fn dq).2.default_queue_ = w.default_queue_
    ∧ ((generic_promise.then_promise w p fn dq).2.queues dq).queue_ = (w.queues dq).queue_
    ∧ (generic_promise.then_promise w p fn dq).2.states w.next = promise_state.init
    ∧ (generic_promise.then_promise w p fn dq).2.states p
        = { slot := none, waiters := [(.then_promise w.next fn p, dq)] }
    ∧ (∀ i, i ≠ w.next → i ≠ p →
        (generic_promise.then_promise w p fn dq).2.states i = w.states i) := by
  have hne : p ≠ w.next := by omega
  have hne1 : w.next ≠ p := by omega
  refine ⟨?_, ?_, ?_, ?_, ?_, ?_, ?_⟩ <;>
  simp [generic_promise.then_promise, defer.construct, defer.get_promise, promise_signal.push,
    World.set_state, World.push_task, queue.push, Function.update_apply, hne, hne1, h,
    promise_state.init]
  intro i hi hip
  simp [hi, hip]

/-- The world `all` makes of the last `n` arguments, all of them on the
default queue, which was empty: the promise of `all` is the state
`w.next + n`, and the invariant holds with the stages `all_initial`. -/
theorem all_build (w : World α U) (pxs : List (Nat × expect α U))
    (hps : ∀ px ∈ pxs, px.1 < w.next ∧
      ((w.states px.1).slot = some px.2 ∨ w.states px.1 = promise_state.init))
    (hnd : (pxs.map Prod.fst).Nodup)
    (hq : (w.queues w.default_queue_).queue_ = []) :
    ∀ n, n ≤ pxs.length →
      (all w ((pxs.drop (pxs.length - n)).map Prod.fst)).1 = w.next + n ∧
      (all w ((pxs.drop (pxs.length - n)).map Prod.fst)).2.next = w.next + n + 1 ∧
      all_world_inv w.next n w.default_queue_ (all_input pxs) (all_outcome pxs)
        (all_initial w pxs n) (all w ((pxs.drop (pxs.length - n)).map Prod.fst)).2 ∧
      (∀ i, i < w.next → (∀ k, k < n → i ≠ all_input pxs (k + 1)) →
        (all w ((pxs.drop (pxs.length - n)).map Prod.fst)).2.states i = w.states i) := by
  have hin := all_inputs_of_list w.next pxs (fun px h => (hps px h).1) hnd
  intro n
  induction n with
  | zero =>
    intro _
    have hd : pxs.drop (pxs.length - 0) = [] := by simp
    rw [hd]
    have hst : ∀ k, all_initial w pxs 0 k = .done := by
      intro k
      have : ¬ (1 ≤ k ∧ k ≤ 0) := by omega
      simp only [all_initial, this, if_false]
    refine ⟨?_, ?_, ⟨?_, ?_⟩, ?_⟩
    · simp [all, with_, defer.construct, defer.get_promise]
    · simp [all, with_, defer.construct, defer.set_value, std_promise.set_value, World.set_state,
        promise_signal.done, promise_state.init, World.schedule]
    · refine
        { next_gt := ?_
          base := hst 0
          above := fun k _ => hst k
          resolved := ?_
          pending := fun k _ h => absurd (hst k) h
          waits := fun k nx h => by rw [hst] at h; cases h
          ready := fun k nx h => by rw [hst] at h; cases h
          input_pending := fun j hj => absurd hj (Nat.not_lt_zero j)
          input_settled := fun j hj => absurd hj (Nat.not_lt_zero j)
          block := fun j hj => absurd hj (Nat.not_lt_zero j)
          alloc := fun j nx h => by rw [hst] at h; cases h
          disjoint := fun i j nx1 nx2 _ h => by rw [hst] at h; cases h
          queue_sound := ?_
          queue_complete := fun j t hj => absurd hj (Nat.not_lt_zero j)
          queue_nodup := ?_ }
      · simp [all, with_, defer.construct, defer.set_value, std_promise.set_value,
          World.set_state, promise_signal.done, promise_state.init, World.schedule]
      · intro k hk _
        have : k = 0 := by omega
        subst this
        simp [all, with_, defer.construct, defer.set_value, std_promise.set_value,
          World.set_state, promise_signal.done, promise_state.init, World.schedule, all_out,
          fulfill]
      · simp [all, with_, defer.construct, defer.set_value, std_promise.set_value,
          World.set_state, promise_signal.done, promise_state.init, World.schedule, hq]
      · simp [all, with_, defer.construct, defer.set_value, std_promise.set_value,
          World.set_state, promise_signal.done, promise_state.init, World.schedule, hq]
    · simp [all, with_, defer.construct, defer.set_value, std_promise.set_value,
        World.set_state, promise_signal.done, promise_state.init, World.schedule]
    · intro i hi _
      have : i ≠ w.next := by omega
      simp [all, with_, defer.construct, defer.set_value, std_promise.set_value,
        World.set_state, promise_signal.done, promise_state.init, World.schedule,
        Function.update_apply, this]
  | succ n ih =>
    intro hn
    obtain ⟨i1, i2, ⟨i3, i4⟩, i5⟩ := ih (by omega)
    have hlt : pxs.length - (n + 1) < pxs.length := by omega
    have hd : pxs.drop (pxs.length - (n + 1))
        = pxs[pxs.length - (n + 1)] :: pxs.drop (pxs.length - n) := by
      rw [List.drop_eq_getElem_cons hlt]
      congr 2
      omega
    obtain ⟨px, hm, g1, g2, g3⟩ := all_input_mem pxs n (by omega)
    have hpx : pxs[pxs.length - (n + 1)] = px := by
      have := List.getElem?_eq_getElem hlt
      rw [g1] at this
      exact (Option.some.inj this).symm
    rw [hd, List.map_cons, hpx, ← g2]
    simp only [all]
    generalize all w (List.map Prod.fst (List.drop (pxs.length - n) pxs)) = r at i1 i2 i3 i4 i5 ⊢
    obtain ⟨r1, r2⟩ := r
    simp only at i1 i2 i3 i4 i5 ⊢
    subst i1
    have hplt : all_input pxs (n + 1) < w.next := by rw [g2]; exact (hps px hm).1
    have hpfr : r2.states (all_input pxs (n + 1)) = w.states (all_input pxs (n + 1)) :=
      i5 _ hplt (fun k hk h => by
        have := hin.inj n k (by omega) (by omega) h
        omega)
    have hfrn : ∀ k, k ≤ n → w.next + k ≠ r2.next := by intro k hk; omega
    have hinpn : ∀ i, i < n → all_input pxs (i + 1) ≠ r2.next ∧
        all_input pxs (i + 1) ≠ all_input pxs (n + 1) := by
      intro i hi
      have := hin.lt i (by omega)
      refine ⟨by omega, fun h => ?_⟩
      have := hin.inj i n (by omega) (by omega) h
      omega
    have e3 : w.next + (n + 1) = r2.next := by omega
    have hT : (task.then_promise r2.next (.all_cont (w.next + n)) (all_input pxs (n + 1)) :
        task α U) = all_cont_task w.next (all_input pxs) n := by
      rw [all_cont_task, e3]
    simp only [default_queue, i4]
    rcases (hps px hm).2 with hready | hpend
    · have hs : (r2.states (all_input pxs (n + 1))).slot = some (all_outcome pxs (n + 1)) := by
        rw [hpfr, g2, g3]; exact hready
      obtain ⟨t1, t2, t3, t4, t5, t6⟩ := then_promise_ready r2 (all_input pxs (n + 1))
        w.default_queue_ (.all_cont (w.next + n)) _ hs (by omega)
      have hst : all_initial w pxs (n + 1)
          = Function.update (all_initial w pxs n) (n + 1) .start := by
        rw [all_initial_succ, g2, hready]
      refine ⟨by rw [t1]; omega, by rw [t2]; omega, ⟨?_, by rw [t3]; exact i4⟩, ?_⟩
      · rw [hst, t2, t4, hT]
        exact all_inv_extend w.next n w.default_queue_ _ _ _ r2.states _ r2.next _ .start i3
          (all_initial_block w pxs n) i2 (Or.inl rfl)
          (by rw [e3]; exact t5)
          (fun k hk => t6 _ (hfrn k hk))
          (fun i hi => t6 _ (hinpn i hi).1)
          (fun h => by cases h)
          (fun _ => by rw [t6 _ (by omega)]; exact hs)
      · intro i hi hk
        rw [t6 i (by omega)]
        exact i5 i hi (fun k hk2 => hk k (by omega))
    · have hs : r2.states (all_input pxs (n + 1)) = promise_state.init := by
        rw [hpfr, g2]; exact hpend
      obtain ⟨t1, t2, t3, t4, t5, t7, t6⟩ := then_promise_pending r2 (all_input pxs (n + 1))
        w.default_queue_ (.all_cont (w.next + n)) hs (by omega)
      have hst : all_initial w pxs (n + 1)
          = Function.update (all_initial w pxs n) (n + 1) .unsettled := by
        rw [all_initial_succ, g2, hpend]
        rfl
      refine ⟨by rw [t1]; omega, by rw [t2]; omega, ⟨?_, by rw [t3]; exact i4⟩, ?_⟩
      · rw [hst, t2, t4]
        have := all_inv_extend w.next n w.default_queue_ _ _ _ r2.states _ r2.next _ .unsettled
          i3 (all_initial_block w pxs n) i2 (Or.inr rfl)
          (by rw [e3]; exact t5)
          (fun k hk => t6 _ (hfrn k hk) (by have := hplt; omega))
          (fun i hi => t6 _ (hinpn i hi).1 (hinpn i hi).2)
          (fun _ => by rw [t7, hT])
          (fun h => by cases h)
        simpa [all_current] using this
      · intro i hi hk
        rw [t6 i (by omega) (hk n (by omega))]
        exact i5 i hi (fun k hk2 => hk k (by omega))

theorem all_out_result (pxs : List (Nat × expect α U)) :
    ∀ k, k ≤ pxs.length →
      all_out (all_outcome pxs) k = all_result ((pxs.drop (pxs.length - k)).map Prod.snd) := by
  intro k
  induction k with
  | zero => intro _; simp [all_out, all_result]
  | succ k ih =>
    intro hk
    have hlt : pxs.length - (k + 1) < pxs.length := by omega
    have hd : pxs.drop (pxs.length - (k + 1))
        = pxs[pxs.length - (k + 1)] :: pxs.drop (pxs.length - k) := by
      rw [List.drop_eq_getElem_cons hlt]
      congr 2
      omega
    have hx : all_outcome pxs (k + 1) = pxs[pxs.length - (k + 1)].2 := by
      simp only [all_outcome, List.getElem?_eq_getElem hlt]
    rw [hd, List.map_cons]
    cases h : pxs[pxs.length - (k + 1)].2 with
    | exception e =>
      rw [all_out_fail _ k e (by rw [hx, h])]
      rfl
    | value t =>
      rw [all_out_succ _ k t (by rw [hx, h]), ih (by omega)]
      rfl

theorem all_result_values (ts : List (List α)) :
    all_result (ts.map (fun t => (expect.value t : expect α U))) = .value ts.flatten := by
  induction ts with
  | nil => rfl
  | cons t ts ih => simp [all_result, ih, all_join]

theorem all_result_failure (ts : List (List α)) (e : Exn U) (post : List (expect α U)) :
    all_result (ts.map (fun t => (expect.value t : expect α U)) ++ .exception e :: post)
      = .exception e := by
  induction ts with
  | nil => rfl
  | cons t ts ih => simp [all_result, ih, all_join]

/-- The run of `all` on pending and resolved arguments: the promise of `all`
is `w.next + N`; after any events that settle pending arguments, each at most
once, and any turns of the worker, it is pending or holds the outcome
`all_result`; once every pending argument was settled, `5 N` turns resolve
it. -/
theorem all_run (w : World α U) (pxs : List (Nat × expect α U)) (evs : List all_event)
    (hps : ∀ px ∈ pxs, px.1 < w.next ∧
      ((w.states px.1).slot = some px.2 ∨ w.states px.1 = promise_state.init))
    (hnd : (pxs.map Prod.fst).Nodup)
    (hq : (w.queues w.default_queue_).queue_ = [])
    (hev : (evs.filterMap all_event.settled).Nodup)
    (hev2 : ∀ i ∈ evs.filterMap all_event.settled, all_pending w (pxs.map Prod.fst) i = true) :
    (all w (pxs.map Prod.fst)).1 = w.next + pxs.length ∧
    (∀ n, ((drain w.default_queue_ n
        (run_events w.default_queue_ pxs evs (all w (pxs.map Prod.fst)).2)).states
          (w.next + pxs.length)).slot = none ∨
      ((drain w.default_queue_ n
        (run_events w.default_queue_ pxs evs (all w (pxs.map Prod.fst)).2)).states
          (w.next + pxs.length)).slot = some (all_result (pxs.map Prod.snd))) ∧
    ((∀ i, all_pending w (pxs.map Prod.fst) i = true → i ∈ evs.filterMap all_event.settled) →
      ∀ n, 5 * pxs.length ≤ n →
        ((drain w.default_queue_ n
          (run_events w.default_queue_ pxs evs (all w (pxs.map Prod.fst)).2)).states
            (w.next + pxs.length)).slot = some (all_result (pxs.map Prod.snd))) := by
  have hin := all_inputs_of_list w.next pxs (fun px h => (hps px h).1) hnd
  obtain ⟨b1, _, b3, _⟩ := all_build w pxs hps hnd hq pxs.length (Nat.le_refl _)
  simp only [Nat.sub_self, List.drop_zero] at b1 b3
  have hout := all_out_result pxs pxs.length (Nat.le_refl _)
  simp only [Nat.sub_self, List.drop_zero] at hout
  have hpend : ∀ i, all_pending w (pxs.map Prod.fst) i = true ↔
      (i < pxs.length ∧ all_initial w pxs pxs.length (pxs.length - i) = .unsettled) := by
    intro i
    by_cases hi : i < pxs.length
    · have h1 : (pxs.map Prod.fst)[i]? = some pxs[i].1 := by
        simp [List.getElem?_eq_getElem hi]
      have h2 : 1 ≤ pxs.length - i ∧ pxs.length - i ≤ pxs.length := by omega
      have h3 : pxs.length - (pxs.length - i) = i := by omega
      simp only [all_pending, h1, all_initial, h2, and_self, if_true, all_input, h3,
        List.getElem?_eq_getElem hi, hi, true_and]
      cases (w.states pxs[i].1).slot <;> simp
    · have h1 : (pxs.map Prod.fst)[i]? = none := by
        simp [List.getElem?_eq_none (Nat.le_of_not_lt hi)]
      simp [all_pending, h1, hi]
  obtain ⟨st2, h1, h2⟩ := all_run_events w.next pxs.length w.default_queue_ pxs rfl hin evs _ _ b3
    hev (fun i hi => (hpend i).mp (hev2 i hi))
  refine ⟨b1, ?_, ?_⟩
  · intro n
    obtain ⟨st3, h3, _, _⟩ := all_drain w.next pxs.length w.default_queue_ _ _ hin n st2 _ h1
    rw [← hout]
    exact all_result_slot _ _ _ _ _ st3 _ h3
  · intro hc n hn
    rw [← hout]
    refine all_finish w.next pxs.length w.default_queue_ _ _ hin st2 _ h1 ?_ n hn
    intro k hk
    obtain ⟨h3, h4⟩ := (h2 k).mp hk
    have hr := all_stage_unsettled_range _ _ _ _ _ _ _ b3 k h3
    have : pxs.length - (pxs.length - k) = k := by omega
    exact h4 (hc _ ((hpend _).mpr ⟨by omega, by rw [this]; exact h3⟩))

theorem all_schedule_perm (w : World α U) (ps : List Nat) (evs : List all_event)
    (hev : (evs.filterMap all_event.settled).Perm
      ((List.range ps.length).filter (all_pending w ps))) :
    (evs.filterMap all_event.settled).Nodup ∧
    (∀ i ∈ evs.filterMap all_event.settled, all_pending w ps i = true) ∧
    (∀ i, all_pending w ps i = true → i ∈ evs.filterMap all_event.settled) := by
  refine ⟨hev.nodup_iff.mpr ((List.nodup_range _).filter _), ?_, ?_⟩
  · intro i hi
    exact (List.mem_filter.mp (hev.mem_iff.mp hi)).2
  · intro i hi
    refine hev.mem_iff.mpr (List.mem_filter.mpr ⟨List.mem_range.mpr ?_, hi⟩)
    by_contra hlt
    simp [all_pending, List.getElem?_eq_none (Nat.le_of_not_lt hlt)] at hi

/-! ## Lemmas on the queue and on `parse_stack_frame` -/

theorem queue_run_fifo {T : Type} (U : Type) (calls : List (queue_call T)) :
    ∀ (self : queue T),
      (queue.run U self calls).popped ++ (queue.run U self calls).self.queue_
        = self.queue_ ++ queue_call.pushed calls
      ∧ (queue.run U self calls).self.priority_ = self.priority_
      ∧ (queue.run U self calls).self.notify_ = self.notify_ := by
  induction calls with
  | nil => intro self; simp [queue.run, queue_call.pushed]
  | cons c calls ih =>
    intro self
    cases c with
    | push t =>
      obtain ⟨h1, h2, h3⟩ := ih (self.push t).1
      simp only [queue.run, queue_call.pushed]
      refine ⟨?_, ?_, ?_⟩
      · rw [h1]; simp [queue.push]
      · rw [h2]; rfl
      · rw [h3]; rfl
    | pop =>
      cases hq : self.queue_ with
      | nil =>
        have hp : queue.pop_call U self = (.error .queue_exception, self) := by
          simp [queue.pop_call, queue.pop, hq]
        obtain ⟨h1, h2, h3⟩ := ih self
        simp only [queue.run, queue_call.pushed, hp]
        rw [hq] at h1
        exact ⟨h1, h2, h3⟩
      | cons t rest =>
        have hp : queue.pop_call U self = (.ok t, { self with queue_ := rest }) := by
          simp [queue.pop_call, queue.pop, hq]
        obtain ⟨h1, h2, h3⟩ := ih { self with queue_ := rest }
        simp only [queue.run, queue_call.pushed, hp]
        refine ⟨?_, h2, h3⟩
        simp only [List.cons_append, h1]

theorem queue_run_pushes {T : Type} (U : Type) (ts : List T) (rest : List (queue_call T)) :
    ∀ (self : queue T),
      (queue.run U self (ts.map .push ++ rest)).popped
        = (queue.run U { self with queue_ := self.queue_ ++ ts } rest).popped
      ∧ (queue.run U self (ts.map .push ++ rest)).self
        = (queue.run U { self with queue_ := self.queue_ ++ ts } rest).self := by
  induction ts with
  | nil => intro self; simp
  | cons t ts ih =>
    intro self
    obtain ⟨h1, h2⟩ := ih (self.push t).1
    have e : (t :: ts).map queue_call.push ++ rest
        = queue_call.push t :: (ts.map queue_call.push ++ rest) := rfl
    rw [e]
    simp only [queue.run]
    rw [h1, h2]
    simp [queue.push]

theorem queue_run_pops {T : Type} (U : Type) (ts : List T) :
    ∀ (self : queue T), self.queue_ = ts →
      (queue.run U self (List.replicate ts.length .pop)).popped = ts
      ∧ (queue.run U self (List.replicate ts.length .pop)).self.queue_ = [] := by
  induction ts with
  | nil => intro self h; simp [queue.run, h]
  | cons t ts ih =>
    intro self h
    have hp : queue.pop_call U self = (.ok t, { self with queue_ := ts }) := by
      simp [queue.pop_call, queue.pop, h]
    obtain ⟨h1, h2⟩ := ih { self with queue_ := ts } rfl
    simp only [List.length_cons, List.replicate_succ, queue.run, hp]
    exact ⟨by rw [h1], h2⟩

theorem queue_run_notified {T : Type} (U : Type) (calls : List (queue_call T)) :
    ∀ (self : queue T),
      (∀ cb, self.notify_ = some cb →
        (queue.run U self calls).notified.map Prod.fst
          = List.replicate (queue_call.pushed calls).length cb)
      ∧ (self.notify_ = none → (queue.run U self calls).notified = []) := by
  induction calls with
  | nil => intro self; simp [queue.run, queue_call.pushed]
  | cons c calls ih =>
    intro self
    cases c with
    | push t =>
      obtain ⟨h1, h2⟩ := ih (self.push t).1
      simp only [queue.run, queue_call.pushed]
      refine ⟨?_, ?_⟩
      · intro cb hcb
        rw [List.map_append, h1 cb hcb]
        simp [queue.push, hcb, List.replicate_succ]
      · intro hn
        rw [h2 hn]
        simp [queue.push, hn]
    | pop =>
      have hn : (queue.pop_call U self).2.notify_ = self.notify_ := by
        cases hq : self.queue_ <;> simp [queue.pop_call, queue.pop, hq]
      obtain ⟨h1, h2⟩ := ih (queue.pop_call U self).2
      rw [hn] at h1 h2
      simp only [queue.run, queue_call.pushed]
      cases (queue.pop_call U self).1 <;> exact ⟨h1, h2⟩

theorem strchr_nospace (t : List Char) (ht : ∀ c ∈ t, c ≠ space) (s : List Char) :
    strchr (t ++ s) space = strchr s space := by
  induction t with
  | nil => rfl
  | cons c t ih =>
    have hc : c ≠ space := ht c (List.mem_cons_self _ _)
    simp only [List.cons_append, strchr, hc, if_false]
    exact ih (fun c2 h => ht c2 (List.mem_cons_of_mem _ h))

theorem strchr_nil : strchr [] space = none := rfl

theorem strchr_space (s : List Char) : strchr (space :: s) space = some (space :: s) := by
  simp [strchr]

theorem strspn_spaces (k : Nat) (r : List Char) (hr : r.head? ≠ some space) :
    strspn (List.replicate k space ++ r) [space] = k := by
  induction k with
  | zero =>
    cases r with
    | nil => rfl
    | cons c r =>
      have : c ≠ space := fun h => hr (by simp [h])
      simp [strspn, this]
  | succ k ih => simp [List.replicate_succ, strspn, ih]

theorem head_nospace (t r : List Char) (ht : ∀ c ∈ t, c ≠ space) (h : t ≠ [] ∨ r = []) :
    (t ++ r).head? ≠ some space := by
  cases t with
  | nil =>
    rcases h with h | h
    · exact absurd rfl h
    · subst h; simp
  | cons c t =>
    have : c ≠ space := ht c (List.mem_cons_self _ _)
    simpa using this

/-- A block of `parse_stack_frame` on a run of spaces, a token and one more
space: the token is read and `pos` is left on the space after it. -/
theorem parse_stack_frame_token_more (k : Nat) (t r : List Char) (ht : ∀ c ∈ t, c ≠ space)
    (hne : t ≠ []) :
    parse_stack_frame_token (some (List.replicate k space ++ (t ++ space :: r)))
      = (t, some (space :: r)) := by
  have h1 := strspn_spaces k (t ++ space :: r) (head_nospace t _ ht (Or.inl hne))
  simp only [parse_stack_frame_token, h1, List.drop_left' (List.length_replicate k space),
    strchr_nospace t ht, strchr_space]
  simp

/-- A block of `parse_stack_frame` on a run of spaces and a last token. -/
theorem parse_stack_frame_token_last (k : Nat) (t : List Char) (ht : ∀ c ∈ t, c ≠ space) :
    parse_stack_frame_token (some (List.replicate k space ++ t)) = (t, none) := by
  have h0 := head_nospace t [] ht (Or.inr rfl)
  rw [List.append_nil] at h0
  have h1 := strspn_spaces k t h0
  have h2 := strchr_nospace t ht []
  rw [List.append_nil] at h2
  simp only [parse_stack_frame_token, h1, List.drop_left' (List.length_replicate k space), h2,
    strchr_nil]

theorem isDigit_toNat (c : Char) (h : c.isDigit = true) : 48 ≤ c.toNat ∧ c.toNat ≤ 57 := by
  simp only [Char.isDigit, Bool.and_eq_true, decide_eq_true_eq] at h
  obtain ⟨h1, h2⟩ := h
  have a1 : (48 : UInt32).toNat ≤ c.val.toNat := h1
  have a2 : c.val.toNat ≤ (57 : UInt32).toNat := h2
  exact ⟨a1, a2⟩

theorem isDigit_not_space (c : Char) (h : c.isDigit = true) : isspace c = false := by
  have := isDigit_toNat c h
  simp [isspace]
  omega

theorem isDigit_not_sign (c : Char) (h : c.isDigit = true) :
    c ≠ Char.ofNat 45 ∧ c ≠ Char.ofNat 43 := by
  have := isDigit_toNat c h
  constructor <;> intro e <;> rw [e] at this <;> revert this <;> decide

theorem takeWhile_digits (ds r : List Char) (hd : ∀ c ∈ ds, c.isDigit = true)
    (hr : ∀ c, r.head? = some c → c.isDigit = false) :
    (ds ++ r).takeWhile Char.isDigit = ds := by
  induction ds with
  | nil =>
    cases r with
    | nil => rfl
    | cons c r => simp [List.takeWhile, hr c rfl]
  | cons c ds ih =>
    simp [List.takeWhile, hd c (List.mem_cons_self _ _),
      ih (fun c2 h => hd c2 (List.mem_cons_of_mem _ h))]

theorem strtoul_digits (ds r : List Char) (hne : ds ≠ []) (hd : ∀ c ∈ ds, c.isDigit = true)
    (hr : ∀ c, r.head? = some c → c.isDigit = false) (hv : digits_value ds < 2 ^ 64) :
    strtoul (ds ++ r) = digits_value ds := by
  cases ds with
  | nil => exact absurd rfl hne
  | cons c ds =>
    have hc := hd c (List.mem_cons_self _ _)
    have h1 : ((c :: ds) ++ r).dropWhile isspace = (c :: ds) ++ r := by
      simp [List.dropWhile, isDigit_not_space c hc]
    have h2 := takeWhile_digits (c :: ds) r hd hr
    have h3 := isDigit_not_sign c hc
    unfold strtoul
    simp only [h1]
    simp only [List.cons_append, List.head?_cons, Option.some.injEq, h3.1, h3.2, or_self,
      if_false]
    rw [← List.cons_append, h2]
    simp
    intro h
    omega

theorem strchr_token (t : List Char) (ht : ∀ c ∈ t, c ≠ space) (k : Nat) (r : List Char) :
    strchr (t ++ (List.replicate (k + 1) space ++ r)) space
      = some (List.replicate (k + 1) space ++ r) := by
  rw [strchr_nospace t ht, List.replicate_succ, List.cons_append, strchr_space]

theorem parse_stack_frame_token_next (k k2 : Nat) (t r : List Char) (ht : ∀ c ∈ t, c ≠ space)
    (hne : t ≠ []) :
    parse_stack_frame_token
        (some (List.replicate k space ++ (t ++ (List.replicate (k2 + 1) space ++ r))))
      = (t, some (List.replicate (k2 + 1) space ++ r)) := by
  rw [List.replicate_succ, List.cons_append]
  exact parse_stack_frame_token_more k t _ ht hne

theorem digits_value_append (ds : List Char) (c : Char) :
    digits_value (ds ++ [c]) = 10 * digits_value ds + (c.toNat - 48) := by
  simp [digits_value, List.foldl_append]

theorem digits_value_ofDigits (ds : List Char) :
    digits_value ds = Nat.ofDigits 10 (ds.reverse.map (fun c => c.toNat - 48)) := by
  induction ds using List.reverseRecOn with
  | nil => rfl
  | append_singleton ds c ih =>
    rw [digits_value_append, ih]
    simp [Nat.ofDigits_cons]
    omega

theorem digitChar_value (d : Nat) (hd : d < 10) :
    (Nat.digitChar d).isDigit = true ∧ (Nat.digitChar d).toNat - 48 = d := by
  interval_cases d <;> exact ⟨by decide, by decide⟩

theorem toDigitsCore_spec (fuel : Nat) :
    ∀ (n : Nat) (acc : List Char), n < fuel →
      (∀ c ∈ acc, c.isDigit = true) →
      (∀ c ∈ Nat.toDigitsCore 10 fuel n acc, c.isDigit = true)
      ∧ Nat.toDigitsCore 10 fuel n acc ≠ []
      ∧ (Nat.toDigitsCore 10 fuel n acc).foldl (fun a c => 10 * a + (c.toNat - 48)) 0
          = acc.foldl (fun a c => 10 * a + (c.toNat - 48)) n := by
  induction fuel with
  | zero => intro n acc h; omega
  | succ fuel ih =>
    intro n acc hn hacc
    have hd := digitChar_value (n % 10) (Nat.mod_lt _ (by decide))
    have hacc2 : ∀ c ∈ Nat.digitChar (n % 10) :: acc, c.isDigit = true := by
      intro c hc
      rcases List.mem_cons.mp hc with h | h
      · rw [h]; exact hd.1
      · exact hacc c h
    by_cases h0 : n / 10 = 0
    · have e : Nat.toDigitsCore 10 (fuel + 1) n acc = Nat.digitChar (n % 10) :: acc := by
        simp [Nat.toDigitsCore, h0]
      rw [e]
      refine ⟨hacc2, by simp, ?_⟩
      simp only [List.foldl_cons, hd.2]
      have : n % 10 = n := Nat.mod_eq_of_lt (by omega)
      rw [Nat.mul_zero, Nat.zero_add, this]
    · have e : Nat.toDigitsCore 10 (fuel + 1) n acc
          = Nat.toDigitsCore 10 fuel (n / 10) (Nat.digitChar (n % 10) :: acc) := by
        simp [Nat.toDigitsCore, h0]
      rw [e]
      obtain ⟨i1, i2, i3⟩ := ih (n / 10) (Nat.digitChar (n % 10) :: acc) (by omega) hacc2
      refine ⟨i1, i2, ?_⟩
      rw [i3]
      simp only [List.foldl_cons, hd.2]
      have : 10 * (n / 10) + n % 10 = n := Nat.div_add_mod n 10
      rw [this]

/-- The decimal numeral of `n`, as `Nat.repr` writes it, is made of digits
and its value is `n`. -/
theorem digits_value_repr (n : Nat) :
    (∀ c ∈ (Nat.repr n).toList, c.isDigit = true)
    ∧ (Nat.repr n).toList ≠ []
    ∧ digits_value (Nat.repr n).toList = n := by
  have h := toDigitsCore_spec (n + 1) n [] (Nat.lt_succ_self n) (fun c hc => by cases hc)
  exact h

/-- On a string that starts with decimal digits, `strtoul` gives the number
they write, and `ULONG_MAX` if it does not fit. -/
theorem strtoul_ofDigits (ds r : List Char) (hne : ds ≠ []) (hd : ∀ c ∈ ds, c.isDigit = true)
    (hr : ∀ c, r.head? = some c → c.isDigit = false) :
    strtoul (ds ++ r)
      = min (Nat.ofDigits 10 (ds.reverse.map (fun c => c.toNat - 48))) (2 ^ 64 - 1) := by
  rw [← digits_value_ofDigits]
  by_cases hv : digits_value ds < 2 ^ 64
  · rw [strtoul_digits ds r hne hd hr hv]
    omega
  · cases ds with
    | nil => exact absurd rfl hne
    | cons c ds =>
      have hc := hd c (List.mem_cons_self _ _)
      have h1 : ((c :: ds) ++ r).dropWhile isspace = (c :: ds) ++ r := by
        simp [List.dropWhile, isDigit_not_space c hc]
      have h2 := takeWhile_digits (c :: ds) r hd hr
      have h3 := isDigit_not_sign c hc
      unfold strtoul
      simp only [h1]
      simp only [List.cons_append, List.head?_cons, Option.some.injEq, h3.1, h3.2, or_self,
        if_false]
      rw [← List.cons_append, h2]
      have hge : 2 ^ 64 ≤ digits_value (c :: ds) := Nat.le_of_not_lt hv
      simp only [if_pos hge]
      simp
      omega

/-! ## Lemmas on the runs of `all( list )` -/

/-- The queue after the closure of the index `j` left it and the closures
`pushes` were appended, for any way `cur` to say which closure of an index
is on the queue. -/
theorem task_queue_step (N : Nat) (cur cur2 : Nat → Option (task α U)) (j : Nat)
    (q_old q0 pushes : List (task α U))
    (hsound : ∀ t ∈ q_old, ∃ i, i < N ∧ cur i = some t)
    (hcomplete : ∀ i t, i < N → cur i = some t → t ∈ q_old)
    (hq0 : ∀ t, t ∈ q0 ↔ t ∈ q_old ∧ cur j ≠ some t)
    (hq0n : q0.Nodup)
    (hinj : ∀ i i2 t, cur i = some t → cur i2 = some t → i = i2)
    (hinj2 : ∀ i i2 t, cur2 i = some t → cur2 i2 = some t → i = i2)
    (hother : ∀ i, i < N → i ≠ j → cur2 i = cur i)
    (hself : ∀ t, cur2 j = some t → t ∈ pushes)
    (hpush : ∀ t ∈ pushes, j < N ∧ cur2 j = some t)
    (hpn : pushes.Nodup) :
    (∀ t ∈ q0 ++ pushes, ∃ i, i < N ∧ cur2 i = some t) ∧
    (∀ i t, i < N → cur2 i = some t → t ∈ q0 ++ pushes) ∧
    (q0 ++ pushes).Nodup := by
  have hs0 : ∀ t ∈ q0, ∃ i, i < N ∧ i ≠ j ∧ cur i = some t ∧ cur2 i = some t := by
    intro t ht
    obtain ⟨h1, h2⟩ := (hq0 t).mp ht
    obtain ⟨i, hi, hc⟩ := hsound t h1
    have hij : i ≠ j := fun e => h2 (e ▸ hc)
    exact ⟨i, hi, hij, hc, by rw [hother i hi hij]; exact hc⟩
  refine ⟨?_, ?_, ?_⟩
  · intro t ht
    rcases List.mem_append.mp ht with h | h
    · obtain ⟨i, hi, _, _, hc⟩ := hs0 t h
      exact ⟨i, hi, hc⟩
    · exact ⟨j, (hpush t h).1, (hpush t h).2⟩
  · intro i t hi hc
    by_cases hij : i = j
    · subst hij
      exact List.mem_append_right _ (hself t hc)
    · rw [hother i hi hij] at hc
      refine List.mem_append_left _ ((hq0 t).mpr ⟨hcomplete i t hi hc, fun hjt => ?_⟩)
      exact hij (hinj i j t hc hjt)
  · refine List.nodup_append.mpr ⟨hq0n, hpn, ?_⟩
    intro t h1 h2
    obtain ⟨i0, _, hi0j, _, hc02⟩ := hs0 t h1
    exact hi0j (hinj2 i0 j t hc02 (hpush t h2).2)

/-- Changing the stage of one index changes the count by that index. -/
theorem countP_update (p : list_stage → Bool) (st : Nat → list_stage) (i : Nat) (s : list_stage) :
    ∀ n, i < n →
      (List.range n).countP (fun k => p (Function.update st i s k)) + (if p (st i) then 1 else 0)
        = (List.range n).countP (fun k => p (st k)) + (if p s then 1 else 0) := by
  intro n
  induction n with
  | zero => intro h; omega
  | succ n ih =>
    intro h
    rw [List.range_succ, List.countP_append, List.countP_append]
    by_cases hin : i = n
    · subst hin
      have hcong : (List.range i).countP (fun k => p (Function.update st i s k))
          = (List.range i).countP (fun k => p (st k)) := by
        apply List.countP_congr
        intro k hk
        have : k ≠ i := by
          have := List.mem_range.mp hk
          omega
        simp [Function.update_noteq this]
      rw [hcong]
      simp only [List.countP_cons, List.countP_nil, Function.update_same]
      omega
    · have := ih (by omega)
      simp only [List.countP_cons, List.countP_nil, Function.update_noteq (Ne.symm hin)]
      omega

theorem countP_pos_of_pending (st : Nat → list_stage) (n i : Nat) (hi : i < n)
    (h : (st i).pending = true) : 0 < (List.range n).countP (fun k => (st k).pending) :=
  List.countP_pos_iff.mpr ⟨i, List.mem_range.mpr hi, h⟩

theorem countP_zero_done (st : Nat → list_stage) (n : Nat)
    (h : (List.range n).countP (fun k => (st k).pending) = 0) : ∀ i, i < n → st i = .done := by
  intro i hi
  have := List.countP_eq_zero.mp h i (List.mem_range.mpr hi)
  cases hs : st i <;> simp [hs, list_stage.pending] at this ⊢

theorem list_current_inj (B c : Nat) (pxs : List (Nat × expect α U)) (st : Nat → list_stage)
    (i j : Nat) (t : task α U) (hi : list_current_at B c pxs st i = some t)
    (hj : list_current_at B c pxs st j = some t) : i = j := by
  unfold list_current_at at hi hj
  cases h1 : pxs[i]? with
  | none => rw [h1] at hi; cases hi
  | some px =>
    cases h2 : pxs[j]? with
    | none => rw [h2] at hj; cases hj
    | some py =>
      rw [h1] at hi
      rw [h2] at hj
      cases hsi : st i <;> cases hsj : st j <;>
        simp [hsi, hsj, list_current, all_list_fail_task, all_list_then_task] at hi hj <;>
        subst hi <;>
        simp at hj <;>
        omega

theorem list_block_congr (states states2 : Nat → promise_state α U) (B c dq i : Nat)
    (px : Nat × expect α U) (s : list_stage)
    (h0 : states2 px.1 = states px.1)
    (h1 : states2 (B + 1 + 2 * i) = states (B + 1 + 2 * i))
    (h2 : states2 (B + 1 + 2 * i + 1) = states (B + 1 + 2 * i + 1))
    (hb : list_block states B c dq i px s) : list_block states2 B c dq i px s := by
  cases s <;> simp only [list_block, h0, h1, h2] at hb ⊢ <;> exact hb

theorem list_inputs_index (B : Nat) (pxs : List (Nat × expect α U)) (hin : list_inputs B pxs)
    (i k : Nat) (px py : Nat × expect α U) (hi : pxs[i]? = some px) (hk : pxs[k]? = some py)
    (hne : k ≠ i) : py.1 ≠ px.1 ∧ py.1 < B ∧ px.1 < B ∧ i < pxs.length := by
  refine ⟨fun h => hne (nodup_fst_index pxs hin.nodup k i py px hk hi h),
    hin.lt py (mem_of_index pxs k py hk), hin.lt px (mem_of_index pxs i px hi),
    (List.getElem?_eq_some.mp hi).1⟩

theorem list_current_at_update (B c : Nat) (pxs : List (Nat × expect α U))
    (st : Nat → list_stage) (i : Nat) (s1 : list_stage) (px : Nat × expect α U)
    (hpx : pxs[i]? = some px) :
    list_current_at B c pxs (Function.update st i s1) i = list_current B c i px s1
    ∧ list_current_at B c pxs st i = list_current B c i px (st i)
    ∧ ∀ k, k ≠ i → list_current_at B c pxs (Function.update st i s1) k
        = list_current_at B c pxs st k := by
  refine ⟨?_, ?_, ?_⟩
  · simp [list_current_at, hpx]
  · simp [list_current_at, hpx]
  · intro k hk
    simp [list_current_at, Function.update_noteq hk]

/-- The invariant is kept when an input that `part_completion` was not
called for moves to another such stage. -/
theorem list_inv_move (B c dq : Nat) (mv : List α → α) (pxs : List (Nat × expect α U))
    (st : Nat → list_stage) (states states2 : Nat → promise_state α U)
    (q_old q0 : List (task α U)) (r : combine α U) (i : Nat) (px : Nat × expect α U)
    (s1 : list_stage)
    (hin : list_inputs B pxs)
    (hI : list_inv B c dq mv pxs st states q_old r)
    (hpx : pxs[i]? = some px)
    (hs : (st i).pending = true) (hs1 : s1.pending = true)
    (hfr : ∀ k, k ≠ px.1 → k ≠ B + 1 + 2 * i → k ≠ B + 1 + 2 * i + 1 → states2 k = states k)
    (hblk : list_block states2 B c dq i px s1)
    (hq : q_old = (list_current B c i px (st i)).toList ++ q0) :
    list_inv B c dq mv pxs (Function.update st i s1) states2
      (q0 ++ (list_current B c i px s1).toList) r := by
  have hil : i < pxs.length := (List.getElem?_eq_some.mp hpx).1
  have hpxB : px.1 < B := hin.lt px (mem_of_index pxs i px hpx)
  have hnd : st i ≠ .done := fun h => by rw [h] at hs; cases hs
  have hnd1 : s1 ≠ .done := fun h => by rw [h] at hs1; cases hs1
  obtain ⟨c1, c2, c3⟩ := list_current_at_update B c pxs st i s1 px hpx
  have hqn := hI.queue_nodup
  rw [hq] at hqn
  have hq0n : q0.Nodup := (List.nodup_append.mp hqn).2.1
  have hqstep := task_queue_step pxs.length (list_current_at B c pxs st)
    (list_current_at B c pxs (Function.update st i s1)) i q_old q0
    (list_current B c i px s1).toList hI.queue_sound hI.queue_complete
    (by
      intro t
      rw [hq, c2]
      constructor
      · intro ht
        refine ⟨List.mem_append_right _ ht, fun hc => ?_⟩
        rw [hc] at hqn
        exact (List.nodup_append.mp hqn).2.2 (by simp) ht
      · rintro ⟨h1, h2⟩
        rcases List.mem_append.mp h1 with h | h
        · simp at h
          exact absurd h h2
        · exact h)
    hq0n
    (fun a b t => list_current_inj B c pxs st a b t)
    (fun a b t => list_current_inj B c pxs _ a b t)
    (fun k _ hk => c3 k hk)
    (by
      intro t ht
      rw [c1] at ht
      simp [ht])
    (by
      intro t ht
      refine ⟨hil, ?_⟩
      rw [c1]
      simpa using ht)
    (by cases list_current B c i px s1 <;> simp)
  have hcnt := countP_update list_stage.pending st i s1 pxs.length hil
  rw [hs, hs1] at hcnt
  have hpos := countP_pos_of_pending (Function.update st i s1) pxs.length i hil
    (by rw [Function.update_same]; exact hs1)
  refine
    { above := fun k hk => by rw [Function.update_noteq (by omega)]; exact hI.above k hk
      deferred := hI.deferred
      make_vector := hI.make_vector
      length := hI.length
      counter := by rw [hI.counter]; omega
      slots := ?_
      failure := ?_
      block := ?_
      queue_sound := hqstep.1
      queue_complete := hqstep.2.1
      queue_nodup := hqstep.2.2
      result_pending := ?_
      result_resolved := ?_ }
  · intro k py hk
    by_cases hki : k = i
    · subst hki
      rw [Function.update_same, hI.slots k py hk]
      simp [hnd, hnd1]
    · rw [Function.update_noteq hki]
      exact hI.slots k py hk
  · rw [hI.failure]
    constructor
    · rintro ⟨k, py, h1, h2, h3⟩
      have hki : k ≠ i := fun h => hnd (h ▸ h2)
      exact ⟨k, py, h1, by rw [Function.update_noteq hki]; exact h2, h3⟩
    · rintro ⟨k, py, h1, h2, h3⟩
      have hki : k ≠ i := fun h => by
        subst h
        rw [Function.update_same] at h2
        exact hnd1 h2
      rw [Function.update_noteq hki] at h2
      exact ⟨k, py, h1, h2, h3⟩
  · intro k py hk
    by_cases hki : k = i
    · subst hki
      rw [hpx] at hk
      cases hk
      rw [Function.update_same]
      exact hblk
    · rw [Function.update_noteq hki]
      obtain ⟨a1, a2, a3, _⟩ := list_inputs_index B pxs hin i k px py hpx hk hki
      exact list_block_congr states states2 B c dq k py _
        (hfr _ a1 (by omega) (by omega))
        (hfr _ (by omega) (by omega) (by omega))
        (hfr _ (by omega) (by omega) (by omega))
        (hI.block k py hk)
  · intro _
    rw [hfr B (by omega) (by omega) (by omega)]
    refine hI.result_pending (Or.inl ?_)
    rw [hI.counter]
    exact countP_pos_of_pending st pxs.length i hil hs
  · intro h0
    rw [hI.counter] at h0
    omega

/-- The invariant is kept when `part_completion` is called for the input of
index `i`: its slot gets its outcome, the counter goes down by one, the flag
is set if the input failed, and the result is resolved if the counter was
one. -/
theorem list_inv_done (B c dq : Nat) (mv : List α → α) (pxs : List (Nat × expect α U))
    (st : Nat → list_stage) (states states2 : Nat → promise_state α U)
    (t : task α U) (q0 : List (task α U)) (r r2 : combine α U) (i : Nat)
    (px : Nat × expect α U)
    (hin : list_inputs B pxs)
    (hI : list_inv B c dq mv pxs st states (t :: q0) r)
    (hpx : pxs[i]? = some px)
    (hcur : list_current B c i px (st i) = some t)
    (hr1 : r2.deferred = r.deferred) (hr2 : r2.make_vector = r.make_vector)
    (hr3 : r2.expect_returns = r.expect_returns.set i (some px.2))
    (hr4 : r2.counter = (r.counter + (2 ^ 64 - 1)) % 2 ^ 64)
    (hr5 : r2.any_failure = (r.any_failure || px.2.has_exception))
    (hfr : ∀ k, k ≠ B → k ≠ B + 1 + 2 * i → k ≠ B + 1 + 2 * i + 1 → states2 k = states k)
    (hB1 : r.counter = 1 → (states2 B).slot = some (list_result c r2))
    (hB2 : r.counter ≠ 1 → states2 B = states B)
    (hdone : px.2.has_exception = true →
      states2 (B + 1 + 2 * i)
        = { slot := none, waiters := [(all_list_then_task c i (B + 1 + 2 * i), dq)] }) :
    list_inv B c dq mv pxs (Function.update st i .done) states2 q0 r2 := by
  have hil : i < pxs.length := (List.getElem?_eq_some.mp hpx).1
  have hs : (st i).pending = true := by
    cases h : st i <;> simp [h, list_current, list_stage.pending] at hcur ⊢
  have hnd : st i ≠ .done := fun h => by rw [h] at hs; cases hs
  obtain ⟨c1, c2, c3⟩ := list_current_at_update B c pxs st i .done px hpx
  have hqn := hI.queue_nodup
  have hq0n : q0.Nodup := (List.nodup_cons.mp hqn).2
  have htq0 : t ∉ q0 := (List.nodup_cons.mp hqn).1
  have hqstep := task_queue_step pxs.length (list_current_at B c pxs st)
    (list_current_at B c pxs (Function.update st i .done)) i (t :: q0) q0 []
    hI.queue_sound hI.queue_complete
    (by
      intro t2
      rw [c2, hcur]
      constructor
      · intro ht
        exact ⟨List.mem_cons_of_mem _ ht, fun hc => htq0 (by cases hc; exact ht)⟩
      · rintro ⟨h1, h2⟩
        rcases List.mem_cons.mp h1 with h | h
        · exact absurd (by rw [h]) h2
        · exact h)
    hq0n
    (fun a b t => list_current_inj B c pxs st a b t)
    (fun a b t => list_current_inj B c pxs _ a b t)
    (fun k _ hk => c3 k hk)
    (by
      intro t2 ht2
      rw [c1] at ht2
      cases ht2)
    (by intro t2 ht2; cases ht2)
    List.nodup_nil
  rw [List.append_nil] at hqstep
  have hcnt := countP_update list_stage.pending st i .done pxs.length hil
  rw [hs] at hcnt
  have hdp : list_stage.pending .done = false := rfl
  rw [hdp] at hcnt
  simp only [if_true, Bool.false_eq_true, if_false] at hcnt
  have hle : (List.range pxs.length).countP (fun k => (st k).pending) ≤ pxs.length := by
    have := List.countP_le_length (fun k => (st k).pending) (l := List.range pxs.length)
    rwa [List.length_range] at this
  have hsz := hin.size
  have hcnt2 : r2.counter + 1 = r.counter := by
    rw [hr4, hI.counter]
    omega
  have hcntnew : r2.counter
      = (List.range pxs.length).countP (fun k => (Function.update st i .done k).pending) := by
    have := hI.counter
    omega
  refine
    { above := fun k hk => by rw [Function.update_noteq (by omega)]; exact hI.above k hk
      deferred := by rw [hr1]; exact hI.deferred
      make_vector := by rw [hr2]; exact hI.make_vector
      length := by rw [hr3, List.length_set]; exact hI.length
      counter := hcntnew
      slots := ?_
      failure := ?_
      block := ?_
      queue_sound := hqstep.1
      queue_complete := hqstep.2.1
      queue_nodup := hqstep.2.2
      result_pending := ?_
      result_resolved := ?_ }
  · intro k py hk
    rw [hr3]
    by_cases hki : k = i
    · subst hki
      rw [hpx] at hk
      cases hk
      rw [Function.update_same]
      simp [List.getElem?_set, hI.length, hil]
    · rw [Function.update_noteq hki, List.getElem?_set_ne (Ne.symm hki)]
      exact hI.slots k py hk
  · rw [hr5, Bool.or_eq_true, hI.failure]
    constructor
    · rintro (⟨k, py, h1, h2, h3⟩ | h)
      · have hki : k ≠ i := fun h => hnd (h ▸ h2)
        exact ⟨k, py, h1, by rw [Function.update_noteq hki]; exact h2, h3⟩
      · exact ⟨i, px, hpx, Function.update_same _ _ _, h⟩
    · rintro ⟨k, py, h1, h2, h3⟩
      by_cases hki : k = i
      · subst hki
        rw [hpx] at h1
        cases h1
        exact Or.inr h3
      · rw [Function.update_noteq hki] at h2
        exact Or.inl ⟨k, py, h1, h2, h3⟩
  · intro k py hk
    by_cases hki : k = i
    · subst hki
      rw [hpx] at hk
      cases hk
      rw [Function.update_same]
      exact hdone
    · rw [Function.update_noteq hki]
      obtain ⟨a1, a2, a3, _⟩ := list_inputs_index B pxs hin i k px py hpx hk hki
      exact list_block_congr states states2 B c dq k py _
        (hfr _ (by omega) (by omega) (by omega))
        (hfr _ (by omega) (by omega) (by omega))
        (hfr _ (by omega) (by omega) (by omega))
        (hI.block k py hk)
  · intro h
    have hne : pxs ≠ [] := fun e => by rw [e] at hil; simp at hil
    have h0 : 0 < r2.counter := by
      rcases h with h | h
      · exact h
      · exact absurd h hne
    rw [hB2 (by omega)]
    exact hI.result_pending (Or.inl (by omega))
  · intro h0 _
    exact hB1 (by omega)

theorem schedule_combines (w : World α U) (l : List (task α U × Nat)) :
    (World.schedule w l).combines = w.combines := by
  induction l generalizing w with
  | nil => rfl
  | cons a l ih => obtain ⟨t, qu⟩ := a; simp [World.schedule, ih, World.push_task]

theorem set_expect_combines (w : World α U) (d : Nat) (y : expect α U) :
    (defer.set_expect w d y).1.combines = w.combines := by
  cases y <;> cases h : (w.states d).slot <;>
  simp [defer.set_expect, defer.set_value, defer.set_exception, std_promise.set_value, h,
    promise_signal.done, schedule_combines, World.set_state]

theorem perform_fail_value (w : World α U) (nx p : Nat) (fn : fail_void_fn U) (t : List α)
    (h : (w.states p).slot = some (.value t)) :
    task.perform w (.fail_void nx fn p) = defer.set_expect w nx (.value t) := by
  simp only [task.perform, promise_state.consume, h, defer.set_expect]

/-- The `resolver` of `all( list )` on a pending result. -/
theorem resolver_spec (w : World α U) (dq c : Nat) (r : combine α U)
    (hc : w.combines c = some r)
    (hB : w.states r.deferred = promise_state.init) :
    (resolver w c).1.combines = w.combines
    ∧ ((resolver w c).1.queues dq).queue_ = (w.queues dq).queue_
    ∧ (resolver w c).1.states = Function.update w.states r.deferred
          { slot := some (list_result c r), waiters := [] }
    ∧ (resolver w c).2 = none := by
  cases hf : r.any_failure <;>
  refine ⟨?_, ?_, ?_, ?_⟩ <;>
  simp [resolver, hc, hf, defer.set_exception, defer.set_value, std_promise.set_value, hB,
    promise_state.init, promise_signal.done, World.schedule, World.set_state, list_result,
    fulfill, refuse]

/-- The `part_completion` closure of `all( list )`: the slot is stored, the
counter decremented, and the last completion resolves the result. -/
theorem part_completion_spec (w : World α U) (dq c i : Nat) (data : expect α U)
    (r r2 : combine α U)
    (hr2 : r2 = { r with
            expect_returns := r.expect_returns.set i (some data)
            counter := (r.counter + (2 ^ 64 - 1)) % 2 ^ 64 })
    (hc : w.combines c = some r)
    (hi : i < r.expect_returns.length)
    (hB : r.counter = 1 → w.states r.deferred = promise_state.init) :
    (part_completion w c i data).1.combines = Function.update w.combines c (some r2)
    ∧ ((part_completion w c i data).1.queues dq).queue_ = (w.queues dq).queue_
    ∧ (r.counter = 1 → (part_completion w c i data).1.states
          = Function.update w.states r.deferred
              { slot := some (list_result c r2), waiters := [] })
    ∧ (r.counter ≠ 1 → (part_completion w c i data).1.states = w.states)
    ∧ (part_completion w c i data).2 = none := by
  have e : part_completion w c i data
      = if r.counter = 1
        then resolver { w with combines := Function.update w.combines c (some r2) } c
        else ({ w with combines := Function.update w.combines c (some r2) }, none) := by
    unfold part_completion
    rw [hc, hr2]
    simp only [if_pos hi]
  rw [e]
  by_cases hcnt : r.counter = 1
  · rw [if_pos hcnt]
    have hd : r2.deferred = r.deferred := by rw [hr2]
    have s := resolver_spec { w with combines := Function.update w.combines c (some r2) } dq c r2
      (by simp) (by rw [hd]; exact hB hcnt)
    rw [hd] at s
    exact ⟨s.1, s.2.1, fun _ => s.2.2.1, fun h => absurd hcnt h, s.2.2.2⟩
  · rw [if_neg hcnt]
    exact ⟨rfl, rfl, fun h => absurd h hcnt, fun _ => rfl, rfl⟩

/-- The closure of the `fail` of an input of `all( list )` runs on a failed
input. -/
theorem perform_all_fail (w : World α U) (dq nx p i c : Nat) (e : Exn U) (r r2 : combine α U)
    (hr2 : r2 = { r with
            any_failure := true
            expect_returns := r.expect_returns.set i (some (.exception e))
            counter := (r.counter + (2 ^ 64 - 1)) % 2 ^ 64 })
    (h : (w.states p).slot = some (.exception e))
    (hc : w.combines c = some r)
    (hi : i < r.expect_returns.length)
    (hB : r.counter = 1 → w.states r.deferred = promise_state.init) :
    (task.perform w (.fail_void nx (.all_fail i c) p)).1.combines
      = Function.update w.combines c (some r2)
    ∧ ((task.perform w (.fail_void nx (.all_fail i c) p)).1.queues dq).queue_
        = (w.queues dq).queue_
    ∧ (r.counter = 1 → (task.perform w (.fail_void nx (.all_fail i c) p)).1.states
          = Function.update w.states r.deferred
              { slot := some (list_result c r2), waiters := [] })
    ∧ (r.counter ≠ 1 → (task.perform w (.fail_void nx (.all_fail i c) p)).1.states = w.states) := by
  have s := part_completion_spec
    { w with combines := Function.update w.combines c (some { r with any_failure := true }) }
    dq c i (refuse e) { r with any_failure := true } r2 (by rw [hr2]; rfl) (by simp) hi hB
  have e1 : task.perform w (.fail_void nx (.all_fail i c) p)
      = ((part_completion
          { w with combines := Function.update w.combines c (some { r with any_failure := true }) }
          c i (refuse e)).1, none) := by
    simp only [task.perform, promise_state.consume, h, fail_void_fn.invoke, hc]
    rcases hpc : part_completion
      { w with combines := Function.update w.combines c (some { r with any_failure := true }) }
      c i (refuse e) with ⟨a, b⟩
    have hb := s.2.2.2.2
    rw [hpc] at hb
    simp only at hb
    subst hb
    rfl
  rw [e1]
  refine ⟨?_, s.2.1, s.2.2.1, s.2.2.2.1⟩
  rw [s.1]
  simp

/-- The closure of the `then` of an input of `all( list )` runs on the value
of the input. -/
theorem perform_all_then (w : World α U) (dq nx i c : Nat) (tv : List α) (r r2 : combine α U)
    (hr2 : r2 = { r with
            expect_returns := r.expect_returns.set i (some (.value tv))
            counter := (r.counter + (2 ^ 64 - 1)) % 2 ^ 64 })
    (h : (w.states nx).slot = some (.value tv))
    (hn : w.states (nx + 1) = promise_state.init)
    (hd : r.deferred ≠ nx + 1)
    (hc : w.combines c = some r)
    (hi : i < r.expect_returns.length)
    (hB : r.counter = 1 → w.states r.deferred = promise_state.init) :
    (task.perform w (.then_value (nx + 1) (.all_then i c) nx)).1.combines
      = Function.update w.combines c (some r2)
    ∧ ((task.perform w (.then_value (nx + 1) (.all_then i c) nx)).1.queues dq).queue_
        = (w.queues dq).queue_
    ∧ (r.counter = 1 → (task.perform w (.then_value (nx + 1) (.all_then i c) nx)).1.states
          = Function.update
              (Function.update w.states r.deferred
                { slot := some (list_result c r2), waiters := [] })
              (nx + 1) { slot := some (.value []), waiters := [] })
    ∧ (r.counter ≠ 1 → (task.perform w (.then_value (nx + 1) (.all_then i c) nx)).1.states
          = Function.update w.states (nx + 1) { slot := some (.value []), waiters := [] }) := by
  have s := part_completion_spec w dq c i (fulfill tv) r r2 hr2 hc hi hB
  have e1 : task.perform w (.then_value (nx + 1) (.all_then i c) nx)
      = defer.set_expect (part_completion w c i (fulfill tv)).1 (nx + 1) (.value []) := by
    simp only [task.perform, promise_state.consume, h, defer.set_by_fun, value_fn.invoke]
    rcases hpc : part_completion w c i (fulfill tv) with ⟨a, b⟩
    have hb := s.2.2.2.2
    rw [hpc] at hb
    simp only at hb
    subst hb
    simp only [defer.set_expect]
    rcases hsv : defer.set_value a (nx + 1) [] with ⟨a2, b2⟩
    have hslot : (a.states (nx + 1)).slot = none := by
      by_cases hcnt : r.counter = 1
      · have := s.2.2.1 hcnt
        rw [hpc] at this
        simp only at this
        rw [this, Function.update_noteq hd.symm, hn]
        rfl
      · have := s.2.2.2.1 hcnt
        rw [hpc] at this
        simp only at this
        rw [this, hn]
        rfl
    have := (set_expect_pending a (nx + 1) dq (.value []) hslot (by
      by_cases hcnt : r.counter = 1
      · have := s.2.2.1 hcnt
        rw [hpc] at this
        simp only at this
        rw [this, Function.update_noteq hd.symm, hn]
        simp [promise_state.init]
      · have := s.2.2.2.1 hcnt
        rw [hpc] at this
        simp only at this
        rw [this, hn]
        simp [promise_state.init])).2.2.2.2
    simp only [defer.set_expect] at this
    rw [hsv] at this
    simp only at this
    subst this
    rfl
  rw [e1]
  have hst : ∀ k, k = nx + 1 → ((part_completion w c i (fulfill tv)).1.states k).slot = none ∧
      ((part_completion w c i (fulfill tv)).1.states k).waiters = [] := by
    intro k hk
    subst hk
    by_cases hcnt : r.counter = 1
    · rw [s.2.2.1 hcnt, Function.update_noteq hd.symm, hn]
      exact ⟨rfl, rfl⟩
    · rw [s.2.2.2.1 hcnt, hn]
      exact ⟨rfl, rfl⟩
  obtain ⟨p1, _, p3, _, _⟩ := set_expect_pending (part_completion w c i (fulfill tv)).1 (nx + 1) dq
    (.value []) (hst _ rfl).1 (by rw [(hst _ rfl).2]; simp)
  refine ⟨?_, ?_, ?_, ?_⟩
  · rw [set_expect_combines, s.1]
  · rw [p3, (hst _ rfl).2, s.2.1]
    simp
  · intro hcnt
    rw [p1, s.2.2.1 hcnt]
  · intro hcnt
    rw [p1, s.2.2.2.1 hcnt]

theorem list_progress_update (n : Nat) (st : Nat → list_stage) (i : Nat) (s1 : list_stage)
    (hi : i < n) (h1 : st i ≠ .unsettled) (h2 : s1 ≠ .unsettled)
    (hr : s1.rank < (st i).rank) : list_progress n st (Function.update st i s1) := by
  refine ⟨fun k => ?_, fun k => ?_, i, hi, ?_⟩
  · by_cases hk : k = i
    · subst hk
      rw [Function.update_same]
      exact ⟨fun h => absurd h h2, fun h => absurd h h1⟩
    · rw [Function.update_noteq hk]
  · by_cases hk : k = i
    · subst hk
      rw [Function.update_same]
      exact Nat.le_of_lt hr
    · rw [Function.update_noteq hk]
  · rw [Function.update_same]
    exact hr

theorem list_done_update (st : Nat → list_stage) (i k : Nat) (h : st i ≠ .done) :
    k ∈ [i] ↔ (Function.update st i .done k = .done ∧ st k ≠ .done) := by
  by_cases hk : k = i
  · subst hk
    simp [h]
  · simp [hk, Function.update_noteq hk]

theorem list_pending_update (st : Nat → list_stage) (i k : Nat) (s1 : list_stage)
    (h : s1 ≠ .done) :
    k ∈ ([] : List Nat) ↔ (Function.update st i s1 k = .done ∧ st k ≠ .done) := by
  by_cases hk : k = i
  · subst hk
    simp [h]
  · simp [hk, Function.update_noteq hk]

/-- Running the closure at the head of the queue keeps the invariant and
moves its input on; it calls `part_completion` exactly when the input
becomes done. -/
theorem list_perform (B c dq : Nat) (mv : List α → α) (pxs : List (Nat × expect α U))
    (st : Nat → list_stage) (w : World α U) (t : task α U) (r : combine α U)
    (hin : list_inputs B pxs)
    (hc : w.combines c = some r)
    (hI : list_inv B c dq mv pxs st w.states (t :: (w.queues dq).queue_) r) :
    ∃ st2, list_world_inv B c dq mv pxs st2 (task.perform w t).1 ∧
      list_progress pxs.length st st2 ∧
      ∀ k, k ∈ (task.completion w t).toList ↔ (st2 k = .done ∧ st k ≠ .done) := by
  obtain ⟨i, hi, hcur⟩ := hI.queue_sound t (List.mem_cons_self _ _)
  have hget : pxs[i]? = some pxs[i] := List.getElem?_eq_getElem hi
  simp only [list_current_at, hget] at hcur
  have hblk := hI.block i pxs[i] hget
  have hpxB : pxs[i].1 < B := hin.lt _ (List.getElem_mem _)
  have hrl : i < r.expect_returns.length := by rw [hI.length]; exact hi
  have hcpos : 0 < r.counter := by
    rw [hI.counter]
    refine countP_pos_of_pending st pxs.length i hi ?_
    cases hs : st i <;> simp [hs, list_current, list_stage.pending] at hcur ⊢
  have hBp : r.counter = 1 → w.states r.deferred = promise_state.init := fun _ => by
    rw [hI.deferred]
    exact hI.result_pending (Or.inl hcpos)
  cases hs : st i with
  | unsettled => rw [hs] at hcur; cases hcur
  | done => rw [hs] at hcur; cases hcur
  | fail_queued =>
    rw [hs] at hblk
    obtain ⟨b1, b2, b3⟩ := hblk
    have ht : t = .fail_void (B + 1 + 2 * i) (.all_fail i c) pxs[i].1 := by
      rw [hs] at hcur
      simp only [list_current, all_list_fail_task, Option.some.injEq] at hcur
      exact hcur.symm
    cases hx : pxs[i].2 with
    | value tv =>
      rw [hx] at b1
      refine ⟨Function.update st i .then_queued, ⟨r, ?_, ?_⟩,
        list_progress_update _ st i _ hi (by rw [hs]; simp) (by simp)
          (by rw [hs]; simp [list_stage.rank]), fun k => ?_⟩
      rotate_right
      · rw [ht]
        simp only [task.completion, promise_state.consume, b1, Option.toList]
        exact list_pending_update st i k _ (by simp)
      · rw [ht, perform_fail_value w _ _ _ tv b1, set_expect_combines]
        exact hc
      · rw [ht, perform_fail_value w _ _ _ tv b1]
        obtain ⟨p1, _, p3, _, _⟩ := set_expect_pending w (B + 1 + 2 * i) dq (.value tv)
          (by rw [b2]) (by rw [b2]; simp)
        rw [p1, p3, b2]
        have := list_inv_move B c dq mv pxs st w.states
          (Function.update w.states (B + 1 + 2 * i) { slot := some (.value tv), waiters := [] })
          (t :: (w.queues dq).queue_) (w.queues dq).queue_ r i pxs[i] .then_queued hin hI hget
          (by rw [hs]; rfl) rfl
          (fun k _ h2 _ => by rw [Function.update_noteq h2])
          ⟨by rw [hx]; rfl, by rw [Function.update_same, hx],
            by rw [Function.update_noteq (by omega)]; exact b3⟩
          (by rw [hs]; simp [list_current, all_list_fail_task, ht])
        simpa [list_current] using this
    | exception e =>
      rw [hx] at b1
      obtain ⟨p1, p2, p3, p4⟩ := perform_all_fail w dq (B + 1 + 2 * i) pxs[i].1 i c e r _ rfl b1
        hc hrl hBp
      refine ⟨Function.update st i .done, ⟨_, by rw [ht, p1, Function.update_same], ?_⟩,
        list_progress_update _ st i _ hi (by rw [hs]; simp) (by simp)
          (by rw [hs]; simp [list_stage.rank]), fun k => ?_⟩
      rotate_right
      · rw [ht]
        simp only [task.completion, promise_state.consume, b1, Option.toList]
        exact list_done_update st i k (by rw [hs]; simp)
      rw [ht, p2]
      refine list_inv_done B c dq mv pxs st w.states _ t (w.queues dq).queue_ r _ i pxs[i] hin hI
        hget hcur rfl rfl (by rw [hx]) rfl (by rw [hx]; simp [expect.has_exception]) ?_ ?_ ?_ ?_
      · intro k h1 _ _
        by_cases hcnt : r.counter = 1
        · rw [p3 hcnt, hI.deferred, Function.update_noteq h1]
        · rw [p4 hcnt]
      · intro hcnt
        rw [p3 hcnt, hI.deferred, Function.update_same]
      · intro hcnt
        rw [p4 hcnt]
      · intro _
        by_cases hcnt : r.counter = 1
        · rw [p3 hcnt, hI.deferred, Function.update_noteq (by omega)]
          exact b2
        · rw [p4 hcnt]
          exact b2
  | then_queued =>
    rw [hs] at hblk
    obtain ⟨b1, b2, b3⟩ := hblk
    have ht : t = .then_value (B + 1 + 2 * i + 1) (.all_then i c) (B + 1 + 2 * i) := by
      rw [hs] at hcur
      simp only [list_current, all_list_then_task, Option.some.injEq] at hcur
      exact hcur.symm
    cases hx : pxs[i].2 with
    | exception e => rw [hx] at b1; cases b1
    | value tv =>
      rw [hx] at b2
      obtain ⟨p1, p2, p3, p4⟩ := perform_all_then w dq (B + 1 + 2 * i) i c tv r _ rfl b2 b3
        (by rw [hI.deferred]; omega) hc hrl hBp
      refine ⟨Function.update st i .done, ⟨_, by rw [ht, p1, Function.update_same], ?_⟩,
        list_progress_update _ st i _ hi (by rw [hs]; simp) (by simp)
          (by rw [hs]; simp [list_stage.rank]), fun k => ?_⟩
      rotate_right
      · rw [ht]
        simp only [task.completion, promise_state.consume, b2, Option.toList]
        exact list_done_update st i k (by rw [hs]; simp)
      rw [ht, p2]
      refine list_inv_done B c dq mv pxs st w.states _ t (w.queues dq).queue_ r _ i pxs[i] hin hI
        hget hcur rfl rfl (by rw [hx]) rfl (by rw [hx]; simp [expect.has_exception]) ?_ ?_ ?_ ?_
      · intro k h1 _ h3
        by_cases hcnt : r.counter = 1
        · rw [p3 hcnt, hI.deferred, Function.update_noteq h3, Function.update_noteq h1]
        · rw [p4 hcnt, Function.update_noteq h3]
      · intro hcnt
        rw [p3 hcnt, hI.deferred, Function.update_noteq (by omega), Function.update_same]
      · intro hcnt
        rw [p4 hcnt, Function.update_noteq (by omega)]
      · intro h
        rw [hx] at h
        cases h

/-- One turn of the worker keeps the invariant; on a queue that is not empty
it moves one input on, and it calls `part_completion` exactly when the input
becomes done. -/
theorem list_turn (B c dq : Nat) (mv : List α → α) (pxs : List (Nat × expect α U))
    (st : Nat → list_stage) (w : World α U)
    (hin : list_inputs B pxs) (hI : list_world_inv B c dq mv pxs st w) :
    ((w.queues dq).queue_ = [] ∧ run_one dq w = w ∧ turn_completion dq w = []) ∨
    ∃ st2, list_world_inv B c dq mv pxs st2 (run_one dq w) ∧
      list_progress pxs.length st st2 ∧
      ∀ k, k ∈ turn_completion dq w ↔ (st2 k = .done ∧ st k ≠ .done) := by
  cases hq : (w.queues dq).queue_ with
  | nil =>
    left
    refine ⟨rfl, ?_, ?_⟩
    · simp [run_one, queue.pop, hq]
    · simp [turn_completion, hq]
  | cons t q0 =>
    right
    obtain ⟨r, h1, h2⟩ := hI
    rw [hq] at h2
    obtain ⟨st2, ⟨r2, h3, h4⟩, h5, h6⟩ := list_perform B c dq mv pxs st
      { w with queues := Function.update w.queues dq { w.queues dq with queue_ := q0 } } t r hin
      h1 (by simpa using h2)
    refine ⟨st2, ⟨r2, ?_, ?_⟩, h5, ?_⟩
    · simpa [run_one, queue.pop, hq] using h3
    · simpa [run_one, queue.pop, hq] using h4
    · intro k
      rw [← h6 k]
      simp only [turn_completion, hq]
      cases t <;> rfl

/-- Settling a pending input of `all( list )` schedules the closure of its
`fail`. -/
theorem list_settle (B c dq : Nat) (mv : List α → α) (pxs : List (Nat × expect α U))
    (st : Nat → list_stage) (w : World α U) (i : Nat) (px : Nat × expect α U)
    (hin : list_inputs B pxs) (hI : list_world_inv B c dq mv pxs st w)
    (hpx : pxs[i]? = some px) (hs : st i = .unsettled) :
    list_world_inv B c dq mv pxs (Function.update st i .fail_queued)
      (defer.set_expect w px.1 px.2).1 := by
  obtain ⟨r, hc, hI⟩ := hI
  have hblk := hI.block i px hpx
  rw [hs] at hblk
  obtain ⟨b1, b2, b3⟩ := hblk
  have hpxB : px.1 < B := hin.lt px (mem_of_index pxs i px hpx)
  obtain ⟨p1, _, p3, _, _⟩ := set_expect_pending w px.1 dq px.2 (by rw [b1]) (by rw [b1]; simp)
  refine ⟨r, by rw [set_expect_combines]; exact hc, ?_⟩
  rw [p1, p3, b1]
  have := list_inv_move B c dq mv pxs st w.states
    (Function.update w.states px.1 { slot := some px.2, waiters := [] })
    (w.queues dq).queue_ (w.queues dq).queue_ r i px .fail_queued hin hI hpx
    (by rw [hs]; rfl) rfl
    (fun k h1 _ _ => by rw [Function.update_noteq h1])
    ⟨by rw [Function.update_same],
      by rw [Function.update_noteq (by omega)]; exact b2,
      by rw [Function.update_noteq (by omega)]; exact b3⟩
    (by rw [hs]; simp [list_current])
  simpa [list_current] using this

theorem list_measure_lt (n : Nat) (st st2 : Nat → list_stage) (h : list_progress n st st2) :
    list_measure n st2 < list_measure n st := by
  obtain ⟨_, h2, k, hk, h3⟩ := h
  exact Finset.sum_lt_sum (fun i _ => h2 i) ⟨k, Finset.mem_range.mpr hk, h3⟩

theorem list_rank_zero (s : list_stage) (h : s.rank = 0) : s = .done := by
  cases s <;> simp [list_stage.rank] at h ⊢

theorem list_rank_le (s : list_stage) : s.rank ≤ 2 := by
  cases s <;> simp [list_stage.rank]

theorem list_measure_le (n : Nat) (st : Nat → list_stage) : list_measure n st ≤ 2 * n := by
  unfold list_measure
  have : ∑ k in Finset.range n, (st k).rank ≤ ∑ _k in Finset.range n, 2 :=
    Finset.sum_le_sum (fun i _ => list_rank_le _)
  simp only [Finset.sum_const, Finset.card_range, smul_eq_mul] at this
  omega

theorem list_progress_done (n : Nat) (st st2 : Nat → list_stage) (h : list_progress n st st2)
    (k : Nat) (hk : st k = .done) : st2 k = .done := by
  have := h.2.1 k
  rw [hk] at this
  exact list_rank_zero _ (Nat.le_zero.mp this)

/-- With an empty queue every input is unsettled or done. -/
theorem list_terminal (B c dq : Nat) (mv : List α → α) (pxs : List (Nat × expect α U))
    (st : Nat → list_stage) (w : World α U)
    (hI : list_world_inv B c dq mv pxs st w) (hq : (w.queues dq).queue_ = []) (k : Nat) :
    st k = .unsettled ∨ st k = .done := by
  obtain ⟨r, _, hI⟩ := hI
  by_cases hk : k < pxs.length
  · have hget : pxs[k]? = some pxs[k] := List.getElem?_eq_getElem hk
    cases hs : st k with
    | unsettled => exact Or.inl rfl
    | done => exact Or.inr rfl
    | fail_queued =>
      have := hI.queue_complete k _ hk (by simp only [list_current_at, hget, hs]; rfl)
      rw [hq] at this
      cases this
    | then_queued =>
      have := hI.queue_complete k _ hk (by simp only [list_current_at, hget, hs]; rfl)
      rw [hq] at this
      cases this
  · exact Or.inr (hI.above k (by omega))

/-- The worker keeps the invariant; each turn on a queue that is not empty
takes one off the measure. -/
theorem list_drain (B c dq : Nat) (mv : List α → α) (pxs : List (Nat × expect α U))
    (hin : list_inputs B pxs) (n : Nat) :
    ∀ (st : Nat → list_stage) (w : World α U), list_world_inv B c dq mv pxs st w →
      ∃ st2, list_world_inv B c dq mv pxs st2 (drain dq n w) ∧
        (∀ k, st2 k = .unsettled ↔ st k = .unsettled) ∧
        (((drain dq n w).queues dq).queue_ = [] ∨
          list_measure pxs.length st2 + n ≤ list_measure pxs.length st) := by
  induction n with
  | zero =>
    intro st w hI
    exact ⟨st, hI, fun _ => Iff.rfl, Or.inr (Nat.le_refl _)⟩
  | succ n ih =>
    intro st w hI
    rcases list_turn B c dq mv pxs st w hin hI with ⟨h1, h2, _⟩ | ⟨st1, h1, h2, _⟩
    · refine ⟨st, ?_, fun _ => Iff.rfl, Or.inl ?_⟩
      · rw [drain_empty dq (n + 1) w h1]; exact hI
      · rw [drain_empty dq (n + 1) w h1]; exact h1
    · obtain ⟨st2, h3, h4, h5⟩ := ih st1 (run_one dq w) h1
      refine ⟨st2, h3, fun k => (h4 k).trans (h2.1 k), ?_⟩
      rcases h5 with h5 | h5
      · exact Or.inl h5
      · right
        have := list_measure_lt pxs.length st st1 h2
        omega

/-- After `2 n` turns of the worker the queue is empty. -/
theorem list_quiet (B c dq : Nat) (mv : List α → α) (pxs : List (Nat × expect α U))
    (hin : list_inputs B pxs) (st : Nat → list_stage) (w : World α U)
    (hI : list_world_inv B c dq mv pxs st w) (n : Nat) (hn : 2 * pxs.length ≤ n) :
    ((drain dq n w).queues dq).queue_ = [] := by
  obtain ⟨st2, h1, _, h3⟩ := list_drain B c dq mv pxs hin n st w hI
  rcases h3 with h3 | h3
  · exact h3
  · have hle := list_measure_le pxs.length st
    have h0 : list_measure pxs.length st2 = 0 := by omega
    obtain ⟨r, _, hI2⟩ := h1
    cases hq : ((drain dq n w).queues dq).queue_ with
    | nil => rfl
    | cons t q0 =>
      obtain ⟨i, hi, hcur⟩ := hI2.queue_sound t (by rw [hq]; exact List.mem_cons_self _ _)
      unfold list_measure at h0
      have := list_rank_zero _ (Finset.sum_eq_zero_iff.mp h0 i (Finset.mem_range.mpr hi))
      simp [list_current_at, List.getElem?_eq_getElem hi, this, list_current] at hcur

theorem run_events_append (dq : Nat) (pxs : List (Nat × expect α U)) (evs evs2 : List all_event) :
    ∀ (w : World α U),
      run_events dq pxs (evs ++ evs2) w = run_events dq pxs evs2 (run_events dq pxs evs w) := by
  induction evs with
  | nil => intro w; rfl
  | cons ev evs ih =>
    intro w
    cases ev with
    | turn =>
      have e : all_event.turn :: evs ++ evs2 = all_event.turn :: (evs ++ evs2) := rfl
      rw [e]
      simp only [run_events]
      exact ih _
    | settle i =>
      have e : all_event.settle i :: evs ++ evs2 = all_event.settle i :: (evs ++ evs2) := rfl
      rw [e]
      simp only [run_events]
      cases pxs[i]? with
      | none => exact ih _
      | some px => exact ih _

theorem run_events_turns (dq : Nat) (pxs : List (Nat × expect α U)) (n : Nat) :
    ∀ (w : World α U), run_events dq pxs (List.replicate n .turn) w = drain dq n w := by
  induction n with
  | zero => intro w; rfl
  | succ n ih => intro w; simp only [List.replicate_succ, run_events, drain, ih]

theorem settled_append_turns (evs : List all_event) (n : Nat) :
    (evs ++ List.replicate n all_event.turn).filterMap all_event.settled
      = evs.filterMap all_event.settled := by
  induction n with
  | zero => simp
  | succ n ih =>
    rw [List.replicate_succ', ← List.append_assoc, List.filterMap_append, ih]
    simp [all_event.settled]

/-- A run of events keeps the invariant; the inputs it settles are no longer
unsettled, no input that is done goes back, and `part_completion` was called
once for each input that became done, and for no other. -/
theorem list_run_events (B c dq : Nat) (mv : List α → α) (pxs : List (Nat × expect α U))
    (hin : list_inputs B pxs) (evs : List all_event) :
    ∀ (st : Nat → list_stage) (w : World α U),
      list_world_inv B c dq mv pxs st w →
      (evs.filterMap all_event.settled).Nodup →
      (∀ i ∈ evs.filterMap all_event.settled, i < pxs.length ∧ st i = .unsettled) →
      ∃ st2, list_world_inv B c dq mv pxs st2 (run_events dq pxs evs w) ∧
        (∀ k, st2 k = .unsettled ↔
          (st k = .unsettled ∧ k ∉ evs.filterMap all_event.settled)) ∧
        (∀ k, st k = .done → st2 k = .done) ∧
        (run_completions dq pxs evs w).Nodup ∧
        (∀ k, k ∈ run_completions dq pxs evs w ↔ (st2 k = .done ∧ st k ≠ .done)) := by
  induction evs with
  | nil =>
    intro st w hI _ _
    exact ⟨st, hI, fun k => by simp, fun _ h => h, by simp [run_completions],
      fun k => by simp [run_completions]⟩
  | cons ev evs ih =>
    intro st w hI hnd hL
    cases ev with
    | turn =>
      simp only [List.filterMap_cons, all_event.settled] at hnd hL ⊢
      simp only [run_events, run_completions]
      rcases list_turn B c dq mv pxs st w hin hI with ⟨_, h2, h2c⟩ | ⟨st1, h1, h2, h2c⟩
      · rw [h2, h2c, List.nil_append]
        exact ih st w hI hnd hL
      · obtain ⟨st2, h3, h4, h5, h6, h7⟩ := ih st1 (run_one dq w) h1 hnd
          (fun i hi => ⟨(hL i hi).1, (h2.1 _).mpr (hL i hi).2⟩)
        have hmono := list_progress_done _ st st1 h2
        refine ⟨st2, h3, fun k => by rw [h4 k, h2.1 k], fun k hk => h5 k (hmono k hk), ?_, ?_⟩
        · refine List.nodup_append.mpr ⟨?_, h6, ?_⟩
          · unfold turn_completion
            cases (w.queues dq).queue_ with
            | nil => exact List.nodup_nil
            | cons t _ => cases h : task.completion w t <;> simp [h, Option.toList]
          · intro k hk1 hk2
            exact ((h7 k).mp hk2).2 ((h2c k).mp hk1).1
        · intro k
          rw [List.mem_append, h2c k, h7 k]
          constructor
          · rintro (⟨a1, a2⟩ | ⟨a1, a2⟩)
            · exact ⟨h5 k a1, a2⟩
            · exact ⟨a1, fun h => a2 (hmono k h)⟩
          · rintro ⟨a1, a2⟩
            by_cases hd : st1 k = .done
            · exact Or.inl ⟨hd, a2⟩
            · exact Or.inr ⟨a1, hd⟩
    | settle i =>
      simp only [List.filterMap_cons, all_event.settled] at hnd hL ⊢
      obtain ⟨hil, hiu⟩ := hL i (List.mem_cons_self _ _)
      have hget : pxs[i]? = some pxs[i] := List.getElem?_eq_getElem hil
      have hs := list_settle B c dq mv pxs st w i pxs[i] hin hI hget hiu
      simp only [run_events, run_completions, hget]
      obtain ⟨st2, h3, h4, h5, h6, h7⟩ := ih _ _ hs (List.nodup_cons.mp hnd).2
        (by
          intro i2 hi2
          obtain ⟨a1, a2⟩ := hL i2 (List.mem_cons_of_mem _ hi2)
          have hne : i2 ≠ i := fun h => (List.nodup_cons.mp hnd).1 (h ▸ hi2)
          refine ⟨a1, ?_⟩
          rw [Function.update_noteq hne]
          exact a2)
      refine ⟨st2, h3, fun k => ?_, fun k hk => ?_, h6, fun k => ?_⟩
      · rw [h4 k]
        by_cases hk : k = i
        · subst hk
          rw [Function.update_same]
          simp
        · rw [Function.update_noteq hk]
          simp [hk]
      · have hk2 : k ≠ i := fun h => by rw [h, hiu] at hk; cases hk
        exact h5 k (by rw [Function.update_noteq hk2]; exact hk)
      · rw [h7 k]
        by_cases hk : k = i
        · subst hk
          rw [Function.update_same, hiu]
          constructor
          · rintro ⟨a1, _⟩
            exact ⟨a1, by simp⟩
          · rintro ⟨a1, _⟩
            exact ⟨a1, by simp⟩
        · rw [Function.update_noteq hk]

/-- One round of the loop of `all( list )`: the two closures are attached to
the input `p`; the closure of the `fail` goes to the queue if `p` is
resolved, and waits on `p` otherwise. -/
theorem all_list_attach (w : World α U) (c dq i p : Nat) (hdq : w.default_queue_ = dq)
    (hp : p < w.next) :
    (generic_promise.then_value
        (generic_promise.fail_void w p (.all_fail i c) (default_queue w)).2
        (generic_promise.fail_void w p (.all_fail i c) (default_queue w)).1
        (.all_then i c)
        (default_queue (generic_promise.fail_void w p (.all_fail i c) (default_queue w)).2)).2.next
      = w.next + 2
    ∧ (generic_promise.then_value
        (generic_promise.fail_void w p (.all_fail i c) (default_queue w)).2
        (generic_promise.fail_void w p (.all_fail i c) (default_queue w)).1
        (.all_then i c)
        (default_queue (generic_promise.fail_void w p (.all_fail i c) (default_queue w)).2)).2.combines
      = w.combines
    ∧ (generic_promise.then_value
        (generic_promise.fail_void w p (.all_fail i c) (default_queue w)).2
        (generic_promise.fail_void w p (.all_fail i c) (default_queue w)).1
        (.all_then i c)
        (default_queue (generic_promise.fail_void w p (.all_fail i c) (default_queue w)).2)).2.default_queue_
      = dq
    ∧ (∀ k, k ≠ p → k ≠ w.next → k ≠ w.next + 1 →
        (generic_promise.then_value
          (generic_promise.fail_void w p (.all_fail i c) (default_queue w)).2
          (generic_promise.fail_void w p (.all_fail i c) (default_queue w)).1
          (.all_then i c)
          (default_queue (generic_promise.fail_void w p (.all_fail i c) (default_queue w)).2)).2.states k
        = w.states k)
    ∧ (generic_promise.then_value
        (generic_promise.fail_void w p (.all_fail i c) (default_queue w)).2
        (generic_promise.fail_void w p (.all_fail i c) (default_queue w)).1
        (.all_then i c)
        (default_queue (generic_promise.fail_void w p (.all_fail i c) (default_queue w)).2)).2.states w.next
      = { slot := none, waiters := [(all_list_then_task c i w.next, dq)] }
    ∧ (generic_promise.then_value
        (generic_promise.fail_void w p (.all_fail i c) (default_queue w)).2
        (generic_promise.fail_void w p (.all_fail i c) (default_queue w)).1
        (.all_then i c)
        (default_queue (generic_promise.fail_void w p (.all_fail i c) (default_queue w)).2)).2.states
          (w.next + 1)
      = promise_state.init
    ∧ (∀ y, (w.states p).slot = some y →
        (generic_promise.then_value
          (generic_promise.fail_void w p (.all_fail i c) (default_queue w)).2
          (generic_promise.fail_void w p (.all_fail i c) (default_queue w)).1
          (.all_then i c)
          (default_queue (generic_promise.fail_void w p (.all_fail i c) (default_queue w)).2)).2.states p
          = w.states p
        ∧ ((generic_promise.then_value
          (generic_promise.fail_void w p (.all_fail i c) (default_queue w)).2
          (generic_promise.fail_void w p (.all_fail i c) (default_queue w)).1
          (.all_then i c)
          (default_queue (generic_promise.fail_void w p (.all_fail i c) (default_queue w)).2)).2.queues
            dq).queue_
          = (w.queues dq).queue_ ++ [all_list_fail_task c i p w.next])
    ∧ (w.states p = promise_state.init →
        (generic_promise.then_value
          (generic_promise.fail_void w p (.all_fail i c) (default_queue w)).2
          (generic_promise.fail_void w p (.all_fail i c) (default_queue w)).1
          (.all_then i c)
          (default_queue (generic_promise.fail_void w p (.all_fail i c) (default_queue w)).2)).2.states p
          = { slot := none, waiters := [(all_list_fail_task c i p w.next, dq)] }
        ∧ ((generic_promise.then_value
          (generic_promise.fail_void w p (.all_fail i c) (default_queue w)).2
          (generic_promise.fail_void w p (.all_fail i c) (default_queue w)).1
          (.all_then i c)
          (default_queue (generic_promise.fail_void w p (.all_fail i c) (default_queue w)).2)).2.queues
            dq).queue_
          = (w.queues dq).queue_) := by
  have hne : p ≠ w.next := by omega
  have hne1 : w.next ≠ p := by omega
  have hne2 : p ≠ w.next + 1 := by omega
  have hne3 : w.next + 1 ≠ p := by omega
  cases hslot : (w.states p).slot with
  | some y =>
    refine ⟨?_, ?_, ?_, ?_, ?_, ?_, ?_, ?_⟩ <;>
    simp [generic_promise.then_value, generic_promise.fail_void, defer.construct,
        defer.get_promise, promise_signal.push, World.set_state, World.push_task, queue.push,
        default_queue, Function.update_apply, hne, hne1, hne2, hne3, hslot, promise_state.init, hdq,
        all_list_fail_task, all_list_then_task]
    · intro k h1 h2 h3
      simp [h1, h2, h3]
    · intro h
      rw [h] at hslot
      cases hslot
  | none =>
    refine ⟨?_, ?_, ?_, ?_, ?_, ?_, ?_, ?_⟩ <;>
    simp [generic_promise.then_value, generic_promise.fail_void, defer.construct,
        defer.get_promise, promise_signal.push, World.set_state, World.push_task, queue.push,
        default_queue, Function.update_apply, hne, hne1, hne2, hne3, hslot, promise_state.init, hdq,
        all_list_fail_task, all_list_then_task]
    · intro k h1 h2 h3
      simp [h1, h2, h3]
    · intro h
      rw [h]

/-- The loop of `all( list )` on inputs that are resolved or pending: the
closures of the resolved inputs are on the queue, those of the pending
inputs wait on them. -/
theorem all_list_loop_gen (B c dq : Nat) (pxs : List (Nat × expect α U)) :
    ∀ (w : World α U) (i : Nat), w.default_queue_ = dq → w.next = B + 1 + 2 * i →
      (pxs.map Prod.fst).Nodup →
      (∀ px ∈ pxs, px.1 < B ∧
        ((w.states px.1).slot = some px.2 ∨ w.states px.1 = promise_state.init)) →
      (all_list_loop w c i (pxs.map Prod.fst)).combines = w.combines
      ∧ (∃ l, ((all_list_loop w c i (pxs.map Prod.fst)).queues dq).queue_
            = (w.queues dq).queue_ ++ l
          ∧ l.Nodup
          ∧ ∀ t, t ∈ l ↔ ∃ (j : Nat) (px : Nat × expect α U), pxs[j]? = some px ∧
              (w.states px.1).slot = some px.2 ∧
              t = all_list_fail_task c (i + j) px.1 (B + 1 + 2 * (i + j)))
      ∧ (∀ k, k < w.next → k ∉ pxs.map Prod.fst →
          (all_list_loop w c i (pxs.map Prod.fst)).states k = w.states k)
      ∧ (∀ (j : Nat) (px : Nat × expect α U), pxs[j]? = some px →
          ((w.states px.1).slot = some px.2 →
            ((all_list_loop w c i (pxs.map Prod.fst)).states px.1).slot = some px.2)
          ∧ (w.states px.1 = promise_state.init →
            (all_list_loop w c i (pxs.map Prod.fst)).states px.1
              = { slot := none,
                  waiters := [(all_list_fail_task c (i + j) px.1 (B + 1 + 2 * (i + j)), dq)] })
          ∧ (all_list_loop w c i (pxs.map Prod.fst)).states (B + 1 + 2 * (i + j))
              = { slot := none,
                  waiters := [(all_list_then_task c (i + j) (B + 1 + 2 * (i + j)), dq)] }
          ∧ (all_list_loop w c i (pxs.map Prod.fst)).states (B + 1 + 2 * (i + j) + 1)
              = promise_state.init) := by
  induction pxs with
  | nil =>
    intro w i _ _ _ _
    refine ⟨rfl, ⟨[], by simp [all_list_loop], List.nodup_nil, fun t => by simp⟩,
      fun _ _ _ => rfl, fun j px h => by simp at h⟩
  | cons px0 rest ih =>
    intro w i hdq hnext hnd hps
    obtain ⟨hp0B, hp0s⟩ := hps px0 (List.mem_cons_self _ _)
    have hnd2 : (rest.map Prod.fst).Nodup := (List.nodup_cons.mp hnd).2
    have hp0n : px0.1 ∉ rest.map Prod.fst := (List.nodup_cons.mp hnd).1
    have hrestB : ∀ px ∈ rest, px.1 < B := fun px h => (hps px (List.mem_cons_of_mem _ h)).1
    have hrestne : ∀ px ∈ rest, px.1 ≠ px0.1 := fun px h he =>
      hp0n (List.mem_map.mpr ⟨px, h, he⟩)
    have A := all_list_attach w c dq i px0.1 hdq (by omega)
    have hloop : all_list_loop w c i ((px0 :: rest).map Prod.fst)
        = all_list_loop
          (generic_promise.then_value
            (generic_promise.fail_void w px0.1 (.all_fail i c) (default_queue w)).2
            (generic_promise.fail_void w px0.1 (.all_fail i c) (default_queue w)).1
            (.all_then i c)
            (default_queue
              (generic_promise.fail_void w px0.1 (.all_fail i c) (default_queue w)).2)).2
          c (i + 1) (rest.map Prod.fst) := rfl
    rw [hloop]
    revert A
    generalize (generic_promise.then_value
            (generic_promise.fail_void w px0.1 (.all_fail i c) (default_queue w)).2
            (generic_promise.fail_void w px0.1 (.all_fail i c) (default_queue w)).1
            (.all_then i c)
            (default_queue
              (generic_promise.fail_void w px0.1 (.all_fail i c) (default_queue w)).2)).2 = w1
    rintro ⟨a1, a2, a3, a4, a5, a6, a7, a8⟩
    have hsame : ∀ px ∈ rest, w1.states px.1 = w.states px.1 := fun px h =>
      a4 px.1 (hrestne px h) (by have := hrestB px h; omega) (by have := hrestB px h; omega)
    obtain ⟨ih1, ⟨l2, hl1, hl2, hl3⟩, ih3, ih4⟩ := ih w1 (i + 1) a3 (by rw [a1]; omega) hnd2
      (fun px h => ⟨hrestB px h, by rw [hsame px h]; exact (hps px (List.mem_cons_of_mem _ h)).2⟩)
    have hidx : ∀ j, i + 1 + j = i + (j + 1) := fun j => by omega
    have hw0 : B + 1 + 2 * (i + 0) = w.next := by omega
    have hk0 : ∀ k, (k = px0.1 ∨ k = w.next ∨ k = w.next + 1) →
        (all_list_loop w1 c (i + 1) (rest.map Prod.fst)).states k = w1.states k := by
      intro k hk
      refine ih3 k (by rw [a1]; omega) ?_
      intro hmem
      obtain ⟨px, hpx, he⟩ := List.mem_map.mp hmem
      have := hrestB px hpx
      rcases hk with h | h | h
      · exact hrestne px hpx (he.trans h)
      · omega
      · omega
    refine ⟨ih1.trans a2, ?_, ?_, ?_⟩
    · cases hslot : (w.states px0.1).slot with
      | some y =>
        have hy : (w.states px0.1).slot = some px0.2 := by
          rcases hp0s with h | h
          · exact h
          · rw [h] at hslot; cases hslot
        obtain ⟨_, a72⟩ := a7 y hslot
        refine ⟨all_list_fail_task c i px0.1 w.next :: l2, ?_, ?_, ?_⟩
        · rw [hl1, a72]
          simp
        · refine List.nodup_cons.mpr ⟨?_, hl2⟩
          intro hmem
          obtain ⟨j, px, _, _, he⟩ := (hl3 _).mp hmem
          simp only [all_list_fail_task, task.fail_void.injEq, fail_void_fn.all_fail.injEq] at he
          omega
        · intro t
          rw [List.mem_cons, hl3 t]
          constructor
          · rintro (h | ⟨j, px, h1, h2, h3⟩)
            · refine ⟨0, px0, by simp, hy, ?_⟩
              rw [h, hw0]
              rfl
            · refine ⟨j + 1, px, by simpa using h1, ?_, ?_⟩
              · rw [← hsame px (mem_of_index rest j px h1)]
                exact h2
              · rw [← hidx j]
                exact h3
          · rintro ⟨j, px, h1, h2, h3⟩
            cases j with
            | zero =>
              left
              simp only [List.getElem?_cons_zero, Option.some.injEq] at h1
              subst h1
              rw [h3, hw0]
              rfl
            | succ j =>
              right
              simp only [List.getElem?_cons_succ] at h1
              refine ⟨j, px, h1, ?_, ?_⟩
              · rw [hsame px (mem_of_index rest j px h1)]
                exact h2
              · rw [hidx j]
                exact h3
      | none =>
        have hinit : w.states px0.1 = promise_state.init := by
          rcases hp0s with h | h
          · rw [h] at hslot; cases hslot
          · exact h
        obtain ⟨_, a82⟩ := a8 hinit
        refine ⟨l2, by rw [hl1, a82], hl2, ?_⟩
        intro t
        rw [hl3 t]
        constructor
        · rintro ⟨j, px, h1, h2, h3⟩
          refine ⟨j + 1, px, by simpa using h1, ?_, ?_⟩
          · rw [← hsame px (mem_of_index rest j px h1)]
            exact h2
          · rw [← hidx j]
            exact h3
        · rintro ⟨j, px, h1, h2, h3⟩
          cases j with
          | zero =>
            simp only [List.getElem?_cons_zero, Option.some.injEq] at h1
            subst h1
            rw [hslot] at h2
            cases h2
          | succ j =>
            simp only [List.getElem?_cons_succ] at h1
            refine ⟨j, px, h1, ?_, ?_⟩
            · rw [hsame px (mem_of_index rest j px h1)]
              exact h2
            · rw [hidx j]
              exact h3
    · intro k hk hkn
      have hk1 : k ≠ px0.1 := fun h => hkn (by rw [h]; exact List.mem_cons_self _ _)
      have hk2 : k ∉ rest.map Prod.fst := fun h => hkn (List.mem_cons_of_mem _ h)
      rw [ih3 k (by rw [a1]; omega) hk2]
      exact a4 k hk1 (by omega) (by omega)
    · intro j px hj
      cases j with
      | zero =>
        simp only [List.getElem?_cons_zero, Option.some.injEq] at hj
        subst hj
        rw [hw0, hk0 _ (Or.inl rfl), hk0 _ (Or.inr (Or.inl rfl)), hk0 _ (Or.inr (Or.inr rfl))]
        refine ⟨fun h => ?_, fun h => ?_, ?_, a6⟩
        · rw [(a7 _ h).1]
          exact h
        · rw [(a8 h).1]
          rfl
        · rw [a5]
          rfl
      | succ j =>
        simp only [List.getElem?_cons_succ] at hj
        have hmem := mem_of_index rest j px hj
        obtain ⟨b1, b2, b3, b4⟩ := ih4 j px hj
        rw [hsame px hmem] at b1 b2
        rw [hidx j] at b2 b3 b4
        exact ⟨b1, b2, b3, b4⟩

theorem list_initial_cases (w : World α U) (pxs : List (Nat × expect α U)) (i : Nat)
    (px : Nat × expect α U) (hpx : pxs[i]? = some px)
    (hs : (w.states px.1).slot = some px.2 ∨ w.states px.1 = promise_state.init) :
    ((w.states px.1).slot = some px.2 ∧ list_initial w pxs i = .fail_queued) ∨
    (w.states px.1 = promise_state.init ∧ list_initial w pxs i = .unsettled) := by
  rcases hs with h | h
  · exact Or.inl ⟨h, by simp only [list_initial, hpx, h]⟩
  · exact Or.inr ⟨h, by simp only [list_initial, hpx, h, promise_state.init]⟩

/-- The call of `all( list )` on inputs that are resolved or pending
establishes the invariant. -/
theorem list_build (w : World α U) (mv : List α → α) (pxs : List (Nat × expect α U))
    (hps : ∀ px ∈ pxs, px.1 < w.next ∧
      ((w.states px.1).slot = some px.2 ∨ w.states px.1 = promise_state.init))
    (hnd : (pxs.map Prod.fst).Nodup)
    (hsize : pxs.length < 2 ^ 64)
    (hq : (w.queues w.default_queue_).queue_ = []) :
    (all_list w mv (pxs.map Prod.fst)).1 = w.next ∧
    list_inputs w.next pxs ∧
    list_world_inv w.next w.next_combine w.default_queue_ mv pxs (list_initial w pxs)
      (all_list w mv (pxs.map Prod.fst)).2 := by
  have hin : list_inputs w.next pxs := ⟨fun px h => (hps px h).1, hnd, hsize⟩
  have hne : ∀ px ∈ pxs, px.1 ≠ w.next := fun px h => by have := (hps px h).1; omega
  obtain ⟨g1, ⟨l, g2, g3, g4⟩, g5, g6⟩ := all_list_loop_gen w.next w.next_combine
    w.default_queue_ pxs
    { (defer.construct w).2 with
      combines := Function.update (defer.construct w).2.combines (defer.construct w).2.next_combine
        (some { expect_returns := List.replicate (pxs.map Prod.fst).length none
                counter := (pxs.map Prod.fst).length
                any_failure := false
                deferred := (defer.construct w).1
                make_vector := mv })
      next_combine := (defer.construct w).2.next_combine + 1 } 0 rfl rfl hnd
    (fun px h => ⟨(hps px h).1, by
      have e : ∀ k, k ≠ w.next → (Function.update w.states w.next promise_state.init) k
          = w.states k := fun k hk => Function.update_noteq hk _ _
      simp only [defer.construct, World.set_state]
      rw [e _ (hne px h)]
      exact (hps px h).2⟩)
  have hst : ∀ px ∈ pxs,
      ({ (defer.construct w).2 with
      combines := Function.update (defer.construct w).2.combines (defer.construct w).2.next_combine
        (some { expect_returns := List.replicate (pxs.map Prod.fst).length none
                counter := (pxs.map Prod.fst).length
                any_failure := false
                deferred := (defer.construct w).1
                make_vector := mv })
      next_combine := (defer.construct w).2.next_combine + 1 } : World α U).states px.1
        = w.states px.1 := fun px h => by
    simp only [defer.construct, World.set_state]
    exact Function.update_noteq (hne px h) _ _
  have hall : all_list w mv (pxs.map Prod.fst)
      = (w.next, all_list_loop
          { (defer.construct w).2 with
            combines := Function.update (defer.construct w).2.combines
              (defer.construct w).2.next_combine
              (some { expect_returns := List.replicate (pxs.map Prod.fst).length none
                      counter := (pxs.map Prod.fst).length
                      any_failure := false
                      deferred := (defer.construct w).1
                      make_vector := mv })
            next_combine := (defer.construct w).2.next_combine + 1 }
          w.next_combine 0 (pxs.map Prod.fst)) := rfl
  rw [hall]
  refine ⟨rfl, hin,
    ⟨{ expect_returns := List.replicate (pxs.map Prod.fst).length none
       counter := (pxs.map Prod.fst).length
       any_failure := false
       deferred := (defer.construct w).1
       make_vector := mv }, ?_, ?_⟩⟩
  · show (all_list_loop _ w.next_combine 0 (pxs.map Prod.fst)).combines w.next_combine = _
    rw [g1]
    simp [defer.construct, World.set_state]
  · show list_inv _ _ _ _ _ _ (all_list_loop _ w.next_combine 0 (pxs.map Prod.fst)).states
      ((all_list_loop _ w.next_combine 0 (pxs.map Prod.fst)).queues w.default_queue_).queue_ _
    have hq1 : (({ (defer.construct w).2 with
      combines := Function.update (defer.construct w).2.combines (defer.construct w).2.next_combine
        (some { expect_returns := List.replicate (pxs.map Prod.fst).length none
                counter := (pxs.map Prod.fst).length
                any_failure := false
                deferred := (defer.construct w).1
                make_vector := mv })
      next_combine := (defer.construct w).2.next_combine + 1 } : World α U).queues
        w.default_queue_).queue_ = [] := by
      simp only [defer.construct, World.set_state]
      exact hq
    rw [g2, hq1, List.nil_append]
    have hstage : ∀ i, i < pxs.length →
        list_initial w pxs i = .fail_queued ∨ list_initial w pxs i = .unsettled := by
      intro i hi
      rcases list_initial_cases w pxs i pxs[i] (List.getElem?_eq_getElem hi)
        (hps _ (List.getElem_mem _)).2 with h | h
      · exact Or.inl h.2
      · exact Or.inr h.2
    have hcur : ∀ (i : Nat) (t : task α U) (hi : i < pxs.length),
        (list_current_at w.next w.next_combine pxs (list_initial w pxs) i = some t ↔
          ((w.states pxs[i].1).slot = some pxs[i].2 ∧
            t = all_list_fail_task w.next_combine (0 + i) pxs[i].1 (w.next + 1 + 2 * (0 + i)))) := by
      intro i t hi
      have hget : pxs[i]? = some pxs[i] := List.getElem?_eq_getElem hi
      simp only [list_current_at, hget, Nat.zero_add]
      rcases list_initial_cases w pxs i pxs[i] hget (hps _ (List.getElem_mem _)).2 with h | h
      · rw [h.2]
        simp only [list_current, Option.some.injEq, h.1, true_and]
        exact eq_comm
      · rw [h.2]
        simp [list_current, h.1, promise_state.init]
    refine
      { above := fun i hi => by
          simp only [list_initial, List.getElem?_eq_none hi]
        deferred := rfl
        make_vector := rfl
        length := by simp
        counter := ?_
        slots := ?_
        failure := ?_
        block := ?_
        queue_sound := ?_
        queue_complete := ?_
        queue_nodup := g3
        result_pending := ?_
        result_resolved := ?_ }
    · show (pxs.map Prod.fst).length = _
      rw [List.length_map]
      have : (List.range pxs.length).countP (fun i => (list_initial w pxs i).pending)
          = (List.range pxs.length).length := by
        rw [List.countP_eq_length]
        intro i hi
        rcases hstage i (List.mem_range.mp hi) with h | h <;> rw [h] <;> rfl
      rw [this, List.length_range]
    · intro i px hpx
      have hi : i < pxs.length := (List.getElem?_eq_some.mp hpx).1
      have hnd : list_initial w pxs i ≠ .done := by
        rcases hstage i hi with h | h <;> rw [h] <;> simp
      simp [hnd, hi]
    · constructor
      · intro h
        cases h
      · rintro ⟨i, px, hpx, hd, _⟩
        have hi : i < pxs.length := (List.getElem?_eq_some.mp hpx).1
        rcases hstage i hi with h | h <;> rw [h] at hd <;> cases hd
    · intro i px hpx
      have hmem := mem_of_index pxs i px hpx
      obtain ⟨b1, b2, b3, b4⟩ := g6 i px hpx
      rw [hst px hmem] at b1 b2
      simp only [Nat.zero_add] at b2 b3 b4
      rcases list_initial_cases w pxs i px hpx (hps px hmem).2 with h | h
      · rw [h.2]
        exact ⟨b1 h.1, b3, b4⟩
      · rw [h.2]
        exact ⟨b2 h.1, b3, b4⟩
    · intro t ht
      obtain ⟨j, px, h1, h2, h3⟩ := (g4 t).mp ht
      have hj : j < pxs.length := (List.getElem?_eq_some.mp h1).1
      have hpe : px = pxs[j] := by
        rw [List.getElem?_eq_getElem hj] at h1
        exact (Option.some.inj h1).symm
      subst hpe
      rw [hst _ (List.getElem_mem _)] at h2
      exact ⟨j, hj, (hcur j t hj).mpr ⟨h2, h3⟩⟩
    · intro i t hi h
      obtain ⟨h1, h2⟩ := (hcur i t hi).mp h
      exact (g4 t).mpr ⟨i, pxs[i], List.getElem?_eq_getElem hi,
        by rw [hst _ (List.getElem_mem _)]; exact h1, h2⟩
    · intro _
      rw [g5 w.next (by simp [defer.construct])
        (fun h => by
          obtain ⟨px, hpx, he⟩ := List.mem_map.mp h
          exact hne px hpx he)]
      simp [defer.construct, World.set_state]
    · intro h0 hne0
      exfalso
      have : (pxs.map Prod.fst).length = 0 := h0
      rw [List.length_map] at this
      exact hne0 (List.length_eq_zero.mp this)

theorem list_pending_iff (w : World α U) (pxs : List (Nat × expect α U))
    (hps : ∀ px ∈ pxs, px.1 < w.next ∧
      ((w.states px.1).slot = some px.2 ∨ w.states px.1 = promise_state.init)) (i : Nat) :
    (all_pending w (pxs.map Prod.fst) i = true ↔
      (i < pxs.length ∧ list_initial w pxs i = .unsettled))
    ∧ (list_initial w pxs i = .done ↔ pxs.length ≤ i) := by
  by_cases hi : i < pxs.length
  · have h1 : (pxs.map Prod.fst)[i]? = some pxs[i].1 := by
      simp [List.getElem?_eq_getElem hi]
    have hget : pxs[i]? = some pxs[i] := List.getElem?_eq_getElem hi
    rcases list_initial_cases w pxs i pxs[i] hget (hps _ (List.getElem_mem _)).2 with h | h
    · simp [all_pending, h1, h.1, h.2, hi]
    · simp [all_pending, h1, h.1, h.2, hi, promise_state.init]
  · have h1 : (pxs.map Prod.fst)[i]? = none := by
      simp [List.getElem?_eq_none (Nat.le_of_not_lt hi)]
    have h2 : pxs[i]? = none := List.getElem?_eq_none (Nat.le_of_not_lt hi)
    simp [all_pending, h1, hi, list_initial, h2, Nat.le_of_not_lt hi]

theorem countP_done (st : Nat → list_stage) (n : Nat) :
    (List.range n).countP (fun k => (st k).pending)
      + ((List.range n).filter (fun k => decide (st k = .done))).length = n := by
  have h := List.length_eq_countP_add_countP (fun k => (st k).pending) (List.range n)
  rw [List.length_range] at h
  have e : (List.range n).countP (fun k => decide ¬ (st k).pending = true)
      = ((List.range n).filter (fun k => decide (st k = .done))).length := by
    rw [List.countP_eq_length_filter]
    congr 1
    apply List.filter_congr
    intro k _
    cases st k <;> simp [list_stage.pending]
  omega

theorem perm_filter_of_mem (l : List Nat) (n : Nat) (p : Nat → Bool) (hnd : l.Nodup)
    (h : ∀ k, k ∈ l ↔ (k < n ∧ p k = true)) : l.Perm ((List.range n).filter p) := by
  refine (List.perm_ext_iff_of_nodup hnd ((List.nodup_range n).filter _)).mpr ?_
  intro k
  rw [h k, List.mem_filter, List.mem_range]

/-- A run of `all( list )`: the call on inputs that are resolved or pending,
then events that settle pending inputs, each at most once. The invariant
holds after the run, an input is unsettled exactly if it is not settled, and
`part_completion` was called exactly once for each input that is done. -/
theorem list_run (w : World α U) (mv : List α → α) (pxs : List (Nat × expect α U))
    (evs : List all_event)
    (hps : ∀ px ∈ pxs, px.1 < w.next ∧
      ((w.states px.1).slot = some px.2 ∨ w.states px.1 = promise_state.init))
    (hnd : (pxs.map Prod.fst).Nodup)
    (hsize : pxs.length < 2 ^ 64)
    (hq : (w.queues w.default_queue_).queue_ = [])
    (hev : (evs.filterMap all_event.settled).Nodup)
    (hev2 : ∀ i ∈ evs.filterMap all_event.settled, all_pending w (pxs.map Prod.fst) i = true) :
    (all_list w mv (pxs.map Prod.fst)).1 = w.next ∧
    list_inputs w.next pxs ∧
    ∃ st2, list_world_inv w.next w.next_combine w.default_queue_ mv pxs st2
        (run_events w.default_queue_ pxs evs (all_list w mv (pxs.map Prod.fst)).2) ∧
      (∀ k, k < pxs.length →
        (st2 k = .unsettled ↔ list_settled w (pxs.map Prod.fst) evs k = false)) ∧
      (run_completions w.default_queue_ pxs evs (all_list w mv (pxs.map Prod.fst)).2).Nodup ∧
      (∀ k, k ∈ run_completions w.default_queue_ pxs evs (all_list w mv (pxs.map Prod.fst)).2 ↔
        (k < pxs.length ∧ st2 k = .done)) := by
  obtain ⟨b1, hin, b3⟩ := list_build w mv pxs hps hnd hsize hq
  obtain ⟨st2, h1, h2, _, h4, h5⟩ := list_run_events w.next w.next_combine w.default_queue_ mv pxs
    hin evs _ _ b3 hev (fun i hi => ((list_pending_iff w pxs hps i).1).mp (hev2 i hi))
  refine ⟨b1, hin, st2, h1, ?_, h4, ?_⟩
  · intro k hk
    rw [h2 k]
    have hp := (list_pending_iff w pxs hps k).1
    simp only [list_settled, List.length_map, hk, decide_True, Bool.true_and, Bool.or_eq_false_iff,
      Bool.not_eq_false', decide_eq_false_iff_not]
    rw [hp]
    simp [hk]
  · intro k
    rw [h5 k]
    have hd := (list_pending_iff w pxs hps k).2
    constructor
    · rintro ⟨a1, a2⟩
      refine ⟨?_, a1⟩
      by_contra hk
      exact a2 (hd.mpr (Nat.le_of_not_lt hk))
    · rintro ⟨a1, a2⟩
      exact ⟨a2, fun h => by have := hd.mp h; omega⟩

/-- The closure of `fail( fn )` with a `void` user `fn` on a failed upstream,
`fn` returning normally: `fn` is called once and nothing is set on the
successor, so the `then` attached to it is never scheduled. -/
theorem fail_void_returns (w : World α U) (state_ : Nat) (e : Exn U) (qu label : Nat)
    (f : Exn U → Except (Exn U) Unit) (g : value_fn α U) (n : Nat)
    (hs : state_ < w.next) (hslot : (w.states state_).slot = some (.exception e))
    (hq : (w.queues qu).queue_ = []) (hf : f e = .ok ()) :
    (drain qu (n + 1) (generic_promise.then_value
          (generic_promise.fail_void w state_ (.user label f) qu).2
          (generic_promise.fail_void w state_ (.user label f) qu).1 g qu).2).calls
      = w.calls ++ [{ label := label, arg := .exception e }]
    ∧ ((drain qu (n + 1) (generic_promise.then_value
          (generic_promise.fail_void w state_ (.user label f) qu).2
          (generic_promise.fail_void w state_ (.user label f) qu).1 g qu).2).states
        (generic_promise.fail_void w state_ (.user label f) qu).1).slot = none
    ∧ ((drain qu (n + 1) (generic_promise.then_value
          (generic_promise.fail_void w state_ (.user label f) qu).2
          (generic_promise.fail_void w state_ (.user label f) qu).1 g qu).2).states
        (generic_promise.then_value
          (generic_promise.fail_void w state_ (.user label f) qu).2
          (generic_promise.fail_void w state_ (.user label f) qu).1 g qu).1).slot = none := by
  have hne : state_ ≠ w.next := by omega
  have hne2 : state_ ≠ w.next + 1 := by omega
  rw [drain, drain_empty] <;>
    simp [generic_promise.fail_void, generic_promise.then_value, defer.construct,
      defer.get_promise, promise_signal.push, World.set_state, World.push_task, queue.push,
      run_one, queue.pop, task.perform, promise_state.consume, defer.set_exception,
      fail_void_fn.invoke, call_with_args, World.record, std_promise.set_value,
      promise_signal.done, World.schedule, Function.update_noteq hne,
      Function.update_noteq hne2, hslot, hq, promise_state.init, refuse, hf]

theorem consume_all_values (pv : List (Nat × α)) :
    consume_all ((pv.map (fun x => ((x.1, expect.value [x.2]) : Nat × expect α U))).map
        (fun px => some px.2))
      = pv.map Prod.snd := by
  induction pv with
  | nil => rfl
  | cons a pv ih =>
    simp only [List.map_cons, consume_all, slot_consume, ih]
    rfl

/-- A run of `all( list )` in which every pending input is settled, followed
by `2 n` turns of the worker: the slots hold the outcomes of the inputs in
input order, the flag says whether an input failed, and the result holds
what the `resolver` sets. -/
theorem list_run_complete (w : World α U) (mv : List α → α) (pxs : List (Nat × expect α U))
    (evs : List all_event)
    (hps : ∀ px ∈ pxs, px.1 < w.next ∧
      ((w.states px.1).slot = some px.2 ∨ w.states px.1 = promise_state.init))
    (hnd : (pxs.map Prod.fst).Nodup)
    (hsize : pxs.length < 2 ^ 64)
    (hq : (w.queues w.default_queue_).queue_ = [])
    (hev : (evs.filterMap all_event.settled).Perm
      ((List.range pxs.length).filter (all_pending w (pxs.map Prod.fst))))
    (n : Nat) (hn : 2 * pxs.length ≤ n) :
    (all_list w mv (pxs.map Prod.fst)).1 = w.next
    ∧ ∃ r, (drain w.default_queue_ n
        (run_events w.default_queue_ pxs evs
          (all_list w mv (pxs.map Prod.fst)).2)).combines w.next_combine = some r
      ∧ r.expect_returns = pxs.map (fun px => some px.2)
      ∧ r.make_vector = mv
      ∧ (r.any_failure = true ↔ ∃ px ∈ pxs, px.2.has_exception = true)
      ∧ (pxs ≠ [] → ((drain w.default_queue_ n
          (run_events w.default_queue_ pxs evs
            (all_list w mv (pxs.map Prod.fst)).2)).states w.next).slot
          = some (list_result w.next_combine r)) := by
  obtain ⟨s1, s2, s3⟩ := all_schedule_perm w (pxs.map Prod.fst) evs (by simpa using hev)
  have hs1 : ((evs ++ List.replicate n all_event.turn).filterMap all_event.settled).Nodup := by
    rw [settled_append_turns]; exact s1
  obtain ⟨b1, hin, st2, hW, h2, _, _⟩ := list_run w mv pxs
    (evs ++ List.replicate n all_event.turn) hps hnd hsize hq hs1
    (by rw [settled_append_turns]; exact s2)
  rw [run_events_append, run_events_turns] at hW
  obtain ⟨_, _, st1, hW1, _, _, _⟩ := list_run w mv pxs evs hps hnd hsize hq s1 s2
  have hquiet := list_quiet w.next w.next_combine w.default_queue_ mv pxs hin st1 _ hW1 n hn
  have hdone : ∀ k, k < pxs.length → st2 k = .done := by
    intro k hk
    rcases list_terminal _ _ _ _ _ st2 _ hW hquiet k with h | h
    · have := (h2 k hk).mp h
      simp only [list_settled, List.length_map, hk, decide_True, Bool.true_and,
        settled_append_turns, Bool.or_eq_false_iff, Bool.not_eq_false',
        decide_eq_false_iff_not] at this
      exact absurd (s3 k this.1) this.2
    · exact h
  obtain ⟨r, hc, hI⟩ := hW
  have hcnt : r.counter = 0 := by
    rw [hI.counter]
    refine List.countP_eq_zero.mpr ?_
    intro k hk
    rw [hdone k (List.mem_range.mp hk)]
    simp [list_stage.pending]
  refine ⟨b1, r, hc, ?_, hI.make_vector, ?_, fun hne => hI.result_resolved hcnt hne⟩
  · apply List.ext_getElem?
    intro k
    by_cases hk : k < pxs.length
    · rw [hI.slots k pxs[k] (List.getElem?_eq_getElem hk)]
      simp [hdone k hk, List.getElem?_eq_getElem hk]
    · rw [List.getElem?_eq_none (by rw [hI.length]; omega),
        List.getElem?_eq_none (by rw [List.length_map]; omega)]
  · rw [hI.failure]
    constructor
    · rintro ⟨i, px, hpx, _, hex⟩
      exact ⟨px, mem_of_index pxs i px hpx, hex⟩
    · rintro ⟨px, hpx, hex⟩
      obtain ⟨i, hi, hget⟩ := List.getElem_of_mem hpx
      exact ⟨i, px, by rw [List.getElem?_eq_getElem hi, hget], hdone i hi, hex⟩

/-! ## The claims -/

/-- C1: on a pending `defer`, in every sequence of `set_value` and
`set_exception` calls the first call succeeds and resolves the state to
exactly the outcome it asks for; every later call throws
`promise_already_resolved`, and the world, the resolved outcome included, is
left as the first call made it. -/
theorem C1_single_resolution (w : World α U) (d : Nat) (c : set_call α U)
    (rest : List (set_call α U)) (h : (w.states d).slot = none) :
    (set_calls w d (c :: rest)).2
        = none :: List.replicate rest.length (some .promise_already_resolved)
      ∧ ((set_calls w d (c :: rest)).1.states d).slot = some c.outcome
      ∧ (set_calls w d (c :: rest)).1 = (c.apply w d).1 := by
  obtain ⟨h1, h2⟩ := set_call_apply_pending w d c h
  simp [set_calls, set_calls_resolved _ d c.outcome h2, h1, h2]

/-- Witness of C1: `set_value( 1 )`, `set_exception( 2 )`, `set_value( 3 )`
on a new `defer`. -/
theorem C1_single_resolution_witness :
    ((World.init : World Nat Nat).states 0).slot = none
      ∧ (set_calls (World.init : World Nat Nat) 0
          [.set_value [1], .set_exception (.user 2), .set_value [3]]).2
        = [none, some .promise_already_resolved, some .promise_already_resolved]
      ∧ ((set_calls (World.init : World Nat Nat) 0
          [.set_value [1], .set_exception (.user 2), .set_value [3]]).1.states 0).slot
        = some (.value [1]) :=
  ⟨rfl,
    (C1_single_resolution World.init 0 (.set_value [1])
      [.set_exception (.user 2), .set_value [3]] rfl).1,
    (C1_single_resolution World.init 0 (.set_value [1])
      [.set_exception (.user 2), .set_value [3]] rfl).2.1⟩

/-- C2: for every `then( fn )`, with a plain or a promise-returning `fn` of
either binding: if the upstream outcome is `Exception(e)`, then after the
worker ran the continuation the successor is resolved to `Exception(e)` with
the same `e`, and `fn` was not invoked: no call is recorded and no state
other than the successor changed. -/
theorem C2_then_exception_bypass (w : World α U) (state_ : Nat) (e : Exn U) (qu : Nat)
    (hs : state_ < w.next) (hslot : (w.states state_).slot = some (.exception e))
    (hq : (w.queues qu).queue_ = []) :
    (∀ fn : value_fn α U,
      ((run_one qu (generic_promise.then_value w state_ fn qu).2).states
          (generic_promise.then_value w state_ fn qu).1).slot = some (.exception e)
      ∧ (run_one qu (generic_promise.then_value w state_ fn qu).2).calls = w.calls
      ∧ ∀ i, i ≠ (generic_promise.then_value w state_ fn qu).1 →
          (run_one qu (generic_promise.then_value w state_ fn qu).2).states i = w.states i)
    ∧ (∀ fn : promise_fn α U,
      ((run_one qu (generic_promise.then_promise w state_ fn qu).2).states
          (generic_promise.then_promise w state_ fn qu).1).slot = some (.exception e)
      ∧ (run_one qu (generic_promise.then_promise w state_ fn qu).2).calls = w.calls
      ∧ ∀ i, i ≠ (generic_promise.then_promise w state_ fn qu).1 →
          (run_one qu (generic_promise.then_promise w state_ fn qu).2).states i
            = w.states i) := by
  have hne : state_ ≠ w.next := by omega
  constructor <;> intro fn <;>
    simp [generic_promise.then_value, generic_promise.then_promise, defer.construct,
      defer.get_promise, promise_signal.push, World.set_state, World.push_task, queue.push,
      run_one, queue.pop, task.perform, promise_state.consume, defer.set_exception,
      std_promise.set_value, promise_signal.done, World.schedule, Function.update_noteq hne,
      hslot, hq, promise_state.init, refuse] <;>
    intro i hi <;> simp [Function.update_noteq hi]

/-- Witness of C2: a promise failed with the user exception `7`, followed by
`then( x -> 0 )`. -/
theorem C2_then_exception_bypass_witness :
    ((failed (World.init : World Nat Nat) (.user 7)).2.states 0).slot
        = some (.exception (.user 7))
      ∧ ((run_one 0 (generic_promise.then_value (failed (World.init : World Nat Nat) (.user 7)).2
          0 (.user_value 1 .positional (fun _ => .ok 0)) 0).2).states 1).slot
        = some (.exception (.user 7))
      ∧ (run_one 0 (generic_promise.then_value (failed (World.init : World Nat Nat) (.user 7)).2
          0 (.user_value 1 .positional (fun _ => .ok 0)) 0).2).calls = [] :=
  ⟨rfl,
    ((C2_then_exception_bypass (failed (World.init : World Nat Nat) (.user 7)).2 0 (.user 7) 0
      (by decide) rfl rfl).1 (.user_value 1 .positional (fun _ => .ok 0))).1,
    ((C2_then_exception_bypass (failed (World.init : World Nat Nat) (.user 7)).2 0 (.user 7) 0
      (by decide) rfl rfl).1 (.user_value 1 .positional (fun _ => .ok 0))).2.1⟩

/-- C3: for `then( fn )` with a plain user `fn` and the upstream outcome
`Value(v)`: `fn` is invoked exactly once, with `v`; if it returns `r` the
successor is resolved to the tuple of `r`, if it returns `void` to the empty
tuple, and if it throws `e` to `Exception(e)`. -/
theorem C3_then_value (w : World α U) (state_ : Nat) (v : List α) (qu label : Nat)
    (b : Binding) (hs : state_ < w.next) (hslot : (w.states state_).slot = some (.value v))
    (hq : (w.queues qu).queue_ = []) :
    (∀ f : List α → Except (Exn U) α,
      (run_one qu (generic_promise.then_value w state_ (.user_value label b f) qu).2).calls
          = w.calls ++ [{ label := label, arg := .value v }]
      ∧ ((run_one qu (generic_promise.then_value w state_ (.user_value label b f) qu).2).states
          (generic_promise.then_value w state_ (.user_value label b f) qu).1).slot
          = some (match f v with
                  | .ok r => .value [r]
                  | .error e => .exception e))
    ∧ (∀ f : List α → Except (Exn U) Unit,
      (run_one qu (generic_promise.then_value w state_ (.user_void label b f) qu).2).calls
          = w.calls ++ [{ label := label, arg := .value v }]
      ∧ ((run_one qu (generic_promise.then_value w state_ (.user_void label b f) qu).2).states
          (generic_promise.then_value w state_ (.user_void label b f) qu).1).slot
          = some (match f v with
                  | .ok _ => .value []
                  | .error e => .exception e)) := by
  have hne : state_ ≠ w.next := by omega
  constructor <;> intro f <;> cases hf : f v <;>
    simp [generic_promise.then_value, defer.construct, defer.get_promise, promise_signal.push,
      World.set_state, World.push_task, queue.push, run_one, queue.pop, task.perform,
      promise_state.consume, defer.set_exception, defer.set_value, defer.set_by_fun,
      value_fn.invoke, Binding.call_eq, World.record, std_promise.set_value,
      promise_signal.done, Except.map, World.schedule, Function.update_noteq hne, hslot, hq,
      promise_state.init, refuse, fulfill, hf]

/-- Witness of C3: `with( 42 ).then( x -> x + 1 )`. -/
theorem C3_then_value_witness :
    ((with_ (World.init : World Nat Nat) [42]).2.states 0).slot = some (.value [42])
      ∧ (run_one 0 (generic_promise.then_value (with_ (World.init : World Nat Nat) [42]).2 0
          (.user_value 1 .positional (fun t => .ok (t.headD 0 + 1))) 0).2).calls
        = [{ label := 1, arg := .value [42] }]
      ∧ ((run_one 0 (generic_promise.then_value (with_ (World.init : World Nat Nat) [42]).2 0
          (.user_value 1 .positional (fun t => .ok (t.headD 0 + 1))) 0).2).states 1).slot
        = some (.value [43]) :=
  ⟨rfl,
    ((C3_then_value (with_ (World.init : World Nat Nat) [42]).2 0 [42] 0 1 .positional
      (by decide) rfl rfl).1 (fun t => .ok (t.headD 0 + 1))).1,
    ((C3_then_value (with_ (World.init : World Nat Nat) [42]).2 0 [42] 0 1 .positional
      (by decide) rfl rfl).1 (fun t => .ok (t.headD 0 + 1))).2⟩

set_option maxHeartbeats 1600000 in
/-- C4: flattening. For `then( fn )` with a user `fn` that returns the
promise `q`, and the upstream outcome `Value(v)`: `fn` is invoked once with
`v`, and the successor is resolved to exactly the outcome of `q`, value or
exception, after the two continuations `defer::satisfy` attached to `q` have
run on the default queue; while `q` is pending the successor is pending, and
it gets the outcome `q` is resolved to later. -/
theorem C4_then_promise_flattens (w : World α U) (state_ : Nat) (v : List α)
    (qu label : Nat) (b : Binding) (f : List α → Except (Exn U) (promise_src α U))
    (src : promise_src α U)
    (hs : state_ < w.next) (hslot : (w.states state_).slot = some (.value v))
    (hq : (w.queues qu).queue_ = []) (hdq : (w.queues w.default_queue_).queue_ = [])
    (hf : f v = .ok src)
    (hsrc : ∀ id, src = .existing id →
      id < w.next ∧ ((w.states id).slot = none → (w.states id).waiters = [])) :
    (run_one qu (generic_promise.then_promise w state_ (.user label b f) qu).2).calls
        = w.calls ++ [{ label := label, arg := .value v }]
    ∧ (∀ x,
        ((run_one qu (generic_promise.then_promise w state_ (.user label b f) qu).2).states
          (src.get (generic_promise.then_promise w state_ (.user label b f) qu).2).1).slot
          = some x →
        ((drain w.default_queue_ 2
            (run_one qu (generic_promise.then_promise w state_ (.user label b f) qu).2)).states
          (generic_promise.then_promise w state_ (.user label b f) qu).1).slot = some x)
    ∧ (∀ x,
        ((run_one qu (generic_promise.then_promise w state_ (.user label b f) qu).2).states
          (src.get (generic_promise.then_promise w state_ (.user label b f) qu).2).1).slot
          = none →
        ((run_one qu (generic_promise.then_promise w state_ (.user label b f) qu).2).states
          (generic_promise.then_promise w state_ (.user label b f) qu).1).slot = none
        ∧ ((drain w.default_queue_ 2
            (defer.set_expect
              (run_one qu (generic_promise.then_promise w state_ (.user label b f) qu).2)
              (src.get (generic_promise.then_promise w state_ (.user label b f) qu).2).1
              x).1).states
          (generic_promise.then_promise w state_ (.user label b f) qu).1).slot = some x) := by
  have hne : state_ ≠ w.next := by omega
  have hne1 : w.next ≠ state_ := by omega
  have hdec : qu = w.default_queue_ ∨ (qu ≠ w.default_queue_ ∧ w.default_queue_ ≠ qu) := by
    by_cases h : qu = w.default_queue_
    · exact Or.inl h
    · exact Or.inr ⟨h, Ne.symm h⟩
  rcases src with id | o
  · obtain ⟨h1, h3⟩ := hsrc id rfl
    have i0 : id ≠ w.next := by omega
    have i1 : id ≠ w.next + 1 := by omega
    have i2 : id ≠ w.next + 2 := by omega
    have i3 : id ≠ w.next + 3 := by omega
    have j0 : w.next ≠ id := by omega
    have j1 : w.next + 1 ≠ id := by omega
    have j2 : w.next + 2 ≠ id := by omega
    have j3 : w.next + 3 ≠ id := by omega
    clear hsrc
    cases hid : (w.states id).slot with
    | none =>
      have hw := h3 hid
      have h2 : id ≠ state_ := by
        rintro rfl
        rw [hslot] at hid
        cases hid
      have h4 : state_ ≠ id := Ne.symm h2
      clear h3
      refine ⟨?_, fun x => ?_, fun x => ?_⟩ <;> (try cases x) <;>
      rcases hdec with hqq | ⟨hqq, hqq2⟩ <;>
      simp [generic_promise.then_promise, generic_promise.fail_void,
      generic_promise.then_value, defer.construct, defer.get_promise, promise_signal.push,
      drain, World.set_state, World.push_task, queue.push, run_one, queue.pop, task.perform,
      promise_state.consume, defer.set_exception, defer.set_value, defer.set_by_fun,
      defer.satisfy_by_fun, defer.satisfy, promise_fn.invoke, promise_src.get, default_queue,
      value_fn.invoke, fail_void_fn.invoke, defer.set_expect, Binding.call_eq,
      call_with_args, World.record, std_promise.set_value, promise_signal.done, Except.map,
      World.schedule, Function.update_apply, Nat.add_assoc, promise_state.init, refuse,
      fulfill, *]
    | some x0 =>
      clear h3
      cases x0 <;>
      refine ⟨?_, fun x => ?_, fun x => ?_⟩ <;> (try cases x) <;>
      rcases hdec with hqq | ⟨hqq, hqq2⟩ <;>
      simp [generic_promise.then_promise, generic_promise.fail_void,
      generic_promise.then_value, defer.construct, defer.get_promise, promise_signal.push,
      drain, World.set_state, World.push_task, queue.push, run_one, queue.pop, task.perform,
      promise_state.consume, defer.set_exception, defer.set_value, defer.set_by_fun,
      defer.satisfy_by_fun, defer.satisfy, promise_fn.invoke, promise_src.get, default_queue,
      value_fn.invoke, fail_void_fn.invoke, defer.set_expect, Binding.call_eq,
      call_with_args, World.record, std_promise.set_value, promise_signal.done, Except.map,
      World.schedule, Function.update_apply, Nat.add_assoc, promise_state.init, refuse,
      fulfill, *]
  · clear hsrc
    rcases o with _ | x0
    · refine ⟨?_, fun x => ?_, fun x => ?_⟩ <;> (try cases x) <;>
      rcases hdec with hqq | ⟨hqq, hqq2⟩ <;>
      simp [generic_promise.then_promise, generic_promise.fail_void,
      generic_promise.then_value, defer.construct, defer.get_promise, promise_signal.push,
      drain, World.set_state, World.push_task, queue.push, run_one, queue.pop, task.perform,
      promise_state.consume, defer.set_exception, defer.set_value, defer.set_by_fun,
      defer.satisfy_by_fun, defer.satisfy, promise_fn.invoke, promise_src.get, default_queue,
      value_fn.invoke, fail_void_fn.invoke, defer.set_expect, Binding.call_eq,
      call_with_args, World.record, std_promise.set_value, promise_signal.done, Except.map,
      World.schedule, Function.update_apply, Nat.add_assoc, promise_state.init, refuse,
      fulfill, *]
    · cases x0 <;>
      refine ⟨?_, fun x => ?_, fun x => ?_⟩ <;> (try cases x) <;>
      rcases hdec with hqq | ⟨hqq, hqq2⟩ <;>
      simp [generic_promise.then_promise, generic_promise.fail_void,
      generic_promise.then_value, defer.construct, defer.get_promise, promise_signal.push,
      drain, World.set_state, World.push_task, queue.push, run_one, queue.pop, task.perform,
      promise_state.consume, defer.set_exception, defer.set_value, defer.set_by_fun,
      defer.satisfy_by_fun, defer.satisfy, promise_fn.invoke, promise_src.get, default_queue,
      value_fn.invoke, fail_void_fn.invoke, defer.set_expect, Binding.call_eq,
      call_with_args, World.record, std_promise.set_value, promise_signal.done, Except.map,
      World.schedule, Function.update_apply, Nat.add_assoc, promise_state.init, refuse,
      fulfill, *]

/-- Witness of C4: `with( 1 ).then( x -> promise resolved to x + 10 )`
resolves to `11`. -/
theorem C4_then_promise_flattens_witness :
    ((with_ (World.init : World Nat Nat) [1]).2.states 0).slot = some (.value [1])
      ∧ ((drain 0 2 (run_one 0 (generic_promise.then_promise
          (with_ (World.init : World Nat Nat) [1]).2 0
          (.user 1 .positional (fun t => .ok (.fresh (some (.value [t.headD 0 + 10]))))) 0).2)).states
          1).slot = some (.value [11]) :=
  ⟨rfl,
    (C4_then_promise_flattens (with_ (World.init : World Nat Nat) [1]).2 0 [1] 0 1 .positional
      (fun t => .ok (.fresh (some (.value [t.headD 0 + 10]))))
      (.fresh (some (.value [11]))) (by decide) rfl rfl rfl rfl
      (fun _ h => by cases h)).2.1 (.value [11]) rfl⟩

/-- C5: order preservation. For every value `v` and all non-throwing plain
functions `f`, `g`, `h`, the chain `with( v ).then( f ).then( g ).then( h )`
invokes `f`, `g`, `h` each exactly once, in that order, each on the result of
the one before, and resolves to `Value( h( g( f( v ) ) ) )`; the chain
`with( v ).then( f ).then( g )` resolves to `Value( g( f( v ) ) )`. -/
theorem C5_order_preservation (w : World α U) (v : List α) (qu lf lg lh : Nat) (bf bg bh : Binding)
    (f g h : List α → α) (hq : (w.queues qu).queue_ = []) :
    (drain qu 3 (chain (with_ w v).2 (with_ w v).1 qu
        [.then_value (.user_value lf bf (fun t => .ok (f t))),
          .then_value (.user_value lg bg (fun t => .ok (g t))),
          .then_value (.user_value lh bh (fun t => .ok (h t)))]).2).calls
      = w.calls ++ [{ label := lf, arg := .value v }, { label := lg, arg := .value [f v] },
          { label := lh, arg := .value [g [f v]] }]
    ∧ ((drain qu 3 (chain (with_ w v).2 (with_ w v).1 qu
        [.then_value (.user_value lf bf (fun t => .ok (f t))),
          .then_value (.user_value lg bg (fun t => .ok (g t))),
          .then_value (.user_value lh bh (fun t => .ok (h t)))]).2).states
        (chain (with_ w v).2 (with_ w v).1 qu
        [.then_value (.user_value lf bf (fun t => .ok (f t))),
          .then_value (.user_value lg bg (fun t => .ok (g t))),
          .then_value (.user_value lh bh (fun t => .ok (h t)))]).1).slot
      = some (.value [h [g [f v]]])
    ∧ ((drain qu 2 (chain (with_ w v).2 (with_ w v).1 qu
        [.then_value (.user_value lf bf (fun t => .ok (f t))),
          .then_value (.user_value lg bg (fun t => .ok (g t)))]).2).states
        (chain (with_ w v).2 (with_ w v).1 qu
        [.then_value (.user_value lf bf (fun t => .ok (f t))),
          .then_value (.user_value lg bg (fun t => .ok (g t)))]).1).slot
      = some (.value [g [f v]]) := by
  obtain ⟨h1, h2, h3, h4, h5⟩ := with_spec w v
  refine ⟨?_, ?_, ?_⟩
  · obtain ⟨hr, hc⟩ := chain_ready qu
      [.then_value (.user_value lf bf (fun t => .ok (f t))),
        .then_value (.user_value lg bg (fun t => .ok (g t))),
        .then_value (.user_value lh bh (fun t => .ok (h t)))] (with_ w v).2 (with_ w v).1
      (.value v) (by rw [h1]; exact h2) (by rw [h1, h3]; omega) (by rw [h4]; exact hq)
    obtain ⟨p1, hr1, hc1⟩ := ready_chain_value _ qu _ v _ lf bf _ (f v) _ rfl hr
    obtain ⟨p2, hr2, hc2⟩ := ready_chain_value _ qu _ _ _ lg bg _ (g [f v]) _ rfl hr1
    obtain ⟨p3, hr3, hc3⟩ := ready_chain_value _ qu _ _ _ lh bh _ (h [g [f v]]) _ rfl hr2
    simp only [drain]
    rw [hc3, hc2, hc1, hc, h5]
    simp
  · obtain ⟨hr, hc⟩ := chain_ready qu
      [.then_value (.user_value lf bf (fun t => .ok (f t))),
        .then_value (.user_value lg bg (fun t => .ok (g t))),
        .then_value (.user_value lh bh (fun t => .ok (h t)))] (with_ w v).2 (with_ w v).1
      (.value v) (by rw [h1]; exact h2) (by rw [h1, h3]; omega) (by rw [h4]; exact hq)
    obtain ⟨p1, hr1, hc1⟩ := ready_chain_value _ qu _ v _ lf bf _ (f v) _ rfl hr
    obtain ⟨p2, hr2, hc2⟩ := ready_chain_value _ qu _ _ _ lg bg _ (g [f v]) _ rfl hr1
    obtain ⟨p3, ⟨hl, hs3, _⟩, hc3⟩ := ready_chain_value _ qu _ _ _ lh bh _ (h [g [f v]]) _ rfl hr2
    simp only [drain]
    rw [← hl]
    exact hs3
  · obtain ⟨hr, hc⟩ := chain_ready qu
      [.then_value (.user_value lf bf (fun t => .ok (f t))),
        .then_value (.user_value lg bg (fun t => .ok (g t)))] (with_ w v).2 (with_ w v).1
      (.value v) (by rw [h1]; exact h2) (by rw [h1, h3]; omega) (by rw [h4]; exact hq)
    obtain ⟨p1, hr1, hc1⟩ := ready_chain_value _ qu _ v _ lf bf _ (f v) _ rfl hr
    obtain ⟨p2, ⟨hl, hs2, _⟩, hc2⟩ := ready_chain_value _ qu _ _ _ lg bg _ (g [f v]) _ rfl hr1
    simp only [drain]
    rw [← hl]
    exact hs2

/-- Witness of C5: `with( 42 ).then( x -> x + 1 ).then( x -> x * 2 )`
resolves to `86`. -/
theorem C5_order_preservation_witness :
    ((World.init : World Nat Nat).queues 0).queue_ = []
      ∧ ((drain 0 2 (chain (with_ (World.init : World Nat Nat) [42]).2
          (with_ (World.init : World Nat Nat) [42]).1 0
          [.then_value (.user_value 1 .positional (fun t => .ok (t.headD 0 + 1))),
            .then_value (.user_value 2 .positional (fun t => .ok (t.headD 0 * 2)))]).2).states
          2).slot = some (.value [86]) :=
  ⟨rfl,
    (C5_order_preservation (World.init : World Nat Nat) [42] 0 1 2 3 .positional .positional
      .positional (fun t => t.headD 0 + 1) (fun t => t.headD 0 * 2) (fun t => t.headD 0)
      rfl).2.2⟩

/-- C6: exception skip. For every `n`, in a chain where the upstream failed
with `e`, followed by `n` `then` links of any kind and then a catch-all
`fail( handler )`, with a `void` or a promise-returning handler: after the
`n + 1` continuations have run, the one recorded call is that of the handler,
with `e`: no `then` function was invoked and the handler was invoked exactly
once. -/
theorem C6_exception_skip (w : World α U) (state_ : Nat) (e : Exn U) (qu : Nat) (thens : List (link α U))
    (label : Nat) (f : Exn U → Except (Exn U) Unit)
    (f2 : Exn U → Except (Exn U) (promise_src α U))
    (hthen : ∀ l ∈ thens, l.is_then = true)
    (hs : state_ < w.next) (hslot : (w.states state_).slot = some (.exception e))
    (hq : (w.queues qu).queue_ = []) :
    (drain qu (thens.length + 1)
        (chain w state_ qu (thens ++ [.fail_void (.user label f)])).2).calls
      = w.calls ++ [{ label := label, arg := .exception e }]
    ∧ (drain qu (thens.length + 1)
        (chain w state_ qu (thens ++ [.fail_promise (.user label f2)])).2).calls
      = w.calls ++ [{ label := label, arg := .exception e }] := by
  constructor
  · obtain ⟨hr, hc⟩ := chain_ready qu (thens ++ [.fail_void (.user label f)]) w state_ _ hslot hs hq
    obtain ⟨p1, ⟨hx, d, _, hqueue, _, hd0, hdw⟩, hc1⟩ := drain_skip qu _ e _ thens _ state_ hthen hr
    rw [drain_succ_last, ← hc, ← hc1]
    simp only [link.task] at hqueue
    generalize drain qu thens.length (chain w state_ qu (thens ++ [.fail_void (.user label f)])).2
      = w1 at *
    cases hf : f e <;>
    simp [run_one, queue.pop, hqueue, task.perform, promise_state.consume, hx,
      fail_void_fn.invoke, call_with_args, World.record, hf, defer.set_exception,
      std_promise.set_value, promise_signal.done, World.set_state, hd0, hdw, World.schedule]
  · obtain ⟨hr, hc⟩ := chain_ready qu (thens ++ [.fail_promise (.user label f2)]) w state_ _ hslot hs hq
    obtain ⟨p1, ⟨hx, d, _, hqueue, _, hd0, hdw⟩, hc1⟩ := drain_skip qu _ e _ thens _ state_ hthen hr
    rw [drain_succ_last, ← hc, ← hc1]
    simp only [link.task] at hqueue
    generalize drain qu thens.length (chain w state_ qu (thens ++ [.fail_promise (.user label f2)])).2
      = w1 at *
    cases hf : f2 e with
    | error e2 =>
      simp [run_one, queue.pop, hqueue, task.perform, promise_state.consume, hx,
        fail_promise_fn.invoke, call_with_args, World.record, hf, defer.set_exception,
        defer.satisfy_by_fun_exception,
        std_promise.set_value, promise_signal.done, World.set_state, hd0, hdw, World.schedule]
    | ok src =>
      simp [run_one, queue.pop, hqueue, task.perform, promise_state.consume, hx,
        fail_promise_fn.invoke, call_with_args, World.record, hf,
        defer.satisfy_by_fun_exception]

/-- Witness of C6: a promise failed with the user exception `7`, two `then`
links and a `void` handler. -/
theorem C6_exception_skip_witness :
    ((failed (World.init : World Nat Nat) (.user 7)).2.states 0).slot
        = some (.exception (.user 7))
      ∧ (drain 0 3 (chain (failed (World.init : World Nat Nat) (.user 7)).2 0 0
          [.then_value (.user_value 1 .positional (fun t => .ok (t.headD 0 + 1))),
            .then_promise (.user 2 .aggregate (fun t => .ok (.fresh (some (.value t))))),
            .fail_void (.user 3 (fun _ => .ok ()))]).2).calls
        = [{ label := 3, arg := .exception (.user 7) }] :=
  ⟨rfl,
    (C6_exception_skip (failed (World.init : World Nat Nat) (.user 7)).2 0 (.user 7) 0
      [.then_value (.user_value 1 .positional (fun t => .ok (t.headD 0 + 1))),
        .then_promise (.user 2 .aggregate (fun t => .ok (.fresh (some (.value t)))))]
      3 (fun _ => .ok ()) (fun _ => .ok (.fresh none))
      (by decide) (by decide) rfl rfl).1⟩

/-- C7: for both catch-all `fail` variants, with a `void` and with a
promise-returning function: if the upstream outcome is `Value(v)`, the
successor is resolved to `Value(v)` unchanged and `fn` is not invoked: no call
is recorded and no state other than the successor changed. -/
theorem C7_fail_forwards_value (w : World α U) (state_ : Nat) (v : List α) (qu : Nat)
    (hs : state_ < w.next) (hslot : (w.states state_).slot = some (.value v))
    (hq : (w.queues qu).queue_ = []) :
    (∀ fn : fail_void_fn U,
      ((run_one qu (generic_promise.fail_void w state_ fn qu).2).states
          (generic_promise.fail_void w state_ fn qu).1).slot = some (.value v)
      ∧ (run_one qu (generic_promise.fail_void w state_ fn qu).2).calls = w.calls
      ∧ ∀ i, i ≠ (generic_promise.fail_void w state_ fn qu).1 →
          (run_one qu (generic_promise.fail_void w state_ fn qu).2).states i = w.states i)
    ∧ (∀ fn : fail_promise_fn α U,
      ((run_one qu (generic_promise.fail_promise w state_ fn qu).2).states
          (generic_promise.fail_promise w state_ fn qu).1).slot = some (.value v)
      ∧ (run_one qu (generic_promise.fail_promise w state_ fn qu).2).calls = w.calls
      ∧ ∀ i, i ≠ (generic_promise.fail_promise w state_ fn qu).1 →
          (run_one qu (generic_promise.fail_promise w state_ fn qu).2).states i
            = w.states i) := by
  have hne : state_ ≠ w.next := by omega
  constructor <;> intro fn <;>
    simp [generic_promise.fail_void, generic_promise.fail_promise, defer.construct,
      defer.get_promise, promise_signal.push, World.set_state, World.push_task, queue.push,
      run_one, queue.pop, task.perform, promise_state.consume, defer.set_value,
      std_promise.set_value, promise_signal.done, World.schedule, Function.update_noteq hne,
      hslot, hq, promise_state.init, fulfill] <;>
    intro i hi <;> simp [Function.update_noteq hi]

/-- Witness of C7: `with( 5 ).fail( handler )`. -/
theorem C7_fail_forwards_value_witness :
    ((with_ (World.init : World Nat Nat) [5]).2.states 0).slot = some (.value [5])
      ∧ ((run_one 0 (generic_promise.fail_void (with_ (World.init : World Nat Nat) [5]).2 0
          (.user 1 (fun _ => .ok ())) 0).2).states 1).slot = some (.value [5])
      ∧ (run_one 0 (generic_promise.fail_void (with_ (World.init : World Nat Nat) [5]).2 0
          (.user 1 (fun _ => .ok ())) 0).2).calls = [] :=
  ⟨rfl,
    ((C7_fail_forwards_value (with_ (World.init : World Nat Nat) [5]).2 0 [5] 0
      (by decide) rfl rfl).1 (.user 1 (fun _ => .ok ()))).1,
    ((C7_fail_forwards_value (with_ (World.init : World Nat Nat) [5]).2 0 [5] 0
      (by decide) rfl rfl).1 (.user 1 (fun _ => .ok ()))).2.1⟩

/-- C8, the code at the failing inputs: for the catch-all `fail( fn )` with a
`void` user `fn`, an upstream outcome `Exception(e)` and `fn( e )` returning
normally. The closure calls `fn` once, with `e`, and ends: it sets neither a
value nor an exception on the successor (the `TODO` of the source). However
long the worker runs, the successor never holds a value, the `then` attached
downstream never holds one either, and the function of that `then` is never
invoked: the call of `fn` is the only call. -/
theorem C8_fail_void_no_value (w : World α U) (state_ : Nat) (e : Exn U) (qu label : Nat)
    (f : Exn U → Except (Exn U) Unit) (g : value_fn α U) (n : Nat)
    (hs : state_ < w.next) (hslot : (w.states state_).slot = some (.exception e))
    (hq : (w.queues qu).queue_ = []) (hf : f e = .ok ()) :
    (drain qu (n + 1) (generic_promise.then_value
          (generic_promise.fail_void w state_ (.user label f) qu).2
          (generic_promise.fail_void w state_ (.user label f) qu).1 g qu).2).calls
      = w.calls ++ [{ label := label, arg := .exception e }]
    ∧ (∀ t, ((drain qu (n + 1) (generic_promise.then_value
          (generic_promise.fail_void w state_ (.user label f) qu).2
          (generic_promise.fail_void w state_ (.user label f) qu).1 g qu).2).states
        (generic_promise.fail_void w state_ (.user label f) qu).1).slot ≠ some (.value t))
    ∧ (∀ t, ((drain qu (n + 1) (generic_promise.then_value
          (generic_promise.fail_void w state_ (.user label f) qu).2
          (generic_promise.fail_void w state_ (.user label f) qu).1 g qu).2).states
        (generic_promise.then_value
          (generic_promise.fail_void w state_ (.user label f) qu).2
          (generic_promise.fail_void w state_ (.user label f) qu).1 g qu).1).slot
        ≠ some (.value t)) := by
  obtain ⟨h1, h2, h3⟩ := fail_void_returns w state_ e qu label f g n hs hslot hq hf
  refine ⟨h1, fun t h => ?_, fun t h => ?_⟩
  · rw [h2] at h
    cases h
  · rw [h3] at h
    cases h

/-- Witness of C8: a promise failed with the user exception `7`, then
`fail( handler )` with a `void` handler that returns normally, then
`then( x -> x + 1 )`. After five turns of the worker the call of the handler
is the only call and the successor of `fail` holds no value. -/
theorem C8_fail_void_no_value_witness :
    (drain 0 5 (generic_promise.then_value
        (generic_promise.fail_void (failed (World.init : World Nat Nat) (.user 7)).2 0 (.user 1 (fun _ => .ok ())) 0).2
        1 (.user_value 2 .positional (fun t => .ok (t.headD 0 + 1))) 0).2).calls
      = [{ label := 1, arg := .exception (.user 7) }]
    ∧ ¬ (∃ t : List Nat,
        ((drain 0 5 (generic_promise.then_value
            (generic_promise.fail_void (failed (World.init : World Nat Nat) (.user 7)).2 0 (.user 1 (fun _ => .ok ())) 0).2
            1 (.user_value 2 .positional (fun t => .ok (t.headD 0 + 1))) 0).2).states 1).slot
          = some (.value t)) :=
  ⟨(C8_fail_void_no_value (failed (World.init : World Nat Nat) (.user 7)).2 0 (.user 7) 0 1
      (fun _ => .ok ()) (.user_value 2 .positional (fun t => .ok (t.headD 0 + 1))) 4
      (by decide) rfl rfl rfl).1,
    fun ⟨t, ht⟩ =>
      (C8_fail_void_no_value (failed (World.init : World Nat Nat) (.user 7)).2 0 (.user 7) 0 1
        (fun _ => .ok ()) (.user_value 2 .positional (fun t => .ok (t.headD 0 + 1))) 4
        (by decide) rfl rfl rfl).2.1 t ht⟩

/-- C9: for the catch-all `fail( fn )` with a `void` user `fn`, if the
upstream outcome is `Exception(e)` and `fn( e )` throws `e2`, then `fn` was
invoked once with `e` and the successor is resolved to `Exception(e2)`. -/
theorem C9_fail_void_throws (w : World α U) (state_ : Nat) (e e2 : Exn U) (qu label : Nat)
    (f : Exn U → Except (Exn U) Unit)
    (hs : state_ < w.next) (hslot : (w.states state_).slot = some (.exception e))
    (hq : (w.queues qu).queue_ = []) (hf : f e = .error e2) :
    ((run_one qu (generic_promise.fail_void w state_ (.user label f) qu).2).states
        (generic_promise.fail_void w state_ (.user label f) qu).1).slot
      = some (.exception e2)
    ∧ (run_one qu (generic_promise.fail_void w state_ (.user label f) qu).2).calls
      = w.calls ++ [{ label := label, arg := .exception e }] := by
  have hne : state_ ≠ w.next := by omega
  simp [generic_promise.fail_void, defer.construct, defer.get_promise, promise_signal.push,
    World.set_state, World.push_task, queue.push, run_one, queue.pop, task.perform,
    promise_state.consume, defer.set_exception, fail_void_fn.invoke, call_with_args,
    World.record, std_promise.set_value, promise_signal.done, World.schedule,
    Function.update_noteq hne, hslot, hq, promise_state.init, refuse, hf]

/-- Witness of C9: a promise failed with `7` and a handler that throws
`8`. -/
theorem C9_fail_void_throws_witness :
    ((failed (World.init : World Nat Nat) (.user 7)).2.states 0).slot = some (.exception (.user 7))
      ∧ ((run_one 0 (generic_promise.fail_void (failed (World.init : World Nat Nat) (.user 7)).2 0
          (.user 1 (fun _ => .error (.user 8))) 0).2).states 1).slot
        = some (.exception (.user 8)) :=
  ⟨rfl,
    (C9_fail_void_throws (failed (World.init : World Nat Nat) (.user 7)).2 0 (.user 7) (.user 8) 0 1 (fun _ => .error (.user 8))
      (by decide) rfl rfl rfl).1⟩

set_option maxHeartbeats 1600000 in
/-- C10: recovery. For `fail( fn )` with a user `fn` that takes the
exception handle and returns the promise `q`, followed by `then( g )`: if the
upstream outcome is `Exception(e)`, `fn` is invoked once with `e`; the
successor is resolved to exactly the outcome of `q` after the two
continuations `defer::satisfy` attached to `q` have run on the default queue;
when that outcome is `Value(t)` the downstream `g` is then invoked with `t` and
its promise resolves to `Value( g( t ) )`; while `q` is pending the successor
is pending, and it gets the outcome `q` is resolved to later. -/
theorem C10_fail_promise_recovers (w : World α U) (state_ : Nat) (e : Exn U)
    (qu label lg : Nat) (bg : Binding) (f : Exn U → Except (Exn U) (promise_src α U))
    (src : promise_src α U) (g : List α → α)
    (hs : state_ < w.next) (hslot : (w.states state_).slot = some (.exception e))
    (hq : (w.queues qu).queue_ = []) (hdq : (w.queues w.default_queue_).queue_ = [])
    (hf : f e = .ok src)
    (hsrc : ∀ id, src = .existing id →
      id < w.next ∧ ((w.states id).slot = none → (w.states id).waiters = [])) :
    (run_one qu (generic_promise.then_value
          (generic_promise.fail_promise w state_ (.user label f) qu).2
          (generic_promise.fail_promise w state_ (.user label f) qu).1
          (.user_value lg bg (fun t => .ok (g t))) qu).2).calls
      = w.calls ++ [{ label := label, arg := .exception e }]
    ∧ (∀ x,
        ((run_one qu (generic_promise.then_value
          (generic_promise.fail_promise w state_ (.user label f) qu).2
          (generic_promise.fail_promise w state_ (.user label f) qu).1
          (.user_value lg bg (fun t => .ok (g t))) qu).2).states
          (src.get (generic_promise.then_value
          (generic_promise.fail_promise w state_ (.user label f) qu).2
          (generic_promise.fail_promise w state_ (.user label f) qu).1
          (.user_value lg bg (fun t => .ok (g t))) qu).2).1).slot = some x →
        ((drain w.default_queue_ 2 (run_one qu (generic_promise.then_value
          (generic_promise.fail_promise w state_ (.user label f) qu).2
          (generic_promise.fail_promise w state_ (.user label f) qu).1
          (.user_value lg bg (fun t => .ok (g t))) qu).2)).states
          (generic_promise.fail_promise w state_ (.user label f) qu).1).slot = some x)
    ∧ (∀ t,
        ((run_one qu (generic_promise.then_value
          (generic_promise.fail_promise w state_ (.user label f) qu).2
          (generic_promise.fail_promise w state_ (.user label f) qu).1
          (.user_value lg bg (fun t => .ok (g t))) qu).2).states
          (src.get (generic_promise.then_value
          (generic_promise.fail_promise w state_ (.user label f) qu).2
          (generic_promise.fail_promise w state_ (.user label f) qu).1
          (.user_value lg bg (fun t => .ok (g t))) qu).2).1).slot = some (.value t) →
        (run_one qu (drain w.default_queue_ 2 (run_one qu (generic_promise.then_value
          (generic_promise.fail_promise w state_ (.user label f) qu).2
          (generic_promise.fail_promise w state_ (.user label f) qu).1
          (.user_value lg bg (fun t => .ok (g t))) qu).2))).calls
          = w.calls ++ [{ label := label, arg := .exception e }, { label := lg, arg := .value t }]
        ∧ ((run_one qu (drain w.default_queue_ 2 (run_one qu (generic_promise.then_value
          (generic_promise.fail_promise w state_ (.user label f) qu).2
          (generic_promise.fail_promise w state_ (.user label f) qu).1
          (.user_value lg bg (fun t => .ok (g t))) qu).2))).states
          (generic_promise.then_value
          (generic_promise.fail_promise w state_ (.user label f) qu).2
          (generic_promise.fail_promise w state_ (.user label f) qu).1
          (.user_value lg bg (fun t => .ok (g t))) qu).1).slot = some (.value [g t]))
    ∧ (∀ x,
        ((run_one qu (generic_promise.then_value
          (generic_promise.fail_promise w state_ (.user label f) qu).2
          (generic_promise.fail_promise w state_ (.user label f) qu).1
          (.user_value lg bg (fun t => .ok (g t))) qu).2).states
          (src.get (generic_promise.then_value
          (generic_promise.fail_promise w state_ (.user label f) qu).2
          (generic_promise.fail_promise w state_ (.user label f) qu).1
          (.user_value lg bg (fun t => .ok (g t))) qu).2).1).slot = none →
        ((run_one qu (generic_promise.then_value
          (generic_promise.fail_promise w state_ (.user label f) qu).2
          (generic_promise.fail_promise w state_ (.user label f) qu).1
          (.user_value lg bg (fun t => .ok (g t))) qu).2).states
          (generic_promise.fail_promise w state_ (.user label f) qu).1).slot = none
        ∧ ((drain w.default_queue_ 2
            (defer.set_expect (run_one qu (generic_promise.then_value
          (generic_promise.fail_promise w state_ (.user label f) qu).2
          (generic_promise.fail_promise w state_ (.user label f) qu).1
          (.user_value lg bg (fun t => .ok (g t))) qu).2)
              (src.get (generic_promise.then_value
          (generic_promise.fail_promise w state_ (.user label f) qu).2
          (generic_promise.fail_promise w state_ (.user label f) qu).1
          (.user_value lg bg (fun t => .ok (g t))) qu).2).1 x).1).states
          (generic_promise.fail_promise w state_ (.user label f) qu).1).slot = some x) := by
  have hne : state_ ≠ w.next := by omega
  have hne1 : w.next ≠ state_ := by omega
  have hne2 : state_ ≠ w.next + 1 := by omega
  have hdec : qu = w.default_queue_ ∨ (qu ≠ w.default_queue_ ∧ w.default_queue_ ≠ qu) := by
    by_cases h : qu = w.default_queue_
    · exact Or.inl h
    · exact Or.inr ⟨h, Ne.symm h⟩
  rcases src with id | o
  · obtain ⟨h1, h3⟩ := hsrc id rfl
    have i0 : id ≠ w.next := by omega
    have i1 : id ≠ w.next + 1 := by omega
    have i2 : id ≠ w.next + 2 := by omega
    have i3 : id ≠ w.next + 3 := by omega
    have i4 : id ≠ w.next + 4 := by omega
    have j0 : w.next ≠ id := by omega
    have j1 : w.next + 1 ≠ id := by omega
    have j2 : w.next + 2 ≠ id := by omega
    have j3 : w.next + 3 ≠ id := by omega
    have j4 : w.next + 4 ≠ id := by omega
    clear hsrc
    cases hid : (w.states id).slot with
    | none =>
      have hw := h3 hid
      have h2 : id ≠ state_ := by
        rintro rfl
        rw [hslot] at hid
        cases hid
      have h4 : state_ ≠ id := Ne.symm h2
      clear h3
      refine ⟨?_, fun x => ?_, fun t => ?_, fun x => ?_⟩ <;> (try cases x) <;>
      rcases hdec with hqq | ⟨hqq, hqq2⟩ <;>
      simp [generic_promise.fail_promise, generic_promise.fail_void,
      generic_promise.then_value, defer.construct, defer.get_promise, promise_signal.push,
      drain, World.set_state, World.push_task, queue.push, run_one, queue.pop, task.perform,
      promise_state.consume, defer.set_exception, defer.set_value, defer.set_by_fun,
      defer.satisfy_by_fun_exception, defer.satisfy, fail_promise_fn.invoke, promise_src.get,
      default_queue, value_fn.invoke, fail_void_fn.invoke, defer.set_expect, Binding.call_eq,
      call_with_args, World.record, std_promise.set_value, promise_signal.done, Except.map,
      World.schedule, Function.update_apply, Nat.add_assoc, promise_state.init, refuse,
      fulfill, *]
    | some x0 =>
      clear h3
      cases x0 <;>
      refine ⟨?_, fun x => ?_, fun t => ?_, fun x => ?_⟩ <;> (try cases x) <;>
      rcases hdec with hqq | ⟨hqq, hqq2⟩ <;>
      simp [generic_promise.fail_promise, generic_promise.fail_void,
      generic_promise.then_value, defer.construct, defer.get_promise, promise_signal.push,
      drain, World.set_state, World.push_task, queue.push, run_one, queue.pop, task.perform,
      promise_state.consume, defer.set_exception, defer.set_value, defer.set_by_fun,
      defer.satisfy_by_fun_exception, defer.satisfy, fail_promise_fn.invoke, promise_src.get,
      default_queue, value_fn.invoke, fail_void_fn.invoke, defer.set_expect, Binding.call_eq,
      call_with_args, World.record, std_promise.set_value, promise_signal.done, Except.map,
      World.schedule, Function.update_apply, Nat.add_assoc, promise_state.init, refuse,
      fulfill, *] <;>
      (try (rintro rfl; simp))
  · clear hsrc
    rcases o with _ | x0
    · refine ⟨?_, fun x => ?_, fun t => ?_, fun x => ?_⟩ <;> (try cases x) <;>
      rcases hdec with hqq | ⟨hqq, hqq2⟩ <;>
      simp [generic_promise.fail_promise, generic_promise.fail_void,
      generic_promise.then_value, defer.construct, defer.get_promise, promise_signal.push,
      drain, World.set_state, World.push_task, queue.push, run_one, queue.pop, task.perform,
      promise_state.consume, defer.set_exception, defer.set_value, defer.set_by_fun,
      defer.satisfy_by_fun_exception, defer.satisfy, fail_promise_fn.invoke, promise_src.get,
      default_queue, value_fn.invoke, fail_void_fn.invoke, defer.set_expect, Binding.call_eq,
      call_with_args, World.record, std_promise.set_value, promise_signal.done, Except.map,
      World.schedule, Function.update_apply, Nat.add_assoc, promise_state.init, refuse,
      fulfill, *]
    · cases x0 <;>
      refine ⟨?_, fun x => ?_, fun t => ?_, fun x => ?_⟩ <;> (try cases x) <;>
      rcases hdec with hqq | ⟨hqq, hqq2⟩ <;>
      simp [generic_promise.fail_promise, generic_promise.fail_void,
      generic_promise.then_value, defer.construct, defer.get_promise, promise_signal.push,
      drain, World.set_state, World.push_task, queue.push, run_one, queue.pop, task.perform,
      promise_state.consume, defer.set_exception, defer.set_value, defer.set_by_fun,
      defer.satisfy_by_fun_exception, defer.satisfy, fail_promise_fn.invoke, promise_src.get,
      default_queue, value_fn.invoke, fail_void_fn.invoke, defer.set_expect, Binding.call_eq,
      call_with_args, World.record, std_promise.set_value, promise_signal.done, Except.map,
      World.schedule, Function.update_apply, Nat.add_assoc, promise_state.init, refuse,
      fulfill, *] <;>
      (try (rintro rfl; simp))

/-- Witness of C10: a chain failed with `7`, followed by
`fail( e -> with( 99 ) ).then( x -> x + 1 )`, resolves to `100`. -/
theorem C10_fail_promise_recovers_witness :
    ((failed (World.init : World Nat Nat) (.user 7)).2.states 0).slot = some (.exception (.user 7))
      ∧ ((run_one 0 (drain 0 2 (run_one 0 (generic_promise.then_value
          (generic_promise.fail_promise (failed (World.init : World Nat Nat) (.user 7)).2 0
            (.user 1 (fun _ => .ok (.fresh (some (.value [99]))))) 0).2
          1 (.user_value 2 .positional (fun t => .ok (t.headD 0 + 1))) 0).2))).states 2).slot
        = some (.value [100]) :=
  ⟨rfl,
    ((C10_fail_promise_recovers (failed (World.init : World Nat Nat) (.user 7)).2 0 (.user 7) 0 1 2 .positional
      (fun _ => .ok (.fresh (some (.value [99])))) (.fresh (some (.value [99])))
      (fun t => t.headD 0 + 1) (by decide) rfl rfl rfl rfl
      (fun _ h => by cases h)).2.2.1 [99] (by decide)).2⟩

/-- C11, the code at a failing input: a promise failed with the user
exception `7`, then the typed `fail` with a handler that catches every
exception. The handler is never called, however long the worker runs, and
`fail` makes no successor state: the `runner` rethrows its own empty `eptr`,
not the exception of the upstream state. -/
theorem C11_typed_fail_ignores_upstream :
    (drain 0 5 (generic_promise.fail_typed (failed (World.init : World Nat Nat) (.user 7)).2 0
        (.user 1 (fun _ => true) (fun _ => .ok ())) 0)).calls = []
    ∧ (generic_promise.fail_typed (failed (World.init : World Nat Nat) (.user 7)).2 0
        (.user 1 (fun _ => true) (fun _ => .ok ())) 0).next
      = (failed (World.init : World Nat Nat) (.user 7)).2.next := by
  decide

/-- C12: for `finally( fn )` with a user `fn` that returns normally, and
every upstream outcome `x`, a value or an exception: `fn` is invoked exactly
once, the successor is resolved to exactly `x`, and nothing leaves the
continuation. -/
theorem C12_finally_forwards (w : World α U) (state_ : Nat) (x : expect α U) (qu label : Nat)
    (f : Unit → Except (Exn U) Unit)
    (hs : state_ < w.next) (hslot : (w.states state_).slot = some x)
    (hq : (w.queues qu).queue_ = []) (hf : f () = .ok ()) :
    (run_one qu (generic_promise.finally_ w state_ (.user label f) qu).2).calls
      = w.calls ++ [{ label := label, arg := .value [] }]
    ∧ ((run_one qu (generic_promise.finally_ w state_ (.user label f) qu).2).states
        (generic_promise.finally_ w state_ (.user label f) qu).1).slot = some x
    ∧ (run_one qu (generic_promise.finally_ w state_ (.user label f) qu).2).escaped
      = w.escaped := by
  have hne : state_ ≠ w.next := by omega
  cases x <;>
  simp [generic_promise.finally_, defer.construct, defer.get_promise, promise_signal.push,
    World.set_state, World.push_task, queue.push, run_one, queue.pop, task.perform,
    promise_state.consume, defer.set_exception, defer.set_value, defer.set_expect,
    finally_fn.invoke, World.record, std_promise.set_value, promise_signal.done,
    World.schedule, Function.update_noteq hne, hslot, hq, promise_state.init, refuse,
    fulfill, hf]

/-- Witness of C12: `with( 1 ).finally( fn )`. -/
theorem C12_finally_forwards_witness :
    ((with_ (World.init : World Nat Nat) [1]).2.states 0).slot = some (.value [1])
      ∧ ((run_one 0 (generic_promise.finally_ (with_ (World.init : World Nat Nat) [1]).2 0 (.user 1 (fun _ => .ok ())) 0).2).states
          1).slot = some (.value [1])
      ∧ (run_one 0 (generic_promise.finally_ (with_ (World.init : World Nat Nat) [1]).2 0 (.user 1 (fun _ => .ok ())) 0).2).calls
          = [{ label := 1, arg := .value [] }] :=
  ⟨rfl,
    (C12_finally_forwards (with_ (World.init : World Nat Nat) [1]).2 0 (.value [1]) 0 1 (fun _ => .ok ())
      (by decide) rfl rfl rfl).2.1,
    (C12_finally_forwards (with_ (World.init : World Nat Nat) [1]).2 0 (.value [1]) 0 1 (fun _ => .ok ())
      (by decide) rfl rfl rfl).1⟩

/-- C13, the code at two failing inputs: `with( 1 ).finally( fn )` and a
promise failed with `7` followed by `finally( fn )`, where `fn` throws the
user exception `8`. In both the successor is not resolved to
`Exception( 8 )`: it stays pending, and the exception leaves the continuation
and reaches the worker. -/
theorem C13_finally_throw_escapes :
    ((run_one 0 (generic_promise.finally_ (with_ (World.init : World Nat Nat) [1]).2 0
        (.user 1 (fun _ => .error (.user 8))) 0).2).states 1).slot = none
    ∧ (run_one 0 (generic_promise.finally_ (with_ (World.init : World Nat Nat) [1]).2 0
        (.user 1 (fun _ => .error (.user 8))) 0).2).escaped = [.user 8]
    ∧ ((run_one 0 (generic_promise.finally_ (failed (World.init : World Nat Nat) (.user 7)).2 0
        (.user 1 (fun _ => .error (.user 8))) 0).2).states 1).slot = none
    ∧ (run_one 0 (generic_promise.finally_ (failed (World.init : World Nat Nat) (.user 7)).2 0
        (.user 1 (fun _ => .error (.user 8))) 0).2).escaped = [.user 8] := by
  decide

/-- C14 as stated fails: `with( 1 ).then( fn )` with a promise-returning `fn`
that throws the user exception `7`: the successor does not fail with `7`
itself. -/
theorem C14_counterexample :
    ¬ (((run_one 0 (generic_promise.then_promise (with_ (World.init : World Nat Nat) [1]).2 0
        (.user 1 .positional (fun _ => .error (.user 7))) 0).2).states 1).slot
      = some (.exception (.user 7))) := by
  decide

/-- C14 amended: for `then( fn )` with a promise-returning user `fn` and the
upstream outcome `Value(v)`: if `fn` throws `e` when invoked, `fn` was invoked
once with `v` and the successor fails with `broken_promise_exception` whose
cause is `e`. -/
theorem C14_then_promise_throw_wrapped (w : World α U) (state_ : Nat) (v : List α)
    (qu label : Nat) (b : Binding) (f : List α → Except (Exn U) (promise_src α U)) (e : Exn U)
    (hs : state_ < w.next) (hslot : (w.states state_).slot = some (.value v))
    (hq : (w.queues qu).queue_ = []) (hf : f v = .error e) :
    (run_one qu (generic_promise.then_promise w state_ (.user label b f) qu).2).calls
        = w.calls ++ [{ label := label, arg := .value v }]
    ∧ ((run_one qu (generic_promise.then_promise w state_ (.user label b f) qu).2).states
        (generic_promise.then_promise w state_ (.user label b f) qu).1).slot
        = some (.exception (.broken_promise e)) := by
  have hne : state_ ≠ w.next := by omega
  simp [generic_promise.then_promise, defer.construct, defer.get_promise, promise_signal.push,
    World.set_state, World.push_task, queue.push, run_one, queue.pop, task.perform,
    promise_state.consume, defer.set_exception, defer.satisfy_by_fun, promise_fn.invoke,
    Binding.call_eq, World.record, std_promise.set_value, promise_signal.done,
    World.schedule, Function.update_noteq hne, hslot, hq, promise_state.init, refuse, hf]

/-- Witness of C14 amended: the chain of the counterexample. -/
theorem C14_then_promise_throw_wrapped_witness :
    ((with_ (World.init : World Nat Nat) [1]).2.states 0).slot = some (.value [1])
      ∧ ((run_one 0 (generic_promise.then_promise (with_ (World.init : World Nat Nat) [1]).2 0
          (.user 1 .positional (fun _ => .error (.user 7))) 0).2).states 1).slot
        = some (.exception (.broken_promise (.user 7))) :=
  ⟨rfl,
    (C14_then_promise_throw_wrapped (with_ (World.init : World Nat Nat) [1]).2 0 [1] 0 1 .positional (fun _ => .error (.user 7))
      (.user 7) (by decide) rfl rfl rfl).2⟩

set_option maxHeartbeats 1600000 in
/-- C15: for `deferred.satisfy_by_fun( fn, args )` on a pending `defer` with
a user `fn`: if `fn( args )` throws `e`, the `defer` is resolved to
`Exception( broken_promise_exception( e ) )`; if `fn( args )` returns the
promise `q`, nothing is thrown and the `defer` is resolved to exactly the
outcome of `q`, value or exception, after the two continuations attached to
`q` have run on the default queue; while `q` is pending the `defer` is
pending, and it gets the outcome `q` is resolved to later. -/
theorem C15_satisfy_by_fun (w : World α U) (d label : Nat) (b : Binding)
    (f : List α → Except (Exn U) (promise_src α U)) (args : List α)
    (hd : d < w.next) (hslot : (w.states d).slot = none) (hw : (w.states d).waiters = [])
    (hdq : (w.queues w.default_queue_).queue_ = []) :
    (∀ e, f args = .error e →
      (defer.satisfy_by_fun w d (.user label b f) args).2 = none
      ∧ ((defer.satisfy_by_fun w d (.user label b f) args).1.states d).slot
          = some (.exception (.broken_promise e)))
    ∧ (∀ src, f args = .ok src →
        (∀ id, src = .existing id →
          id < w.next ∧ id ≠ d ∧ ((w.states id).slot = none → (w.states id).waiters = [])) →
        (defer.satisfy_by_fun w d (.user label b f) args).2 = none
        ∧ (∀ x,
            ((defer.satisfy_by_fun w d (.user label b f) args).1.states (src.get w).1).slot
              = some x →
            ((drain w.default_queue_ 2
                (defer.satisfy_by_fun w d (.user label b f) args).1).states d).slot = some x)
        ∧ (∀ x,
            ((defer.satisfy_by_fun w d (.user label b f) args).1.states (src.get w).1).slot
              = none →
            ((defer.satisfy_by_fun w d (.user label b f) args).1.states d).slot = none
            ∧ ((drain w.default_queue_ 2
                (defer.set_expect (defer.satisfy_by_fun w d (.user label b f) args).1
                  (src.get w).1 x).1).states d).slot = some x)) := by
  have hne : d ≠ w.next := by omega
  have hne1 : w.next ≠ d := by omega
  have hne2 : d ≠ w.next + 1 := by omega
  have hne3 : w.next + 1 ≠ d := by omega
  have hne4 : d ≠ w.next + 2 := by omega
  have hne5 : w.next + 2 ≠ d := by omega
  constructor
  · intro e hf
    simp [defer.satisfy_by_fun, promise_fn.invoke, Binding.call_eq, hf, defer.set_exception,
      std_promise.set_value, World.record, hslot, promise_signal.done, World.set_state,
      hw, World.schedule, refuse]
  · intro src hf hsrc
    rcases src with id | o
    · obtain ⟨h1, h2, h3⟩ := hsrc id rfl
      have i0 : id ≠ w.next := by omega
      have i1 : id ≠ w.next + 1 := by omega
      have i2 : id ≠ w.next + 2 := by omega
      have j0 : w.next ≠ id := by omega
      have j1 : w.next + 1 ≠ id := by omega
      have j2 : w.next + 2 ≠ id := by omega
      have h4 : d ≠ id := Ne.symm h2
      clear hsrc
      cases hid : (w.states id).slot with
      | none =>
        have hw2 := h3 hid
        clear h3
        refine ⟨?_, fun x => ?_, fun x => ?_⟩ <;> (try cases x) <;>
        simp [generic_promise.fail_void, generic_promise.then_value, defer.construct,
          defer.get_promise, promise_signal.push, drain, World.set_state, World.push_task,
          queue.push, run_one, queue.pop, task.perform, promise_state.consume,
          defer.set_exception, defer.set_value, defer.set_by_fun, defer.satisfy_by_fun,
          defer.satisfy, promise_fn.invoke, promise_src.get, default_queue, value_fn.invoke,
          fail_void_fn.invoke, defer.set_expect, Binding.call_eq, call_with_args, World.record,
          std_promise.set_value, promise_signal.done, Except.map, World.schedule,
          Function.update_apply, Nat.add_assoc, promise_state.init, refuse, fulfill, *]
      | some x0 =>
        clear h3
        cases x0 <;>
        refine ⟨?_, fun x => ?_, fun x => ?_⟩ <;> (try cases x) <;>
        simp [generic_promise.fail_void, generic_promise.then_value, defer.construct,
          defer.get_promise, promise_signal.push, drain, World.set_state, World.push_task,
          queue.push, run_one, queue.pop, task.perform, promise_state.consume,
          defer.set_exception, defer.set_value, defer.set_by_fun, defer.satisfy_by_fun,
          defer.satisfy, promise_fn.invoke, promise_src.get, default_queue, value_fn.invoke,
          fail_void_fn.invoke, defer.set_expect, Binding.call_eq, call_with_args, World.record,
          std_promise.set_value, promise_signal.done, Except.map, World.schedule,
          Function.update_apply, Nat.add_assoc, promise_state.init, refuse, fulfill, *]
    · clear hsrc
      rcases o with _ | x0
      · refine ⟨?_, fun x => ?_, fun x => ?_⟩ <;> (try cases x) <;>
        simp [generic_promise.fail_void, generic_promise.then_value, defer.construct,
          defer.get_promise, promise_signal.push, drain, World.set_state, World.push_task,
          queue.push, run_one, queue.pop, task.perform, promise_state.consume,
          defer.set_exception, defer.set_value, defer.set_by_fun, defer.satisfy_by_fun,
          defer.satisfy, promise_fn.invoke, promise_src.get, default_queue, value_fn.invoke,
          fail_void_fn.invoke, defer.set_expect, Binding.call_eq, call_with_args, World.record,
          std_promise.set_value, promise_signal.done, Except.map, World.schedule,
          Function.update_apply, Nat.add_assoc, promise_state.init, refuse, fulfill, *]
      · cases x0 <;>
        refine ⟨?_, fun x => ?_, fun x => ?_⟩ <;> (try cases x) <;>
        simp [generic_promise.fail_void, generic_promise.then_value, defer.construct,
          defer.get_promise, promise_signal.push, drain, World.set_state, World.push_task,
          queue.push, run_one, queue.pop, task.perform, promise_state.consume,
          defer.set_exception, defer.set_value, defer.set_by_fun, defer.satisfy_by_fun,
          defer.satisfy, promise_fn.invoke, promise_src.get, default_queue, value_fn.invoke,
          fail_void_fn.invoke, defer.set_expect, Binding.call_eq, call_with_args, World.record,
          std_promise.set_value, promise_signal.done, Except.map, World.schedule,
          Function.update_apply, Nat.add_assoc, promise_state.init, refuse, fulfill, *]

/-- Witness of C15: on a new `defer`, a function that throws `7`, and a
function that returns a promise resolved to its argument `3`. -/
theorem C15_satisfy_by_fun_witness :
    ((defer.construct (World.init : World Nat Nat)).2.states 0).slot = none
      ∧ ((defer.satisfy_by_fun (defer.construct (World.init : World Nat Nat)).2 0 (.user 1 .positional (fun _ => .error (.user 7)))
          [3]).1.states 0).slot = some (.exception (.broken_promise (.user 7)))
      ∧ ((drain 0 2 (defer.satisfy_by_fun (defer.construct (World.init : World Nat Nat)).2 0
          (.user 1 .positional (fun t => .ok (.fresh (some (.value t))))) [3]).1).states
          0).slot = some (.value [3]) :=
  ⟨rfl,
    ((C15_satisfy_by_fun (defer.construct (World.init : World Nat Nat)).2 0 1 .positional (fun _ => .error (.user 7)) [3]
      (by decide) rfl rfl rfl).1 (.user 7) rfl).2,
    ((C15_satisfy_by_fun (defer.construct (World.init : World Nat Nat)).2 0 1 .positional (fun t => .ok (.fresh (some (.value t)))) [3]
      (by decide) rfl rfl rfl).2 (.fresh (some (.value [3]))) rfl
      (fun _ h => by cases h)).2.1 (.value [3]) (by decide)⟩

/-- C16 as stated fails: two `get_promise` calls on a new `defer`. The first
returns the promise of state `0`; the second does not fail, it returns the
moved-from promise. -/
theorem C16_counterexample :
    defer_object.get_promises Nat
        (defer_object.construct (World.init : World Nat Nat)).1 2
      = [.ok (some 0), .ok none]
    ∧ ¬ ∃ e : Exn Nat,
        (defer_object.get_promises Nat
          (defer_object.construct (World.init : World Nat Nat)).1 2)[1]? = some (.error e) := by
  refine ⟨rfl, ?_⟩
  rintro ⟨e, he⟩
  simp [defer_object.get_promises, defer_object.get_promise] at he

theorem get_promises_moved (U : Type) (n state : Nat) :
    defer_object.get_promises U { state := state, deferred_ := none } n
      = List.replicate n (.ok none) := by
  induction n with
  | zero => rfl
  | succ n ih => simp [defer_object.get_promises, defer_object.get_promise, ih, List.replicate_succ]

/-- C16 amended: for every `defer`, the first `get_promise` call returns its
promise, and no later call fails: each returns, without a check, the
moved-from promise, which holds no state. -/
theorem C16_get_promise_never_fails (w : World α U) (n : Nat) :
    defer_object.get_promises U (defer_object.construct w).1 (n + 1)
      = .ok (some (defer_object.construct w).1.state) :: List.replicate n (.ok none) := by
  simp [defer_object.get_promises, defer_object.get_promise, defer_object.construct,
    get_promises_moved]

/-- C17: for a pending `defer` with nothing attached and a continuation
attached with `then( fn, queue )`, with a plain or a promise-returning `fn`:
attaching and then resolving gives the same world as resolving and then
attaching, with the same successor promise. In that world the continuation
was pushed onto its target queue exactly once, at the back, no other queue
changed and no waiter is left on the state, so the successor gets the same
outcome in both orders. -/
theorem C17_attach_fulfill_orders (w : World α U) (d qu : Nat) (x : expect α U)
    (hd : d < w.next) (hslot : (w.states d).slot = none) (hw : (w.states d).waiters = []) :
    (∀ fn : value_fn α U,
      (defer.set_expect (generic_promise.then_value w d fn qu).2 d x).1
          = (generic_promise.then_value (defer.set_expect w d x).1 d fn qu).2
      ∧ (generic_promise.then_value w d fn qu).1
          = (generic_promise.then_value (defer.set_expect w d x).1 d fn qu).1
      ∧ ((defer.set_expect (generic_promise.then_value w d fn qu).2 d x).1.queues qu).queue_
          = (w.queues qu).queue_ ++ [task.then_value w.next fn d]
      ∧ (∀ q2, q2 ≠ qu →
          (defer.set_expect (generic_promise.then_value w d fn qu).2 d x).1.queues q2
            = w.queues q2)
      ∧ ((defer.set_expect (generic_promise.then_value w d fn qu).2 d x).1.states d).waiters
          = [])
    ∧ (∀ fn : promise_fn α U,
      (defer.set_expect (generic_promise.then_promise w d fn qu).2 d x).1
          = (generic_promise.then_promise (defer.set_expect w d x).1 d fn qu).2
      ∧ (generic_promise.then_promise w d fn qu).1
          = (generic_promise.then_promise (defer.set_expect w d x).1 d fn qu).1
      ∧ ((defer.set_expect (generic_promise.then_promise w d fn qu).2 d x).1.queues qu).queue_
          = (w.queues qu).queue_ ++ [task.then_promise w.next fn d]
      ∧ (∀ q2, q2 ≠ qu →
          (defer.set_expect (generic_promise.then_promise w d fn qu).2 d x).1.queues q2
            = w.queues q2)
      ∧ ((defer.set_expect (generic_promise.then_promise w d fn qu).2 d x).1.states d).waiters
          = []) := by
  have hne : d ≠ w.next := by omega
  have hne1 : w.next ≠ d := by omega
  constructor <;> intro fn <;> cases x <;>
  simp [generic_promise.then_value, generic_promise.then_promise, defer.construct,
    defer.get_promise, promise_signal.push, World.set_state, World.push_task, queue.push,
    defer.set_exception, defer.set_value, defer.set_expect, std_promise.set_value,
    promise_signal.done, World.schedule, Function.update_apply, hne, hne1, hslot, hw,
    promise_state.init, refuse, fulfill]
  all_goals exact ⟨Function.update_comm hne1 _ _ _, fun q2 h1 h2 => absurd h2 h1⟩

/-- Witness of C17: a new `defer`, `then( x -> x + 1 )` and `set_value( 1 )`
in both orders. -/
theorem C17_attach_fulfill_orders_witness :
    ((defer.construct (World.init : World Nat Nat)).2.states 0).slot = none
      ∧ (defer.set_expect (generic_promise.then_value (defer.construct (World.init : World Nat Nat)).2 0
          (.user_value 1 .positional (fun t => .ok (t.headD 0 + 1))) 0).2 0 (.value [1])).1
        = (generic_promise.then_value (defer.set_expect (defer.construct (World.init : World Nat Nat)).2 0 (.value [1])).1 0
          (.user_value 1 .positional (fun t => .ok (t.headD 0 + 1))) 0).2 :=
  ⟨rfl,
    ((C17_attach_fulfill_orders (defer.construct (World.init : World Nat Nat)).2 0 0 (.value [1]) (by decide) rfl rfl).1
      (.user_value 1 .positional (fun t => .ok (t.headD 0 + 1)))).1⟩

/-- C18: the variadic `all` on `N >= 0` distinct promises, each resolved to
its tuple or still pending with nothing attached, on an empty default queue.
Whatever the events of the run (turns of the worker, and every pending input
settled once with its tuple, in any order), `5 N` further turns of the worker
leave the promise of `all` resolved to the tuples of the inputs one after
the other, in argument order; with no argument it is the empty tuple. -/
theorem C18_all_concatenates (w : World α U) (pts : List (Nat × List α)) (evs : List all_event)
    (hps : ∀ pt ∈ pts, pt.1 < w.next ∧
      ((w.states pt.1).slot = some (.value pt.2) ∨ w.states pt.1 = promise_state.init))
    (hnd : (pts.map Prod.fst).Nodup)
    (hq : (w.queues w.default_queue_).queue_ = [])
    (hev : (evs.filterMap all_event.settled).Perm
      ((List.range pts.length).filter (all_pending w (pts.map Prod.fst))))
    (n : Nat) (hn : 5 * pts.length ≤ n) :
    ((drain w.default_queue_ n
        (run_events w.default_queue_ (pts.map (fun pt => (pt.1, expect.value pt.2))) evs
          (all w (pts.map Prod.fst)).2)).states (all w (pts.map Prod.fst)).1).slot
      = some (.value (pts.map Prod.snd).flatten) := by
  have e1 : (pts.map (fun pt => ((pt.1, expect.value pt.2) : Nat × expect α U))).map Prod.fst
      = pts.map Prod.fst := by
    rw [List.map_map]; rfl
  have e2 : (pts.map (fun pt => ((pt.1, expect.value pt.2) : Nat × expect α U))).map Prod.snd
      = (pts.map Prod.snd).map (fun t => (expect.value t : expect α U)) := by
    rw [List.map_map, List.map_map]; rfl
  obtain ⟨s1, s2, s3⟩ := all_schedule_perm w (pts.map Prod.fst) evs
    (by simpa using hev)
  obtain ⟨h1, _, h3⟩ := all_run w (pts.map (fun pt => (pt.1, expect.value pt.2))) evs
    (by
      intro px hpx
      obtain ⟨pt, hpt, rfl⟩ := List.mem_map.mp hpx
      exact hps pt hpt)
    (by rw [e1]; exact hnd) hq s1 (by rw [e1]; exact s2)
  rw [e1] at h1 h3
  rw [e2, all_result_values, List.length_map] at h3
  rw [List.length_map] at h1
  rw [h1]
  exact h3 s3 n hn

/-- Witness of C18: `all( with( "1" ), with( "a" ), with( "2.5" ) )` resolves
to `( "1", "a", "2.5" )`. -/
theorem C18_all_concatenates_witness :
    ((drain 0 15
        (run_events 0 [(0, expect.value ["1"]), (1, expect.value ["a"]), (2, expect.value ["2.5"])] []
          (all (with_ (with_ (with_ (World.init : World String Nat) ["1"]).2 ["a"]).2 ["2.5"]).2
            [0, 1, 2]).2)).states
        (all (with_ (with_ (with_ (World.init : World String Nat) ["1"]).2 ["a"]).2 ["2.5"]).2
          [0, 1, 2]).1).slot
      = some (.value ["1", "a", "2.5"]) :=
  C18_all_concatenates
    (with_ (with_ (with_ (World.init : World String Nat) ["1"]).2 ["a"]).2 ["2.5"]).2
    [(0, ["1"]), (1, ["a"]), (2, ["2.5"])] []
    (by
      intro pt h
      simp only [List.mem_cons, List.mem_singleton, List.not_mem_nil, or_false] at h
      rcases h with rfl | rfl | rfl <;> exact ⟨by decide, Or.inl rfl⟩)
    (by decide) rfl (by decide) 15 (by decide)

/-- C19: the variadic `all` on distinct promises, each settled or still
pending with nothing attached, of which the one at the position of `p` fails
with `e` and the ones before it give tuples; the outcomes of the ones after
it are arbitrary. Whatever the events of the run that settle every pending
input once, `5 N` further turns of the worker leave the promise of `all`
failed with `e`, the exception of the failing input at the smallest
position; at no point of the run does it hold a value; and the closure of
the `completer` on a failed rest promise only forwards the exception, the
`completer` is not called. -/
theorem C19_all_first_failure (w : World α U) (pre : List (Nat × List α)) (p : Nat) (e : Exn U)
    (post : List (Nat × expect α U)) (pxs : List (Nat × expect α U))
    (evs : List all_event)
    (hpxs : pxs = pre.map (fun pt => (pt.1, expect.value pt.2)) ++ (p, .exception e) :: post)
    (hps : ∀ px ∈ pxs, px.1 < w.next ∧
      ((w.states px.1).slot = some px.2 ∨ w.states px.1 = promise_state.init))
    (hnd : (pxs.map Prod.fst).Nodup)
    (hq : (w.queues w.default_queue_).queue_ = [])
    (hev : (evs.filterMap all_event.settled).Perm
      ((List.range pxs.length).filter (all_pending w (pxs.map Prod.fst)))) :
    (∀ n, 5 * pxs.length ≤ n →
      ((drain w.default_queue_ n
          (run_events w.default_queue_ pxs evs (all w (pxs.map Prod.fst)).2)).states
        (all w (pxs.map Prod.fst)).1).slot = some (.exception e))
    ∧ (∀ evs1 evs2 n v, evs = evs1 ++ evs2 →
      ((drain w.default_queue_ n
          (run_events w.default_queue_ pxs evs1 (all w (pxs.map Prod.fst)).2)).states
        (all w (pxs.map Prod.fst)).1).slot ≠ some (.value v))
    ∧ (∀ (w1 : World α U) (d s : Nat) (data : List α) (e1 : Exn U),
      (w1.states s).slot = some (.exception e1) →
      task.perform w1 (.then_value d (.all_completer data) s) = defer.set_exception w1 d e1) := by
  have e2 : all_result (pxs.map Prod.snd) = (.exception e : expect α U) := by
    rw [hpxs, List.map_append, List.map_map, List.map_cons]
    have : (Prod.snd ∘ fun pt : Nat × List α => ((pt.1, expect.value pt.2) : Nat × expect α U))
        = (fun t => (expect.value t : expect α U)) ∘ Prod.snd := rfl
    rw [this, ← List.map_map]
    exact all_result_failure _ e _
  obtain ⟨s1, s2, s3⟩ := all_schedule_perm w (pxs.map Prod.fst) evs (by simpa using hev)
  refine ⟨?_, ?_, ?_⟩
  · intro n hn
    obtain ⟨h1, _, h3⟩ := all_run w pxs evs hps hnd hq s1 s2
    rw [h1, ← e2]
    exact h3 s3 n hn
  · intro evs1 evs2 n v hsplit
    have hsub : (evs1.filterMap all_event.settled).Sublist (evs.filterMap all_event.settled) := by
      rw [hsplit, List.filterMap_append]
      exact List.sublist_append_left _ _
    obtain ⟨h1, h2, _⟩ := all_run w pxs evs1 hps hnd hq (s1.sublist hsub)
      (fun i hi => s2 i (hsub.subset hi))
    rw [h1]
    rcases h2 n with h | h
    · rw [h]; simp
    · rw [h, e2]; simp
  · intro w1 d s data e1 h
    simp [task.perform, promise_state.consume, h]

/-- Witness of C19: `all( p0, p1, p2 )` with `p0` resolved to `1`, `p1` pending
and failed with `7` during the run, `p2` failed with `8`: the promise of
`all` fails with `7`. -/
theorem C19_all_first_failure_witness :
    ((drain 0 15
        (run_events 0 [(0, expect.value [1]), (1, expect.exception (Exn.user 7)),
            (2, expect.exception (Exn.user 8))]
          [.turn, .settle 1, .turn]
          (all (failed (defer.construct (with_ (World.init : World Nat Nat) [1]).2).2
            (Exn.user 8)).2 [0, 1, 2]).2)).states
        (all (failed (defer.construct (with_ (World.init : World Nat Nat) [1]).2).2
            (Exn.user 8)).2 [0, 1, 2]).1).slot
      = some (.exception (Exn.user 7)) :=
  (C19_all_first_failure
    (failed (defer.construct (with_ (World.init : World Nat Nat) [1]).2).2 (Exn.user 8)).2
    [(0, [1])] 1 (Exn.user 7) [(2, expect.exception (Exn.user 8))]
    [(0, expect.value [1]), (1, expect.exception (Exn.user 7)), (2, expect.exception (Exn.user 8))]
    [.turn, .settle 1, .turn] rfl
    (by
      intro px h
      simp only [List.mem_cons, List.mem_singleton, List.not_mem_nil, or_false] at h
      rcases h with rfl | rfl | rfl
      · exact ⟨by decide, Or.inl rfl⟩
      · exact ⟨by decide, Or.inr rfl⟩
      · exact ⟨by decide, Or.inl rfl⟩)
    (by decide) rfl (by decide)).1 15 (by decide)

/-- C20: `all( list )` on `n >= 1` distinct promises, each already resolved
to its value or still pending with nothing attached, on an empty default
queue. Whatever the events of the run (turns of the worker, and every
pending input completed once with its value, in any order and with the
turns of the worker anywhere in between), `2 n` further turns of the worker
leave the result resolved to the vector of the values in input order,
element `i` being the value of input `i`. -/
theorem C20_list_all_input_order (w : World α U) (make_vector : List α → α)
    (pv : List (Nat × α)) (evs : List all_event)
    (hne : pv ≠ [])
    (hlen : pv.length < 2 ^ 64)
    (hnd : (pv.map Prod.fst).Nodup)
    (hps : ∀ x ∈ pv, x.1 < w.next ∧
      ((w.states x.1).slot = some (.value [x.2]) ∨ w.states x.1 = promise_state.init))
    (hq : (w.queues w.default_queue_).queue_ = [])
    (hev : (evs.filterMap all_event.settled).Perm
      ((List.range pv.length).filter (all_pending w (pv.map Prod.fst))))
    (n : Nat) (hn : 2 * pv.length ≤ n) :
    ((drain w.default_queue_ n
        (run_events w.default_queue_ (pv.map (fun x => (x.1, expect.value [x.2]))) evs
          (all_list w make_vector (pv.map Prod.fst)).2)).states
      (all_list w make_vector (pv.map Prod.fst)).1).slot
      = some (.value [make_vector (pv.map Prod.snd)]) := by
  have e1 : (pv.map (fun x => ((x.1, expect.value [x.2]) : Nat × expect α U))).map Prod.fst
      = pv.map Prod.fst := by
    rw [List.map_map]; rfl
  obtain ⟨b1, r, _, h2, h3, h4, h5⟩ := list_run_complete w make_vector
    (pv.map (fun x => (x.1, expect.value [x.2]))) evs
    (by
      intro px hpx
      obtain ⟨x, hx, rfl⟩ := List.mem_map.mp hpx
      exact hps x hx)
    (by rw [e1]; exact hnd) (by rw [List.length_map]; exact hlen) hq
    (by rw [e1, List.length_map]; exact hev) n (by rw [List.length_map]; exact hn)
  rw [e1] at b1 h5
  have hnf : r.any_failure = false := by
    cases hf : r.any_failure with
    | false => rfl
    | true =>
      obtain ⟨px, hpx, hex⟩ := h4.mp hf
      obtain ⟨x, _, rfl⟩ := List.mem_map.mp hpx
      cases hex
  rw [b1, h5 (by simpa using hne)]
  simp only [list_result, hnf, h2, h3, consume_all_values]
  rfl

/-- Witness of C20: three inputs, the first resolved to 10 before the call,
the other two completed after it, the last one first, with 30 and 20; the
vector of the values is written as the list of its elements. -/
theorem C20_list_all_input_order_witness :
    ((drain 0 6
        (run_events 0 [(0, expect.value [[10]]), (1, expect.value [[20]]), (2, expect.value [[30]])]
          [.settle 2, .turn, .settle 1]
          (all_list
            (defer.construct (defer.construct (with_ (World.init : World (List Nat) Nat) [[10]]).2).2).2
            List.flatten [0, 1, 2]).2)).states
      (all_list
        (defer.construct (defer.construct (with_ (World.init : World (List Nat) Nat) [[10]]).2).2).2
        List.flatten [0, 1, 2]).1).slot
      = some (.value [[10, 20, 30]]) :=
  C20_list_all_input_order
    (defer.construct (defer.construct (with_ (World.init : World (List Nat) Nat) [[10]]).2).2).2
    List.flatten [(0, [10]), (1, [20]), (2, [30])] [.settle 2, .turn, .settle 1]
    (by decide) (by norm_num) (by decide)
    (by
      intro x hx
      simp only [List.mem_cons, List.mem_singleton, List.not_mem_nil, or_false] at hx
      rcases hx with rfl | rfl | rfl
      · exact ⟨by decide, Or.inl rfl⟩
      · exact ⟨by decide, Or.inr rfl⟩
      · exact ⟨by decide, Or.inr rfl⟩)
    rfl (by decide) 6 (by decide)

/-- C21: `all( list )` on `n` distinct promises, each resolved or still
pending with nothing attached, of which at least one fails, on an empty
default queue. Whatever the events of the run (turns of the worker, and
every pending input settled once with its outcome, in any order), `2 n`
further turns of the worker leave the result failed with
`combined_promise_exception`, whose `expects` (the `expect_returns` of the
call) have length `n` and hold the outcome of input `i` at index `i`: the
exception of every input that failed and the value of every other input, in
input order. -/
theorem C21_list_all_partial_failure (w : World α U) (make_vector : List α → α)
    (pxs : List (Nat × expect α U)) (evs : List all_event)
    (hps : ∀ px ∈ pxs, px.1 < w.next ∧
      ((w.states px.1).slot = some px.2 ∨ w.states px.1 = promise_state.init))
    (hnd : (pxs.map Prod.fst).Nodup)
    (hsize : pxs.length < 2 ^ 64)
    (hq : (w.queues w.default_queue_).queue_ = [])
    (hfail : ∃ px ∈ pxs, px.2.has_exception = true)
    (hev : (evs.filterMap all_event.settled).Perm
      ((List.range pxs.length).filter (all_pending w (pxs.map Prod.fst))))
    (n : Nat) (hn : 2 * pxs.length ≤ n) :
    ((drain w.default_queue_ n
        (run_events w.default_queue_ pxs evs
          (all_list w make_vector (pxs.map Prod.fst)).2)).states
      (all_list w make_vector (pxs.map Prod.fst)).1).slot
      = some (.exception (.combined_promise_exception w.next_combine))
    ∧ ∃ r, (drain w.default_queue_ n
        (run_events w.default_queue_ pxs evs
          (all_list w make_vector (pxs.map Prod.fst)).2)).combines w.next_combine = some r
      ∧ r.expect_returns = pxs.map (fun px => some px.2) := by
  obtain ⟨s1, s2, s3⟩ := all_schedule_perm w (pxs.map Prod.fst) evs (by simpa using hev)
  have hs1 : ((evs ++ List.replicate n all_event.turn).filterMap all_event.settled).Nodup := by
    rw [settled_append_turns]; exact s1
  obtain ⟨b1, hin, st2, hW, h2, _, _⟩ := list_run w make_vector pxs
    (evs ++ List.replicate n all_event.turn) hps hnd hsize hq hs1
    (by rw [settled_append_turns]; exact s2)
  rw [run_events_append, run_events_turns] at hW
  obtain ⟨_, _, st1, hW1, _, _, _⟩ := list_run w make_vector pxs evs hps hnd hsize hq s1 s2
  have hquiet := list_quiet w.next w.next_combine w.default_queue_ make_vector pxs hin st1 _ hW1 n hn
  have hdone : ∀ k, k < pxs.length → st2 k = .done := by
    intro k hk
    rcases list_terminal _ _ _ _ _ st2 _ hW hquiet k with h | h
    · have := (h2 k hk).mp h
      simp only [list_settled, List.length_map, hk, decide_True, Bool.true_and,
        settled_append_turns, Bool.or_eq_false_iff, Bool.not_eq_false',
        decide_eq_false_iff_not] at this
      exact absurd (s3 k this.1) this.2
    · exact h
  obtain ⟨r, hc, hI⟩ := hW
  have hcnt : r.counter = 0 := by
    rw [hI.counter]
    refine List.countP_eq_zero.mpr ?_
    intro k hk
    rw [hdone k (List.mem_range.mp hk)]
    simp [list_stage.pending]
  obtain ⟨px, hpx, hex⟩ := hfail
  have hne : pxs ≠ [] := List.ne_nil_of_mem hpx
  obtain ⟨i, hi, hget⟩ := List.getElem_of_mem hpx
  have hfl : r.any_failure = true :=
    hI.failure.mpr ⟨i, px, by rw [List.getElem?_eq_getElem hi, hget], hdone i hi, hex⟩
  refine ⟨?_, r, hc, ?_⟩
  · rw [b1, hI.result_resolved hcnt hne]
    simp only [list_result, hfl, if_true]
  · apply List.ext_getElem?
    intro k
    by_cases hk : k < pxs.length
    · rw [hI.slots k pxs[k] (List.getElem?_eq_getElem hk)]
      simp [hdone k hk, List.getElem?_eq_getElem hk]
    · rw [List.getElem?_eq_none (by rw [hI.length]; omega),
        List.getElem?_eq_none (by rw [List.length_map]; omega)]

/-- Witness of C21: `all( [ with( 1 ), failed( E ), with( 3 ) ] )` fails with
the expects `[ Value( 1 ), Exception( E ), Value( 3 ) ]`. -/
theorem C21_list_all_partial_failure_witness :
    ((drain 0 6
        (run_events 0 [(0, expect.value [1]), (1, expect.exception (.user 7)), (2, expect.value [3])]
          []
          (all_list (with_ (failed (with_ (World.init : World Nat Nat) [1]).2 (.user 7)).2 [3]).2
            List.sum [0, 1, 2]).2)).states
      (all_list (with_ (failed (with_ (World.init : World Nat Nat) [1]).2 (.user 7)).2 [3]).2
        List.sum [0, 1, 2]).1).slot
      = some (.exception (.combined_promise_exception 0))
    ∧ ∃ r, (drain 0 6
        (run_events 0 [(0, expect.value [1]), (1, expect.exception (.user 7)), (2, expect.value [3])]
          []
          (all_list (with_ (failed (with_ (World.init : World Nat Nat) [1]).2 (.user 7)).2 [3]).2
            List.sum [0, 1, 2]).2)).combines 0 = some r
      ∧ r.expect_returns
        = [some (expect.value [1]), some (expect.exception (.user 7)), some (expect.value [3])] :=
  C21_list_all_partial_failure
    (with_ (failed (with_ (World.init : World Nat Nat) [1]).2 (.user 7)).2 [3]).2 List.sum
    [(0, expect.value [1]), (1, expect.exception (.user 7)), (2, expect.value [3])] []
    (by
      intro px h
      simp only [List.mem_cons, List.mem_singleton, List.not_mem_nil, or_false] at h
      rcases h with rfl | rfl | rfl <;> exact ⟨by decide, Or.inl rfl⟩)
    (by decide) (by norm_num) rfl ⟨(1, expect.exception (.user 7)), by simp, rfl⟩ (by decide)
    6 (by decide)

/-- C22: `pop` on a queue throws `queue_exception` exactly when the queue
holds no task, throws nothing else, and a call that throws leaves the queue
as it was; on a queue whose tasks are `t :: rest` it returns `t` and leaves
`rest`, in order, with the priority and the consumer unchanged. -/
theorem C22_pop {T : Type} (U : Type) (self : queue T) :
    (((queue.pop_call U self).1 = .error .queue_exception) ↔ self.queue_ = [])
    ∧ (∀ e, (queue.pop_call U self).1 = .error e →
        e = .queue_exception ∧ (queue.pop_call U self).2 = self)
    ∧ (∀ t rest, self.queue_ = t :: rest →
        queue.pop_call U self = (.ok t, { self with queue_ := rest })) := by
  cases hq : self.queue_ with
  | nil => simp [queue.pop_call, queue.pop, hq]
  | cons t rest => simp [queue.pop_call, queue.pop, hq]

/-- Witness of C22: `pop` on the tasks `7, 8, 9` returns `7` and leaves
`8, 9`. -/
theorem C22_pop_witness :
    queue.pop_call Nat ({ priority_ := 0, notify_ := none, queue_ := [7, 8, 9] } : queue Nat)
      = (.ok 7, { priority_ := 0, notify_ := none, queue_ := [8, 9] }) :=
  (C22_pop Nat ({ priority_ := 0, notify_ := none, queue_ := [7, 8, 9] } : queue Nat)).2.2
    7 [8, 9] rfl

/-- C23: on a queue that holds no task, pushing `t_1, ..., t_n` and then
popping `n` times returns `t_1, ..., t_n` and leaves the queue empty; and for
every sequence of `push` and `pop` calls, the tasks the successful `pop`s
returned followed by the tasks left in the queue are the pushed tasks in
push order, so the `k`-th task popped is the `k`-th task pushed. -/
theorem C23_fifo {T : Type} (U : Type) (self : queue T) (he : self.queue_ = []) :
    (∀ ts : List T,
      (queue.run U self (ts.map .push ++ List.replicate ts.length .pop)).popped = ts
      ∧ (queue.run U self (ts.map .push ++ List.replicate ts.length .pop)).self.queue_ = [])
    ∧ (∀ calls : List (queue_call T),
      (queue.run U self calls).popped ++ (queue.run U self calls).self.queue_
        = queue_call.pushed calls
      ∧ ∀ (k : Nat) (t : T), (queue.run U self calls).popped[k]? = some t →
          (queue_call.pushed calls)[k]? = some t) := by
  have hgen : ∀ calls : List (queue_call T),
      (queue.run U self calls).popped ++ (queue.run U self calls).self.queue_
        = queue_call.pushed calls := by
    intro calls
    have := (queue_run_fifo U calls self).1
    rw [he] at this
    simpa using this
  refine ⟨?_, fun calls => ⟨hgen calls, ?_⟩⟩
  · intro ts
    obtain ⟨h1, h2⟩ := queue_run_pushes U ts (List.replicate ts.length .pop) self
    obtain ⟨h3, h4⟩ := queue_run_pops U ts { self with queue_ := self.queue_ ++ ts }
      (by simp [he])
    rw [h1, h2]
    exact ⟨h3, h4⟩
  · intro k t hk
    rw [← hgen calls]
    rw [List.getElem?_append_left (List.getElem?_eq_some.mp hk).1]
    exact hk

/-- Witness of C23: pushing `1, 2, 3` and popping three times gives
`1, 2, 3`. -/
theorem C23_fifo_witness :
    ({ priority_ := 0, notify_ := none, queue_ := [] } : queue Nat).queue_ = []
    ∧ (queue.run Nat ({ priority_ := 0, notify_ := none, queue_ := [] } : queue Nat)
        ([1, 2, 3].map .push ++ List.replicate [1, 2, 3].length .pop)).popped = [1, 2, 3] :=
  ⟨rfl, ((C23_fifo Nat ({ priority_ := 0, notify_ := none, queue_ := [] } : queue Nat) rfl).1
    [1, 2, 3]).1⟩

/-- C24: `push( task )` appends the task at the back and changes neither the
priority nor the consumer; with a consumer set, the consumer is called once,
with the length after the push, and without one nothing is called. -/
theorem C24_push {T : Type} (self : queue T) (t : T) :
    (self.push t).1.queue_ = self.queue_ ++ [t]
    ∧ (self.push t).1.priority_ = self.priority_
    ∧ (self.push t).1.notify_ = self.notify_
    ∧ (∀ notifyer, self.notify_ = some notifyer →
        (self.push t).2.toList = [(notifyer, self.queue_.length + 1)])
    ∧ (self.notify_ = none → (self.push t).2.toList = []) := by
  refine ⟨rfl, rfl, rfl, ?_, ?_⟩
  · intro n h
    simp [queue.push, h]
  · intro h
    simp [queue.push, h]

/-- Witness of C24: a push onto two tasks with the consumer `5` calls `5`
with the size `3`. -/
theorem C24_push_witness :
    (({ priority_ := 0, notify_ := some 5, queue_ := [7, 8] } : queue Nat).push 9).2.toList
      = [(5, 3)] :=
  (C24_push ({ priority_ := 0, notify_ := some 5, queue_ := [7, 8] } : queue Nat) 9).2.2.2.1
    5 rfl

/-- C25: `set_consumer( cb )` returns the number of queued tasks, leaves the
tasks and the priority unchanged and calls no callback (it returns none to
call); afterwards the consumer is `cb`: the next push notifies `cb` with the
new length, and in every later sequence of `push` and `pop` calls each push
notifies `cb`, and nothing is notified if `cb` is empty. -/
theorem C25_set_consumer {T : Type} (U : Type) (self : queue T) (cb : Option Nat) :
    (self.set_consumer cb).2 = self.queue_.length
    ∧ (self.set_consumer cb).1.queue_ = self.queue_
    ∧ (self.set_consumer cb).1.priority_ = self.priority_
    ∧ (self.set_consumer cb).1.notify_ = cb
    ∧ (∀ t, ((self.set_consumer cb).1.push t).2
        = cb.map (fun notifyer => (notifyer, self.queue_.length + 1)))
    ∧ (∀ calls : List (queue_call T),
        (∀ notifyer, cb = some notifyer →
          (queue.run U (self.set_consumer cb).1 calls).notified.map Prod.fst
            = List.replicate (queue_call.pushed calls).length notifyer)
        ∧ (cb = none → (queue.run U (self.set_consumer cb).1 calls).notified = [])) := by
  refine ⟨rfl, rfl, rfl, rfl, ?_, ?_⟩
  · intro t
    cases cb <;> simp [queue.set_consumer, queue.push]
  · intro calls
    exact queue_run_notified U calls (self.set_consumer cb).1

/-- Witness of C25: after `set_consumer( 6 )` on a queue whose consumer was
`5`, two pushes notify `6` twice. -/
theorem C25_set_consumer_witness :
    (queue.run Nat (({ priority_ := 0, notify_ := some 5, queue_ := [7, 8] } : queue Nat).set_consumer
        (some 6)).1 [.push 1, .pop, .push 2]).notified.map Prod.fst = [6, 6] :=
  ((C25_set_consumer Nat ({ priority_ := 0, notify_ := some 5, queue_ := [7, 8] } : queue Nat)
    (some 6)).2.2.2.2.2 [.push 1, .pop, .push 2]).1 6 rfl

/-- C26: the thread function of `run( name, fn, args... )` calls `fn` once,
with the arguments, and then `termination_done` once, with the one-element
tuple of the expect: the empty value if `fn` returned nothing, the value if
it returned one, and the exception if it threw (which is also reported as
uncaught). -/
theorem C26_thread_fn (name : String) (fn : thread_function α U) (params : List α) :
    (∀ f, fn = .returns_void f → f params = .ok () →
      thread.thread_fn name fn params
        = [.set_thread_name name, .invoke params, .termination_done [.value []]])
    ∧ (∀ f ret, fn = .returns_value f → f params = .ok ret →
      thread.thread_fn name fn params
        = [.set_thread_name name, .invoke params, .termination_done [.value [ret]]])
    ∧ (∀ f e, (fn = .returns_void f ∧ f params = .error e) →
      thread.thread_fn name fn params
        = [.set_thread_name name, .invoke params, .uncaught_exception e,
            .termination_done [.exception e]])
    ∧ (∀ f e, (fn = .returns_value f ∧ f params = .error e) →
      thread.thread_fn name fn params
        = [.set_thread_name name, .invoke params, .uncaught_exception e,
            .termination_done [.exception e]]) := by
  refine ⟨?_, ?_, ?_, ?_⟩
  · rintro f rfl h
    simp [thread.thread_fn, call_with_args_by_fun, call_with_args_by_tuple, call_with_args, h,
      fulfill]
  · rintro f ret rfl h
    simp [thread.thread_fn, call_with_args_by_fun, call_with_args_by_tuple, call_with_args, h,
      fulfill]
  · rintro f e ⟨rfl, h⟩
    simp [thread.thread_fn, call_with_args_by_fun, call_with_args_by_tuple, call_with_args, h,
      refuse]
  · rintro f e ⟨rfl, h⟩
    simp [thread.thread_fn, call_with_args_by_fun, call_with_args_by_tuple, call_with_args, h,
      refuse]

/-- Witness of C26: `run( "worker", x -> x + 1, 41 )` ends with
`termination_done( Value( 42 ) )`. -/
theorem C26_thread_fn_witness :
    thread.thread_fn "worker" (.returns_value (fun t => .ok (t.headD 0 + 1)) : thread_function Nat Nat)
        [41]
      = [.set_thread_name "worker", .invoke [41], .termination_done [.value [42]]] :=
  (C26_thread_fn "worker" (.returns_value (fun t => .ok (t.headD 0 + 1)) : thread_function Nat Nat)
    [41]).2.1 _ 42 rfl rfl

/-- C27: `all( list )` on `n >= 1` distinct promises, each resolved or still
pending with nothing attached, on an empty default queue, at every point of
every run (turns of the worker, and pending inputs settled, each at most
once, with any outcome). The calls of `part_completion`, by the closure of a
`fail` or of a `then`, are for distinct inputs, each of them settled; the
counter is `n` minus the number of these calls, and the slots of exactly
these inputs are written; the result is pending while fewer than `n` calls
were made, so while fewer than `n` inputs are settled, also if some of them
failed, and it is resolved, by the `resolver`, once `n` calls were made.
When the queue is empty, `part_completion` was called exactly once for each
settled input and the counter is `n` minus the number of settled inputs;
`2 n` further turns of the worker empty the queue. -/
theorem C27_list_all_waits (w : World α U) (make_vector : List α → α)
    (pxs : List (Nat × expect α U)) (evs : List all_event)
    (hne : pxs ≠ [])
    (hps : ∀ px ∈ pxs, px.1 < w.next ∧
      ((w.states px.1).slot = some px.2 ∨ w.states px.1 = promise_state.init))
    (hnd : (pxs.map Prod.fst).Nodup)
    (hsize : pxs.length < 2 ^ 64)
    (hq : (w.queues w.default_queue_).queue_ = [])
    (hev : (evs.filterMap all_event.settled).Nodup)
    (hev2 : ∀ i ∈ evs.filterMap all_event.settled,
      all_pending w (pxs.map Prod.fst) i = true) :
    (run_completions w.default_queue_ pxs evs
        (all_list w make_vector (pxs.map Prod.fst)).2).Nodup
    ∧ (∀ i ∈ run_completions w.default_queue_ pxs evs
          (all_list w make_vector (pxs.map Prod.fst)).2,
        list_settled w (pxs.map Prod.fst) evs i = true)
    ∧ (∃ r, (run_events w.default_queue_ pxs evs
          (all_list w make_vector (pxs.map Prod.fst)).2).combines w.next_combine = some r
        ∧ r.counter + (run_completions w.default_queue_ pxs evs
            (all_list w make_vector (pxs.map Prod.fst)).2).length = pxs.length
        ∧ (∀ (i : Nat) (px : Nat × expect α U), pxs[i]? = some px →
            r.expect_returns[i]? = some
              (if i ∈ run_completions w.default_queue_ pxs evs
                  (all_list w make_vector (pxs.map Prod.fst)).2 then some px.2 else none))
        ∧ ((run_completions w.default_queue_ pxs evs
              (all_list w make_vector (pxs.map Prod.fst)).2).length = pxs.length →
            ((run_events w.default_queue_ pxs evs
                (all_list w make_vector (pxs.map Prod.fst)).2).states
              (all_list w make_vector (pxs.map Prod.fst)).1).slot
              = some (list_result w.next_combine r))
        ∧ (((run_events w.default_queue_ pxs evs
              (all_list w make_vector (pxs.map Prod.fst)).2).queues w.default_queue_).queue_ = [] →
            r.counter + ((List.range pxs.length).filter
              (list_settled w (pxs.map Prod.fst) evs)).length = pxs.length))
    ∧ ((run_completions w.default_queue_ pxs evs
          (all_list w make_vector (pxs.map Prod.fst)).2).length < pxs.length →
        (run_events w.default_queue_ pxs evs
            (all_list w make_vector (pxs.map Prod.fst)).2).states
          (all_list w make_vector (pxs.map Prod.fst)).1 = promise_state.init)
    ∧ (((List.range pxs.length).filter (list_settled w (pxs.map Prod.fst) evs)).length
          < pxs.length →
        (run_events w.default_queue_ pxs evs
            (all_list w make_vector (pxs.map Prod.fst)).2).states
          (all_list w make_vector (pxs.map Prod.fst)).1 = promise_state.init)
    ∧ (((run_events w.default_queue_ pxs evs
          (all_list w make_vector (pxs.map Prod.fst)).2).queues w.default_queue_).queue_ = [] →
        (run_completions w.default_queue_ pxs evs
          (all_list w make_vector (pxs.map Prod.fst)).2).Perm
          ((List.range pxs.length).filter (list_settled w (pxs.map Prod.fst) evs)))
    ∧ ((run_events w.default_queue_ pxs
          (evs ++ List.replicate (2 * pxs.length) all_event.turn)
          (all_list w make_vector (pxs.map Prod.fst)).2).queues w.default_queue_).queue_ = [] := by
  obtain ⟨b1, hin, st2, hW, h2, h4, h5⟩ := list_run w make_vector pxs evs hps hnd hsize hq hev hev2
  have hquiet := list_quiet w.next w.next_combine w.default_queue_ make_vector pxs hin st2 _ hW
    (2 * pxs.length) (Nat.le_refl _)
  have hterm := list_terminal _ _ _ _ _ st2 _ hW
  obtain ⟨r, hc, hI⟩ := hW
  have hperm := perm_filter_of_mem _ pxs.length (fun k => decide (st2 k = .done)) h4
    (fun k => by rw [h5 k]; simp)
  have hcount : r.counter + (run_completions w.default_queue_ pxs evs
      (all_list w make_vector (pxs.map Prod.fst)).2).length = pxs.length := by
    rw [hperm.length_eq, hI.counter]
    exact countP_done st2 pxs.length
  have hset : ∀ i ∈ run_completions w.default_queue_ pxs evs
      (all_list w make_vector (pxs.map Prod.fst)).2,
      list_settled w (pxs.map Prod.fst) evs i = true := by
    intro i hi
    obtain ⟨a1, a2⟩ := (h5 i).mp hi
    by_contra hns
    have := (h2 i a1).mpr (by simpa using hns)
    rw [a2] at this
    cases this
  have hpend : (run_completions w.default_queue_ pxs evs
      (all_list w make_vector (pxs.map Prod.fst)).2).length < pxs.length →
      (run_events w.default_queue_ pxs evs
          (all_list w make_vector (pxs.map Prod.fst)).2).states
        (all_list w make_vector (pxs.map Prod.fst)).1 = promise_state.init := by
    intro hlt
    rw [b1]
    exact hI.result_pending (Or.inl (by omega))
  have hqperm : ((run_events w.default_queue_ pxs evs
        (all_list w make_vector (pxs.map Prod.fst)).2).queues w.default_queue_).queue_ = [] →
      (run_completions w.default_queue_ pxs evs
        (all_list w make_vector (pxs.map Prod.fst)).2).Perm
        ((List.range pxs.length).filter (list_settled w (pxs.map Prod.fst) evs)) := by
    intro hqe
    refine perm_filter_of_mem _ pxs.length _ h4 (fun k => ?_)
    constructor
    · intro hk
      exact ⟨((h5 k).mp hk).1, hset k hk⟩
    · rintro ⟨a1, a2⟩
      rcases hterm hqe k with h | h
      · rw [(h2 k a1).mp h] at a2
        cases a2
      · exact (h5 k).mpr ⟨a1, h⟩
  have hsub : (run_completions w.default_queue_ pxs evs
      (all_list w make_vector (pxs.map Prod.fst)).2).length
      ≤ ((List.range pxs.length).filter (list_settled w (pxs.map Prod.fst) evs)).length := by
    refine (List.subperm_of_subset h4 ?_).length_le
    intro k hk
    exact List.mem_filter.mpr ⟨List.mem_range.mpr ((h5 k).mp hk).1, hset k hk⟩
  refine ⟨h4, hset, ⟨r, hc, hcount, ?_, ?_, ?_⟩, hpend, fun h => hpend (by omega), hqperm, ?_⟩
  · intro i px hpx
    have hi : i < pxs.length := (List.getElem?_eq_some.mp hpx).1
    rw [hI.slots i px hpx]
    by_cases hd : st2 i = .done
    · rw [if_pos hd, if_pos ((h5 i).mpr ⟨hi, hd⟩)]
    · rw [if_neg hd, if_neg (fun h => hd ((h5 i).mp h).2)]
  · intro hlen
    rw [b1]
    exact hI.result_resolved (by omega) hne
  · intro hqe
    rw [← (hqperm hqe).length_eq]
    exact hcount
  · rw [run_events_append, run_events_turns]
    exact hquiet

/-- Witness of C27: three pending inputs, of which the one in the middle is
settled with an exception and its closure is run. -/
theorem C27_list_all_waits_witness :
      (run_events 0
          [(0, expect.value [1]), (1, expect.exception (.user 7)), (2, expect.value [3])]
          [.settle 1, .turn]
          (all_list
            (defer.construct (defer.construct (defer.construct (World.init : World Nat Nat)).2).2).2
            List.sum [0, 1, 2]).2).states
        (all_list
          (defer.construct (defer.construct (defer.construct (World.init : World Nat Nat)).2).2).2
          List.sum [0, 1, 2]).1 = promise_state.init :=
  (C27_list_all_waits
    (defer.construct (defer.construct (defer.construct (World.init : World Nat Nat)).2).2).2
    List.sum [(0, expect.value [1]), (1, expect.exception (.user 7)), (2, expect.value [3])]
    [.settle 1, .turn] (by decide)
    (by
      intro px h
      simp only [List.mem_cons, List.mem_singleton, List.not_mem_nil, or_false] at h
      rcases h with rfl | rfl | rfl <;> exact ⟨by decide, Or.inr rfl⟩)
    (by decide) (by norm_num) rfl (by decide)
    (by
      intro i hi
      simp only [List.filterMap_cons, all_event.settled, List.filterMap_nil,
        List.mem_singleton] at hi
      subst hi
      rfl)).2.2.2.1 (by decide)

/-- C28: `all( list )` on the empty list attaches and schedules nothing, and
its promise is never resolved: it is pending after any number of turns of
the worker, where the claim has it resolved to the empty vector. -/
theorem C28_empty_list_left_pending (w : World α U) (make_vector : List α → α) (n : Nat)
    (hq : (w.queues w.default_queue_).queue_ = []) :
    (all_list w make_vector []).2.queues = w.queues
    ∧ (∀ k, k < w.next → (all_list w make_vector []).2.states k = w.states k)
    ∧ ((all_list w make_vector []).2.states (all_list w make_vector []).1).waiters = []
    ∧ ((drain w.default_queue_ n (all_list w make_vector []).2).states
        (all_list w make_vector []).1).slot = none := by
  have h1 : (all_list w make_vector []).2.queues = w.queues := by
    simp [all_list, all_list_loop, defer.construct, World.set_state]
  refine ⟨h1, ?_, ?_, ?_⟩
  · intro k hk
    have : k ≠ w.next := by omega
    simp [all_list, all_list_loop, defer.construct, World.set_state, Function.update_apply, this]
  · simp [all_list, all_list_loop, defer.construct, World.set_state, defer.get_promise,
      promise_state.init]
  · rw [drain_empty _ n _ (by rw [h1]; exact hq)]
    simp [all_list, all_list_loop, defer.construct, World.set_state, defer.get_promise,
      promise_state.init]

/-- Witness of C28: `all( { } )` at program start, after five turns of the
worker. -/
theorem C28_empty_list_left_pending_witness :
    ((World.init : World Nat Nat).queues (World.init : World Nat Nat).default_queue_).queue_ = []
    ∧ ((drain 0 5 (all_list (World.init : World Nat Nat) List.sum []).2).states
        (all_list (World.init : World Nat Nat) List.sum []).1).slot = none :=
  ⟨rfl, (C28_empty_list_left_pending (World.init : World Nat Nat) List.sum 5 rfl).2.2.2⟩

/-- C29: each of `set_main_queue`, `set_background_queue` and
`set_default_queue` returns what its slot held, leaves the given queue in
its slot and leaves the other two slots as they were; the getters are
functions of the state and change nothing. -/
theorem C29_global_queues (w : World α U) (queue : Nat) :
    ((set_main_queue w queue).1 = main_queue w
      ∧ main_queue (set_main_queue w queue).2 = queue
      ∧ background_queue (set_main_queue w queue).2 = background_queue w
      ∧ default_queue (set_main_queue w queue).2 = default_queue w)
    ∧ ((set_background_queue w queue).1 = background_queue w
      ∧ background_queue (set_background_queue w queue).2 = queue
      ∧ main_queue (set_background_queue w queue).2 = main_queue w
      ∧ default_queue (set_background_queue w queue).2 = default_queue w)
    ∧ ((set_default_queue w queue).1 = default_queue w
      ∧ default_queue (set_default_queue w queue).2 = queue
      ∧ main_queue (set_default_queue w queue).2 = main_queue w
      ∧ background_queue (set_default_queue w queue).2 = background_queue w) :=
  ⟨⟨rfl, rfl, rfl, rfl⟩, ⟨rfl, rfl, rfl, rfl⟩, ⟨rfl, rfl, rfl, rfl⟩⟩

/-- C30: `parse_stack_frame` on a line made of tokens without a space,
separated by runs of one or more spaces. With no space in the line, `lib`,
`addr`, `symbol` and `extra` are empty; with two, three or four tokens the
second, third and fourth tokens are `lib`, `addr` and `symbol` and what is
missing is empty; with more, `extra` is the whole rest of the line after the
spaces that follow the fourth token. On a line that starts with decimal
digits, `frame` is the number they write (`ULONG_MAX` if it does not fit in
64 bits): a line that starts with the decimal numeral of `n < 2 ^ 64` has
`frame = n`. -/
theorem C30_parse_stack_frame (t0 t1 t2 t3 rest : List Char) (k1 k2 k3 k4 : Nat)
    (h0 : ∀ c ∈ t0, c ≠ space) (h1 : ∀ c ∈ t1, c ≠ space) (h2 : ∀ c ∈ t2, c ≠ space)
    (h3 : ∀ c ∈ t3, c ≠ space) :
    ((parse_stack_frame t0).lib = [] ∧ (parse_stack_frame t0).addr = []
      ∧ (parse_stack_frame t0).symbol = [] ∧ (parse_stack_frame t0).extra = [])
    ∧ ((parse_stack_frame (t0 ++ (List.replicate (k1 + 1) space ++ t1))).lib = t1
      ∧ (parse_stack_frame (t0 ++ (List.replicate (k1 + 1) space ++ t1))).addr = []
      ∧ (parse_stack_frame (t0 ++ (List.replicate (k1 + 1) space ++ t1))).symbol = []
      ∧ (parse_stack_frame (t0 ++ (List.replicate (k1 + 1) space ++ t1))).extra = [])
    ∧ (t1 ≠ [] →
      (parse_stack_frame (t0 ++ (List.replicate (k1 + 1) space ++ (t1 ++
          (List.replicate (k2 + 1) space ++ t2))))).lib = t1
      ∧ (parse_stack_frame (t0 ++ (List.replicate (k1 + 1) space ++ (t1 ++
          (List.replicate (k2 + 1) space ++ t2))))).addr = t2
      ∧ (parse_stack_frame (t0 ++ (List.replicate (k1 + 1) space ++ (t1 ++
          (List.replicate (k2 + 1) space ++ t2))))).symbol = []
      ∧ (parse_stack_frame (t0 ++ (List.replicate (k1 + 1) space ++ (t1 ++
          (List.replicate (k2 + 1) space ++ t2))))).extra = [])
    ∧ (t1 ≠ [] → t2 ≠ [] →
      (parse_stack_frame (t0 ++ (List.replicate (k1 + 1) space ++ (t1 ++
          (List.replicate (k2 + 1) space ++ (t2 ++
          (List.replicate (k3 + 1) space ++ t3))))))).lib = t1
      ∧ (parse_stack_frame (t0 ++ (List.replicate (k1 + 1) space ++ (t1 ++
          (List.replicate (k2 + 1) space ++ (t2 ++
          (List.replicate (k3 + 1) space ++ t3))))))).addr = t2
      ∧ (parse_stack_frame (t0 ++ (List.replicate (k1 + 1) space ++ (t1 ++
          (List.replicate (k2 + 1) space ++ (t2 ++
          (List.replicate (k3 + 1) space ++ t3))))))).symbol = t3
      ∧ (parse_stack_frame (t0 ++ (List.replicate (k1 + 1) space ++ (t1 ++
          (List.replicate (k2 + 1) space ++ (t2 ++
          (List.replicate (k3 + 1) space ++ t3))))))).extra = [])
    ∧ (t1 ≠ [] → t2 ≠ [] → t3 ≠ [] → rest.head? ≠ some space →
      (parse_stack_frame (t0 ++ (List.replicate (k1 + 1) space ++ (t1 ++
          (List.replicate (k2 + 1) space ++ (t2 ++
          (List.replicate (k3 + 1) space ++ (t3 ++
          (List.replicate (k4 + 1) space ++ rest))))))))).lib = t1
      ∧ (parse_stack_frame (t0 ++ (List.replicate (k1 + 1) space ++ (t1 ++
          (List.replicate (k2 + 1) space ++ (t2 ++
          (List.replicate (k3 + 1) space ++ (t3 ++
          (List.replicate (k4 + 1) space ++ rest))))))))).addr = t2
      ∧ (parse_stack_frame (t0 ++ (List.replicate (k1 + 1) space ++ (t1 ++
          (List.replicate (k2 + 1) space ++ (t2 ++
          (List.replicate (k3 + 1) space ++ (t3 ++
          (List.replicate (k4 + 1) space ++ rest))))))))).symbol = t3
      ∧ (parse_stack_frame (t0 ++ (List.replicate (k1 + 1) space ++ (t1 ++
          (List.replicate (k2 + 1) space ++ (t2 ++
          (List.replicate (k3 + 1) space ++ (t3 ++
          (List.replicate (k4 + 1) space ++ rest))))))))).extra = rest)
    ∧ (∀ ds r : List Char, ds ≠ [] → (∀ c ∈ ds, c.isDigit = true) →
      (∀ c, r.head? = some c → c.isDigit = false) →
      (parse_stack_frame (ds ++ r)).frame
        = min (Nat.ofDigits 10 (ds.reverse.map (fun c => c.toNat - 48))) (2 ^ 64 - 1))
    ∧ (∀ (n : Nat) (r : List Char), n < 2 ^ 64 →
      (∀ c, r.head? = some c → c.isDigit = false) →
      (parse_stack_frame ((Nat.repr n).toList ++ r)).frame = n) := by
  have hnone : strchr t0 space = none := by
    have := strchr_nospace t0 h0 []
    rw [List.append_nil] at this
    rw [this]; rfl
  refine ⟨?_, ?_, ?_, ?_, ?_, ?_, ?_⟩
  · simp [parse_stack_frame, hnone, parse_stack_frame_token]
  · simp only [parse_stack_frame, strchr_token t0 h0, parse_stack_frame_token_last _ t1 h1]
    simp [parse_stack_frame_token]
  · intro n1
    simp only [parse_stack_frame, strchr_token t0 h0,
      parse_stack_frame_token_next _ _ t1 _ h1 n1, parse_stack_frame_token_last _ t2 h2]
    simp [parse_stack_frame_token]
  · intro n1 n2
    simp only [parse_stack_frame, strchr_token t0 h0,
      parse_stack_frame_token_next _ _ t1 _ h1 n1, parse_stack_frame_token_next _ _ t2 _ h2 n2,
      parse_stack_frame_token_last _ t3 h3]
    simp
  · intro n1 n2 n3 hr
    simp only [parse_stack_frame, strchr_token t0 h0,
      parse_stack_frame_token_next _ _ t1 _ h1 n1, parse_stack_frame_token_next _ _ t2 _ h2 n2,
      parse_stack_frame_token_next _ _ t3 _ h3 n3, strspn_spaces _ rest hr,
      List.drop_left' (List.length_replicate (k4 + 1) space)]
    simp
  · intro ds r hne hd hr
    simp only [parse_stack_frame]
    exact strtoul_ofDigits ds r hne hd hr
  · intro n r hn hr
    obtain ⟨d1, d2, d3⟩ := digits_value_repr n
    simp only [parse_stack_frame]
    rw [strtoul_digits _ r d2 d1 hr (by rw [d3]; exact hn), d3]

/-- Witness of C30: the example line of the source, whose frame is 0, and
the line of the frame 12 of such a trace. -/
theorem C30_parse_stack_frame_witness :
    ((parse_stack_frame
        "0   libq.dylib  0x0000000100110015 q::(anonymous namespace)::default_stacktrace() + 69".toList).lib
      = "libq.dylib".toList
    ∧ (parse_stack_frame
        "0   libq.dylib  0x0000000100110015 q::(anonymous namespace)::default_stacktrace() + 69".toList).addr
      = "0x0000000100110015".toList
    ∧ (parse_stack_frame
        "0   libq.dylib  0x0000000100110015 q::(anonymous namespace)::default_stacktrace() + 69".toList).symbol
      = "q::(anonymous".toList
    ∧ (parse_stack_frame
        "0   libq.dylib  0x0000000100110015 q::(anonymous namespace)::default_stacktrace() + 69".toList).extra
      = "namespace)::default_stacktrace() + 69".toList)
    ∧ (parse_stack_frame
        "0   libq.dylib  0x0000000100110015 q::(anonymous namespace)::default_stacktrace() + 69".toList).frame
      = 0
    ∧ (parse_stack_frame "12  libq.dylib  0x000000010011a2f4 main + 107".toList).frame = 12 :=
  ⟨(C30_parse_stack_frame "0".toList "libq.dylib".toList "0x0000000100110015".toList
      "q::(anonymous".toList "namespace)::default_stacktrace() + 69".toList 2 1 0 0
      (by decide) (by decide) (by decide) (by decide)).2.2.2.2.1
      (by decide) (by decide) (by decide) (by decide),
    (C30_parse_stack_frame "0".toList "libq.dylib".toList "0x0000000100110015".toList
      "q::(anonymous".toList "namespace)::default_stacktrace() + 69".toList 2 1 0 0
      (by decide) (by decide) (by decide) (by decide)).2.2.2.2.2.2 0
      "   libq.dylib  0x0000000100110015 q::(anonymous namespace)::default_stacktrace() + 69".toList
      (by decide)
      (by
        intro c h
        cases h
        decide),
    (C30_parse_stack_frame "12".toList "libq.dylib".toList "0x000000010011a2f4".toList
      "main".toList "+ 107".toList 1 1 0 0
      (by decide) (by decide) (by decide) (by decide)).2.2.2.2.2.2 12
      "  libq.dylib  0x000000010011a2f4 main + 107".toList
      (by decide)
      (by
        intro c h
        cases h
        decide)⟩

end q
